import Mathlib

/-!
Recurrentry (Go client): recurrence expansion and modification overlay.

A shallow embedding of `client-go` (`types.go`, `utils.go`, `type_guards.go`,
`generator.go`) and the properties of its specification.

Dates are calendar days: a `time.Time` is an `Int`, the number of days since 0001-01-01,
which is the zero value of Go's `time.Time`; times of day and locations are not modelled.
Go's `int` is `Int`. The products of the program (`amount * 7`, `i * every`, `i * every * 7`)
are reduced to the 64 bits of `int` (`wrapInt`); its sums and differences are of days of the
week, days of the month, months and counters, too small to overflow, and are exact. Integers
that the program hands to the `time` package are passed on as they are.
-/

namespace Recurrentry

/-! ## Calendar: the part of Go's `time` package that the program uses -/

/-- Leap years of the Gregorian calendar. -/
def isLeap (year : Int) : Bool :=
  year % 4 == 0 && (year % 100 != 0 || year % 400 == 0)

/-- One in a leap year, zero otherwise: the extra day counted from March on. -/
def leapDay (year : Int) : Int := if isLeap year then 1 else 0

/-- The number of days from 0001-01-01 to the first day of the year. -/
def daysSinceEpoch (year : Int) : Int :=
  let y := year - 1
  365 * y + y / 4 - y / 100 + y / 400

/-- The number of days of a non-leap year before the first day of the month (1..12). -/
def daysBefore (month : Int) : Int :=
  if month ≤ 1 then 0
  else if month = 2 then 31
  else if month = 3 then 59
  else if month = 4 then 90
  else if month = 5 then 120
  else if month = 6 then 151
  else if month = 7 then 181
  else if month = 8 then 212
  else if month = 9 then 243
  else if month = 10 then 273
  else if month = 11 then 304
  else 334

/-- Go's `time.Date(year, month, day, 0, 0, 0, 0, time.UTC)`: the month is brought into
1..12 by moving whole years, the day is counted on from the first of that month, so that a
day beyond the end of the month runs into the following months. -/
def Date (year month day : Int) : Int :=
  let m := month - 1
  let y := year + m / 12
  let mo := m % 12 + 1
  daysSinceEpoch y + daysBefore mo + (if 3 ≤ mo then leapDay y else 0) + (day - 1)

/-- Year and zero-based day of the year of a date. -/
def yearDay (t : Int) : Int × Int :=
  let n400 := t / 146097
  let d1 := t % 146097
  let c := d1 / 36524
  let n100 := c - c / 4
  let d2 := d1 - 36524 * n100
  let n4 := d2 / 1461
  let d3 := d2 % 1461
  let q := d3 / 365
  let n1 := q - q / 4
  (400 * n400 + 100 * n100 + 4 * n4 + n1 + 1, d3 - 365 * n1)

/-- Go's `t.Year()`. -/
def Year (t : Int) : Int := (yearDay t).1

/-- The zero-based day of the year. -/
def YearDay (t : Int) : Int := (yearDay t).2

/-- Month (1..12) and day of the month from the zero-based day of the year; `l` is the
leap day of the year (1 in a leap year, 0 otherwise). -/
def monthDay (l : Int) (yday : Int) : Int × Int :=
  if yday < 31 then (1, yday + 1)
  else if yday < 59 + l then (2, yday - 31 + 1)
  else if yday < 90 + l then (3, yday - (59 + l) + 1)
  else if yday < 120 + l then (4, yday - (90 + l) + 1)
  else if yday < 151 + l then (5, yday - (120 + l) + 1)
  else if yday < 181 + l then (6, yday - (151 + l) + 1)
  else if yday < 212 + l then (7, yday - (181 + l) + 1)
  else if yday < 243 + l then (8, yday - (212 + l) + 1)
  else if yday < 273 + l then (9, yday - (243 + l) + 1)
  else if yday < 304 + l then (10, yday - (273 + l) + 1)
  else if yday < 334 + l then (11, yday - (304 + l) + 1)
  else (12, yday - (334 + l) + 1)

/-- Go's `t.Month()`, 1..12. -/
def Month (t : Int) : Int := (monthDay (leapDay (Year t)) (YearDay t)).1

/-- Go's `t.Day()`. -/
def Day (t : Int) : Int := (monthDay (leapDay (Year t)) (YearDay t)).2

/-- Go's `Weekday()`: Sunday = 0, ..., Saturday = 6. Day 0 (0001-01-01) is a Monday. -/
def Weekday (t : Int) : Int := (t + 1) % 7

/-- Go's `t.IsZero()`. -/
def IsZero (t : Int) : Bool := t == 0

/-- Go's `t.AddDate(years, months, days)`. -/
def AddDate (t : Int) (years months days : Int) : Int :=
  Date (Year t + years) (Month t + months) (Day t + days)

/-- Days in a month of a year (`month` in 1..12). -/
def daysIn (month year : Int) : Int :=
  if month = 2 then 28 + leapDay year
  else if month = 4 ∨ month = 6 ∨ month = 9 ∨ month = 11 then 30
  else 31

/-- The value of a decimal digit. -/
def digitVal (c : Char) : Option Int :=
  if c.isDigit then some ((c.toNat : Int) - 48) else none

/-- Go's `time.Parse("2006-01-02", s)`: four year digits, two month digits, two day digits,
separated by hyphens, nothing else; month in 1..12 and day within the month. `none` is the
parse error. -/
def parseDate (s : String) : Option Int :=
  match s.data with
  | [y1, y2, y3, y4, h1, m1, m2, h2, d1, d2] =>
    match digitVal y1, digitVal y2, digitVal y3, digitVal y4, digitVal m1, digitVal m2,
        digitVal d1, digitVal d2 with
    | some a, some b, some c, some d, some e, some f, some g, some h =>
      let year := 1000 * a + 100 * b + 10 * c + d
      let month := 10 * e + f
      let day := 10 * g + h
      if h1 = '-' ∧ h2 = '-' ∧ 1 ≤ month ∧ month ≤ 12 ∧ 1 ≤ day ∧ day ≤ daysIn month year then
        some (Date year month day)
      else none
    | _, _, _, _, _, _, _, _ => none
  | _ => none

/-! ## Types (types.go) -/

/-- Go's `type Period string`. -/
abbrev Period := String

abbrev PeriodNone : Period := "none"

abbrev PeriodWeek : Period := "week"

abbrev PeriodMonth : Period := "month"

abbrev PeriodYear : Period := "year"

/-- Go's `type Ordinal string`. -/
abbrev Ordinal := String

/-- The dynamic values (`interface{}`) the program looks at inside a payload. -/
inductive Value where
  | bool (b : Bool)
  | str (s : String)
  | int (n : Int)
  deriving DecidableEq, Repr

/-- A payload `map[string]interface{}`. The program reads such a map only at the keys
`"deleted"` and `"date"` and through `len`; the map is given by its values at these two keys
and the list of its other entries. A nil map and an empty map are read alike. -/
structure PayloadMap where
  deleted : Option Value := none
  date : Option Value := none
  extra : List (String × Value) := []
  deriving DecidableEq, Repr

/-- Go's `len` of the payload map. -/
def PayloadMap.len (p : PayloadMap) : Nat :=
  (if p.deleted.isSome then 1 else 0) + (if p.date.isSome then 1 else 0) + p.extra.length

/-- Identifiers (`interface{}`): nil, an integer or a string. -/
inductive Ident where
  | nil
  | int (n : Int)
  | str (s : String)
  deriving DecidableEq, Repr

/-- Go's `fmt.Sprintf("%v", id)`. -/
def Ident.format : Ident → String
  | .nil => "<nil>"
  | .int n => toString n
  | .str s => s

structure RecurrenceOptions where
  WorkdaysOnly : Bool := false
  Every : Int := 0
  Each : List Int := []
  On : Ordinal := ""
  GracePeriod : Int := 0
  deriving DecidableEq, Repr

structure RecurrenceConfig where
  Start : Int
  Interval : Int
  Period : Period
  Options : RecurrenceOptions := {}
  deriving DecidableEq, Repr

structure BaseEntry where
  ID : Ident
  Date : Int
  Config : Option RecurrenceConfig := none
  deriving DecidableEq, Repr

structure Modification where
  ItemID : Ident
  Index : Int
  Payload : PayloadMap := {}
  RestPayload : Option PayloadMap := none
  deriving DecidableEq, Repr

structure GeneratedEntry where
  Entry : BaseEntry
  Index : Int
  ActualDate : Int
  PaymentDate : Int
  deriving DecidableEq, Repr

/-- The built-in caps of `MaxIntervals`. -/
def MaxIntervals : List (Period × Int) :=
  [(PeriodYear, 20), (PeriodMonth, 240), (PeriodWeek, 1248)]

structure DateRange where
  Start : Int
  End : Int
  deriving DecidableEq, Repr

structure DateAdjustment where
  Days : Int := 0
  Months : Int := 0
  Years : Int := 0
  deriving DecidableEq, Repr

/-- The options of `Generator`. `MaxIntervals` is a map read only by lookup, given as an
association list (`none` is the nil map); `Range` is `none` for a nil pointer. -/
structure GeneratorOptions where
  Data : List BaseEntry
  Modifications : List Modification := []
  MaxIntervals : Option (List (Period × Int)) := none
  Holidays : List Int := []
  WeekendDays : List Int := []
  Range : Option DateRange := none

/-! ## Go's `int` -/

/-- The value that Go's `int` (64 bits, two's complement) holds for the exact result `x` of an
arithmetic operation: the integer between -2^63 and 2^63 - 1 that agrees with `x` modulo
2^64. -/
def wrapInt (x : Int) : Int :=
  (x + 9223372036854775808) % 18446744073709551616 - 9223372036854775808

/-- The integers that Go's `int` holds: -2^63 to 2^63 - 1. -/
def fitsInt (x : Int) : Prop := -9223372036854775808 ≤ x ∧ x ≤ 9223372036854775807

instance (x : Int) : Decidable (fitsInt x) := by
  unfold fitsInt; infer_instance

/-! ## Utilities (utils.go) -/

def AddByPeriod (date : Int) (amount : Int) (period : Period) : Int :=
  if period = PeriodYear then AddDate date amount 0 0
  else if period = PeriodMonth then AddDate date 0 amount 0
  else if period = PeriodWeek then AddDate date 0 0 (wrapInt (amount * 7))
  else AddDate date 0 0 amount

def IsValidDate (date : Int) : Bool := !IsZero date

/-- Lower-case English name of the day of the week. -/
def GetActualDayName (date : Int) : String :=
  let w := Weekday date
  if w = 0 then "sunday"
  else if w = 1 then "monday"
  else if w = 2 then "tuesday"
  else if w = 3 then "wednesday"
  else if w = 4 then "thursday"
  else if w = 5 then "friday"
  else "saturday"

def IsWeekdayByWeekendDays (dayOfWeek : Int) (weekendDays : List Int) : Bool :=
  weekendDays.all (fun day => day != dayOfWeek)

/-- Go's `strings.Split(s, sep)` for a one-character separator, on character lists. -/
def splitChars (sep : Char) : List Char → List (List Char)
  | [] => [[]]
  | c :: cs =>
    if c = sep then [] :: splitChars sep cs
    else
      match splitChars sep cs with
      | [] => [[c]]
      | p :: ps => (c :: p) :: ps

/-- Go's `strings.Split(s, "-")`. -/
def splitHyphen (s : String) : List String :=
  (splitChars '-' s.data).map String.mk

/-- The errors of `GetOrdinalDate`. -/
inductive OrdinalError where
  | invalidFormat
  | weekendDaysRequired
  | noMatchingDays
  | invalidPosition
  | notEnoughDays
  deriving DecidableEq, Repr

/-- The day loop of `GetOrdinalDate`: walks from `currentDate` while the month is `month`,
collecting the days that match `dayType`. The fuel bounds the number of iterations; a month
has at most 31 days, `GetOrdinalDate` runs the loop with fuel 32. -/
def matchingDaysLoop (dayType : String) (weekendDays : List Int) (month : Int) :
    Nat → Int → List Int
  | 0, _ => []
  | fuel + 1, currentDate =>
    if Month currentDate = month then
      let dayOfWeek := Weekday currentDate
      let isWeekday := IsWeekdayByWeekendDays dayOfWeek weekendDays
      let isMatch : Bool :=
        decide (dayType = "day") || (decide (dayType = "weekday") && isWeekday) ||
          (decide (dayType = "weekend") && !isWeekday) ||
          decide (dayType = GetActualDayName currentDate)
      let rest := matchingDaysLoop dayType weekendDays month fuel (AddDate currentDate 0 0 1)
      if isMatch then currentDate :: rest else rest
    else []

def GetOrdinalDate (date : Int) (ord : Ordinal) (weekendDays : List Int) :
    Except OrdinalError Int :=
  let firstDayOfMonth := Date (Year date) (Month date) 1
  match splitHyphen ord with
  | [position, dayType] =>
    if (dayType = "weekday" ∨ dayType = "weekend") ∧ weekendDays.length = 0 then
      .error .weekendDaysRequired
    else
      let matchingDays :=
        matchingDaysLoop dayType weekendDays (Month firstDayOfMonth) 32 firstDayOfMonth
      if matchingDays.length = 0 then .error .noMatchingDays
      else
        let len : Int := matchingDays.length
        let index : Option Int :=
          if position = "first" then some 0
          else if position = "second" then some 1
          else if position = "third" then some 2
          else if position = "fourth" then some 3
          else if position = "fifth" then some 4
          else if position = "nextToLast" then some (if len - 2 < 0 then 0 else len - 2)
          else if position = "last" then some (len - 1)
          else none
        match index with
        | none => .error .invalidPosition
        | some idx =>
          if idx ≥ len then .error .notEnoughDays
          else
            match matchingDays.get? idx.toNat with
            | some d => .ok d
            | none => .error .notEnoughDays
  | _ => .error .invalidFormat

/-- The workday walk of `PaymentDate` (`for { ... }`): moves forward one day at a time until
the date is neither a weekend day nor a holiday. `none` when the fuel runs out before such a
date is found. -/
def workdayWalk (holidays : List Int) (weekendDays : List Int) : Nat → Int → Option Int
  | 0, _ => none
  | fuel + 1, paymentDate =>
    let dayOfWeek := Weekday paymentDate
    let isWeekend := weekendDays.any (fun day => day == dayOfWeek)
    let isHoliday := holidays.any (fun holiday =>
      Year holiday == Year paymentDate && Month holiday == Month paymentDate &&
        Day holiday == Day paymentDate)
    if !isWeekend && !isHoliday then some paymentDate
    else workdayWalk holidays weekendDays fuel (AddDate paymentDate 0 0 1)

/-- The fuel `PaymentDate` gives the workday walk: seven days for every holiday and seven
more. If the walk ever stops, it stops within this many steps (`workdayWalk_complete`). -/
def walkFuel (holidays : List Int) : Nat := 7 * (holidays.length + 1)

/-- The payment date; `none` when the workday walk never stops. -/
def PaymentDate (current : Int) (gracePeriod : Int) (holidays : List Int)
    (weekendDays : List Int) (workdaysOnly : Bool) : Option Int :=
  if !IsValidDate current then some current
  else
    let paymentDate := if gracePeriod > 0 then AddDate current 0 0 gracePeriod else current
    if workdaysOnly && (decide (weekendDays.length > 0) || decide (holidays.length > 0)) then
      workdayWalk holidays weekendDays (walkFuel holidays) paymentDate
    else some paymentDate

/-! ## Type guards (type_guards.go) -/

/-- Go's `unicode.ToLower` on the runes whose lower case is an ASCII letter: the letters `A`
to `Z`, the dotted capital I (U+0130, lower case `i`) and the Kelvin sign (U+212A, lower case
`k`). Every other rune is left as it is: its lower case is no ASCII letter either. -/
def lowerRune (c : Char) : Char :=
  if c = Char.ofNat 0x130 then 'i' else if c = Char.ofNat 0x212A then 'k' else c.toLower

/-- Go's `strings.ToLower`, rune by rune; exact for the comparisons with lower-case ASCII
words that the program makes. -/
def toLower (s : String) : String := String.mk (s.data.map lowerRune)

def IsPeriod (p : String) : Bool :=
  p = PeriodNone || p = PeriodWeek || p = PeriodMonth || p = PeriodYear

def IsDayOfWeek (d : String) : Bool :=
  let day := toLower d
  day = "monday" || day = "tuesday" || day = "wednesday" || day = "thursday" ||
    day = "friday" || day = "saturday" || day = "sunday"

def IsDayCategory (c : String) : Bool :=
  c = "day" || c = "weekday" || c = "weekend"

def IsOrdinalPosition (p : String) : Bool :=
  p = "first" || p = "second" || p = "third" || p = "fourth" || p = "fifth" ||
    p = "nextToLast" || p = "last"

def IsOrdinal (o : String) : Bool :=
  match splitHyphen o with
  | [position, dayType] =>
    IsOrdinalPosition position && (IsDayOfWeek dayType || IsDayCategory dayType)
  | _ => false

def IsValidRecurrenceConfig (config : RecurrenceConfig) : Bool :=
  if !IsPeriod config.Period then false
  else if IsZero config.Start then false
  else if config.Interval ≤ 0 then false
  else if config.Period = PeriodNone then config.Interval = 1
  else if config.Period = PeriodWeek then
    if config.Options.Each.any (fun day => day < 1 || day > 7) then false
    else if config.Options.On ≠ "" then false
    else true
  else if config.Period = PeriodMonth then
    if config.Options.Each.any (fun day => day < 1 || day > 31) then false
    else if config.Options.On ≠ "" ∧ !IsOrdinal config.Options.On then false
    else true
  else if config.Period = PeriodYear then
    if config.Options.Each.any (fun month => month < 1 || month > 12) then false
    else if config.Options.On ≠ "" ∧ !IsOrdinal config.Options.On then false
    else true
  else false

def IsValidBaseEntry (entry : BaseEntry) : Bool :=
  if entry.ID = Ident.nil then false
  else if IsZero entry.Date then false
  else
    match entry.Config with
    | some config => IsValidRecurrenceConfig config
    | none => true

/-! ## Generator (generator.go) -/

/-- The errors of `Generator`. -/
inductive GeneratorError where
  | invalidBaseEntry
  | invalidOrdinal
  | weekendDaysRequired
  deriving DecidableEq, Repr

/-- The body of the validation loop at the head of `Generator`: the error that the entry
raises, if any. -/
def validateEntry (weekendDays : List Int) (entry : BaseEntry) : Option GeneratorError :=
  if !IsValidBaseEntry entry then some .invalidBaseEntry
  else
    match entry.Config with
    | none => none
    | some config =>
      if config.Options.On ≠ "" then
        if !IsOrdinal config.Options.On then some .invalidOrdinal
        else
          match splitHyphen config.Options.On with
          | [_, dayType] =>
            if (dayType = "weekday" ∨ dayType = "weekend") ∧ weekendDays.length = 0 then
              some .weekendDaysRequired
            else none
          | _ => none
      else none

/-- The validation loop at the head of `Generator`: the first error met, if any. -/
def validateEntries (weekendDays : List Int) : List BaseEntry → Option GeneratorError
  | [] => none
  | entry :: rest =>
    match validateEntry weekendDays entry with
    | some e => some e
    | none => validateEntries weekendDays rest

/-- The closure `isInRange`. -/
def isInRange (range : Option DateRange) (date : Int) : Bool :=
  match range with
  | none => true
  | some r =>
    let afterStart := IsZero r.Start || !decide (date < r.Start)
    let beforeEnd := IsZero r.End || !decide (date > r.End)
    afterStart && beforeEnd

/-- The closure `calculateDateAdjustment`. -/
def calculateDateAdjustment (originalDate modifiedDate : Int) (period : Period) :
    DateAdjustment :=
  if period = PeriodYear then
    { Months := Month modifiedDate - Month originalDate,
      Days := Day modifiedDate - Day originalDate }
  else if period = PeriodMonth then
    { Days := Day modifiedDate - Day originalDate }
  else if period = PeriodWeek then
    let origDayOfWeek := Weekday originalDate + 1
    let modDayOfWeek := Weekday modifiedDate + 1
    { Days := modDayOfWeek - origDayOfWeek }
  else {}

/-- What `applyModifications` returns, together with the entry behind the pointer
`lastEntry`, which the closure updates in place. -/
structure ModResult where
  shouldDelete : Bool
  deleteFuture : Bool
  applyToRestPayload : Option PayloadMap
  dateAdjustment : Option DateAdjustment
  lastEntry : GeneratedEntry
  deriving DecidableEq, Repr

/-- The period read by `entry.Config.Period` inside `applyModifications`; the closure is
called only for entries that have a configuration. -/
def configPeriod (entry : BaseEntry) : Period :=
  match entry.Config with
  | some config => config.Period
  | none => PeriodNone

/-- Go's `len(mod.RestPayload)`; a nil map has length 0. -/
def Modification.restLen (mod : Modification) : Nat :=
  match mod.RestPayload with
  | some rest => rest.len
  | none => 0

/-- The date that the loop over `mod.Payload` parses from the value under `"date"`, when that
value is a string and parses. -/
def Modification.modifiedDate (mod : Modification) : Option Int :=
  match mod.Payload.date with
  | some (Value.str dateStr) => parseDate dateStr
  | _ => none

/-- The test `deletedRest` on the rest payload of a deleting modification. -/
def Modification.deletesRest (mod : Modification) : Bool :=
  match mod.RestPayload with
  | some rest => decide (rest.deleted = some (Value.bool true))
  | none => false

/-- The loop over the modifications in `applyModifications`, from the state reached so far
(rest payload, date adjustment, last entry). -/
def applyModificationsLoop (entry : BaseEntry) (index : Int) :
    List Modification → Option PayloadMap → Option DateAdjustment → GeneratedEntry → ModResult
  | [], applyToRestPayload, dateAdjustment, lastEntry =>
    { shouldDelete := false, deleteFuture := false, applyToRestPayload := applyToRestPayload,
      dateAdjustment := dateAdjustment, lastEntry := lastEntry }
  | mod :: mods, applyToRestPayload, dateAdjustment, lastEntry =>
    if mod.ItemID.format = entry.ID.format ∧ mod.Index = index then
      if mod.Payload.deleted = some (Value.bool true) then
        { shouldDelete := true, deleteFuture := mod.deletesRest, applyToRestPayload := none,
          dateAdjustment := none, lastEntry := lastEntry }
      else if mod.Payload.len > 0 ∨ mod.restLen > 0 then
        let applyToRestPayload1 : Option PayloadMap :=
          if mod.restLen > 0 then mod.RestPayload else applyToRestPayload
        match mod.modifiedDate with
        | some modifiedDate =>
          applyModificationsLoop entry index mods applyToRestPayload1
            (if mod.restLen > 0 then
              some (calculateDateAdjustment entry.Date modifiedDate (configPeriod entry))
             else dateAdjustment)
            { lastEntry with ActualDate := modifiedDate, PaymentDate := modifiedDate }
        | none =>
          applyModificationsLoop entry index mods applyToRestPayload1 dateAdjustment lastEntry
      else applyModificationsLoop entry index mods applyToRestPayload dateAdjustment lastEntry
    else applyModificationsLoop entry index mods applyToRestPayload dateAdjustment lastEntry

/-- The closure `applyModifications`. -/
def applyModifications (entry : BaseEntry) (index : Int) (modifications : List Modification)
    (lastEntry : GeneratedEntry) : ModResult :=
  applyModificationsLoop entry index modifications none none lastEntry

/-- The closure `applyDateAdjustment`. -/
def applyDateAdjustment (date : Int) (adj : Option DateAdjustment) : Int :=
  match adj with
  | none => date
  | some a => AddDate date a.Years a.Months a.Days

/-- The variables `Generator` carries through the occurrences of one entry, with the result
slice built so far. -/
structure GenState where
  result : List GeneratedEntry
  index : Int
  applyToRestPayload : Option PayloadMap
  dateAdjustment : Option DateAdjustment
  deleteRest : Bool
  deriving DecidableEq, Repr

/-- The date adjustment in force: the one carried, when the test
`applyToRestPayload != nil && dateAdjustment != nil` holds. -/
def GenState.activeAdjustment (st : GenState) : Option DateAdjustment :=
  if st.applyToRestPayload.isSome then st.dateAdjustment else none

/-- The date with the adjustment in force applied:
`if applyToRestPayload != nil && dateAdjustment != nil { date = applyDateAdjustment(...) }`. -/
def GenState.adjust (st : GenState) (date : Int) : Int :=
  applyDateAdjustment date st.activeAdjustment

/-- The block that `Generator` repeats in each of its three branches for an occurrence date
that passed the range check: payment date, counter, append, modifications, and the removal of
the appended entry when it is deleted. `none` when the payment date walk never stops. -/
def emitOccurrence (opts : GeneratorOptions) (entry : BaseEntry) (config : RecurrenceConfig)
    (date : Int) (st : GenState) : Option GenState :=
  match PaymentDate date config.Options.GracePeriod opts.Holidays opts.WeekendDays
      config.Options.WorkdaysOnly with
  | none => none
  | some nextDate =>
    let index := st.index + 1
    let generatedEntry : GeneratedEntry :=
      { Entry := entry, Index := index, ActualDate := date, PaymentDate := nextDate }
    let r := applyModifications entry index opts.Modifications generatedEntry
    let result := st.result ++ [r.lastEntry]
    if r.shouldDelete then
      some { st with result := result.dropLast, index := index, deleteRest := r.deleteFuture }
    else
      some { result := result, index := index,
             applyToRestPayload :=
               match r.applyToRestPayload with
               | some p => some p
               | none => st.applyToRestPayload,
             dateAdjustment :=
               match r.dateAdjustment with
               | some a => some a
               | none => st.dateAdjustment,
             deleteRest := st.deleteRest }

/-- The range check before the block above: an occurrence out of range is skipped. -/
def emitInRange (opts : GeneratorOptions) (entry : BaseEntry) (config : RecurrenceConfig)
    (date : Int) (st : GenState) : Option GenState :=
  if !isInRange opts.Range date then some st
  else emitOccurrence opts entry config date st

/-- The loop over `occurrenceDates`; it is left when a deletion cascades. -/
def emitAll (opts : GeneratorOptions) (entry : BaseEntry) (config : RecurrenceConfig) :
    List Int → GenState → Option GenState
  | [], st => some st
  | date :: dates, st =>
    match emitInRange opts entry config date st with
    | none => none
    | some st1 => if st1.deleteRest then some st1 else emitAll opts entry config dates st1

/-- The effective `every`. -/
def everyOf (config : RecurrenceConfig) : Int :=
  if config.Options.Every > 0 then config.Options.Every else 1

/-- The target date of one `each` value in cycle `i`; `none` when the loop body ends in
`continue`. -/
def eachTargetDate (opts : GeneratorOptions) (config : RecurrenceConfig) (i : Int)
    (baseDate : Int) (st : GenState) (target : Int) : Option Int :=
  let every := everyOf config
  if config.Period = PeriodWeek then
    if target < 1 ∨ target > 7 then none
    else
      let weekOffset := wrapInt (wrapInt (i * every) * 7)
      let periodStart := AddDate config.Start 0 0 weekOffset
      let daysToSubtract := if Weekday periodStart = 0 then 6 else Weekday periodStart - 1
      let periodStartOfWeek := AddDate periodStart 0 0 (-daysToSubtract)
      let targetDate := AddDate periodStartOfWeek 0 0 (target - 1)
      some (st.adjust targetDate)
  else if config.Period = PeriodMonth then
    let targetDate := Date (Year baseDate) (Month baseDate) target
    some (st.adjust targetDate)
  else if config.Period = PeriodYear then
    let targetDate := Date (Year baseDate) target (Day baseDate)
    let adjusted : Int :=
      match st.activeAdjustment with
      | some adj =>
        let moved : Int :=
          if adj.Months ≠ 0 then
            let targetMonth := target + adj.Months
            if targetMonth > 12 then
              let shifted := AddDate targetDate 1 0 0
              Date (Year shifted) (targetMonth - 12) (Day shifted)
            else if targetMonth < 1 then
              let shifted := AddDate targetDate (-1) 0 0
              Date (Year shifted) (targetMonth + 12) (Day shifted)
            else Date (Year targetDate) targetMonth (Day targetDate)
          else targetDate
        if adj.Days ≠ 0 then AddDate moved 0 0 adj.Days else moved
      | none => targetDate
    if config.Options.On ≠ "" then
      match GetOrdinalDate adjusted config.Options.On opts.WeekendDays with
      | .ok d => some d
      | .error _ => none
    else some adjusted
  else some 0

/-- The slice `occurrenceDates` of cycle `i`. -/
def occurrenceDates (opts : GeneratorOptions) (config : RecurrenceConfig) (i : Int)
    (baseDate : Int) (st : GenState) : List Int :=
  (config.Options.Each.filterMap (eachTargetDate opts config i baseDate st)).filter
    (fun targetDate => !IsZero targetDate)

/-- One pass of the body of the loop `for i := 0; i < maxInterval; i++`. -/
def cycleStep (opts : GeneratorOptions) (entry : BaseEntry) (config : RecurrenceConfig)
    (i : Int) (st : GenState) : Option GenState :=
  let every := everyOf config
  let baseDate := AddByPeriod config.Start (wrapInt (i * every)) config.Period
  if config.Period = PeriodWeek ∧ config.Options.Each.length = 0 then
    let cycleDate :=
      st.adjust (AddByPeriod config.Start (wrapInt (wrapInt (i * every) * 7)) PeriodNone)
    emitInRange opts entry config cycleDate st
  else if config.Options.Each.length > 0 then
    emitAll opts entry config (occurrenceDates opts config i baseDate st) st
  else
    let adjustedBase := st.adjust baseDate
    if config.Options.On ≠ "" then
      match GetOrdinalDate adjustedBase config.Options.On opts.WeekendDays with
      | .error _ => some st
      | .ok d => if IsZero d then some st else emitInRange opts entry config d st
    else emitInRange opts entry config adjustedBase st

/-- The loop `for i := 0; i < maxInterval; i++`, with `n` passes left; it is left when a
deletion cascades. -/
def runCycles (opts : GeneratorOptions) (entry : BaseEntry) (config : RecurrenceConfig) :
    Nat → Int → GenState → Option GenState
  | 0, _, st => some st
  | n + 1, i, st =>
    match cycleStep opts entry config i st with
    | none => none
    | some st1 =>
      if st1.deleteRest then some st1 else runCycles opts entry config n (i + 1) st1

/-- The number of cycles: `interval`, capped by the entry of the period in the cap map. -/
def maxIntervalOf (opts : GeneratorOptions) (config : RecurrenceConfig) : Int :=
  let maxIntervals := match opts.MaxIntervals with
    | some m => m
    | none => MaxIntervals
  match maxIntervals.lookup config.Period with
  | some maxIntervalForPeriod =>
    if maxIntervalForPeriod < config.Interval then maxIntervalForPeriod else config.Interval
  | none => config.Interval

/-- The body of the loop `for _, entry := range options.Data`: the result slice after the
entry. `none` when a payment date walk never stops. -/
def processEntry (opts : GeneratorOptions) (result : List GeneratedEntry) (entry : BaseEntry) :
    Option (List GeneratedEntry) :=
  let single : Option (List GeneratedEntry) :=
    if !isInRange opts.Range entry.Date then some result
    else some (result ++ [{ Entry := entry, Index := 1, ActualDate := entry.Date,
                            PaymentDate := entry.Date }])
  match entry.Config with
  | none => single
  | some config =>
    if config.Period = PeriodNone then single
    else
      match runCycles opts entry config (maxIntervalOf opts config).toNat 0
          { result := result, index := 0, applyToRestPayload := none, dateAdjustment := none,
            deleteRest := false } with
      | none => none
      | some st => some st.result

/-- The loop over `options.Data`. -/
def processEntries (opts : GeneratorOptions) :
    List BaseEntry → List GeneratedEntry → Option (List GeneratedEntry)
  | [], result => some result
  | entry :: rest, result =>
    match processEntry opts result entry with
    | none => none
    | some result1 => processEntries opts rest result1

/-- The function `Generator`: `some (.ok result)` for the returned entries, `some (.error e)`
for a validation error, `none` when the call never returns. -/
def Generator (options : GeneratorOptions) :
    Option (Except GeneratorError (List GeneratedEntry)) :=
  match validateEntries options.WeekendDays options.Data with
  | some e => some (.error e)
  | none =>
    match processEntries options options.Data [] with
    | none => none
    | some result => some (.ok result)

/-! ## Notions of the specification -/

/-- A holiday entry matches a date when year, month and day agree. -/
def matchesHoliday (holiday date : Int) : Prop :=
  Year holiday = Year date ∧ Month holiday = Month date ∧ Day holiday = Day date

instance (holiday date : Int) : Decidable (matchesHoliday holiday date) := by
  unfold matchesHoliday; infer_instance

/-- A workday: the day of the week (Go's numbering, Sunday = 0) is not a weekend day and no
holiday entry matches the date. -/
def isWorkday (holidays : List Int) (weekendDays : List Int) (date : Int) : Prop :=
  Weekday date ∉ weekendDays ∧ ∀ h ∈ holidays, ¬ matchesHoliday h date

instance (holidays : List Int) (weekendDays : List Int) (date : Int) :
    Decidable (isWorkday holidays weekendDays date) := by
  unfold isWorkday; infer_instance

/-- The modification targets the occurrence (same identifier as text, same index) and its
payload carries, under `"date"`, a string that parses to the occurrence's actual date. -/
def overridesDate (m : Modification) (g : GeneratedEntry) : Bool :=
  decide (m.ItemID.format = g.Entry.ID.format) && decide (m.Index = g.Index) &&
    decide (m.modifiedDate = some g.ActualDate)

/-- Some modification of the list overrides the date of the occurrence. -/
def dateOverridden (mods : List Modification) (g : GeneratedEntry) : Bool :=
  mods.any (fun m => overridesDate m g)

/-- The state with entries put before its result slice. -/
def GenState.prepend (pre : List GeneratedEntry) (st : GenState) : GenState :=
  { st with result := pre ++ st.result }

/-- The first modification of the list that targets the item and the index and whose payload
has `deleted = true`. -/
def firstDeleting (mods : List Modification) (entry : BaseEntry) (n : Int) :
    Option Modification :=
  mods.find? (fun m => decide (m.ItemID.format = entry.ID.format) && decide (m.Index = n) &&
    decide (m.Payload.deleted = some (Value.bool true)))

/-- The occurrence counted `n` of the item is deleted by the modifications. -/
def deletedAt (mods : List Modification) (entry : BaseEntry) (n : Int) : Bool :=
  (firstDeleting mods entry n).isSome

/-- The deletion of the occurrence counted `n` cascades: the first modification that deletes
it has `deleted = true` in its rest payload as well. -/
def cascadesAt (mods : List Modification) (entry : BaseEntry) (n : Int) : Bool :=
  match firstDeleting mods entry n with
  | some m => m.deletesRest
  | none => false

/-- The occurrence dates of cycle `i`, in the order in which the cycle emits them: the cycle
date of a weekly item without `each`, the slice `occurrenceDates` of an item with `each`, and
otherwise the base date or the ordinal date resolved from it (none when the resolution
fails). -/
def cycleDates (opts : GeneratorOptions) (config : RecurrenceConfig) (i : Int)
    (st : GenState) : List Int :=
  let every := everyOf config
  let baseDate := AddByPeriod config.Start (wrapInt (i * every)) config.Period
  if config.Period = PeriodWeek ∧ config.Options.Each.length = 0 then
    [st.adjust (AddByPeriod config.Start (wrapInt (wrapInt (i * every) * 7)) PeriodNone)]
  else if config.Options.Each.length > 0 then occurrenceDates opts config i baseDate st
  else if config.Options.On ≠ "" then
    match GetOrdinalDate (st.adjust baseDate) config.Options.On opts.WeekendDays with
    | .error _ => []
    | .ok d => if IsZero d then [] else [d]
  else [st.adjust baseDate]

/-- The occurrence counted `n` of the item survives the deletions: it is not deleted, and no
deletion cascades at a number from 1 to `n`. -/
def survives (mods : List Modification) (entry : BaseEntry) (n : Int) : Bool :=
  !deletedAt mods entry n &&
    (List.range n.toNat).all (fun j => !cascadesAt mods entry ((j : Int) + 1))

/-- The modifications that target the item only delete: each of them has `deleted = true` in
its payload, or carries neither a date that parses nor a rest payload with entries. -/
def deletionsOnly (mods : List Modification) (entry : BaseEntry) : Prop :=
  ∀ m ∈ mods, m.ItemID.format = entry.ID.format →
    m.Payload.deleted = some (Value.bool true) ∨ (m.modifiedDate = none ∧ m.restLen = 0)

instance (mods : List Modification) (entry : BaseEntry) :
    Decidable (deletionsOnly mods entry) := by
  unfold deletionsOnly; infer_instance

/-- The range test in the words of the specification: `start <= d <= end`, both bounds
inclusive, a zero bound being open. -/
def withinRange (range : DateRange) (d : Int) : Bool :=
  (decide (range.Start = 0) || decide (range.Start ≤ d)) &&
    (decide (range.End = 0) || decide (d ≤ range.End))

/-- The item, the actual date and the payment date of a generated entry. -/
def GeneratedEntry.triple (g : GeneratedEntry) : BaseEntry × Int × Int :=
  (g.Entry, g.ActualDate, g.PaymentDate)

/-- The state at the head of the loop over the cycles of an item: counter 0, nothing carried
over from a modification. -/
def initState (result : List GeneratedEntry) : GenState :=
  { result := result, index := 0, applyToRestPayload := none, dateAdjustment := none,
    deleteRest := false }

/-- The occurrence dates of cycle `i` when no modification has left a date adjustment. -/
def plainCycleDates (opts : GeneratorOptions) (config : RecurrenceConfig) (i : Int) : List Int :=
  cycleDates opts config i (initState [])

/-- The payment date walk of the item stops from every date: the item does not ask for
workdays only, or there are neither holidays nor weekend days, or some day of the week (Go's
numbering, 0 to 6) is not a weekend day. -/
def walkStops (opts : GeneratorOptions) (config : RecurrenceConfig) : Prop :=
  config.Options.WorkdaysOnly = false ∨ (opts.Holidays = [] ∧ opts.WeekendDays = []) ∨
    ∃ w : Int, 0 ≤ w ∧ w < 7 ∧ w ∉ opts.WeekendDays

/-- The cap of a period in the cap map in force: the supplied map when there is one, the
built-in map otherwise. -/
def capOf (opts : GeneratorOptions) (period : Period) : Option Int :=
  match opts.MaxIntervals with
  | some m => m.lookup period
  | none => MaxIntervals.lookup period

/-- The day of the week in the numbering of the `each` values of a weekly item: Monday = 1,
..., Sunday = 7. -/
def isoWeekday (t : Int) : Int := if Weekday t = 0 then 7 else Weekday t

/-- The Monday of the Monday-to-Sunday week that contains the date. -/
def weekStart (t : Int) : Int := t - (isoWeekday t - 1)

/-- The candidate date of the `each` value `s` in cycle `i` when no modification has left a
date adjustment; `none` when the value is passed over. -/
def plainCandidate (opts : GeneratorOptions) (config : RecurrenceConfig) (i : Int) (s : Int) :
    Option Int :=
  eachTargetDate opts config i
    (AddByPeriod config.Start (wrapInt (i * everyOf config)) config.Period) (initState []) s

/-- The date lies in the Monday-to-Sunday week that contains the date `x`. -/
def inWeekOf (x d : Int) : Prop := weekStart x ≤ d ∧ d ≤ weekStart x + 6

instance (x d : Int) : Decidable (inWeekOf x d) := by
  unfold inWeekOf; infer_instance

/-- The range admits the date: no range is given, or the date lies within the range. -/
def rangeAdmits (range : Option DateRange) (d : Int) : Bool :=
  match range with
  | none => true
  | some r => withinRange r d

/-- The occurrences that the specification gives an item without recurrence description: one
occurrence with index 1 at the item's date when the range admits the date, none otherwise. -/
def oneTimeOccurrences (range : Option DateRange) (entry : BaseEntry) : List GeneratedEntry :=
  if rangeAdmits range entry.Date then
    [{ Entry := entry, Index := 1, ActualDate := entry.Date, PaymentDate := entry.Date }]
  else []

/-- The string consists of exactly two hyphen-separated tokens: it is `a`, a hyphen, `b`, and
neither token contains a hyphen. -/
def twoTokens (s a b : String) : Prop :=
  s.data = a.data ++ '-' :: b.data ∧ '-' ∉ a.data ∧ '-' ∉ b.data

/-- The position tokens of an ordinal. -/
def positionTokens : List String :=
  ["first", "second", "third", "fourth", "fifth", "nextToLast", "last"]

/-- The day category tokens of an ordinal. -/
def categoryTokens : List String := ["day", "weekday", "weekend"]

/-- The day name tokens of an ordinal. -/
def dayNameTokens : List String :=
  ["monday", "tuesday", "wednesday", "thursday", "friday", "saturday", "sunday"]

/-- The validity of a recurrence description in the words of the specification. -/
def validConfig (c : RecurrenceConfig) : Prop :=
  c.Period ∈ [PeriodNone, PeriodWeek, PeriodMonth, PeriodYear] ∧ c.Start ≠ 0 ∧
    0 < c.Interval ∧
    (c.Period = PeriodNone → c.Interval = 1) ∧
    (c.Period = PeriodWeek →
      (∀ s ∈ c.Options.Each, 1 ≤ s ∧ s ≤ 7) ∧ c.Options.On = "") ∧
    (c.Period = PeriodMonth →
      (∀ s ∈ c.Options.Each, 1 ≤ s ∧ s ≤ 31) ∧
        (c.Options.On = "" ∨ IsOrdinal c.Options.On = true)) ∧
    (c.Period = PeriodYear →
      (∀ s ∈ c.Options.Each, 1 ≤ s ∧ s ≤ 12) ∧
        (c.Options.On = "" ∨ IsOrdinal c.Options.On = true))

/-- The item makes `Generator` fail: it fails `IsValidBaseEntry`, or it has a non-empty
ordinal selector that is not `IsOrdinal`, or it has an ordinal selector of two tokens whose
day type is `weekday` or `weekend` while there are no weekend days. -/
def offends (weekendDays : List Int) (entry : BaseEntry) : Prop :=
  IsValidBaseEntry entry = false ∨
    (∃ c, entry.Config = some c ∧ c.Options.On ≠ "" ∧ IsOrdinal c.Options.On = false) ∨
    (∃ c position dayType, entry.Config = some c ∧
      splitHyphen c.Options.On = [position, dayType] ∧
      (dayType = "weekday" ∨ dayType = "weekend") ∧ weekendDays = [])

/-- The dates of the calendar month that contains the date, in ascending order. -/
def monthDates (date : Int) : List Int :=
  (List.range (daysIn (Month date) (Year date)).toNat).map
    (fun k : Nat => Date (Year date) (Month date) 1 + (k : Int))

/-- The date matches the day type of an ordinal: `day` matches every date, `weekday` a date
whose day of the week (Go's number, Sunday = 0) is not a weekend day, `weekend` a date whose
day of the week is a weekend day, and the lower-case name of a day of the week the dates that
fall on that day. -/
def matchesDayType (dayType : String) (weekendDays : List Int) (d : Int) : Bool :=
  decide (dayType = "day") ||
    (decide (dayType = "weekday") && decide (Weekday d ∉ weekendDays)) ||
    (decide (dayType = "weekend") && decide (Weekday d ∈ weekendDays)) ||
    decide (dayType = GetActualDayName d)

/-- The dates of the calendar month that contains the date and that match the day type, in
ascending order. -/
def matchingDates (dayType : String) (weekendDays : List Int) (date : Int) : List Int :=
  (monthDates date).filter (matchesDayType dayType weekendDays)

/-- The index of a position among `count` matching dates: first = 0, ..., fifth = 4,
last = `count - 1`, nextToLast = `max (count - 2) 0`; `none` for any other token. -/
def positionIndex (position : String) (count : Int) : Option Int :=
  if position = "first" then some 0
  else if position = "second" then some 1
  else if position = "third" then some 2
  else if position = "fourth" then some 3
  else if position = "fifth" then some 4
  else if position = "last" then some (count - 1)
  else if position = "nextToLast" then some (max (count - 2) 0)
  else none

/-- The failure of the resolution of an ordinal in the words of the specification: the string
does not consist of two hyphen-separated tokens; or the position token or the day type token is
not recognized; or the day type is `weekday` or `weekend` and there are no weekend days; or no
date of the month matches the day type; or the index of the position is not less than the
number of matching dates. -/
def ordinalFails (date : Int) (ord : String) (weekendDays : List Int) : Prop :=
  (¬ ∃ a b, twoTokens ord a b) ∨
    ∃ position dayType, twoTokens ord position dayType ∧
      (position ∉ positionTokens ∨
        (dayType ∉ categoryTokens ∧ dayType ∉ dayNameTokens) ∨
        ((dayType = "weekday" ∨ dayType = "weekend") ∧ weekendDays = []) ∨
        matchingDates dayType weekendDays date = [] ∨
        ∃ idx, positionIndex position (matchingDates dayType weekendDays date).length =
            some idx ∧
          ((matchingDates dayType weekendDays date).length : Int) ≤ idx)

/-- The date that the ordinal of the item resolves to in cycle `i`, when no modification has
left a date adjustment: `none` when the resolution fails, and when it yields the zero date. -/
def resolvedDate (opts : GeneratorOptions) (config : RecurrenceConfig) (i : Int) : Option Int :=
  match GetOrdinalDate (AddByPeriod config.Start (wrapInt (i * everyOf config)) config.Period)
      config.Options.On opts.WeekendDays with
  | .ok d => if d = 0 then none else some d
  | .error _ => none

/-- The dates that the ordinal of the item resolves to in the cycles `0 .. cycles - 1`, in the
order of the cycles. -/
def resolvedDates (opts : GeneratorOptions) (config : RecurrenceConfig) (cycles : Nat) :
    List Int :=
  (List.range cycles).filterMap (fun i : Nat => resolvedDate opts config i)

/-- The modification targets the occurrence counted `n` of the item: its identifier has the
textual form (`%v`) of the item's identifier, and its index is `n`. -/
def targets (m : Modification) (entry : BaseEntry) (n : Int) : Prop :=
  m.ItemID.format = entry.ID.format ∧ m.Index = n

instance (m : Modification) (entry : BaseEntry) (n : Int) : Decidable (targets m entry n) := by
  unfold targets; infer_instance

/-- The date that the modifications give the occurrence counted `n` of the item: the date of
the last modification of the list that targets the occurrence and carries, under `"date"`, a
string that parses; `none` when there is no such modification. -/
def lastOverride : List Modification → BaseEntry → Int → Option Int
  | [], _, _ => none
  | m :: ms, entry, n =>
    match lastOverride ms entry n with
    | some d => some d
    | none => if targets m entry n then m.modifiedDate else none

/-- The options with another list of modifications. -/
def GeneratorOptions.withModifications (opts : GeneratorOptions) (mods : List Modification) :
    GeneratorOptions :=
  { opts with Modifications := mods }

/-- Two generated entries agree but for the dates of the occurrence that the modification
targets: same item, same index, and the same dates unless the modification targets the
occurrence. -/
def sameExcept (m : Modification) (a b : GeneratedEntry) : Prop :=
  a.Entry = b.Entry ∧ a.Index = b.Index ∧ (¬ targets m a.Entry a.Index → a = b)

/-- Two loop states agree but for their result slices, whose entries are related one by
one. -/
def stateRel (E : GeneratedEntry → GeneratedEntry → Prop) (s1 s2 : GenState) : Prop :=
  s1.index = s2.index ∧ s1.applyToRestPayload = s2.applyToRestPayload ∧
    s1.dateAdjustment = s2.dateAdjustment ∧ s1.deleteRest = s2.deleteRest ∧
    List.Forall₂ E s1.result s2.result

/-- What `applyModifications` returns under two lists of modifications agrees but for the
entries left behind the pointer, which are related. -/
def modsAgree (E : GeneratedEntry → GeneratedEntry → Prop) (entry : BaseEntry)
    (mods1 mods2 : List Modification) : Prop :=
  ∀ (index : Int) (last : GeneratedEntry), last.Entry = entry → last.Index = index →
    (applyModifications entry index mods1 last).shouldDelete =
      (applyModifications entry index mods2 last).shouldDelete ∧
    (applyModifications entry index mods1 last).deleteFuture =
      (applyModifications entry index mods2 last).deleteFuture ∧
    (applyModifications entry index mods1 last).applyToRestPayload =
      (applyModifications entry index mods2 last).applyToRestPayload ∧
    (applyModifications entry index mods1 last).dateAdjustment =
      (applyModifications entry index mods2 last).dateAdjustment ∧
    E (applyModifications entry index mods1 last).lastEntry
      (applyModifications entry index mods2 last).lastEntry

/-- The calendar month that lies `a` months after the month of the date: its year and its
month (1..12). -/
def monthAfter (d a : Int) : Int × Int :=
  (Year d + (Month d - 1 + a) / 12, (Month d - 1 + a) % 12 + 1)

/-- Two loop states agree but for the rest payload they carry, and in each a date adjustment
is carried only together with a rest payload. -/
def payloadRel (s1 s2 : GenState) : Prop :=
  s1.index = s2.index ∧ s1.dateAdjustment = s2.dateAdjustment ∧
    s1.deleteRest = s2.deleteRest ∧ s1.result = s2.result ∧
    (s1.dateAdjustment.isSome = true → s1.applyToRestPayload.isSome = true) ∧
    (s2.dateAdjustment.isSome = true → s2.applyToRestPayload.isSome = true)

/-- The selectors of a monthly item that pick one date in every month: one `each` value from
1 to 28; or no `each` value and an ordinal whose position is a position token other than
`fifth` and whose day type is a lower-case day name. -/
def picksEveryMonth (config : RecurrenceConfig) : Prop :=
  (∃ d, config.Options.Each = [d] ∧ 1 ≤ d ∧ d ≤ 28) ∨
    (config.Options.Each = [] ∧ ∃ position dayType,
      twoTokens config.Options.On position dayType ∧ position ∈ positionTokens ∧
        position ≠ "fifth" ∧ dayType ∈ dayNameTokens)

/-- The date falls on the day of the week of `D` and lies at most 6 days from the unadjusted
date `start + i * every * 7` of a cycle `i` of the weekly item. -/
def onWeekdayOf (config : RecurrenceConfig) (D : Int) (t : Int) : Prop :=
  Weekday t = Weekday D ∧
    ∃ i : Nat, -6 ≤ t - (config.Start + (i : Int) * everyOf config * 7) ∧
      t - (config.Start + (i : Int) * everyOf config * 7) ≤ 6

/-- The products that the loop computes for the cycles of the item fit in Go's `int`:
`i * every * 7` for a week-period item and `i * every` for an item of another period, stated
of the last cycle that the loop runs, whose products are the largest. -/
def productsFit (opts : GeneratorOptions) (config : RecurrenceConfig) : Prop :=
  if config.Period = PeriodWeek then
    (maxIntervalOf opts config - 1) * everyOf config * 7 ≤ 9223372036854775807
  else (maxIntervalOf opts config - 1) * everyOf config ≤ 9223372036854775807

instance (opts : GeneratorOptions) (config : RecurrenceConfig) :
    Decidable (productsFit opts config) := by
  unfold productsFit; infer_instance

/-! ## Inputs of the tests (generator_test.go) -/

/-- The monthly entry of the tests: identifier 1, from 2023-01-01, every month on the 15th,
with the given number of occurrences and grace period. -/
def monthlyEntry (interval gracePeriod : Int) : BaseEntry :=
  { ID := .int 1, Date := Date 2023 1 1,
    Config := some { Start := Date 2023 1 1, Interval := interval, Period := PeriodMonth,
                     Options := { Every := 1, Each := [15], GracePeriod := gracePeriod } } }

/-- The configuration of `monthlyEntry`. -/
def monthlyConfig (interval gracePeriod : Int) : RecurrenceConfig :=
  { Start := Date 2023 1 1, Interval := interval, Period := PeriodMonth,
    Options := { Every := 1, Each := [15], GracePeriod := gracePeriod } }

/-- The weekly entry of `TestModifications`: identifier 1, from 2023-01-01, every week, with
the given number of occurrences and grace period. -/
def weeklyEntry (interval gracePeriod : Int) : BaseEntry :=
  { ID := .int 1, Date := Date 2023 1 1,
    Config := some { Start := Date 2023 1 1, Interval := interval, Period := PeriodWeek,
                     Options := { Every := 1, GracePeriod := gracePeriod } } }

/-- A modification of item 1 that deletes the occurrence `index` (payload `deleted = true`);
with `cascade`, its rest payload has `deleted = true` as well. -/
def deleteAt (index : Int) (cascade : Bool) : Modification :=
  { ItemID := .int 1, Index := index, Payload := { deleted := some (.bool true) },
    RestPayload := if cascade then some { deleted := some (.bool true) } else none }

/-- A modification of item 1 that overrides the date of the occurrence `index`. -/
def overrideDateAt (index : Int) (date : String) : Modification :=
  { ItemID := .int 1, Index := index, Payload := { date := some (.str date) } }

/-! ## Inputs of the examples (examples/cmd) -/

/-- The configuration of the second entry of `examples/cmd/biweekly`: from 2023-01-01, every
`every` weeks on the day of the week of the start date, with the given number of
occurrences. -/
def sameDayConfig (every interval : Int) : RecurrenceConfig :=
  { Start := Date 2023 1 1, Interval := interval, Period := PeriodWeek,
    Options := { Every := every } }

/-- The second entry of `examples/cmd/biweekly`. -/
def sameDayEntry (every interval : Int) : BaseEntry :=
  { ID := .int 2, Date := Date 2023 1 1, Config := some (sameDayConfig every interval) }

/-- The first entry of `examples/cmd/combined`: the rent, from 2023-01-01, every month on the
1st, 12 occurrences, on workdays only. -/
def rentEntry : BaseEntry :=
  { ID := .str "rent", Date := Date 2023 1 1,
    Config := some { Start := Date 2023 1 1, Interval := 12, Period := PeriodMonth,
                     Options := { Every := 1, Each := [1], WorkdaysOnly := true,
                                  GracePeriod := 0 } } }

/-! ## Further inputs -/

/-- A one-time entry: identifier 1, no configuration. -/
def oneTimeEntry (date : Int) : BaseEntry := { ID := .int 1, Date := date }

/-- A weekly entry that starts on Wednesday 0001-01-03, in the week of the zero date: every
week on Monday, two occurrences. -/
def firstWeekEntry : BaseEntry :=
  { ID := .int 1, Date := Date 1 1 3,
    Config := some { Start := Date 1 1 3, Interval := 2, Period := PeriodWeek,
                     Options := { Every := 1, Each := [1] } } }

/-- A configuration with `each` values: from the given start date, every period, with the
given number of cycles. -/
def eachConfig (period : Period) (start : Int) (interval : Int) (each : List Int) :
    RecurrenceConfig :=
  { Start := start, Interval := interval, Period := period,
    Options := { Every := 1, Each := each } }

/-- An entry with `each` values: identifier 1, dated at its start date. -/
def eachEntry (period : Period) (start : Int) (interval : Int) (each : List Int) : BaseEntry :=
  { ID := .int 1, Date := start, Config := some (eachConfig period start interval each) }

/-- A configuration with an ordinal: from the given start date, every month, with the given
number of cycles. -/
def ordinalConfig (start : Int) (interval : Int) (ord : Ordinal) : RecurrenceConfig :=
  { Start := start, Interval := interval, Period := PeriodMonth,
    Options := { Every := 1, On := ord } }

/-- An entry with an ordinal: identifier 1, dated at its start date. -/
def ordinalEntry (start : Int) (interval : Int) (ord : Ordinal) : BaseEntry :=
  { ID := .int 1, Date := start, Config := some (ordinalConfig start interval ord) }

/-- A modification that deletes the occurrence `index` of the item with the given
identifier. -/
def deleteOf (id : Ident) (index : Int) : Modification :=
  { ItemID := id, Index := index, Payload := { deleted := some (.bool true) } }

/-- The modification of the test `With rest payload modifications`: item 1, occurrence
`index`, no payload, and a rest payload with the caller-defined field `amount`. -/
def amountFrom (index : Int) : Modification :=
  { ItemID := .int 1, Index := index,
    RestPayload := some { extra := [("amount", .int 2000)] } }

/-- A modification that overrides the date of the occurrence `index` of the item with the
given identifier and carries a rest payload with the caller-defined field `amount`. -/
def overrideFrom (id : Ident) (index : Int) (date : String) : Modification :=
  { ItemID := id, Index := index, Payload := { date := some (.str date) },
    RestPayload := some { extra := [("amount", .int 2000)] } }

/-! ## Calendar lemmas -/

theorem yearDay_aux (t n400 d1 c n100 d2 n4 d3 q n1 : Int)
    (hn : n400 = t / 146097) (hd1 : d1 = t % 146097) (hc : c = d1 / 36524)
    (hn100 : n100 = c - c / 4) (hd2 : d2 = d1 - 36524 * n100) (hn4 : n4 = d2 / 1461)
    (hd3 : d3 = d2 % 1461) (hq : q = d3 / 365) (hn1 : n1 = q - q / 4) :
    daysSinceEpoch (400 * n400 + 100 * n100 + 4 * n4 + n1 + 1) + (d3 - 365 * n1) = t ∧
      0 ≤ d3 - 365 * n1 ∧
      d3 - 365 * n1 < 365 + leapDay (400 * n400 + 100 * n100 + 4 * n4 + n1 + 1) := by
  simp only [daysSinceEpoch, leapDay, isLeap]
  have h1 : 0 ≤ d1 ∧ d1 < 146097 := by omega
  have hc0 : 0 ≤ c ∧ c ≤ 4 := by omega
  have hn100b : 0 ≤ n100 ∧ n100 ≤ 3 := by omega
  have h2 : 0 ≤ d2 ∧ d2 < 36525 ∧ (n100 < 3 → d2 < 36524) := by omega
  have h3 : 0 ≤ d3 ∧ d3 < 1461 := by omega
  have hn4b : 0 ≤ n4 ∧ n4 ≤ 24 := by omega
  have hq0 : 0 ≤ q ∧ q ≤ 4 := by omega
  have hn1b : 0 ≤ n1 ∧ n1 ≤ 3 := by omega
  have e4 : (400 * n400 + 100 * n100 + 4 * n4 + n1 + 1 - 1) / 4 = 100 * n400 + 25 * n100 + n4 := by omega
  have e100 : (400 * n400 + 100 * n100 + 4 * n4 + n1 + 1 - 1) / 100 = 4 * n400 + n100 := by omega
  have e400 : (400 * n400 + 100 * n100 + 4 * n4 + n1 + 1 - 1) / 400 = n400 := by omega
  rw [e4, e100, e400]
  have m4 : (400 * n400 + 100 * n100 + 4 * n4 + n1 + 1) % 4 = (n1 + 1) % 4 := by omega
  have m100 : (400 * n400 + 100 * n100 + 4 * n4 + n1 + 1) % 100 = (4 * n4 + n1 + 1) % 100 := by omega
  have m400 : (400 * n400 + 100 * n100 + 4 * n4 + n1 + 1) % 400 = (100 * n100 + 4 * n4 + n1 + 1) % 400 := by omega
  refine ⟨by omega, by omega, ?_⟩
  split <;> rename_i h <;> simp [m4, m100, m400] at h <;> omega

theorem yearDay_spec (t : Int) :
    daysSinceEpoch (Year t) + YearDay t = t ∧ 0 ≤ YearDay t ∧
      YearDay t < 365 + leapDay (Year t) :=
  yearDay_aux t _ _ _ _ _ _ _ _ _ rfl rfl rfl rfl rfl rfl rfl rfl rfl

theorem leapDay_cases (y : Int) : leapDay y = 0 ∨ leapDay y = 1 := by
  unfold leapDay; split <;> simp

theorem daysBefore_values : daysBefore 1 = 0 ∧ daysBefore 2 = 31 ∧ daysBefore 3 = 59 ∧
    daysBefore 4 = 90 ∧ daysBefore 5 = 120 ∧ daysBefore 6 = 151 ∧ daysBefore 7 = 181 ∧
    daysBefore 8 = 212 ∧ daysBefore 9 = 243 ∧ daysBefore 10 = 273 ∧ daysBefore 11 = 304 ∧
    daysBefore 12 = 334 := by decide

theorem monthDay_cases (l yday : Int) :
    (yday < 31 ∧ monthDay l yday = (1, yday + 1)) ∨
      (¬ yday < 31 ∧ yday < 59 + l ∧ monthDay l yday = (2, yday - 31 + 1)) ∨
      (¬ yday < 59 + l ∧ yday < 90 + l ∧ monthDay l yday = (3, yday - (59 + l) + 1)) ∨
      (¬ yday < 90 + l ∧ yday < 120 + l ∧ monthDay l yday = (4, yday - (90 + l) + 1)) ∨
      (¬ yday < 120 + l ∧ yday < 151 + l ∧ monthDay l yday = (5, yday - (120 + l) + 1)) ∨
      (¬ yday < 151 + l ∧ yday < 181 + l ∧ monthDay l yday = (6, yday - (151 + l) + 1)) ∨
      (¬ yday < 181 + l ∧ yday < 212 + l ∧ monthDay l yday = (7, yday - (181 + l) + 1)) ∨
      (¬ yday < 212 + l ∧ yday < 243 + l ∧ monthDay l yday = (8, yday - (212 + l) + 1)) ∨
      (¬ yday < 243 + l ∧ yday < 273 + l ∧ monthDay l yday = (9, yday - (243 + l) + 1)) ∨
      (¬ yday < 273 + l ∧ yday < 304 + l ∧ monthDay l yday = (10, yday - (273 + l) + 1)) ∨
      (¬ yday < 304 + l ∧ yday < 334 + l ∧ monthDay l yday = (11, yday - (304 + l) + 1)) ∨
      (¬ yday < 334 + l ∧ monthDay l yday = (12, yday - (334 + l) + 1)) := by
  unfold monthDay
  by_cases c0 : yday < 31
  · exact Or.inl ⟨c0, if_pos c0⟩
  rw [if_neg c0]
  right
  by_cases c1 : yday < 59 + l
  · exact Or.inl ⟨c0, c1, if_pos c1⟩
  rw [if_neg c1]
  right
  by_cases c2 : yday < 90 + l
  · exact Or.inl ⟨c1, c2, if_pos c2⟩
  rw [if_neg c2]
  right
  by_cases c3 : yday < 120 + l
  · exact Or.inl ⟨c2, c3, if_pos c3⟩
  rw [if_neg c3]
  right
  by_cases c4 : yday < 151 + l
  · exact Or.inl ⟨c3, c4, if_pos c4⟩
  rw [if_neg c4]
  right
  by_cases c5 : yday < 181 + l
  · exact Or.inl ⟨c4, c5, if_pos c5⟩
  rw [if_neg c5]
  right
  by_cases c6 : yday < 212 + l
  · exact Or.inl ⟨c5, c6, if_pos c6⟩
  rw [if_neg c6]
  right
  by_cases c7 : yday < 243 + l
  · exact Or.inl ⟨c6, c7, if_pos c7⟩
  rw [if_neg c7]
  right
  by_cases c8 : yday < 273 + l
  · exact Or.inl ⟨c7, c8, if_pos c8⟩
  rw [if_neg c8]
  right
  by_cases c9 : yday < 304 + l
  · exact Or.inl ⟨c8, c9, if_pos c9⟩
  rw [if_neg c9]
  right
  by_cases c10 : yday < 334 + l
  · exact Or.inl ⟨c9, c10, if_pos c10⟩
  rw [if_neg c10]
  right
  exact ⟨c10, rfl⟩

theorem monthDay_spec (l : Int) (yday : Int) (hl : l = 0 ∨ l = 1) (h0 : 0 ≤ yday)
    (h1 : yday < 365 + l) :
    1 ≤ (monthDay l yday).1 ∧ (monthDay l yday).1 ≤ 12 ∧
      1 ≤ (monthDay l yday).2 ∧ (monthDay l yday).2 ≤ 31 ∧
      daysBefore (monthDay l yday).1 + (if 3 ≤ (monthDay l yday).1 then l else 0) +
        ((monthDay l yday).2 - 1) = yday := by
  obtain ⟨v1, v2, v3, v4, v5, v6, v7, v8, v9, v10, v11, v12⟩ := daysBefore_values
  rcases monthDay_cases l yday with h | h | h | h | h | h | h | h | h | h | h | h <;>
    simp only [h, v1, v2, v3, v4, v5, v6, v7, v8, v9, v10, v11, v12] <;>
    norm_num <;> omega

theorem Month_range (t : Int) : 1 ≤ Month t ∧ Month t ≤ 12 := by
  have h := yearDay_spec t
  have := monthDay_spec _ (YearDay t) (leapDay_cases (Year t)) h.2.1 h.2.2
  exact ⟨this.1, this.2.1⟩

theorem Day_range (t : Int) : 1 ≤ Day t ∧ Day t ≤ 31 := by
  have h := yearDay_spec t
  have := monthDay_spec _ (YearDay t) (leapDay_cases (Year t)) h.2.1 h.2.2
  exact ⟨this.2.2.1, this.2.2.2.1⟩

theorem Date_of_month_range (y m d : Int) (h1 : 1 ≤ m) (h2 : m ≤ 12) :
    Date y m d = daysSinceEpoch y + daysBefore m + (if 3 ≤ m then leapDay y else 0) + (d - 1) := by
  have e1 : (m - 1) / 12 = 0 := by omega
  have e2 : (m - 1) % 12 + 1 = m := by omega
  simp only [Date, e1, e2, add_zero]

/-- Round trip: a date is rebuilt from its own year, month and day. -/
theorem Date_Year_Month_Day (t : Int) : Date (Year t) (Month t) (Day t) = t := by
  have h := yearDay_spec t
  have hm := monthDay_spec _ (YearDay t) (leapDay_cases (Year t)) h.2.1 h.2.2
  rw [Date_of_month_range _ _ _ (Month_range t).1 (Month_range t).2]
  have := hm.2.2.2.2
  simp only [Month, Day] at this ⊢
  linarith [h.1]

theorem Date_add_days (y m d n : Int) : Date y m (d + n) = Date y m d + n := by
  simp only [Date]; ring

/-- Adding whole days with `AddDate` moves the date by exactly that many days. -/
theorem AddDate_days (t : Int) (n : Int) : AddDate t 0 0 n = t + n := by
  simp only [AddDate, add_zero, Date_add_days, Date_Year_Month_Day]

/-- Two dates with the same year, month and day are the same date. -/
theorem eq_of_civil_eq (a b : Int) (hy : Year a = Year b) (hm : Month a = Month b)
    (hd : Day a = Day b) : a = b := by
  rw [← Date_Year_Month_Day a, ← Date_Year_Month_Day b, hy, hm, hd]

/-! ## Go's `int`: arithmetic modulo 2^64 -/

/-- An exact result that fits in `int` is the result Go computes. -/
theorem wrapInt_of_fits (x : Int) (h : fitsInt x) : wrapInt x = x := by
  unfold fitsInt at h
  unfold wrapInt
  omega

/-- What Go computes fits in `int`. -/
theorem wrapInt_fits (x : Int) : fitsInt (wrapInt x) := by
  unfold fitsInt wrapInt
  omega

/-- What Go computes agrees with the exact result modulo 2^64. -/
theorem wrapInt_emod (x : Int) :
    wrapInt x % 18446744073709551616 = x % 18446744073709551616 := by
  unfold wrapInt
  omega

/-- Two integers that agree modulo 2^64 are the same `int`. -/
theorem wrapInt_congr (x y : Int)
    (h : x % 18446744073709551616 = y % 18446744073709551616) : wrapInt x = wrapInt y := by
  unfold wrapInt
  omega

/-- A product of an `int` that was itself computed with wrap-around: the same `int` as the
product of the exact values. -/
theorem wrapInt_mul_left (a b : Int) : wrapInt (wrapInt a * b) = wrapInt (a * b) := by
  apply wrapInt_congr
  rw [Int.mul_emod, wrapInt_emod, ← Int.mul_emod]

theorem wrapInt_zero : wrapInt 0 = 0 := by decide

/-- A non-negative integer below a bound that fits in `int` fits in `int`. -/
theorem fitsInt_of_le (x b : Int) (h0 : 0 ≤ x) (hx : x ≤ b) (hb : b ≤ 9223372036854775807) :
    fitsInt x := by
  unfold fitsInt
  omega

/-- The products of the cycle `i` when the largest one fits in `int`: Go computes
`i * every` and `i * every * 7` exactly. -/
theorem wrapInt_cycle (i every : Int) (hi : 0 ≤ i) (he : 1 ≤ every)
    (h : i * every * 7 ≤ 9223372036854775807) :
    wrapInt (i * every) = i * every ∧ wrapInt (wrapInt (i * every) * 7) = i * every * 7 := by
  have h0 : 0 ≤ i * every := mul_nonneg hi (by omega)
  have h1 : wrapInt (i * every) = i * every :=
    wrapInt_of_fits _ (fitsInt_of_le _ (i * every * 7) h0 (by omega) h)
  refine ⟨h1, ?_⟩
  rw [h1]
  exact wrapInt_of_fits _ (fitsInt_of_le _ _ (by omega) le_rfl h)

/-- The products of the earlier cycles are not larger than those of the last one. -/
theorem cycle_product_le (i n every : Int) (hi : i ≤ n - 1) (he : 1 ≤ every) :
    i * every * 7 ≤ (n - 1) * every * 7 := by
  have : i * every ≤ (n - 1) * every := mul_le_mul_of_nonneg_right hi (by omega)
  omega

/-! ## The payment date -/

theorem matchesHoliday_iff (h d : Int) : matchesHoliday h d ↔ h = d := by
  constructor
  · rintro ⟨hy, hm, hd⟩
    exact eq_of_civil_eq h d hy hm hd
  · rintro rfl
    exact ⟨rfl, rfl, rfl⟩

theorem isWorkday_iff (H : List Int) (W : List Int) (d : Int) :
    isWorkday H W d ↔ Weekday d ∉ W ∧ d ∉ H := by
  unfold isWorkday
  constructor
  · rintro ⟨hw, hh⟩
    exact ⟨hw, fun hmem => hh d hmem ((matchesHoliday_iff d d).2 rfl)⟩
  · rintro ⟨hw, hh⟩
    refine ⟨hw, fun h hmem hmatch => ?_⟩
    rw [matchesHoliday_iff] at hmatch
    exact hh (hmatch ▸ hmem)

/-- One step of the workday walk. -/
theorem workdayWalk_succ (H : List Int) (W : List Int) (n : Nat) (d : Int) :
    workdayWalk H W (n + 1) d =
      if isWorkday H W d then some d else workdayWalk H W n (d + 1) := by
  have hW : (W.any fun day => day == Weekday d) = true ↔ Weekday d ∈ W := by
    simp only [List.any_eq_true, beq_iff_eq]
    exact ⟨fun ⟨x, hx, hxe⟩ => hxe ▸ hx, fun h => ⟨_, h, rfl⟩⟩
  have hH : (H.any fun holiday => Year holiday == Year d && Month holiday == Month d &&
      Day holiday == Day d) = true ↔ ∃ h ∈ H, matchesHoliday h d := by
    simp only [List.any_eq_true, Bool.and_eq_true, beq_iff_eq, matchesHoliday, and_assoc]
  have hcond : ((!(W.any fun day => day == Weekday d) &&
      !(H.any fun holiday => Year holiday == Year d && Month holiday == Month d &&
        Day holiday == Day d)) = true) ↔ isWorkday H W d := by
    rw [Bool.and_eq_true, Bool.not_eq_true', Bool.not_eq_true', ← Bool.not_eq_true,
      ← Bool.not_eq_true, hW, hH]
    unfold isWorkday
    constructor
    · rintro ⟨h1, h2⟩
      exact ⟨h1, fun h hh hm => h2 ⟨h, hh, hm⟩⟩
    · rintro ⟨h1, h2⟩
      exact ⟨h1, fun ⟨h, hh, hm⟩ => h2 h hh hm⟩
  rw [workdayWalk]
  simp only [AddDate_days]
  by_cases hw : isWorkday H W d
  · rw [if_pos (hcond.2 hw), if_pos hw]
  · rw [if_neg (fun h => hw (hcond.1 h)), if_neg hw]

/-- What the workday walk returns is the first workday at or after its start. -/
theorem workdayWalk_some (H : List Int) (W : List Int) :
    ∀ (n : Nat) (d r : Int), workdayWalk H W n d = some r →
      d ≤ r ∧ isWorkday H W r ∧ (∀ x, d ≤ x → x < r → ¬ isWorkday H W x) ∧ r - d < n := by
  intro n
  induction n with
  | zero => intro d r h; simp [workdayWalk] at h
  | succ n ih =>
    intro d r h
    rw [workdayWalk_succ] at h
    by_cases hw : isWorkday H W d
    · rw [if_pos hw] at h
      cases h
      exact ⟨le_refl _, hw, fun x h1 h2 => absurd h2 (not_lt.2 h1), by omega⟩
    · rw [if_neg hw] at h
      obtain ⟨h1, h2, h3, h4⟩ := ih (d + 1) r h
      refine ⟨by omega, h2, fun x hx1 hx2 => ?_, by omega⟩
      by_cases hxd : x = d
      · rw [hxd]; exact hw
      · exact h3 x (by omega) hx2

/-- The walk finds a workday that lies within its fuel. -/
theorem workdayWalk_of_workday (H : List Int) (W : List Int) :
    ∀ (n : Nat) (d : Int) (k : Nat), k < n → isWorkday H W (d + k) →
      ∃ r, workdayWalk H W n d = some r := by
  intro n
  induction n with
  | zero => intro d k hk; omega
  | succ n ih =>
    intro d k hk hw
    rw [workdayWalk_succ]
    by_cases hd : isWorkday H W d
    · exact ⟨d, if_pos hd⟩
    · rw [if_neg hd]
      cases k with
      | zero => simp at hw; exact absurd hw hd
      | succ k =>
        apply ih (d + 1) k (by omega)
        have e : d + 1 + (k : Int) = d + ((k + 1 : Nat) : Int) := by push_cast; ring
        rw [e]; exact hw

/-- More fuel does not change what the walk returns. -/
theorem workdayWalk_mono (H : List Int) (W : List Int) :
    ∀ (n m : Nat) (d r : Int), n ≤ m → workdayWalk H W n d = some r →
      workdayWalk H W m d = some r := by
  intro n
  induction n with
  | zero => intro m d r _ h; simp [workdayWalk] at h
  | succ n ih =>
    intro m d r hm h
    obtain ⟨m, rfl⟩ : ∃ m', m = m' + 1 := ⟨m - 1, by omega⟩
    rw [workdayWalk_succ] at h ⊢
    by_cases hd : isWorkday H W d
    · rw [if_pos hd] at h ⊢; exact h
    · rw [if_neg hd] at h ⊢; exact ih m (d + 1) r (by omega) h

/-- With a day of the week that is no weekend day, a workday lies within the fuel that
`PaymentDate` gives the walk, from every start. -/
theorem exists_workday_within (W : List Int) (w : Int) (hw0 : 0 ≤ w) (hw7 : w < 7)
    (hw : w ∉ W) : ∀ (k : Nat) (H : List Int), H.length = k → ∀ d : Int,
      ∃ j : Nat, j < 7 * (k + 1) ∧ isWorkday H W (d + j) := by
  intro k
  induction k with
  | zero =>
    intro H hH d
    have hnil : H = [] := List.length_eq_zero.1 hH
    subst hnil
    refine ⟨((w - (d + 1)) % 7).toNat, by omega, ?_⟩
    rw [isWorkday_iff]
    refine ⟨?_, by simp⟩
    have : Weekday (d + ((w - (d + 1)) % 7).toNat) = w := by
      unfold Weekday
      rw [Int.toNat_of_nonneg (Int.emod_nonneg _ (by norm_num))]
      omega
    rw [this]; exact hw
  | succ k ih =>
    intro H hH d
    let j0 := ((w - (d + 1)) % 7).toNat
    have hj0 : j0 < 7 := by
      show ((w - (d + 1)) % 7).toNat < 7
      omega
    have hwd : Weekday (d + j0) = w := by
      show Weekday (d + ((w - (d + 1)) % 7).toNat) = w
      unfold Weekday
      rw [Int.toNat_of_nonneg (Int.emod_nonneg _ (by norm_num))]
      omega
    by_cases hmem : d + j0 ∈ H
    · have hlen : (H.erase (d + j0)).length = k := by
        rw [List.length_erase_of_mem hmem, hH]; rfl
      obtain ⟨j, hj, hwork⟩ := ih (H.erase (d + j0)) hlen (d + j0 + 1)
      refine ⟨j0 + 1 + j, by omega, ?_⟩
      rw [isWorkday_iff] at hwork ⊢
      have e : d + ((j0 + 1 + j : Nat) : Int) = d + j0 + 1 + j := by push_cast; ring
      rw [e]
      refine ⟨hwork.1, fun hin => hwork.2 ?_⟩
      exact (List.mem_erase_of_ne (by omega)).2 hin
    · refine ⟨j0, by omega, ?_⟩
      rw [isWorkday_iff]
      exact ⟨by rw [hwd]; exact hw, hmem⟩

/-- When every day of the week is a weekend day, no date is a workday. -/
theorem not_isWorkday_of_all_weekend (H : List Int) (W : List Int)
    (hall : ∀ w : Int, 0 ≤ w → w < 7 → w ∈ W) (d : Int) : ¬ isWorkday H W d := by
  intro h
  exact h.1 (hall _ (by unfold Weekday; omega) (by unfold Weekday; omega))

/-- Without a workday ahead, the walk never stops, whatever the fuel. -/
theorem workdayWalk_none (H : List Int) (W : List Int)
    (hno : ∀ d, ¬ isWorkday H W d) : ∀ (n : Nat) (d : Int), workdayWalk H W n d = none := by
  intro n
  induction n with
  | zero => intro d; rfl
  | succ n ih => intro d; rw [workdayWalk_succ, if_neg (hno d)]; exact ih (d + 1)

/-- The fuel of `PaymentDate` is enough: if the walk does not stop within it, it does not
stop with any fuel. -/
theorem workdayWalk_complete (H : List Int) (W : List Int) (d : Int)
    (h : workdayWalk H W (walkFuel H) d = none) : ∀ n, workdayWalk H W n d = none := by
  by_cases hall : ∀ w : Int, 0 ≤ w → w < 7 → w ∈ W
  · intro n
    exact workdayWalk_none H W (not_isWorkday_of_all_weekend H W hall) n d
  · push_neg at hall
    obtain ⟨w, h0, h7, hw⟩ := hall
    obtain ⟨j, hj, hwork⟩ := exists_workday_within W w h0 h7 hw H.length H rfl d
    obtain ⟨r, hr⟩ := workdayWalk_of_workday H W (walkFuel H) d j hj hwork
    rw [hr] at h; cases h

theorem PaymentDate_zero (g : Int) (H W : List Int) (wd : Bool) :
    PaymentDate 0 g H W wd = some 0 := by
  simp [PaymentDate, IsValidDate, IsZero]

/-- The date from which `PaymentDate` starts its walk: the date plus a positive grace
period. -/
theorem PaymentDate_unfold (c g : Int) (H W : List Int) (wd : Bool) (hc : c ≠ 0) :
    PaymentDate c g H W wd =
      if wd = true ∧ (W ≠ [] ∨ H ≠ []) then
        workdayWalk H W (walkFuel H) (if g > 0 then c + g else c)
      else some (if g > 0 then c + g else c) := by
  have hz : IsValidDate c = true := by simp [IsValidDate, IsZero, hc]
  have hcond : (wd && (decide (W.length > 0) || decide (H.length > 0))) = true ↔
      (wd = true ∧ (W ≠ [] ∨ H ≠ [])) := by
    simp [List.length_pos]
  unfold PaymentDate
  simp only [hz, Bool.not_true, Bool.false_eq_true, if_false, AddDate_days]
  by_cases h : wd = true ∧ (W ≠ [] ∨ H ≠ [])
  · rw [if_pos (hcond.2 h), if_pos h]
  · rw [if_neg (fun h1 => h (hcond.1 h1)), if_neg h]

/-- What `PaymentDate` returns for a date other than the zero date: at or after the date plus
the positive grace period; that very date without `workdaysOnly`, the first workday from it
on with `workdaysOnly`. -/
theorem PaymentDate_some (c g : Int) (H W : List Int) (wd : Bool) (hc : c ≠ 0) (p : Int)
    (h : PaymentDate c g H W wd = some p) :
    (if g > 0 then c + g else c) ≤ p ∧
      (wd = false → p = if g > 0 then c + g else c) ∧
      (wd = true → isWorkday H W p ∧
        ∀ x, (if g > 0 then c + g else c) ≤ x → x < p → ¬ isWorkday H W x) := by
  rw [PaymentDate_unfold c g H W wd hc] at h
  by_cases hcond : wd = true ∧ (W ≠ [] ∨ H ≠ [])
  · rw [if_pos hcond] at h
    obtain ⟨h1, h2, h3, _⟩ := workdayWalk_some H W _ _ _ h
    refine ⟨h1, fun hf => ?_, fun _ => ⟨h2, h3⟩⟩
    rw [hcond.1] at hf; cases hf
  · rw [if_neg hcond] at h
    cases h
    refine ⟨le_refl _, fun _ => rfl, fun hwd => ?_⟩
    have hnil : W = [] ∧ H = [] := by
      by_contra hne
      apply hcond
      refine ⟨hwd, ?_⟩
      by_contra hn
      push_neg at hn
      exact hne hn
    refine ⟨?_, fun x h1 h2 => absurd h2 (not_lt.2 h1)⟩
    rw [isWorkday_iff, hnil.1, hnil.2]
    simp

/-- C9. For a date `c` other than the zero date and a grace period `g >= 0`: with
`workdaysOnly` and a holiday or a weekend day given, a payment date that `PaymentDate`
returns is the earliest date from `c + g` on that is a workday (its day of the week is not in
`weekendDays` and no holiday matches its year, month and day); without `workdaysOnly`, or
with no holiday and no weekend day, `PaymentDate` returns `c + g`; the zero date is returned
unchanged. -/
theorem PaymentDate_spec (c g : Int) (H W : List Int) (workdaysOnly : Bool) (hg : 0 ≤ g) :
    (c ≠ 0 → workdaysOnly = true → (H ≠ [] ∨ W ≠ []) →
        ∀ d, PaymentDate c g H W workdaysOnly = some d →
          c + g ≤ d ∧ isWorkday H W d ∧ ∀ x, c + g ≤ x → x < d → ¬ isWorkday H W x) ∧
      (c ≠ 0 → (workdaysOnly = false ∨ (H = [] ∧ W = [])) →
        PaymentDate c g H W workdaysOnly = some (c + g)) ∧
      (c = 0 → PaymentDate c g H W workdaysOnly = some c) := by
  have hs : (if g > 0 then c + g else c) = c + g := by
    split
    · rfl
    · omega
  refine ⟨fun hc hwd _ d hd => ?_, fun hc hcase => ?_, fun hc => ?_⟩
  · have := PaymentDate_some c g H W workdaysOnly hc d hd
    rw [hs] at this
    exact ⟨this.1, (this.2.2 hwd).1, (this.2.2 hwd).2⟩
  · rw [PaymentDate_unfold c g H W workdaysOnly hc, hs]
    rw [if_neg]
    rintro ⟨h1, h2⟩
    rcases hcase with h | ⟨h3, h4⟩
    · rw [h] at h1; cases h1
    · rcases h2 with h2 | h2
      · exact h2 h4
      · exact h2 h3
  · rw [hc]; exact PaymentDate_zero g H W workdaysOnly

/-- C9, at Thursday 2023-01-05 with a grace period of two days and the weekend days Sunday
and Saturday: the payment date is Monday 2023-01-09. -/
theorem PaymentDate_spec_witness :
    (0 : Int) ≤ 2 ∧ PaymentDate (Date 2023 1 5) 2 [] [0, 6] true = some (Date 2023 1 9) ∧
      (Date 2023 1 5 + 2 ≤ Date 2023 1 9 ∧ isWorkday [] [0, 6] (Date 2023 1 9) ∧
        ∀ x, Date 2023 1 5 + 2 ≤ x → x < Date 2023 1 9 → ¬ isWorkday [] [0, 6] x) :=
  ⟨by decide, by decide,
    (PaymentDate_spec (Date 2023 1 5) 2 [] [0, 6] true (by decide)).1 (by decide) rfl
      (Or.inr (by decide)) (Date 2023 1 9) (by decide)⟩

/-- C10, as stated, fails: with every day of the week (0..6) a weekend day and
`workdaysOnly`, the workday walk of `PaymentDate` never stops, whatever the fuel. -/
theorem PaymentDate_all_weekend_diverges :
    PaymentDate (Date 2023 1 2) 0 [] [0, 1, 2, 3, 4, 5, 6] true = none ∧
      ¬ ∃ fuel d, workdayWalk [] [0, 1, 2, 3, 4, 5, 6] fuel (Date 2023 1 2) = some d := by
  have hno : ∀ d, ¬ isWorkday [] [0, 1, 2, 3, 4, 5, 6] d :=
    not_isWorkday_of_all_weekend [] _ (fun w h0 h7 => by
      simp only [List.mem_cons, List.mem_singleton]; simp; omega)
  refine ⟨?_, ?_⟩
  · rw [PaymentDate_unfold _ _ _ _ _ (by decide), if_pos ⟨rfl, Or.inl (by decide)⟩]
    exact workdayWalk_none [] _ hno _ _
  · rintro ⟨fuel, d, h⟩
    rw [workdayWalk_none [] _ hno] at h
    cases h

/-- C10, amended. `PaymentDate` returns exactly when the date is the zero date, or
`workdaysOnly` is off, or there is neither a holiday nor a weekend day, or some day of the
week (0..6) is no weekend day; the walk then stops within seven steps for every holiday and
seven more. When it does not return, the walk does not stop with any fuel. -/
theorem PaymentDate_terminates_iff (c g : Int) (H W : List Int) (workdaysOnly : Bool) :
    ((∃ d, PaymentDate c g H W workdaysOnly = some d) ↔
        (c = 0 ∨ workdaysOnly = false ∨ (H = [] ∧ W = []) ∨ ∃ w, 0 ≤ w ∧ w < 7 ∧ w ∉ W)) ∧
      (PaymentDate c g H W workdaysOnly = none →
        ∀ fuel, workdayWalk H W fuel (if g > 0 then c + g else c) = none) := by
  by_cases hc : c = 0
  · subst hc
    rw [PaymentDate_zero]
    exact ⟨⟨fun _ => Or.inl rfl, fun _ => ⟨0, rfl⟩⟩, fun h => by cases h⟩
  rw [PaymentDate_unfold c g H W workdaysOnly hc]
  by_cases hcond : workdaysOnly = true ∧ (W ≠ [] ∨ H ≠ [])
  · rw [if_pos hcond]
    refine ⟨⟨fun ⟨d, hd⟩ => ?_, fun h => ?_⟩, fun h => workdayWalk_complete H W _ h⟩
    · right; right; right
      by_contra hall
      push_neg at hall
      rw [workdayWalk_none H W (not_isWorkday_of_all_weekend H W hall)] at hd
      cases hd
    · rcases h with h | h | h | ⟨w, h0, h7, hw⟩
      · exact absurd h hc
      · rw [hcond.1] at h; cases h
      · rcases hcond.2 with h2 | h2
        · exact absurd h.2 h2
        · exact absurd h.1 h2
      · obtain ⟨j, hj, hwork⟩ := exists_workday_within W w h0 h7 hw H.length H rfl
          (if g > 0 then c + g else c)
        exact workdayWalk_of_workday H W (walkFuel H) _ j hj hwork
  · rw [if_neg hcond]
    refine ⟨⟨fun _ => ?_, fun _ => ⟨_, rfl⟩⟩, fun h => by cases h⟩
    by_cases hwd : workdaysOnly = true
    · right; right; left
      constructor
      · by_contra hne; exact hcond ⟨hwd, Or.inr hne⟩
      · by_contra hne; exact hcond ⟨hwd, Or.inl hne⟩
    · right; left
      simpa using hwd

/-! ## The loops of `Generator`: invariants -/

section Invariant

variable (opts : GeneratorOptions) (entry : BaseEntry) (config : RecurrenceConfig)
variable (P : GenState → Prop)

theorem emitInRange_invariant
    (hstep : ∀ d st st1, P st → st.deleteRest = false →
      emitOccurrence opts entry config d st = some st1 → P st1)
    (d : Int) (st st1 : GenState) (hP : P st) (hd : st.deleteRest = false)
    (h : emitInRange opts entry config d st = some st1) : P st1 := by
  unfold emitInRange at h
  split at h
  · cases h; exact hP
  · exact hstep d st st1 hP hd h

theorem emitAll_invariant
    (hstep : ∀ d st st1, P st → st.deleteRest = false →
      emitOccurrence opts entry config d st = some st1 → P st1) :
    ∀ (dates : List Int) (st st1 : GenState), P st → st.deleteRest = false →
      emitAll opts entry config dates st = some st1 → P st1 := by
  intro dates
  induction dates with
  | nil => intro st st1 hP _ h; simp only [emitAll] at h; cases h; exact hP
  | cons d dates ih =>
    intro st st1 hP hd h
    simp only [emitAll] at h
    cases hstep1 : emitInRange opts entry config d st with
    | none => rw [hstep1] at h; cases h
    | some st2 =>
      rw [hstep1] at h
      have hP2 := emitInRange_invariant opts entry config P hstep d st st2 hP hd hstep1
      by_cases hdel : st2.deleteRest = true
      · simp only [hdel, if_true] at h; cases h; exact hP2
      · simp only [hdel] at h
        exact ih st2 st1 hP2 (by simpa using hdel) h

theorem cycleStep_invariant
    (hstep : ∀ d st st1, P st → st.deleteRest = false →
      emitOccurrence opts entry config d st = some st1 → P st1)
    (i : Int) (st st1 : GenState) (hP : P st) (hd : st.deleteRest = false)
    (h : cycleStep opts entry config i st = some st1) : P st1 := by
  unfold cycleStep at h
  simp only at h
  split at h
  · exact emitInRange_invariant opts entry config P hstep _ st st1 hP hd h
  · split at h
    · exact emitAll_invariant opts entry config P hstep _ st st1 hP hd h
    · split at h
      · split at h
        · cases h; exact hP
        · split at h
          · cases h; exact hP
          · exact emitInRange_invariant opts entry config P hstep _ st st1 hP hd h
      · exact emitInRange_invariant opts entry config P hstep _ st st1 hP hd h

theorem runCycles_invariant
    (hstep : ∀ d st st1, P st → st.deleteRest = false →
      emitOccurrence opts entry config d st = some st1 → P st1) :
    ∀ (n : Nat) (i : Int) (st st1 : GenState), P st → st.deleteRest = false →
      runCycles opts entry config n i st = some st1 → P st1 := by
  intro n
  induction n with
  | zero => intro i st st1 hP _ h; simp only [runCycles] at h; cases h; exact hP
  | succ n ih =>
    intro i st st1 hP hd h
    simp only [runCycles] at h
    cases hstep1 : cycleStep opts entry config i st with
    | none => rw [hstep1] at h; cases h
    | some st2 =>
      rw [hstep1] at h
      have hP2 := cycleStep_invariant opts entry config P hstep i st st2 hP hd hstep1
      by_cases hdel : st2.deleteRest = true
      · simp only [hdel, if_true] at h; cases h; exact hP2
      · simp only [hdel] at h
        exact ih (i + 1) st2 st1 hP2 (by simpa using hdel) h

end Invariant

/-- The entry that `processEntry` appends for an entry without recurrence. -/
theorem processEntry_single (opts : GeneratorOptions) (result : List GeneratedEntry)
    (entry : BaseEntry)
    (hs : entry.Config = none ∨ ∃ c, entry.Config = some c ∧ c.Period = PeriodNone) :
    processEntry opts result entry =
      if isInRange opts.Range entry.Date then
        some (result ++ [{ Entry := entry, Index := 1, ActualDate := entry.Date,
                           PaymentDate := entry.Date }])
      else some result := by
  unfold processEntry
  rcases hs with h | ⟨c, h, hp⟩
  · simp only [h]
    by_cases hr : isInRange opts.Range entry.Date = true <;> simp [hr]
  · simp only [h, hp, if_true]
    by_cases hr : isInRange opts.Range entry.Date = true <;> simp [hr]

/-- The run of `processEntry` for a recurring entry. -/
theorem processEntry_recurring (opts : GeneratorOptions) (result : List GeneratedEntry)
    (entry : BaseEntry) (config : RecurrenceConfig) (hc : entry.Config = some config)
    (hp : config.Period ≠ PeriodNone) :
    processEntry opts result entry =
      (runCycles opts entry config (maxIntervalOf opts config).toNat 0
        { result := result, index := 0, applyToRestPayload := none, dateAdjustment := none,
          deleteRest := false }).map (fun st => st.result) := by
  unfold processEntry
  simp only [hc, if_neg hp]
  cases runCycles opts entry config (maxIntervalOf opts config).toNat 0
      { result := result, index := 0, applyToRestPayload := none, dateAdjustment := none,
        deleteRest := false } <;> rfl

/-- An entry is without recurrence or recurring. -/
theorem entry_single_or_recurring (entry : BaseEntry) :
    (entry.Config = none ∨ ∃ c, entry.Config = some c ∧ c.Period = PeriodNone) ∨
      ∃ c, entry.Config = some c ∧ c.Period ≠ PeriodNone := by
  cases h : entry.Config with
  | none => exact Or.inl (Or.inl rfl)
  | some c =>
    by_cases hp : c.Period = PeriodNone
    · exact Or.inl (Or.inr ⟨c, rfl, hp⟩)
    · exact Or.inr ⟨c, rfl, hp⟩

/-- A property `Q` of the generated entries holds for all that the loop over the items
returns, when it holds for the entry of an item without recurrence and follows from an
invariant `P` of the loop state of a recurring item: `P` holds at the start of the item and
is kept by every emitted occurrence. -/
theorem processEntries_forall_of_invariant (opts : GeneratorOptions)
    (Q : GeneratedEntry → Prop) (P : BaseEntry → GenState → Prop)
    (hsingle : ∀ entry : BaseEntry,
      (entry.Config = none ∨ ∃ c, entry.Config = some c ∧ c.Period = PeriodNone) →
      Q { Entry := entry, Index := 1, ActualDate := entry.Date, PaymentDate := entry.Date })
    (hinit : ∀ (entry : BaseEntry) (config : RecurrenceConfig) (result : List GeneratedEntry),
      entry.Config = some config → config.Period ≠ PeriodNone → (∀ g ∈ result, Q g) →
      P entry { result := result, index := 0, applyToRestPayload := none,
                dateAdjustment := none, deleteRest := false })
    (hstep : ∀ (entry : BaseEntry) (config : RecurrenceConfig), entry.Config = some config →
      config.Period ≠ PeriodNone → ∀ d st st1, P entry st →
      st.deleteRest = false → emitOccurrence opts entry config d st = some st1 → P entry st1)
    (hfinal : ∀ entry st, P entry st → ∀ g ∈ st.result, Q g) :
    ∀ (entries : List BaseEntry) (result result1 : List GeneratedEntry),
      (∀ g ∈ result, Q g) → processEntries opts entries result = some result1 →
      ∀ g ∈ result1, Q g := by
  intro entries
  induction entries with
  | nil => intro result result1 hQ h; simp only [processEntries] at h; cases h; exact hQ
  | cons entry rest ih =>
    intro result result1 hQ h
    simp only [processEntries] at h
    cases hpe : processEntry opts result entry with
    | none => rw [hpe] at h; cases h
    | some result2 =>
      rw [hpe] at h
      refine ih result2 result1 ?_ h
      rcases entry_single_or_recurring entry with hs | ⟨c, hc, hp⟩
      · rw [processEntry_single opts result entry hs] at hpe
        split at hpe
        · cases hpe
          intro g hg
          rcases List.mem_append.1 hg with hg | hg
          · exact hQ g hg
          · rw [List.mem_singleton] at hg; rw [hg]; exact hsingle entry hs
        · cases hpe; exact hQ
      · rw [processEntry_recurring opts result entry c hc hp] at hpe
        cases hrun : runCycles opts entry c (maxIntervalOf opts c).toNat 0
            { result := result, index := 0, applyToRestPayload := none,
              dateAdjustment := none, deleteRest := false } with
        | none => rw [hrun] at hpe; cases hpe
        | some st =>
          rw [hrun] at hpe
          cases hpe
          exact hfinal entry st (runCycles_invariant opts entry c (P entry)
            (hstep entry c hc hp) _ _ _ st (hinit entry c result hc hp hQ) rfl hrun)

/-- A property of the generated entries that holds for the entry of an item without
recurrence and is kept by every emitted occurrence holds for all that `Generator` returns. -/
theorem processEntries_forall (opts : GeneratorOptions) (Q : GeneratedEntry → Prop)
    (hsingle : ∀ entry : BaseEntry,
      (entry.Config = none ∨ ∃ c, entry.Config = some c ∧ c.Period = PeriodNone) →
      Q { Entry := entry, Index := 1, ActualDate := entry.Date, PaymentDate := entry.Date })
    (hstep : ∀ (entry : BaseEntry) (config : RecurrenceConfig), entry.Config = some config →
      config.Period ≠ PeriodNone → ∀ d st st1, (∀ g ∈ st.result, Q g) →
      st.deleteRest = false → emitOccurrence opts entry config d st = some st1 →
      ∀ g ∈ st1.result, Q g) :
    ∀ (entries : List BaseEntry) (result result1 : List GeneratedEntry),
      (∀ g ∈ result, Q g) → processEntries opts entries result = some result1 →
      ∀ g ∈ result1, Q g :=
  processEntries_forall_of_invariant opts Q (fun _ st => ∀ g ∈ st.result, Q g) hsingle
    (fun _ _ _ _ _ hQ => hQ) hstep (fun _ _ h => h)

/-- What `Generator` returns when it returns entries. -/
theorem Generator_ok (opts : GeneratorOptions) (res : List GeneratedEntry)
    (h : Generator opts = some (.ok res)) :
    validateEntries opts.WeekendDays opts.Data = none ∧
      processEntries opts opts.Data [] = some res := by
  unfold Generator at h
  cases hv : validateEntries opts.WeekendDays opts.Data with
  | some e => rw [hv] at h; cases h
  | none =>
    rw [hv] at h
    cases hp : processEntries opts opts.Data [] with
    | none => rw [hp] at h; cases h
    | some r => rw [hp] at h; cases h; exact ⟨rfl, rfl⟩

/-! ## One occurrence -/

/-- The two outcomes of the block that emits an occurrence: the occurrence is deleted and the
result is as before, or the entry left by the modifications is appended. The counter is
advanced in both. -/
theorem emitOccurrence_some (opts : GeneratorOptions) (entry : BaseEntry)
    (config : RecurrenceConfig) (d : Int) (st st1 : GenState)
    (h : emitOccurrence opts entry config d st = some st1) :
    ∃ p r, PaymentDate d config.Options.GracePeriod opts.Holidays opts.WeekendDays
        config.Options.WorkdaysOnly = some p ∧
      r = applyModifications entry (st.index + 1) opts.Modifications
        { Entry := entry, Index := st.index + 1, ActualDate := d, PaymentDate := p } ∧
      st1.index = st.index + 1 ∧
      ((r.shouldDelete = true ∧ st1.result = st.result ∧ st1.deleteRest = r.deleteFuture ∧
          st1.applyToRestPayload = st.applyToRestPayload ∧
          st1.dateAdjustment = st.dateAdjustment) ∨
        (r.shouldDelete = false ∧ st1.result = st.result ++ [r.lastEntry] ∧
          st1.deleteRest = st.deleteRest ∧
          st1.applyToRestPayload = (match r.applyToRestPayload with
            | some q => some q
            | none => st.applyToRestPayload) ∧
          st1.dateAdjustment = (match r.dateAdjustment with
            | some a => some a
            | none => st.dateAdjustment))) := by
  unfold emitOccurrence at h
  cases hp : PaymentDate d config.Options.GracePeriod opts.Holidays opts.WeekendDays
      config.Options.WorkdaysOnly with
  | none => rw [hp] at h; cases h
  | some p =>
    rw [hp] at h
    simp only at h
    refine ⟨p, _, rfl, rfl, ?_⟩
    by_cases hdel : (applyModifications entry (st.index + 1) opts.Modifications
        { Entry := entry, Index := st.index + 1, ActualDate := d, PaymentDate := p }).shouldDelete
        = true
    · rw [if_pos hdel] at h
      cases h
      exact ⟨rfl, Or.inl ⟨hdel, by simp, rfl, rfl, rfl⟩⟩
    · rw [if_neg hdel] at h
      cases h
      exact ⟨rfl, Or.inr ⟨by simpa using hdel, rfl, rfl, rfl, rfl⟩⟩

/-- The entry that the modifications leave behind the pointer `lastEntry`: the entry and
index are kept; either nothing changed, or a matching modification set both dates to the
date parsed from its payload. -/
theorem applyModificationsLoop_lastEntry (entry : BaseEntry) (index : Int) :
    ∀ (mods : List Modification) (rest : Option PayloadMap) (adj : Option DateAdjustment)
      (last : GeneratedEntry),
      (applyModificationsLoop entry index mods rest adj last).lastEntry.Entry = last.Entry ∧
      (applyModificationsLoop entry index mods rest adj last).lastEntry.Index = last.Index ∧
      ((applyModificationsLoop entry index mods rest adj last).lastEntry = last ∨
        ((applyModificationsLoop entry index mods rest adj last).lastEntry.PaymentDate =
            (applyModificationsLoop entry index mods rest adj last).lastEntry.ActualDate ∧
          ∃ m ∈ mods, m.ItemID.format = entry.ID.format ∧ m.Index = index ∧
            m.modifiedDate =
              some (applyModificationsLoop entry index mods rest adj last).lastEntry.ActualDate))
    := by
  intro mods
  induction mods with
  | nil => intro rest adj last; exact ⟨rfl, rfl, Or.inl rfl⟩
  | cons m mods ih =>
    intro rest adj last
    have lift : ∀ (rest1 : Option PayloadMap) (adj1 : Option DateAdjustment),
        (applyModificationsLoop entry index mods rest1 adj1 last).lastEntry.Entry = last.Entry ∧
        (applyModificationsLoop entry index mods rest1 adj1 last).lastEntry.Index = last.Index ∧
        ((applyModificationsLoop entry index mods rest1 adj1 last).lastEntry = last ∨
          ((applyModificationsLoop entry index mods rest1 adj1 last).lastEntry.PaymentDate =
              (applyModificationsLoop entry index mods rest1 adj1 last).lastEntry.ActualDate ∧
            ∃ m1 ∈ m :: mods, m1.ItemID.format = entry.ID.format ∧ m1.Index = index ∧
              m1.modifiedDate = some
                (applyModificationsLoop entry index mods rest1 adj1 last).lastEntry.ActualDate))
        := by
      intro rest1 adj1
      obtain ⟨h1, h2, h3⟩ := ih rest1 adj1 last
      refine ⟨h1, h2, ?_⟩
      rcases h3 with h3 | ⟨h3, m1, hm1, h4⟩
      · exact Or.inl h3
      · exact Or.inr ⟨h3, m1, List.mem_cons_of_mem _ hm1, h4⟩
    rw [applyModificationsLoop]
    by_cases hmatch : m.ItemID.format = entry.ID.format ∧ m.Index = index
    · rw [if_pos hmatch]
      by_cases hdel : m.Payload.deleted = some (Value.bool true)
      · rw [if_pos hdel]; exact ⟨rfl, rfl, Or.inl rfl⟩
      · rw [if_neg hdel]
        by_cases hlen : m.Payload.len > 0 ∨ m.restLen > 0
        · rw [if_pos hlen]
          cases hdate : m.modifiedDate with
          | none => exact lift _ _
          | some dt =>
            simp only []
            obtain ⟨h1, h2, h3⟩ := ih (if m.restLen > 0 then m.RestPayload else rest)
              (if m.restLen > 0 then
                some (calculateDateAdjustment entry.Date dt (configPeriod entry))
              else adj)
              { last with ActualDate := dt, PaymentDate := dt }
            refine ⟨h1, h2, Or.inr ?_⟩
            rcases h3 with h3 | ⟨h3, m1, hm1, h4⟩
            · rw [h3]
              exact ⟨rfl, m, List.mem_cons_self _ _, hmatch.1, hmatch.2, hdate⟩
            · exact ⟨h3, m1, List.mem_cons_of_mem _ hm1, h4⟩
        · rw [if_neg hlen]; exact lift _ _
    · rw [if_neg hmatch]; exact lift _ _

/-! ## Payment dates of the generated entries -/

/-- A matching modification with a parseable date leaves both dates of the entry equal,
unless the occurrence is deleted. -/
theorem applyModificationsLoop_dates_equal (entry : BaseEntry) (index : Int) :
    ∀ (mods : List Modification) (rest : Option PayloadMap) (adj : Option DateAdjustment)
      (last : GeneratedEntry),
      (last.PaymentDate = last.ActualDate ∨
        ∃ m ∈ mods, m.ItemID.format = entry.ID.format ∧ m.Index = index ∧
          m.modifiedDate.isSome = true) →
      (applyModificationsLoop entry index mods rest adj last).shouldDelete = false →
      (applyModificationsLoop entry index mods rest adj last).lastEntry.PaymentDate =
        (applyModificationsLoop entry index mods rest adj last).lastEntry.ActualDate := by
  intro mods
  induction mods with
  | nil =>
    intro rest adj last h _
    rcases h with h | ⟨m, hm, _⟩
    · exact h
    · cases hm
  | cons m mods ih =>
    intro rest adj last h
    rw [applyModificationsLoop]
    have hlen : m.modifiedDate.isSome = true → m.Payload.len > 0 := by
      intro hs
      unfold Modification.modifiedDate at hs
      unfold PayloadMap.len
      cases hd : m.Payload.date with
      | none => rw [hd] at hs; cases hs
      | some v => simp
    have pass : ¬ (m.ItemID.format = entry.ID.format ∧ m.Index = index ∧
        m.modifiedDate.isSome = true) →
        (last.PaymentDate = last.ActualDate ∨
          ∃ m1 ∈ mods, m1.ItemID.format = entry.ID.format ∧ m1.Index = index ∧
            m1.modifiedDate.isSome = true) := by
      intro hnot
      rcases h with h | ⟨m1, hm1, h1, h2, h3⟩
      · exact Or.inl h
      · rcases List.mem_cons.1 hm1 with e | hm1
        · subst e; exact absurd ⟨h1, h2, h3⟩ hnot
        · exact Or.inr ⟨m1, hm1, h1, h2, h3⟩
    by_cases hmatch : m.ItemID.format = entry.ID.format ∧ m.Index = index
    · rw [if_pos hmatch]
      by_cases hdel : m.Payload.deleted = some (Value.bool true)
      · rw [if_pos hdel]; intro hsd; cases hsd
      · rw [if_neg hdel]
        by_cases hl : m.Payload.len > 0 ∨ m.restLen > 0
        · rw [if_pos hl]
          cases hdate : m.modifiedDate with
          | none =>
            exact ih _ _ _ (pass (fun hh => by rw [hdate] at hh; cases hh.2.2))
          | some dt => exact ih _ _ _ (Or.inl rfl)
        · rw [if_neg hl]
          exact ih _ _ _ (pass (fun hh => hl (Or.inl (hlen hh.2.2))))
    · rw [if_neg hmatch]
      exact ih _ _ _ (pass (fun hh => hmatch ⟨hh.1, hh.2.1⟩))

/-- Where the dates of a returned entry come from: the entry of an item without recurrence
and an entry whose date a modification overrides have the payment date equal to the actual
date; every other entry has the payment date that `PaymentDate` computes from its actual
date with the options of its item. -/
theorem generated_dates (opts : GeneratorOptions) (res : List GeneratedEntry)
    (h : Generator opts = some (.ok res)) :
    ∀ g ∈ res,
      ((g.Entry.Config = none ∨ ∃ c, g.Entry.Config = some c ∧ c.Period = PeriodNone) ∧
          g.PaymentDate = g.ActualDate) ∨
        (∃ c, g.Entry.Config = some c ∧ c.Period ≠ PeriodNone ∧
          (dateOverridden opts.Modifications g = true → g.PaymentDate = g.ActualDate) ∧
          (dateOverridden opts.Modifications g = false →
            PaymentDate g.ActualDate c.Options.GracePeriod opts.Holidays opts.WeekendDays
              c.Options.WorkdaysOnly = some g.PaymentDate)) := by
  refine processEntries_forall opts _ (fun entry hs => Or.inl ⟨hs, rfl⟩) ?_ opts.Data [] res
    (fun g hg => by cases hg) (Generator_ok opts res h).2
  intro entry config hc hp d st st1 hQ _ hemit g hg
  obtain ⟨p, r, hpay, hr, _, hcase⟩ := emitOccurrence_some opts entry config d st st1 hemit
  rcases hcase with ⟨_, hres, _⟩ | ⟨hnd, hres, _⟩
  · rw [hres] at hg; exact hQ g hg
  · rw [hres] at hg
    rcases List.mem_append.1 hg with hg | hg
    · exact hQ g hg
    · rw [List.mem_singleton] at hg
      subst hg
      right
      obtain ⟨h1, h2, h3⟩ := applyModificationsLoop_lastEntry entry (st.index + 1)
        opts.Modifications none none
        { Entry := entry, Index := st.index + 1, ActualDate := d, PaymentDate := p }
      have hr1 : r = applyModificationsLoop entry (st.index + 1) opts.Modifications none none
          { Entry := entry, Index := st.index + 1, ActualDate := d, PaymentDate := p } := hr
      rw [← hr1] at h1 h2 h3
      simp only at h1 h2
      refine ⟨config, by rw [h1]; exact hc, hp, fun hov => ?_, fun hov => ?_⟩
      · have hex : ∃ m ∈ opts.Modifications, m.ItemID.format = entry.ID.format ∧
            m.Index = st.index + 1 ∧ m.modifiedDate.isSome = true := by
          unfold dateOverridden at hov
          rw [List.any_eq_true] at hov
          obtain ⟨m, hm, hom⟩ := hov
          unfold overridesDate at hom
          simp only [Bool.and_eq_true, decide_eq_true_eq] at hom
          refine ⟨m, hm, by rw [hom.1.1, h1], by rw [hom.1.2, h2], by rw [hom.2]; rfl⟩
        have := applyModificationsLoop_dates_equal entry (st.index + 1) opts.Modifications
          none none { Entry := entry, Index := st.index + 1, ActualDate := d, PaymentDate := p }
          (Or.inr hex)
        rw [← hr1] at this
        exact this hnd
      · rcases h3 with h3 | ⟨_, m, hm, hm1, hm2, hm3⟩
        · rw [h3]; exact hpay
        · exfalso
          have : dateOverridden opts.Modifications r.lastEntry = true := by
            unfold dateOverridden
            rw [List.any_eq_true]
            refine ⟨m, hm, ?_⟩
            unfold overridesDate
            simp only [Bool.and_eq_true, decide_eq_true_eq]
            exact ⟨⟨by rw [hm1, h1], by rw [hm2, h2]⟩, hm3⟩
          rw [this] at hov
          cases hov

/-- C7, as stated, fails: the monthly entry with a grace period of 3 days and a modification
that overrides the date of occurrence 2; the overridden occurrence has its payment date on
its actual date, earlier than the actual date plus 3 days. -/
theorem override_ignores_grace :
    Generator { Data := [monthlyEntry 3 3],
                Modifications := [overrideDateAt 2 "2023-02-20"] } =
      some (.ok [⟨monthlyEntry 3 3, 1, Date 2023 1 15, Date 2023 1 18⟩,
                 ⟨monthlyEntry 3 3, 2, Date 2023 2 20, Date 2023 2 20⟩,
                 ⟨monthlyEntry 3 3, 3, Date 2023 3 15, Date 2023 3 18⟩]) ∧
      Date 2023 2 20 < Date 2023 2 20 + 3 :=
  ⟨by rfl, by decide⟩

/-- C7, amended. For every occurrence that `Generator` returns for a recurring item (period
other than none) with grace period `g >= 0`: when no modification overrides its date and its
actual date is not the zero date, the payment date is not earlier than the actual date plus
`g` days; when a modification overrides its date, the payment date is the actual date; the
zero date has itself as payment date. -/
theorem payment_not_before_grace (opts : GeneratorOptions) (res : List GeneratedEntry)
    (h : Generator opts = some (.ok res)) (g : GeneratedEntry) (hg : g ∈ res)
    (c : RecurrenceConfig) (hc : g.Entry.Config = some c) (hp : c.Period ≠ PeriodNone)
    (hgr : 0 ≤ c.Options.GracePeriod) :
    (dateOverridden opts.Modifications g = false → g.ActualDate ≠ 0 →
        g.ActualDate + c.Options.GracePeriod ≤ g.PaymentDate) ∧
      (dateOverridden opts.Modifications g = true → g.PaymentDate = g.ActualDate) ∧
      (g.ActualDate = 0 → g.PaymentDate = 0) := by
  rcases generated_dates opts res h g hg with ⟨hs, _⟩ | ⟨c1, hc1, _, hov, hnov⟩
  · rcases hs with hs | ⟨c1, hc1, hp1⟩
    · rw [hs] at hc; cases hc
    · rw [hc1] at hc; cases hc; exact absurd hp1 hp
  · rw [hc1] at hc
    cases hc
    refine ⟨fun hno hz => ?_, hov, fun hz => ?_⟩
    · have := (PaymentDate_some _ _ _ _ _ hz _ (hnov hno)).1
      split at this <;> omega
    · cases hd : dateOverridden opts.Modifications g with
      | true => rw [hov hd]; exact hz
      | false =>
        have := hnov hd
        rw [hz, PaymentDate_zero] at this
        exact (Option.some.inj this).symm

/-- C7, amended, at the first occurrence of the monthly entry with a grace period of 3 days:
actual date 2023-01-15, payment date 2023-01-18. -/
theorem payment_not_before_grace_witness :
    Generator { Data := [monthlyEntry 3 3],
                Modifications := [overrideDateAt 2 "2023-02-20"] } =
      some (.ok [⟨monthlyEntry 3 3, 1, Date 2023 1 15, Date 2023 1 18⟩,
                 ⟨monthlyEntry 3 3, 2, Date 2023 2 20, Date 2023 2 20⟩,
                 ⟨monthlyEntry 3 3, 3, Date 2023 3 15, Date 2023 3 18⟩]) ∧
      Date 2023 1 15 + 3 ≤ Date 2023 1 18 :=
  ⟨by rfl,
    (payment_not_before_grace
      { Data := [monthlyEntry 3 3], Modifications := [overrideDateAt 2 "2023-02-20"] }
      _ (by rfl) ⟨monthlyEntry 3 3, 1, Date 2023 1 15, Date 2023 1 18⟩
      (List.mem_cons_self _ _)
      { Start := Date 2023 1 1, Interval := 3, Period := PeriodMonth,
        Options := { Every := 1, Each := [15], GracePeriod := 3 } }
      rfl (by decide) (by decide)).1 (by decide) (by decide)⟩

/-- C8, as stated, fails: the weekly entry with a grace period of 2 days and a modification
that overrides the date of occurrence 2; the payment date of the overridden occurrence
equals its actual date although the grace period is not 0. -/
theorem override_payment_equals_actual :
    Generator { Data := [weeklyEntry 3 2],
                Modifications := [overrideDateAt 2 "2023-01-10"] } =
      some (.ok [⟨weeklyEntry 3 2, 1, Date 2023 1 1, Date 2023 1 3⟩,
                 ⟨weeklyEntry 3 2, 2, Date 2023 1 10, Date 2023 1 10⟩,
                 ⟨weeklyEntry 3 2, 3, Date 2023 1 15, Date 2023 1 17⟩]) ∧
      (weeklyEntry 3 2).Config.map (fun c => c.Options.GracePeriod) = some 2 :=
  ⟨by rfl, by rfl⟩

/-- C8, amended. For every occurrence that `Generator` returns, the payment date is not
earlier than the actual date; and for an occurrence of a recurring item (period other than
none) with grace period `g >= 0`, whose date no modification overrides and whose actual date
is not the zero date, the payment date equals the actual date if and only if `g = 0` and
either `workdaysOnly` is off or the actual date is a workday (its day of the week, Sunday =
0, is not in `weekendDays` and no holiday matches it). -/
theorem payment_equals_actual_iff (opts : GeneratorOptions) (res : List GeneratedEntry)
    (h : Generator opts = some (.ok res)) (g : GeneratedEntry) (hg : g ∈ res) :
    g.ActualDate ≤ g.PaymentDate ∧
      ∀ c, g.Entry.Config = some c → c.Period ≠ PeriodNone → 0 ≤ c.Options.GracePeriod →
        dateOverridden opts.Modifications g = false → g.ActualDate ≠ 0 →
        (g.PaymentDate = g.ActualDate ↔
          c.Options.GracePeriod = 0 ∧
            (c.Options.WorkdaysOnly = false ∨
              isWorkday opts.Holidays opts.WeekendDays g.ActualDate)) := by
  rcases generated_dates opts res h g hg with ⟨hs, heq⟩ | ⟨c1, hc1, hp1, hov, hnov⟩
  · refine ⟨by rw [heq], fun c hc hp => ?_⟩
    rcases hs with hs | ⟨c1, hc1, hp1⟩
    · rw [hs] at hc; cases hc
    · rw [hc1] at hc; cases hc; exact absurd hp1 hp
  · constructor
    · cases hd : dateOverridden opts.Modifications g with
      | true => rw [hov hd]
      | false =>
        have hpay := hnov hd
        by_cases hz : g.ActualDate = 0
        · rw [hz, PaymentDate_zero] at hpay
          rw [hz, ← Option.some.inj hpay]
        · have := (PaymentDate_some _ _ _ _ _ hz _ hpay).1
          split at this <;> omega
    · intro c hc _ hgr hno hz
      rw [hc1] at hc
      cases hc
      obtain ⟨h1, h2, h3⟩ := PaymentDate_some _ _ _ _ _ hz _ (hnov hno)
      constructor
      · intro heq
        have hg0 : c1.Options.GracePeriod = 0 := by
          split at h1 <;> omega
        refine ⟨hg0, ?_⟩
        cases hwd : c1.Options.WorkdaysOnly with
        | false => exact Or.inl rfl
        | true => right; rw [← heq]; exact (h3 hwd).1
      · rintro ⟨hg0, hcase⟩
        have hs : (if c1.Options.GracePeriod > 0 then g.ActualDate + c1.Options.GracePeriod
            else g.ActualDate) = g.ActualDate := by
          rw [hg0]; simp
        rw [hs] at h1 h2 h3
        cases hwd : c1.Options.WorkdaysOnly with
        | false => exact h2 hwd
        | true =>
          rcases hcase with hcase | hcase
          · rw [hwd] at hcase; cases hcase
          · by_contra hne
            exact (h3 hwd).2 g.ActualDate (le_refl _)
              (lt_of_le_of_ne h1 (fun e => hne e.symm)) hcase

/-- C8, amended, at the first occurrence of the weekly entry with a grace period of 2 days:
the payment date 2023-01-03 is not earlier than the actual date 2023-01-01. -/
theorem payment_equals_actual_iff_witness :
    Generator { Data := [weeklyEntry 3 2],
                Modifications := [overrideDateAt 2 "2023-01-10"] } =
      some (.ok [⟨weeklyEntry 3 2, 1, Date 2023 1 1, Date 2023 1 3⟩,
                 ⟨weeklyEntry 3 2, 2, Date 2023 1 10, Date 2023 1 10⟩,
                 ⟨weeklyEntry 3 2, 3, Date 2023 1 15, Date 2023 1 17⟩]) ∧
      Date 2023 1 1 ≤ Date 2023 1 3 :=
  ⟨by rfl,
    (payment_equals_actual_iff
      { Data := [weeklyEntry 3 2], Modifications := [overrideDateAt 2 "2023-01-10"] }
      _ (by rfl) ⟨weeklyEntry 3 2, 1, Date 2023 1 1, Date 2023 1 3⟩
      (List.mem_cons_self _ _)).1⟩

/-! ## The loops read the options only through the fields other than `Data` -/

theorem emitOccurrence_congr (o1 o2 : GeneratorOptions)
    (hM : o1.Modifications = o2.Modifications) (hH : o1.Holidays = o2.Holidays)
    (hW : o1.WeekendDays = o2.WeekendDays) (entry : BaseEntry) (config : RecurrenceConfig)
    (d : Int) (st : GenState) :
    emitOccurrence o1 entry config d st = emitOccurrence o2 entry config d st := by
  unfold emitOccurrence
  rw [hM, hH, hW]

theorem emitInRange_congr (o1 o2 : GeneratorOptions)
    (hM : o1.Modifications = o2.Modifications) (hH : o1.Holidays = o2.Holidays)
    (hW : o1.WeekendDays = o2.WeekendDays) (hR : o1.Range = o2.Range) (entry : BaseEntry)
    (config : RecurrenceConfig) (d : Int) (st : GenState) :
    emitInRange o1 entry config d st = emitInRange o2 entry config d st := by
  unfold emitInRange
  rw [hR, emitOccurrence_congr o1 o2 hM hH hW]

theorem emitAll_congr (o1 o2 : GeneratorOptions)
    (hM : o1.Modifications = o2.Modifications) (hH : o1.Holidays = o2.Holidays)
    (hW : o1.WeekendDays = o2.WeekendDays) (hR : o1.Range = o2.Range) (entry : BaseEntry)
    (config : RecurrenceConfig) :
    ∀ (dates : List Int) (st : GenState),
      emitAll o1 entry config dates st = emitAll o2 entry config dates st := by
  intro dates
  induction dates with
  | nil => intro st; rfl
  | cons d dates ih =>
    intro st
    simp only [emitAll, emitInRange_congr o1 o2 hM hH hW hR, ih]

theorem eachTargetDate_congr (o1 o2 : GeneratorOptions)
    (hW : o1.WeekendDays = o2.WeekendDays) (config : RecurrenceConfig) (i : Int)
    (baseDate : Int) (s1 s2 : GenState) (hadj : s1.activeAdjustment = s2.activeAdjustment)
    (target : Int) :
    eachTargetDate o1 config i baseDate s1 target =
      eachTargetDate o2 config i baseDate s2 target := by
  unfold eachTargetDate GenState.adjust
  rw [hW, hadj]

theorem occurrenceDates_congr (o1 o2 : GeneratorOptions)
    (hW : o1.WeekendDays = o2.WeekendDays) (config : RecurrenceConfig) (i : Int)
    (baseDate : Int) (s1 s2 : GenState) (hadj : s1.activeAdjustment = s2.activeAdjustment) :
    occurrenceDates o1 config i baseDate s1 = occurrenceDates o2 config i baseDate s2 := by
  unfold occurrenceDates
  have : eachTargetDate o1 config i baseDate s1 = eachTargetDate o2 config i baseDate s2 :=
    funext (eachTargetDate_congr o1 o2 hW config i baseDate s1 s2 hadj)
  rw [this]

theorem cycleStep_congr (o1 o2 : GeneratorOptions)
    (hM : o1.Modifications = o2.Modifications) (hH : o1.Holidays = o2.Holidays)
    (hW : o1.WeekendDays = o2.WeekendDays) (hR : o1.Range = o2.Range) (entry : BaseEntry)
    (config : RecurrenceConfig) (i : Int) (st : GenState) :
    cycleStep o1 entry config i st = cycleStep o2 entry config i st := by
  unfold cycleStep
  simp only [emitInRange_congr o1 o2 hM hH hW hR, emitAll_congr o1 o2 hM hH hW hR,
    occurrenceDates_congr o1 o2 hW config i _ st st rfl, hW]

theorem runCycles_congr (o1 o2 : GeneratorOptions)
    (hM : o1.Modifications = o2.Modifications) (hH : o1.Holidays = o2.Holidays)
    (hW : o1.WeekendDays = o2.WeekendDays) (hR : o1.Range = o2.Range) (entry : BaseEntry)
    (config : RecurrenceConfig) :
    ∀ (n : Nat) (i : Int) (st : GenState),
      runCycles o1 entry config n i st = runCycles o2 entry config n i st := by
  intro n
  induction n with
  | zero => intro i st; rfl
  | succ n ih =>
    intro i st
    simp only [runCycles, cycleStep_congr o1 o2 hM hH hW hR, ih]

theorem processEntry_congr (o1 o2 : GeneratorOptions)
    (hM : o1.Modifications = o2.Modifications) (hH : o1.Holidays = o2.Holidays)
    (hW : o1.WeekendDays = o2.WeekendDays) (hR : o1.Range = o2.Range)
    (hX : o1.MaxIntervals = o2.MaxIntervals) (result : List GeneratedEntry)
    (entry : BaseEntry) : processEntry o1 result entry = processEntry o2 result entry := by
  unfold processEntry maxIntervalOf
  simp only [runCycles_congr o1 o2 hM hH hW hR, hR, hX]

theorem processEntries_congr (o1 o2 : GeneratorOptions)
    (hM : o1.Modifications = o2.Modifications) (hH : o1.Holidays = o2.Holidays)
    (hW : o1.WeekendDays = o2.WeekendDays) (hR : o1.Range = o2.Range)
    (hX : o1.MaxIntervals = o2.MaxIntervals) :
    ∀ (entries : List BaseEntry) (result : List GeneratedEntry),
      processEntries o1 entries result = processEntries o2 entries result := by
  intro entries
  induction entries with
  | nil => intro result; rfl
  | cons e es ih =>
    intro result
    simp only [processEntries, processEntry_congr o1 o2 hM hH hW hR hX, ih]

/-! ## The entries of one item do not depend on the result built before -/

theorem emitOccurrence_prepend (opts : GeneratorOptions) (entry : BaseEntry)
    (config : RecurrenceConfig) (pre : List GeneratedEntry) (d : Int) (st : GenState) :
    emitOccurrence opts entry config d (st.prepend pre) =
      (emitOccurrence opts entry config d st).map (GenState.prepend pre) := by
  unfold emitOccurrence
  cases PaymentDate d config.Options.GracePeriod opts.Holidays opts.WeekendDays
      config.Options.WorkdaysOnly with
  | none => rfl
  | some p =>
    have hidx : (GenState.prepend pre st).index = st.index := rfl
    simp only [hidx]
    by_cases hdel : (applyModifications entry (st.index + 1) opts.Modifications
        { Entry := entry, Index := st.index + 1, ActualDate := d, PaymentDate := p }).shouldDelete
        = true
    · simp [hdel, GenState.prepend, List.append_assoc]
    · simp [hdel, GenState.prepend, List.append_assoc]

theorem emitInRange_prepend (opts : GeneratorOptions) (entry : BaseEntry)
    (config : RecurrenceConfig) (pre : List GeneratedEntry) (d : Int) (st : GenState) :
    emitInRange opts entry config d (st.prepend pre) =
      (emitInRange opts entry config d st).map (GenState.prepend pre) := by
  unfold emitInRange
  split
  · rfl
  · exact emitOccurrence_prepend opts entry config pre d st

theorem emitAll_prepend (opts : GeneratorOptions) (entry : BaseEntry)
    (config : RecurrenceConfig) (pre : List GeneratedEntry) :
    ∀ (dates : List Int) (st : GenState),
      emitAll opts entry config dates (st.prepend pre) =
        (emitAll opts entry config dates st).map (GenState.prepend pre) := by
  intro dates
  induction dates with
  | nil => intro st; rfl
  | cons d dates ih =>
    intro st
    simp only [emitAll, emitInRange_prepend]
    cases emitInRange opts entry config d st with
    | none => rfl
    | some st1 =>
      simp only [Option.map_some']
      have : (GenState.prepend pre st1).deleteRest = st1.deleteRest := rfl
      rw [this]
      split
      · rfl
      · exact ih st1

theorem cycleStep_prepend (opts : GeneratorOptions) (entry : BaseEntry)
    (config : RecurrenceConfig) (pre : List GeneratedEntry) (i : Int) (st : GenState) :
    cycleStep opts entry config i (st.prepend pre) =
      (cycleStep opts entry config i st).map (GenState.prepend pre) := by
  have hadjust : ∀ d, (st.prepend pre).adjust d = st.adjust d := fun _ => rfl
  have hdates : ∀ b, occurrenceDates opts config i b (st.prepend pre) =
      occurrenceDates opts config i b st :=
    fun b => occurrenceDates_congr opts opts rfl config i b _ _ rfl
  unfold cycleStep
  simp only [hadjust, hdates, emitInRange_prepend, emitAll_prepend]
  split
  · rfl
  · split
    · rfl
    · split
      · split
        · rfl
        · split
          · rfl
          · rfl
      · rfl

theorem runCycles_prepend (opts : GeneratorOptions) (entry : BaseEntry)
    (config : RecurrenceConfig) (pre : List GeneratedEntry) :
    ∀ (n : Nat) (i : Int) (st : GenState),
      runCycles opts entry config n i (st.prepend pre) =
        (runCycles opts entry config n i st).map (GenState.prepend pre) := by
  intro n
  induction n with
  | zero => intro i st; rfl
  | succ n ih =>
    intro i st
    simp only [runCycles, cycleStep_prepend]
    cases cycleStep opts entry config i st with
    | none => rfl
    | some st1 =>
      simp only [Option.map_some']
      have : (GenState.prepend pre st1).deleteRest = st1.deleteRest := rfl
      rw [this]
      split
      · rfl
      · exact ih (i + 1) st1

/-- The result after an entry is the result before it followed by the entries that the
entry yields on its own. -/
theorem processEntry_prepend (opts : GeneratorOptions) (pre : List GeneratedEntry)
    (entry : BaseEntry) :
    processEntry opts pre entry = (processEntry opts [] entry).map (fun seg => pre ++ seg) := by
  rcases entry_single_or_recurring entry with hs | ⟨c, hc, hp⟩
  · rw [processEntry_single opts pre entry hs, processEntry_single opts [] entry hs]
    split <;> simp
  · rw [processEntry_recurring opts pre entry c hc hp,
      processEntry_recurring opts [] entry c hc hp]
    have h := runCycles_prepend opts entry c pre (maxIntervalOf opts c).toNat 0
      { result := [], index := 0, applyToRestPayload := none, dateAdjustment := none,
        deleteRest := false }
    have e : GenState.prepend pre
        { result := [], index := 0, applyToRestPayload := none, dateAdjustment := none,
          deleteRest := false } =
        { result := pre, index := 0, applyToRestPayload := none, dateAdjustment := none,
          deleteRest := false } := by
      simp [GenState.prepend]
    rw [e] at h
    rw [h]
    cases runCycles opts entry c (maxIntervalOf opts c).toNat 0
        { result := [], index := 0, applyToRestPayload := none, dateAdjustment := none,
          deleteRest := false } with
    | none => rfl
    | some st => rfl

theorem processEntries_prepend (opts : GeneratorOptions) :
    ∀ (entries : List BaseEntry) (pre : List GeneratedEntry),
      processEntries opts entries pre =
        (processEntries opts entries []).map (fun seg => pre ++ seg) := by
  intro entries
  induction entries with
  | nil => intro pre; simp [processEntries]
  | cons e es ih =>
    intro pre
    simp only [processEntries]
    rw [processEntry_prepend opts pre e]
    cases h : processEntry opts [] e with
    | none => rfl
    | some seg =>
      simp only [Option.map_some']
      rw [ih (pre ++ seg), ih seg]
      cases processEntries opts es [] with
      | none => rfl
      | some r => simp [List.append_assoc]

theorem processEntries_append (opts : GeneratorOptions) :
    ∀ (A B : List BaseEntry) (result : List GeneratedEntry),
      processEntries opts (A ++ B) result =
        (processEntries opts A result).bind (processEntries opts B) := by
  intro A
  induction A with
  | nil => intro B result; rfl
  | cons e es ih =>
    intro B result
    simp only [List.cons_append, processEntries]
    cases processEntry opts result e with
    | none => rfl
    | some r => exact ih B r

theorem validateEntries_append (W : List Int) :
    ∀ (A B : List BaseEntry), validateEntries W A = none → validateEntries W B = none →
      validateEntries W (A ++ B) = none := by
  intro A
  induction A with
  | nil => intro B _ hB; exact hB
  | cons e es ih =>
    intro B hA hB
    simp only [List.cons_append, validateEntries] at hA ⊢
    cases hv : validateEntry W e with
    | some err => rw [hv] at hA; cases hA
    | none => rw [hv] at hA; exact ih B hA hB

/-- C6. When `Generator` returns entries for the items `A` and for the items `B` (both pass
validation), with the same modifications, holidays, weekend days, caps and range, it returns
for `A ++ B` the entries for `A` followed by the entries for `B`. -/
theorem Generator_append (opts : GeneratorOptions) (A B : List BaseEntry)
    (ra rb : List GeneratedEntry)
    (hA : Generator { opts with Data := A } = some (.ok ra))
    (hB : Generator { opts with Data := B } = some (.ok rb)) :
    Generator { opts with Data := A ++ B } = some (.ok (ra ++ rb)) := by
  obtain ⟨hvA, hpA⟩ := Generator_ok _ _ hA
  obtain ⟨hvB, hpB⟩ := Generator_ok _ _ hB
  have hpA1 : processEntries { opts with Data := A ++ B } A [] = some ra := by
    rw [processEntries_congr { opts with Data := A ++ B } { opts with Data := A }
      rfl rfl rfl rfl rfl]
    exact hpA
  have hpB1 : processEntries { opts with Data := A ++ B } B [] = some rb := by
    rw [processEntries_congr { opts with Data := A ++ B } { opts with Data := B }
      rfl rfl rfl rfl rfl]
    exact hpB
  unfold Generator
  have hv : validateEntries opts.WeekendDays (A ++ B) = none :=
    validateEntries_append _ A B hvA hvB
  simp only [hv]
  rw [processEntries_append, hpA1]
  simp only [Option.some_bind]
  rw [processEntries_prepend, hpB1]
  rfl

/-- C6, at the two entries of the test `Multiple entries`: three monthly occurrences followed
by two weekly ones. -/
theorem Generator_append_witness :
    Generator { Data := [monthlyEntry 3 0] ++ [weeklyEntry 2 0] } =
      some (.ok ([⟨monthlyEntry 3 0, 1, Date 2023 1 15, Date 2023 1 15⟩,
                  ⟨monthlyEntry 3 0, 2, Date 2023 2 15, Date 2023 2 15⟩,
                  ⟨monthlyEntry 3 0, 3, Date 2023 3 15, Date 2023 3 15⟩] ++
                 [⟨weeklyEntry 2 0, 1, Date 2023 1 1, Date 2023 1 1⟩,
                  ⟨weeklyEntry 2 0, 2, Date 2023 1 8, Date 2023 1 8⟩])) :=
  Generator_append { Data := [] } [monthlyEntry 3 0] [weeklyEntry 2 0] _ _ (by rfl) (by rfl)

/-! ## Deletions -/

theorem firstDeleting_cons (m : Modification) (mods : List Modification) (entry : BaseEntry)
    (n : Int) :
    firstDeleting (m :: mods) entry n =
      if m.ItemID.format = entry.ID.format ∧ m.Index = n ∧
          m.Payload.deleted = some (Value.bool true) then some m
      else firstDeleting mods entry n := by
  unfold firstDeleting
  rw [List.find?_cons]
  by_cases h : m.ItemID.format = entry.ID.format ∧ m.Index = n ∧
      m.Payload.deleted = some (Value.bool true)
  · rw [if_pos h]
    simp [h.1, h.2.1, h.2.2]
  · rw [if_neg h]
    have hf : (decide (m.ItemID.format = entry.ID.format) && decide (m.Index = n) &&
        decide (m.Payload.deleted = some (Value.bool true))) = false := by
      by_contra hne
      simp only [Bool.not_eq_false, Bool.and_eq_true, decide_eq_true_eq] at hne
      exact h ⟨hne.1.1, hne.1.2, hne.2⟩
    rw [hf]

/-- Whether `applyModifications` deletes the occurrence, and whether the deletion cascades,
is decided by the first matching modification whose payload has `deleted = true`. -/
theorem applyModificationsLoop_delete (entry : BaseEntry) (index : Int) :
    ∀ (mods : List Modification) (rest : Option PayloadMap) (adj : Option DateAdjustment)
      (last : GeneratedEntry),
      (applyModificationsLoop entry index mods rest adj last).shouldDelete =
          deletedAt mods entry index ∧
        (applyModificationsLoop entry index mods rest adj last).deleteFuture =
          cascadesAt mods entry index := by
  intro mods
  induction mods with
  | nil => intro rest adj last; exact ⟨rfl, rfl⟩
  | cons m mods ih =>
    intro rest adj last
    rw [applyModificationsLoop]
    unfold deletedAt cascadesAt
    rw [firstDeleting_cons]
    have hih : ∀ rest1 adj1 last1,
        (applyModificationsLoop entry index mods rest1 adj1 last1).shouldDelete =
          (firstDeleting mods entry index).isSome ∧
        (applyModificationsLoop entry index mods rest1 adj1 last1).deleteFuture =
          (match firstDeleting mods entry index with
          | some m => m.deletesRest
          | none => false) := ih
    by_cases hmatch : m.ItemID.format = entry.ID.format ∧ m.Index = index
    · rw [if_pos hmatch]
      by_cases hdel : m.Payload.deleted = some (Value.bool true)
      · rw [if_pos hdel, if_pos ⟨hmatch.1, hmatch.2, hdel⟩]
        exact ⟨rfl, rfl⟩
      · have hnf : ¬ (m.ItemID.format = entry.ID.format ∧ m.Index = index ∧
            m.Payload.deleted = some (Value.bool true)) := fun hh => hdel hh.2.2
        rw [if_neg hnf, if_neg hdel]
        by_cases hl : m.Payload.len > 0 ∨ m.restLen > 0
        · rw [if_pos hl]
          cases m.modifiedDate with
          | none => exact hih _ _ _
          | some dt => exact hih _ _ _
        · rw [if_neg hl]
          exact hih _ _ _
    · have hnf : ¬ (m.ItemID.format = entry.ID.format ∧ m.Index = index ∧
          m.Payload.deleted = some (Value.bool true)) := fun hh => hmatch ⟨hh.1, hh.2.1⟩
      rw [if_neg hnf, if_neg hmatch]
      exact hih _ _ _

/-- A cascading deletion is a deletion. -/
theorem deletedAt_of_cascadesAt (mods : List Modification) (entry : BaseEntry) (n : Int)
    (h : cascadesAt mods entry n = true) : deletedAt mods entry n = true := by
  unfold cascadesAt at h
  unfold deletedAt
  cases hf : firstDeleting mods entry n with
  | none => rw [hf] at h; cases h
  | some m => rfl

/-- C2, as stated, fails: the monthly entry with a modification at index 2 whose rest payload
has `deleted = true` while its payload does not; nothing is deleted, occurrences 2 to 5 are
returned. -/
theorem rest_deleted_alone_deletes_nothing :
    Generator { Data := [monthlyEntry 5 0],
                Modifications := [{ ItemID := .int 1, Index := 2,
                                    RestPayload := some { deleted := some (.bool true) } }] } =
      some (.ok [⟨monthlyEntry 5 0, 1, Date 2023 1 15, Date 2023 1 15⟩,
                 ⟨monthlyEntry 5 0, 2, Date 2023 2 15, Date 2023 2 15⟩,
                 ⟨monthlyEntry 5 0, 3, Date 2023 3 15, Date 2023 3 15⟩,
                 ⟨monthlyEntry 5 0, 4, Date 2023 4 15, Date 2023 4 15⟩,
                 ⟨monthlyEntry 5 0, 5, Date 2023 5 15, Date 2023 5 15⟩]) := by
  rfl

/-- C2, amended. For every recurring item (period other than none) and every index
`n >= 1`: when the first modification of the list that targets the item at index `n` with
`deleted = true` in its payload has `deleted = true` in its rest payload too, `Generator`
returns no occurrence of the item with an index of `n` or more. -/
theorem cascade_removes_from_index (opts : GeneratorOptions) (res : List GeneratedEntry)
    (h : Generator opts = some (.ok res)) (g : GeneratedEntry) (hg : g ∈ res)
    (c : RecurrenceConfig) (hc : g.Entry.Config = some c) (hp : c.Period ≠ PeriodNone)
    (n : Int) (hn1 : 1 ≤ n) (hn : cascadesAt opts.Modifications g.Entry n = true) :
    g.Index < n := by
  refine processEntries_forall_of_invariant opts
    (fun g => ∀ c, g.Entry.Config = some c → c.Period ≠ PeriodNone →
      ∀ n, 1 ≤ n → cascadesAt opts.Modifications g.Entry n = true → g.Index < n)
    (fun entry st =>
      (∀ g ∈ st.result, ∀ c, g.Entry.Config = some c → c.Period ≠ PeriodNone →
        ∀ n, 1 ≤ n → cascadesAt opts.Modifications g.Entry n = true → g.Index < n) ∧
      (st.deleteRest = false →
        ∀ n, 1 ≤ n → cascadesAt opts.Modifications entry n = true → st.index < n))
    ?_ ?_ ?_ (fun _ _ hP => hP.1) opts.Data [] res (fun g hg => by cases hg)
    (Generator_ok opts res h).2 g hg c hc hp n hn1 hn
  · intro entry hs c hc hp
    rcases hs with hs | ⟨c1, hc1, hp1⟩
    · rw [hs] at hc; cases hc
    · simp only at hc
      rw [hc1] at hc; cases hc; exact absurd hp1 hp
  · intro entry config result _ _ hQ
    exact ⟨hQ, fun _ n hn _ => by show (0 : Int) < n; omega⟩
  · intro entry config _ _ d st st1 hP hlive hemit
    obtain ⟨p, r, _, hr, hidx, hcase⟩ := emitOccurrence_some opts entry config d st st1 hemit
    have hdel := applyModificationsLoop_delete entry (st.index + 1) opts.Modifications none none
      { Entry := entry, Index := st.index + 1, ActualDate := d, PaymentDate := p }
    have hlast := applyModificationsLoop_lastEntry entry (st.index + 1) opts.Modifications
      none none { Entry := entry, Index := st.index + 1, ActualDate := d, PaymentDate := p }
    have hr1 : r = applyModificationsLoop entry (st.index + 1) opts.Modifications none none
        { Entry := entry, Index := st.index + 1, ActualDate := d, PaymentDate := p } := hr
    rw [← hr1] at hdel hlast
    have hnext : r.deleteFuture = false → ∀ n, 1 ≤ n →
        cascadesAt opts.Modifications entry n = true → st.index + 1 < n := by
      intro hfut n hn1 hcn
      have h1 := hP.2 hlive n hn1 hcn
      have h2 : n ≠ st.index + 1 := by
        intro e
        rw [e, ← hdel.2, hfut] at hcn
        cases hcn
      omega
    rcases hcase with ⟨_, hres, hdr, _⟩ | ⟨hnd, hres, hdr, _⟩
    · refine ⟨by rw [hres]; exact hP.1, fun hlive1 => ?_⟩
      rw [hidx]
      exact hnext (by rw [← hdr]; exact hlive1)
    · have hfut : r.deleteFuture = false := by
        cases hcf : r.deleteFuture with
        | false => rfl
        | true =>
          rw [hdel.2] at hcf
          have := deletedAt_of_cascadesAt _ _ _ hcf
          rw [← hdel.1, hnd] at this
          cases this
      refine ⟨fun g hg => ?_, fun _ => by rw [hidx]; exact hnext hfut⟩
      rw [hres] at hg
      rcases List.mem_append.1 hg with hg | hg
      · exact hP.1 g hg
      · rw [List.mem_singleton] at hg
        subst hg
        intro c _ _ n hn1 hcn
        rw [hlast.1] at hcn
        rw [hlast.2.1]
        exact hnext hfut n hn1 hcn

/-- C2, amended, at the weekly entry of `TestModifications`: occurrence 3 is deleted and the
deletion of occurrence 4 cascades; the two entries returned have an index below 4. -/
theorem cascade_removes_from_index_witness :
    Generator { Data := [weeklyEntry 5 0],
                Modifications := [deleteAt 3 false, deleteAt 4 true] } =
      some (.ok [⟨weeklyEntry 5 0, 1, Date 2023 1 1, Date 2023 1 1⟩,
                 ⟨weeklyEntry 5 0, 2, Date 2023 1 8, Date 2023 1 8⟩]) ∧
      (2 : Int) < 4 :=
  ⟨by rfl,
    cascade_removes_from_index
      { Data := [weeklyEntry 5 0], Modifications := [deleteAt 3 false, deleteAt 4 true] }
      _ (by rfl) ⟨weeklyEntry 5 0, 2, Date 2023 1 8, Date 2023 1 8⟩
      (List.mem_cons_of_mem _ (List.mem_cons_self _ _))
      { Start := Date 2023 1 1, Interval := 5, Period := PeriodWeek,
        Options := { Every := 1, GracePeriod := 0 } }
      rfl (by decide) 4 (by decide) (by decide)⟩

/-! ## The entries of each item, and their indices -/

/-- What the loop over the items returns is the concatenation, in input order, of what each
item yields on its own. -/
theorem processEntries_segments (opts : GeneratorOptions) :
    ∀ (entries : List BaseEntry) (res : List GeneratedEntry),
      processEntries opts entries [] = some res →
      ∃ segs : List (List GeneratedEntry), res = segs.flatten ∧
        List.Forall₂ (fun entry seg => processEntry opts [] entry = some seg) entries segs := by
  intro entries
  induction entries with
  | nil =>
    intro res h
    simp only [processEntries] at h
    cases h
    exact ⟨[], rfl, List.Forall₂.nil⟩
  | cons e es ih =>
    intro res h
    simp only [processEntries] at h
    cases hpe : processEntry opts [] e with
    | none => rw [hpe] at h; cases h
    | some seg =>
      rw [hpe] at h
      simp only at h
      rw [processEntries_prepend] at h
      cases hrest : processEntries opts es [] with
      | none => rw [hrest] at h; cases h
      | some r =>
        rw [hrest] at h
        cases h
        obtain ⟨segs, hjoin, hall⟩ := ih r hrest
        refine ⟨seg :: segs, ?_, List.Forall₂.cons hpe hall⟩
        show seg ++ r = (seg :: segs).flatten
        rw [List.flatten_cons, hjoin]

/-- The numbers 1..k without those of the deleted occurrences. -/
theorem counted_succ (del : Int → Bool) (k : Int) (hk : 0 ≤ k) :
    ((List.range (k + 1).toNat).map (fun j : Nat => (j : Int) + 1)).filter
        (fun n => !del n) =
      ((List.range k.toNat).map (fun j : Nat => (j : Int) + 1)).filter (fun n => !del n) ++
        (if del (k + 1) then [] else [k + 1]) := by
  have e : (k + 1).toNat = k.toNat + 1 := by omega
  rw [e, List.range_succ, List.map_append, List.filter_append]
  congr 1
  have e2 : ((k.toNat : Int) + 1) = k + 1 := by omega
  simp only [List.map_cons, List.map_nil, e2]
  cases hd : del (k + 1) <;> simp [hd]

/-- The indices of the entries of a recurring item: the numbers 1..K of the occurrences
counted, without those that a modification deletes. -/
theorem processEntry_recurring_indices (opts : GeneratorOptions) (entry : BaseEntry)
    (config : RecurrenceConfig) (hc : entry.Config = some config)
    (hp : config.Period ≠ PeriodNone) (seg : List GeneratedEntry)
    (h : processEntry opts [] entry = some seg) :
    (∀ g ∈ seg, g.Entry = entry) ∧
      ∃ K : Nat, seg.map (fun g => g.Index) =
        ((List.range K).map (fun j : Nat => (j : Int) + 1)).filter
          (fun n => !deletedAt opts.Modifications entry n) := by
  rw [processEntry_recurring opts [] entry config hc hp] at h
  cases hrun : runCycles opts entry config (maxIntervalOf opts config).toNat 0
      { result := [], index := 0, applyToRestPayload := none, dateAdjustment := none,
        deleteRest := false } with
  | none => rw [hrun] at h; cases h
  | some st =>
    rw [hrun] at h
    cases h
    have hinv := runCycles_invariant opts entry config
      (fun st => 0 ≤ st.index ∧ (∀ g ∈ st.result, g.Entry = entry) ∧
        st.result.map (fun g => g.Index) =
          ((List.range st.index.toNat).map (fun j : Nat => (j : Int) + 1)).filter
            (fun n => !deletedAt opts.Modifications entry n))
      ?_ _ 0 { result := [], index := 0, applyToRestPayload := none, dateAdjustment := none,
               deleteRest := false } st
      (And.intro (le_refl _) (And.intro (fun g hg => by cases hg) rfl)) rfl hrun
    · exact ⟨hinv.2.1, st.index.toNat, hinv.2.2⟩
    · intro d s s1 hP _ hemit
      obtain ⟨p, r, _, hr, hidx, hcase⟩ := emitOccurrence_some opts entry config d s s1 hemit
      have hdel := applyModificationsLoop_delete entry (s.index + 1) opts.Modifications none
        none { Entry := entry, Index := s.index + 1, ActualDate := d, PaymentDate := p }
      have hlast := applyModificationsLoop_lastEntry entry (s.index + 1) opts.Modifications
        none none { Entry := entry, Index := s.index + 1, ActualDate := d, PaymentDate := p }
      have hr1 : r = applyModificationsLoop entry (s.index + 1) opts.Modifications none none
          { Entry := entry, Index := s.index + 1, ActualDate := d, PaymentDate := p } := hr
      rw [← hr1] at hdel hlast
      obtain ⟨h0, hE, hI⟩ := hP
      refine ⟨by omega, ?_, ?_⟩
      · rcases hcase with ⟨_, hres, _⟩ | ⟨_, hres, _⟩
        · rw [hres]; exact hE
        · rw [hres]
          intro g hg
          rcases List.mem_append.1 hg with hg | hg
          · exact hE g hg
          · rw [List.mem_singleton] at hg; rw [hg]; exact hlast.1
      · rw [hidx, counted_succ _ _ h0, ← hI]
        rcases hcase with ⟨hsd, hres, _⟩ | ⟨hsd, hres, _⟩
        · rw [hres, ← hdel.1, hsd]; simp
        · rw [hres, ← hdel.1, hsd, List.map_append]
          simp [hlast.2.1]

/-- The entries of an item without recurrence: none, or one entry with index 1. -/
theorem processEntry_single_indices (opts : GeneratorOptions) (entry : BaseEntry)
    (hs : entry.Config = none ∨ ∃ c, entry.Config = some c ∧ c.Period = PeriodNone)
    (seg : List GeneratedEntry) (h : processEntry opts [] entry = some seg) :
    (∀ g ∈ seg, g.Entry = entry) ∧
      (seg.map (fun g => g.Index) = [] ∨ seg.map (fun g => g.Index) = [1]) := by
  rw [processEntry_single opts [] entry hs] at h
  split at h
  · cases h
    constructor
    · intro g hg
      simp only [List.nil_append, List.mem_singleton] at hg
      rw [hg]
    · exact Or.inr rfl
  · cases h
    constructor
    · intro g hg; cases hg
    · exact Or.inl rfl

/-- The numbers 1..K, filtered, are positive and strictly increasing. -/
theorem counted_sorted (keep : Int → Bool) (K : Nat) :
    (∀ n ∈ ((List.range K).map (fun j : Nat => (j : Int) + 1)).filter keep, 1 ≤ n) ∧
      List.Pairwise (fun a b => a < b)
        (((List.range K).map (fun j : Nat => (j : Int) + 1)).filter keep) := by
  constructor
  · intro n hn
    have := (List.mem_filter.1 hn).1
    rw [List.mem_map] at this
    obtain ⟨j, _, rfl⟩ := this
    omega
  · apply List.Pairwise.filter
    rw [List.pairwise_map]
    exact (List.pairwise_lt_range K).imp (fun h => by omega)

/-- C1, as stated, fails: the weekly entry with five occurrences and a modification that
deletes occurrence 3 alone; the counter is not decremented, the entries returned have the
indices 1, 2, 4, 5. -/
theorem deleted_index_not_reused :
    Generator { Data := [weeklyEntry 5 0], Modifications := [deleteAt 3 false] } =
      some (.ok [⟨weeklyEntry 5 0, 1, Date 2023 1 1, Date 2023 1 1⟩,
                 ⟨weeklyEntry 5 0, 2, Date 2023 1 8, Date 2023 1 8⟩,
                 ⟨weeklyEntry 5 0, 4, Date 2023 1 22, Date 2023 1 22⟩,
                 ⟨weeklyEntry 5 0, 5, Date 2023 1 29, Date 2023 1 29⟩]) := by
  rfl

/-- C1, amended. What `Generator` returns is the concatenation, in input order, of one
segment for each item, and in the segment of an item: every entry is an entry of the item
with an index of 1 or more; the indices are strictly increasing in output order; they are
exactly 1, 2, ..., k when no modification deletes an occurrence of the item; and for a
recurring item they are the numbers 1..K of the occurrences counted without the numbers of
the deleted occurrences: a deleted occurrence keeps its number, the counter is not
decremented. -/
theorem generated_indices (opts : GeneratorOptions) (res : List GeneratedEntry)
    (h : Generator opts = some (.ok res)) :
    ∃ segs : List (List GeneratedEntry), res = segs.flatten ∧
      List.Forall₂ (fun entry seg =>
        (∀ g ∈ seg, g.Entry = entry ∧ 1 ≤ g.Index) ∧
        List.Pairwise (fun a b => a < b) (seg.map (fun g => g.Index)) ∧
        ((∀ n, deletedAt opts.Modifications entry n = false) →
          seg.map (fun g => g.Index) =
            (List.range seg.length).map (fun j : Nat => (j : Int) + 1)) ∧
        (∀ c, entry.Config = some c → c.Period ≠ PeriodNone →
          ∃ K : Nat, seg.map (fun g => g.Index) =
            ((List.range K).map (fun j : Nat => (j : Int) + 1)).filter
              (fun n => !deletedAt opts.Modifications entry n))) opts.Data segs := by
  obtain ⟨segs, hflat, hall⟩ := processEntries_segments opts opts.Data res
    (Generator_ok opts res h).2
  refine ⟨segs, hflat, hall.imp ?_⟩
  intro entry seg hseg
  rcases entry_single_or_recurring entry with hs | ⟨c, hc, hp⟩
  · obtain ⟨hE, hI⟩ := processEntry_single_indices opts entry hs seg hseg
    have hlen : seg.length = (seg.map (fun g => g.Index)).length := by simp
    refine ⟨fun g hg => ⟨hE g hg, ?_⟩, ?_, fun _ => ?_, fun c hc hp => ?_⟩
    · have hmem : g.Index ∈ seg.map (fun g => g.Index) := List.mem_map_of_mem _ hg
      rcases hI with hI | hI
      · rw [hI] at hmem; cases hmem
      · rw [hI, List.mem_singleton] at hmem; omega
    · rcases hI with hI | hI <;> rw [hI] <;> simp
    · rcases hI with hI | hI
      · rw [hlen, hI]; rfl
      · rw [hlen, hI]; rfl
    · rcases hs with hs | ⟨c1, hc1, hp1⟩
      · rw [hs] at hc; cases hc
      · rw [hc1] at hc; cases hc; exact absurd hp1 hp
  · obtain ⟨hE, K, hI⟩ := processEntry_recurring_indices opts entry c hc hp seg hseg
    obtain ⟨hpos, hsorted⟩ := counted_sorted (fun n => !deletedAt opts.Modifications entry n) K
    refine ⟨fun g hg => ⟨hE g hg, ?_⟩, ?_, fun hno => ?_, fun _ _ _ => ⟨K, hI⟩⟩
    · apply hpos
      rw [← hI]
      exact List.mem_map_of_mem _ hg
    · rw [hI]; exact hsorted
    · have hall1 : ((List.range K).map (fun j : Nat => (j : Int) + 1)).filter
          (fun n => !deletedAt opts.Modifications entry n) =
          (List.range K).map (fun j : Nat => (j : Int) + 1) := by
        rw [List.filter_eq_self]
        intro n _
        rw [hno n]; rfl
      rw [hall1] at hI
      have hlen : seg.length = K := by
        have := congrArg List.length hI
        simpa using this
      rw [hlen]; exact hI

/-- C1, amended, at the weekly entry with occurrence 3 deleted: the four entries returned
form the one segment of the item. -/
theorem generated_indices_witness :
    ∃ segs : List (List GeneratedEntry),
      [(⟨weeklyEntry 5 0, 1, Date 2023 1 1, Date 2023 1 1⟩ : GeneratedEntry),
       ⟨weeklyEntry 5 0, 2, Date 2023 1 8, Date 2023 1 8⟩,
       ⟨weeklyEntry 5 0, 4, Date 2023 1 22, Date 2023 1 22⟩,
       ⟨weeklyEntry 5 0, 5, Date 2023 1 29, Date 2023 1 29⟩] = segs.flatten ∧
      segs.length = 1 :=
  (generated_indices { Data := [weeklyEntry 5 0], Modifications := [deleteAt 3 false] } _
    (by rfl)).imp (fun _ hs => ⟨hs.1, hs.2.length_eq.symm⟩)

/-! ## Two runs of the loops side by side -/

theorem emitAll_singleton (opts : GeneratorOptions) (entry : BaseEntry)
    (config : RecurrenceConfig) (d : Int) (st : GenState) :
    emitAll opts entry config [d] st = emitInRange opts entry config d st := by
  simp only [emitAll]
  cases emitInRange opts entry config d st with
  | none => rfl
  | some st1 => simp

/-- A cycle emits its dates one after the other. -/
theorem cycleStep_eq_emitAll (opts : GeneratorOptions) (entry : BaseEntry)
    (config : RecurrenceConfig) (i : Int) (st : GenState) :
    cycleStep opts entry config i st =
      emitAll opts entry config (cycleDates opts config i st) st := by
  unfold cycleStep cycleDates
  simp only
  split
  · rw [emitAll_singleton]
  · split
    · rfl
    · split
      · split
        · rfl
        · split
          · rfl
          · rw [emitAll_singleton]
      · rw [emitAll_singleton]

theorem cycleDates_congr (o1 o2 : GeneratorOptions) (hW : o1.WeekendDays = o2.WeekendDays)
    (config : RecurrenceConfig) (i : Int) (s1 s2 : GenState)
    (hadj : s1.activeAdjustment = s2.activeAdjustment) :
    cycleDates o1 config i s1 = cycleDates o2 config i s2 := by
  unfold cycleDates GenState.adjust
  simp only [hadj, hW, occurrenceDates_congr o1 o2 hW config i _ s1 s2 hadj]

section Simulation

variable (o1 o2 : GeneratorOptions) (entry : BaseEntry) (config : RecurrenceConfig)
variable (R : GenState → GenState → Prop)

theorem emitAll_frozen
    (hR : ∀ s1 s2, R s1 s2 → s1.deleteRest = false ∧
      (s2.deleteRest = false → s1.activeAdjustment = s2.activeAdjustment))
    (hstep : ∀ d s1 s2 t1, R s1 s2 → emitInRange o1 entry config d s1 = some t1 →
      (s2.deleteRest = false → ∃ t2, emitInRange o2 entry config d s2 = some t2 ∧ R t1 t2) ∧
      (s2.deleteRest = true → R t1 s2)) :
    ∀ (dates : List Int) (s1 s2 t1 : GenState), R s1 s2 → s2.deleteRest = true →
      emitAll o1 entry config dates s1 = some t1 → R t1 s2 := by
  intro dates
  induction dates with
  | nil => intro s1 s2 t1 h _ he; simp only [emitAll] at he; cases he; exact h
  | cons d dates ih =>
    intro s1 s2 t1 h hf he
    simp only [emitAll] at he
    cases hd : emitInRange o1 entry config d s1 with
    | none => rw [hd] at he; cases he
    | some u1 =>
      rw [hd] at he
      have hu := (hstep d s1 s2 u1 h hd).2 hf
      have hlive := (hR u1 s2 hu).1
      simp only [hlive] at he
      exact ih u1 s2 t1 hu hf he

theorem emitAll_live
    (hR : ∀ s1 s2, R s1 s2 → s1.deleteRest = false ∧
      (s2.deleteRest = false → s1.activeAdjustment = s2.activeAdjustment))
    (hstep : ∀ d s1 s2 t1, R s1 s2 → emitInRange o1 entry config d s1 = some t1 →
      (s2.deleteRest = false → ∃ t2, emitInRange o2 entry config d s2 = some t2 ∧ R t1 t2) ∧
      (s2.deleteRest = true → R t1 s2)) :
    ∀ (dates : List Int) (s1 s2 t1 : GenState), R s1 s2 → s2.deleteRest = false →
      emitAll o1 entry config dates s1 = some t1 →
      ∃ t2, emitAll o2 entry config dates s2 = some t2 ∧ R t1 t2 := by
  intro dates
  induction dates with
  | nil =>
    intro s1 s2 t1 h _ he
    simp only [emitAll] at he
    cases he
    exact ⟨s2, rfl, h⟩
  | cons d dates ih =>
    intro s1 s2 t1 h hl he
    simp only [emitAll] at he ⊢
    cases hd : emitInRange o1 entry config d s1 with
    | none => rw [hd] at he; cases he
    | some u1 =>
      rw [hd] at he
      obtain ⟨u2, hu2, hu⟩ := (hstep d s1 s2 u1 h hd).1 hl
      have hlive := (hR u1 u2 hu).1
      simp only [hlive] at he
      rw [hu2]
      cases hdel : u2.deleteRest with
      | true =>
        simp only [hdel, if_true]
        exact ⟨u2, rfl, emitAll_frozen o1 o2 entry config R hR hstep dates u1 u2 t1 hu hdel he⟩
      | false =>
        simp only [hdel, Bool.false_eq_true, if_false]
        exact ih u1 u2 t1 hu hdel he

theorem runCycles_frozen
    (hR : ∀ s1 s2, R s1 s2 → s1.deleteRest = false ∧
      (s2.deleteRest = false → s1.activeAdjustment = s2.activeAdjustment))
    (hstep : ∀ d s1 s2 t1, R s1 s2 → emitInRange o1 entry config d s1 = some t1 →
      (s2.deleteRest = false → ∃ t2, emitInRange o2 entry config d s2 = some t2 ∧ R t1 t2) ∧
      (s2.deleteRest = true → R t1 s2)) :
    ∀ (n : Nat) (i : Int) (s1 s2 t1 : GenState), R s1 s2 → s2.deleteRest = true →
      runCycles o1 entry config n i s1 = some t1 → R t1 s2 := by
  intro n
  induction n with
  | zero => intro i s1 s2 t1 h _ he; simp only [runCycles] at he; cases he; exact h
  | succ n ih =>
    intro i s1 s2 t1 h hf he
    simp only [runCycles, cycleStep_eq_emitAll] at he
    cases hd : emitAll o1 entry config (cycleDates o1 config i s1) s1 with
    | none => rw [hd] at he; cases he
    | some u1 =>
      rw [hd] at he
      have hu := emitAll_frozen o1 o2 entry config R hR hstep _ s1 s2 u1 h hf hd
      have hlive := (hR u1 s2 hu).1
      simp only [hlive] at he
      exact ih (i + 1) u1 s2 t1 hu hf he

/-- The second run follows the first: from related states, when the first run of the cycles
returns, the second returns as well, in a related state. -/
theorem runCycles_live (hW : o1.WeekendDays = o2.WeekendDays)
    (hR : ∀ s1 s2, R s1 s2 → s1.deleteRest = false ∧
      (s2.deleteRest = false → s1.activeAdjustment = s2.activeAdjustment))
    (hstep : ∀ d s1 s2 t1, R s1 s2 → emitInRange o1 entry config d s1 = some t1 →
      (s2.deleteRest = false → ∃ t2, emitInRange o2 entry config d s2 = some t2 ∧ R t1 t2) ∧
      (s2.deleteRest = true → R t1 s2)) :
    ∀ (n : Nat) (i : Int) (s1 s2 t1 : GenState), R s1 s2 → s2.deleteRest = false →
      runCycles o1 entry config n i s1 = some t1 →
      ∃ t2, runCycles o2 entry config n i s2 = some t2 ∧ R t1 t2 := by
  intro n
  induction n with
  | zero =>
    intro i s1 s2 t1 h _ he
    simp only [runCycles] at he
    cases he
    exact ⟨s2, rfl, h⟩
  | succ n ih =>
    intro i s1 s2 t1 h hl he
    simp only [runCycles, cycleStep_eq_emitAll] at he ⊢
    cases hd : emitAll o1 entry config (cycleDates o1 config i s1) s1 with
    | none => rw [hd] at he; cases he
    | some u1 =>
      rw [hd] at he
      have hdates : cycleDates o2 config i s2 = cycleDates o1 config i s1 :=
        (cycleDates_congr o1 o2 hW config i s1 s2 ((hR s1 s2 h).2 hl)).symm
      obtain ⟨u2, hu2, hu⟩ := emitAll_live o1 o2 entry config R hR hstep _ s1 s2 u1 h hl hd
      have hlive := (hR u1 u2 hu).1
      simp only [hlive] at he
      rw [hdates, hu2]
      cases hdel : u2.deleteRest with
      | true =>
        simp only [hdel, if_true]
        exact ⟨u2, rfl,
          runCycles_frozen o1 o2 entry config R hR hstep n (i + 1) u1 u2 t1 hu hdel he⟩
      | false =>
        simp only [hdel, Bool.false_eq_true, if_false]
        exact ih (i + 1) u1 u2 t1 hu hdel he

end Simulation

/-! ## Deleting modifications filter the entries of the unmodified run -/

theorem survives_iff (mods : List Modification) (entry : BaseEntry) (n : Int) :
    survives mods entry n = true ↔
      deletedAt mods entry n = false ∧
        ∀ k, 1 ≤ k → k ≤ n → cascadesAt mods entry k = false := by
  unfold survives
  rw [Bool.and_eq_true, List.all_eq_true]
  constructor
  · rintro ⟨h1, h2⟩
    refine ⟨by simpa using h1, fun k hk1 hkn => ?_⟩
    have := h2 (k - 1).toNat (List.mem_range.2 (by omega))
    have e : (((k - 1).toNat : Nat) : Int) + 1 = k := by omega
    rw [e] at this
    simpa using this
  · rintro ⟨h1, h2⟩
    refine ⟨by simp [h1], fun j hj => ?_⟩
    rw [List.mem_range] at hj
    rw [h2 _ (by omega) (by omega)]
    rfl

/-- Modifications that only delete leave an occurrence that they do not delete as it is. -/
theorem applyModificationsLoop_not_deleted (entry : BaseEntry) (index : Int) :
    ∀ (mods : List Modification), deletionsOnly mods entry →
      deletedAt mods entry index = false →
      ∀ (rest : Option PayloadMap) (adj : Option DateAdjustment) (last : GeneratedEntry),
        applyModificationsLoop entry index mods rest adj last =
          { shouldDelete := false, deleteFuture := false, applyToRestPayload := rest,
            dateAdjustment := adj, lastEntry := last } := by
  intro mods
  induction mods with
  | nil => intro _ _ rest adj last; rfl
  | cons m mods ih =>
    intro hdo hnd rest adj last
    have hdo1 : deletionsOnly mods entry := fun m1 hm1 => hdo m1 (List.mem_cons_of_mem _ hm1)
    unfold deletedAt at hnd
    rw [firstDeleting_cons] at hnd
    by_cases hfirst : m.ItemID.format = entry.ID.format ∧ m.Index = index ∧
        m.Payload.deleted = some (Value.bool true)
    · rw [if_pos hfirst] at hnd; cases hnd
    · rw [if_neg hfirst] at hnd
      have ih1 := ih hdo1 hnd
      rw [applyModificationsLoop]
      by_cases hmatch : m.ItemID.format = entry.ID.format ∧ m.Index = index
      · rw [if_pos hmatch]
        have hdel : ¬ m.Payload.deleted = some (Value.bool true) :=
          fun hd => hfirst ⟨hmatch.1, hmatch.2, hd⟩
        rw [if_neg hdel]
        rcases hdo m (List.mem_cons_self _ _) hmatch.1 with hd | ⟨hdate, hrest⟩
        · exact absurd hd hdel
        · by_cases hl : m.Payload.len > 0 ∨ m.restLen > 0
          · rw [if_pos hl]
            simp only [hdate, hrest, lt_self_iff_false, if_false, gt_iff_lt]
            exact ih1 _ _ _
          · rw [if_neg hl]; exact ih1 _ _ _
      · rw [if_neg hmatch]; exact ih1 _ _ _

/-- The block that emits an occurrence, once the payment date is known. -/
theorem emitOccurrence_of_payment (opts : GeneratorOptions) (entry : BaseEntry)
    (config : RecurrenceConfig) (d p : Int) (st : GenState)
    (hp : PaymentDate d config.Options.GracePeriod opts.Holidays opts.WeekendDays
      config.Options.WorkdaysOnly = some p) (r : ModResult)
    (hr : applyModifications entry (st.index + 1) opts.Modifications
      { Entry := entry, Index := st.index + 1, ActualDate := d, PaymentDate := p } = r) :
    emitOccurrence opts entry config d st =
      if r.shouldDelete then
        some { st with index := st.index + 1, deleteRest := r.deleteFuture }
      else
        some { result := st.result ++ [r.lastEntry], index := st.index + 1,
               applyToRestPayload :=
                 match r.applyToRestPayload with
                 | some q => some q
                 | none => st.applyToRestPayload,
               dateAdjustment :=
                 match r.dateAdjustment with
                 | some a => some a
                 | none => st.dateAdjustment,
               deleteRest := st.deleteRest } := by
  unfold emitOccurrence
  rw [hp]
  simp only [hr, List.dropLast_concat]

/-- The two runs compared: the unmodified run `s1` and the run `s2` under modifications that
only delete. -/
theorem deletions_step (opts : GeneratorOptions) (entry : BaseEntry)
    (config : RecurrenceConfig) (hdo : deletionsOnly opts.Modifications entry)
    (d : Int) (s1 s2 t1 : GenState)
    (hrel : s1.deleteRest = false ∧ s1.applyToRestPayload = none ∧
      s2.applyToRestPayload = none ∧ 0 ≤ s1.index ∧
      s2.result = s1.result.filter (fun g => survives opts.Modifications entry g.Index) ∧
      (s2.deleteRest = false → s2.index = s1.index ∧
        ∀ k, 1 ≤ k → k ≤ s1.index → cascadesAt opts.Modifications entry k = false) ∧
      (s2.deleteRest = true →
        ∃ k, 1 ≤ k ∧ k ≤ s1.index ∧ cascadesAt opts.Modifications entry k = true))
    (he : emitInRange { opts with Modifications := [] } entry config d s1 = some t1) :
    (s2.deleteRest = false → ∃ t2, emitInRange opts entry config d s2 = some t2 ∧
      (t1.deleteRest = false ∧ t1.applyToRestPayload = none ∧
        t2.applyToRestPayload = none ∧ 0 ≤ t1.index ∧
        t2.result = t1.result.filter (fun g => survives opts.Modifications entry g.Index) ∧
        (t2.deleteRest = false → t2.index = t1.index ∧
          ∀ k, 1 ≤ k → k ≤ t1.index → cascadesAt opts.Modifications entry k = false) ∧
        (t2.deleteRest = true →
          ∃ k, 1 ≤ k ∧ k ≤ t1.index ∧ cascadesAt opts.Modifications entry k = true))) ∧
    (s2.deleteRest = true →
      (t1.deleteRest = false ∧ t1.applyToRestPayload = none ∧
        s2.applyToRestPayload = none ∧ 0 ≤ t1.index ∧
        s2.result = t1.result.filter (fun g => survives opts.Modifications entry g.Index) ∧
        (s2.deleteRest = false → s2.index = t1.index ∧
          ∀ k, 1 ≤ k → k ≤ t1.index → cascadesAt opts.Modifications entry k = false) ∧
        (s2.deleteRest = true →
          ∃ k, 1 ≤ k ∧ k ≤ t1.index ∧ cascadesAt opts.Modifications entry k = true))) := by
  obtain ⟨hl1, hr1, hr2, h0, hres, hlive, hfrozen⟩ := hrel
  unfold emitInRange at he ⊢
  have hrange : ({ opts with Modifications := [] } : GeneratorOptions).Range = opts.Range := rfl
  rw [hrange] at he
  by_cases hin : isInRange opts.Range d = true
  · simp only [hin, Bool.not_true, Bool.false_eq_true, if_false] at he ⊢
    obtain ⟨p, r, hpay, hr, hidx, hcase⟩ := emitOccurrence_some _ entry config d s1 t1 he
    have hrnoop : r =
        { shouldDelete := false, deleteFuture := false, applyToRestPayload := none,
          dateAdjustment := none,
          lastEntry := { Entry := entry, Index := s1.index + 1, ActualDate := d,
                         PaymentDate := p } } := hr
    rw [hrnoop] at hcase
    simp only [Bool.false_eq_true, false_and, false_or, true_and] at hcase
    obtain ⟨ht1res, ht1del, ht1rest, _⟩ := hcase
    rw [hr1] at ht1rest
    have hpay2 : PaymentDate d config.Options.GracePeriod opts.Holidays opts.WeekendDays
        config.Options.WorkdaysOnly = some p := hpay
    have hfilter : t1.result.filter (fun g => survives opts.Modifications entry g.Index) =
        s2.result ++ (if survives opts.Modifications entry (s1.index + 1) then
          [{ Entry := entry, Index := s1.index + 1, ActualDate := d, PaymentDate := p }]
          else []) := by
      rw [ht1res, List.filter_append, ← hres]
      congr 1
      cases hsv : survives opts.Modifications entry (s1.index + 1) <;> simp [hsv]
    constructor
    · intro hl2
      obtain ⟨hi2, hnc⟩ := hlive hl2
      have hdelinfo := applyModificationsLoop_delete entry (s2.index + 1) opts.Modifications
        none none { Entry := entry, Index := s2.index + 1, ActualDate := d, PaymentDate := p }
      cases hdel : deletedAt opts.Modifications entry (s1.index + 1) with
      | true =>
        have hsv : survives opts.Modifications entry (s1.index + 1) = false := by
          cases hs : survives opts.Modifications entry (s1.index + 1) with
          | false => rfl
          | true => rw [(survives_iff _ _ _).1 hs |>.1] at hdel; cases hdel
        rw [emitOccurrence_of_payment opts entry config d p s2 hpay2 _ rfl]
        have hsd : (applyModifications entry (s2.index + 1) opts.Modifications
            { Entry := entry, Index := s2.index + 1, ActualDate := d,
              PaymentDate := p }).shouldDelete = true := by
          rw [applyModifications, hdelinfo.1, hi2, hdel]
        rw [if_pos hsd]
        refine ⟨_, rfl, by rw [ht1del, hl1], ht1rest, hr2, by omega, ?_, ?_, ?_⟩
        · rw [hfilter, hsv]; simp
        · intro hnf
          simp only at hnf
          have hcf : cascadesAt opts.Modifications entry (s1.index + 1) = false := by
            rw [← hi2]
            have := hdelinfo.2
            rw [applyModifications] at hnf
            rw [← this]; exact hnf
          refine ⟨by simp only; omega, fun k hk1 hk2 => ?_⟩
          by_cases hk : k ≤ s1.index
          · exact hnc k hk1 hk
          · have : k = s1.index + 1 := by omega
            rw [this]; exact hcf
        · intro hf
          simp only at hf
          refine ⟨s1.index + 1, by omega, by omega, ?_⟩
          rw [applyModifications, hdelinfo.2, hi2] at hf
          exact hf
      | false =>
        have hcf : cascadesAt opts.Modifications entry (s1.index + 1) = false := by
          cases hc : cascadesAt opts.Modifications entry (s1.index + 1) with
          | false => rfl
          | true => rw [deletedAt_of_cascadesAt _ _ _ hc] at hdel; cases hdel
        have hnc1 : ∀ k, 1 ≤ k → k ≤ s1.index + 1 →
            cascadesAt opts.Modifications entry k = false := by
          intro k hk1 hk2
          by_cases hk : k ≤ s1.index
          · exact hnc k hk1 hk
          · have : k = s1.index + 1 := by omega
            rw [this]; exact hcf
        have hsv : survives opts.Modifications entry (s1.index + 1) = true :=
          (survives_iff _ _ _).2 ⟨hdel, hnc1⟩
        have hnoop := applyModificationsLoop_not_deleted entry (s2.index + 1)
          opts.Modifications hdo (by rw [hi2]; exact hdel) none none
          { Entry := entry, Index := s2.index + 1, ActualDate := d, PaymentDate := p }
        rw [emitOccurrence_of_payment opts entry config d p s2 hpay2 _ hnoop]
        simp only [Bool.false_eq_true, if_false]
        refine ⟨_, rfl, by rw [ht1del, hl1], ht1rest, hr2, by omega, ?_, ?_, ?_⟩
        · rw [hfilter, hsv, hi2]; simp
        · intro _
          refine ⟨by simp only; omega, fun k hk1 hk2 => hnc1 k hk1 (by omega)⟩
        · intro hf
          simp only at hf
          rw [hl2] at hf; cases hf
    · intro hf2
      obtain ⟨k, hk1, hk2, hck⟩ := hfrozen hf2
      have hsv : survives opts.Modifications entry (s1.index + 1) = false := by
        cases hs : survives opts.Modifications entry (s1.index + 1) with
        | false => rfl
        | true =>
          rw [((survives_iff _ _ _).1 hs).2 k hk1 (by omega)] at hck
          cases hck
      refine ⟨by rw [ht1del, hl1], ht1rest, hr2, by omega, ?_, fun hl2 => ?_, fun _ => ?_⟩
      · rw [hfilter, hsv]; simp
      · rw [hf2] at hl2; cases hl2
      · exact ⟨k, hk1, by omega, hck⟩
  · simp only [hin, Bool.not_false, if_true] at he ⊢
    cases he
    exact ⟨fun hl2 => ⟨s2, rfl, hl1, hr1, hr2, h0, hres, hlive, hfrozen⟩,
      fun _ => ⟨hl1, hr1, hr2, h0, hres, hlive, hfrozen⟩⟩

/-- Under modifications that only delete, a recurring item yields the entries of the
unmodified run without those that do not survive the deletions; the entries kept have the
index, the actual date and the payment date of the unmodified run. -/
theorem processEntry_deletions (opts : GeneratorOptions) (entry : BaseEntry)
    (config : RecurrenceConfig) (hc : entry.Config = some config)
    (hp : config.Period ≠ PeriodNone) (hdo : deletionsOnly opts.Modifications entry)
    (seg1 : List GeneratedEntry)
    (h1 : processEntry { opts with Modifications := [] } [] entry = some seg1) :
    processEntry opts [] entry =
      some (seg1.filter (fun g => survives opts.Modifications entry g.Index)) := by
  rw [processEntry_recurring _ [] entry config hc hp] at h1
  rw [processEntry_recurring opts [] entry config hc hp]
  have hmax : maxIntervalOf { opts with Modifications := [] } config =
      maxIntervalOf opts config := rfl
  rw [hmax] at h1
  cases hrun : runCycles { opts with Modifications := [] } entry config
      (maxIntervalOf opts config).toNat 0
      { result := [], index := 0, applyToRestPayload := none, dateAdjustment := none,
        deleteRest := false } with
  | none => rw [hrun] at h1; cases h1
  | some t1 =>
    rw [hrun] at h1
    simp only [Option.map_some', Option.some.injEq] at h1
    obtain ⟨t2, hrun2, hrel⟩ := runCycles_live { opts with Modifications := [] } opts entry
      config
      (fun s1 s2 => s1.deleteRest = false ∧ s1.applyToRestPayload = none ∧
        s2.applyToRestPayload = none ∧ 0 ≤ s1.index ∧
        s2.result = s1.result.filter (fun g => survives opts.Modifications entry g.Index) ∧
        (s2.deleteRest = false → s2.index = s1.index ∧
          ∀ k, 1 ≤ k → k ≤ s1.index → cascadesAt opts.Modifications entry k = false) ∧
        (s2.deleteRest = true →
          ∃ k, 1 ≤ k ∧ k ≤ s1.index ∧ cascadesAt opts.Modifications entry k = true))
      rfl
      (fun s1 s2 hrel => ⟨hrel.1, fun _ => by
        unfold GenState.activeAdjustment
        rw [hrel.2.1, hrel.2.2.1]
        rfl⟩)
      (fun d s1 s2 u1 hrel he => deletions_step opts entry config hdo d s1 s2 u1 hrel he)
      (maxIntervalOf opts config).toNat 0
      { result := [], index := 0, applyToRestPayload := none, dateAdjustment := none,
        deleteRest := false }
      { result := [], index := 0, applyToRestPayload := none, dateAdjustment := none,
        deleteRest := false } t1
      ⟨rfl, rfl, rfl, le_refl _, rfl, fun _ => ⟨rfl, fun k hk1 hk2 => by
        have hk3 : k ≤ (0 : Int) := hk2
        omega⟩, fun hf => by cases hf⟩
      rfl hrun
    rw [hrun2]
    simp only [Option.map_some', Option.some.injEq]
    rw [hrel.2.2.2.2.1, h1]

/-- Without modifications the entries of a recurring item are numbered 1, 2, ..., k. -/
theorem processEntry_unmodified_indices (opts : GeneratorOptions) (entry : BaseEntry)
    (config : RecurrenceConfig) (hc : entry.Config = some config)
    (hp : config.Period ≠ PeriodNone) (seg : List GeneratedEntry)
    (h : processEntry { opts with Modifications := [] } [] entry = some seg) :
    seg.map (fun g => g.Index) = (List.range seg.length).map (fun j : Nat => (j : Int) + 1) := by
  obtain ⟨_, K, hK⟩ := processEntry_recurring_indices _ entry config hc hp seg h
  have hall : ((List.range K).map (fun j : Nat => (j : Int) + 1)).filter
      (fun n => !deletedAt ({ opts with Modifications := [] } : GeneratorOptions).Modifications
        entry n) = (List.range K).map (fun j : Nat => (j : Int) + 1) := by
    rw [List.filter_eq_self]
    intro n _
    rfl
  rw [hall] at hK
  have hlen : seg.length = K := by
    have := congrArg List.length hK
    simpa using this
  rw [hlen]; exact hK

/-- What `Generator` returns for a single item. -/
theorem Generator_single_item (opts : GeneratorOptions) (entry : BaseEntry)
    (hd : opts.Data = [entry]) (res : List GeneratedEntry) :
    Generator opts = some (.ok res) ↔
      validateEntries opts.WeekendDays [entry] = none ∧
        processEntry opts [] entry = some res := by
  unfold Generator
  rw [hd]
  simp only [processEntries]
  cases hv : validateEntries opts.WeekendDays [entry] with
  | some e => simp
  | none =>
    cases hpe : processEntry opts [] entry with
    | none => simp
    | some r => simp

/-- C3, as stated, fails: the test `With modifications` (five monthly occurrences, a
modification that deletes occurrence 3 alone); the four entries returned have the indices
1, 2, 4, 5, not 1, 2, 3, 4. -/
theorem single_delete_leaves_gap :
    Generator { Data := [monthlyEntry 5 0],
                Modifications := [{ ItemID := .int 1, Index := 2,
                                    Payload := { extra := [("amount", .int 1500)] } },
                                  deleteAt 3 false] } =
      some (.ok [⟨monthlyEntry 5 0, 1, Date 2023 1 15, Date 2023 1 15⟩,
                 ⟨monthlyEntry 5 0, 2, Date 2023 2 15, Date 2023 2 15⟩,
                 ⟨monthlyEntry 5 0, 4, Date 2023 4 15, Date 2023 4 15⟩,
                 ⟨monthlyEntry 5 0, 5, Date 2023 5 15, Date 2023 5 15⟩]) := by
  rfl

/-- C3, amended. For a monthly item that generates the five occurrences `a1 .. a5` without
modifications, and the single modification of that item at index 3 with `deleted = true` in
its payload and no rest payload, `Generator` returns exactly the four occurrences
`a1, a2, a4, a5`, unchanged: their indices are 1, 2, 4, 5 and their dates are those of the
unmodified occurrences 1, 2, 4, 5. -/
theorem single_delete_keeps_numbers (opts : GeneratorOptions) (entry : BaseEntry)
    (config : RecurrenceConfig) (hd : opts.Data = [entry]) (hc : entry.Config = some config)
    (hp : config.Period = PeriodMonth) (m : Modification) (hm : opts.Modifications = [m])
    (hid : m.ItemID.format = entry.ID.format) (hidx : m.Index = 3)
    (hdel : m.Payload.deleted = some (Value.bool true)) (hrest : m.RestPayload = none)
    (a1 a2 a3 a4 a5 : GeneratedEntry)
    (h0 : Generator { opts with Modifications := [] } = some (.ok [a1, a2, a3, a4, a5])) :
    Generator opts = some (.ok [a1, a2, a4, a5]) ∧
      [a1, a2, a4, a5].map (fun g => g.Index) = [1, 2, 4, 5] := by
  have hp1 : config.Period ≠ PeriodNone := by rw [hp]; decide
  obtain ⟨hv, hpe⟩ := (Generator_single_item { opts with Modifications := [] } entry hd _).1 h0
  have hidxs := processEntry_unmodified_indices opts entry config hc hp1 _ hpe
  simp only [List.map_cons, List.map_nil, List.length_cons, List.length_nil] at hidxs
  have hi : a1.Index = 1 ∧ a2.Index = 2 ∧ a3.Index = 3 ∧ a4.Index = 4 ∧ a5.Index = 5 := by
    have e : (List.range (0 + 1 + 1 + 1 + 1 + 1)).map (fun j : Nat => (j : Int) + 1) =
        [1, 2, 3, 4, 5] := by decide
    rw [e] at hidxs
    simp only [List.cons.injEq, and_true] at hidxs
    exact hidxs
  obtain ⟨i1, i2, i3, i4, i5⟩ := hi
  have hdo : deletionsOnly opts.Modifications entry := by
    rw [hm]
    intro m1 hm1 _
    rw [List.mem_singleton] at hm1
    rw [hm1]
    exact Or.inl hdel
  have hfilter := processEntry_deletions opts entry config hc hp1 hdo _ hpe
  have hD : ∀ n, deletedAt opts.Modifications entry n = decide (n = 3) := by
    intro n
    rw [hm]
    unfold deletedAt
    rw [firstDeleting_cons]
    by_cases hn : n = 3
    · rw [if_pos ⟨hid, by rw [hidx, hn], hdel⟩]; simp [hn]
    · rw [if_neg (fun hh => hn (by rw [← hh.2.1, hidx]))]; simp [hn, firstDeleting]
  have hC : ∀ n, cascadesAt opts.Modifications entry n = false := by
    intro n
    rw [hm]
    unfold cascadesAt
    rw [firstDeleting_cons]
    by_cases hf : m.ItemID.format = entry.ID.format ∧ m.Index = n ∧
        m.Payload.deleted = some (Value.bool true)
    · rw [if_pos hf]
      simp only [Modification.deletesRest, hrest]
    · rw [if_neg hf]
      simp [firstDeleting]
  have hS : ∀ n, survives opts.Modifications entry n = !decide (n = 3) := by
    intro n
    by_cases hn : n = 3
    · have : survives opts.Modifications entry n = false := by
        cases hs : survives opts.Modifications entry n with
        | false => rfl
        | true =>
          have := ((survives_iff _ _ _).1 hs).1
          rw [hD, hn] at this
          simp at this
      rw [this]; simp [hn]
    · have : survives opts.Modifications entry n = true :=
        (survives_iff _ _ _).2 ⟨by rw [hD]; simp [hn], fun k _ _ => hC k⟩
      rw [this]; simp [hn]
  have hres : List.filter (fun g => survives opts.Modifications entry g.Index)
      [a1, a2, a3, a4, a5] = [a1, a2, a4, a5] := by
    simp [List.filter, hS, i1, i2, i3, i4, i5]
  rw [hres] at hfilter
  refine ⟨(Generator_single_item opts entry hd _).2 ⟨hv, hfilter⟩, ?_⟩
  simp [i1, i2, i4, i5]

/-- C3, amended, at the monthly entry of the tests with five occurrences. -/
theorem single_delete_keeps_numbers_witness :
    Generator { Data := [monthlyEntry 5 0], Modifications := [deleteAt 3 false] } =
      some (.ok [⟨monthlyEntry 5 0, 1, Date 2023 1 15, Date 2023 1 15⟩,
                 ⟨monthlyEntry 5 0, 2, Date 2023 2 15, Date 2023 2 15⟩,
                 ⟨monthlyEntry 5 0, 4, Date 2023 4 15, Date 2023 4 15⟩,
                 ⟨monthlyEntry 5 0, 5, Date 2023 5 15, Date 2023 5 15⟩]) :=
  (single_delete_keeps_numbers
    { Data := [monthlyEntry 5 0], Modifications := [deleteAt 3 false] } (monthlyEntry 5 0)
    { Start := Date 2023 1 1, Interval := 5, Period := PeriodMonth,
      Options := { Every := 1, Each := [15], GracePeriod := 0 } }
    rfl rfl rfl (deleteAt 3 false) rfl rfl rfl rfl rfl
    ⟨monthlyEntry 5 0, 1, Date 2023 1 15, Date 2023 1 15⟩
    ⟨monthlyEntry 5 0, 2, Date 2023 2 15, Date 2023 2 15⟩
    ⟨monthlyEntry 5 0, 3, Date 2023 3 15, Date 2023 3 15⟩
    ⟨monthlyEntry 5 0, 4, Date 2023 4 15, Date 2023 4 15⟩
    ⟨monthlyEntry 5 0, 5, Date 2023 5 15, Date 2023 5 15⟩ (by rfl)).1

/-- C4. For a recurring item that generates the five occurrences `a1 .. a5` without
modifications, and two modifications of that item together (in either order), one at index 3
with `deleted = true` in its payload and one at index 4 with `deleted = true` in its payload
and in its rest payload, `Generator` returns exactly the two occurrences `a1, a2`: indices 1
and 2, with the dates of the first two unmodified occurrences. -/
theorem two_deletions_leave_two (opts : GeneratorOptions) (entry : BaseEntry)
    (config : RecurrenceConfig) (hd : opts.Data = [entry]) (hc : entry.Config = some config)
    (hp : config.Period ≠ PeriodNone) (m3 m4 : Modification)
    (hm : opts.Modifications = [m3, m4] ∨ opts.Modifications = [m4, m3])
    (hid3 : m3.ItemID.format = entry.ID.format) (hidx3 : m3.Index = 3)
    (hdel3 : m3.Payload.deleted = some (Value.bool true))
    (hid4 : m4.ItemID.format = entry.ID.format) (hidx4 : m4.Index = 4)
    (hdel4 : m4.Payload.deleted = some (Value.bool true)) (rest4 : PayloadMap)
    (hrest4 : m4.RestPayload = some rest4) (hrd4 : rest4.deleted = some (Value.bool true))
    (a1 a2 a3 a4 a5 : GeneratedEntry)
    (h0 : Generator { opts with Modifications := [] } = some (.ok [a1, a2, a3, a4, a5])) :
    Generator opts = some (.ok [a1, a2]) ∧ [a1, a2].map (fun g => g.Index) = [1, 2] := by
  obtain ⟨hv, hpe⟩ := (Generator_single_item { opts with Modifications := [] } entry hd _).1 h0
  have hidxs := processEntry_unmodified_indices opts entry config hc hp _ hpe
  simp only [List.map_cons, List.map_nil, List.length_cons, List.length_nil] at hidxs
  have hi : a1.Index = 1 ∧ a2.Index = 2 ∧ a3.Index = 3 ∧ a4.Index = 4 ∧ a5.Index = 5 := by
    have e : (List.range (0 + 1 + 1 + 1 + 1 + 1)).map (fun j : Nat => (j : Int) + 1) =
        [1, 2, 3, 4, 5] := by decide
    rw [e] at hidxs
    simp only [List.cons.injEq, and_true] at hidxs
    exact hidxs
  obtain ⟨i1, i2, i3, i4, i5⟩ := hi
  have hdo : deletionsOnly opts.Modifications entry := by
    intro m1 hm1 _
    rcases hm with hm | hm <;> rw [hm] at hm1 <;>
      simp only [List.mem_cons, List.mem_singleton, List.mem_nil_iff, or_false] at hm1 <;>
      rcases hm1 with e | e <;> rw [e] <;> first | exact Or.inl hdel3 | exact Or.inl hdel4
  have hfilter := processEntry_deletions opts entry config hc hp hdo _ hpe
  have h4rest : m4.deletesRest = true := by
    simp only [Modification.deletesRest, hrest4, hrd4, decide_True]
  have hfirst : ∀ n, firstDeleting opts.Modifications entry n =
      if n = 3 then some m3 else if n = 4 then some m4 else none := by
    intro n
    rcases hm with hm | hm <;> rw [hm, firstDeleting_cons, firstDeleting_cons]
    · by_cases h3 : n = 3
      · rw [if_pos ⟨hid3, by rw [hidx3, h3], hdel3⟩, if_pos h3]
      · rw [if_neg (fun hh => h3 (by rw [← hh.2.1, hidx3])), if_neg h3]
        by_cases h4 : n = 4
        · rw [if_pos ⟨hid4, by rw [hidx4, h4], hdel4⟩, if_pos h4]
        · rw [if_neg (fun hh => h4 (by rw [← hh.2.1, hidx4])), if_neg h4]; rfl
    · by_cases h4 : n = 4
      · have h3 : ¬ n = 3 := by omega
        rw [if_pos ⟨hid4, by rw [hidx4, h4], hdel4⟩, if_neg h3, if_pos h4]
      · rw [if_neg (fun hh => h4 (by rw [← hh.2.1, hidx4]))]
        by_cases h3 : n = 3
        · rw [if_pos ⟨hid3, by rw [hidx3, h3], hdel3⟩, if_pos h3]
        · rw [if_neg (fun hh => h3 (by rw [← hh.2.1, hidx3])), if_neg h3, if_neg h4]; rfl
  have hD : ∀ n, deletedAt opts.Modifications entry n = decide (n = 3 ∨ n = 4) := by
    intro n
    unfold deletedAt
    rw [hfirst]
    by_cases h3 : n = 3
    · simp [h3]
    · by_cases h4 : n = 4
      · simp [h4]
      · simp [h3, h4]
  have hC4 : cascadesAt opts.Modifications entry 4 = true := by
    unfold cascadesAt
    rw [hfirst]
    simp [h4rest]
  have hC : ∀ n, n ≠ 3 → n ≠ 4 → cascadesAt opts.Modifications entry n = false := by
    intro n h3 h4
    unfold cascadesAt
    rw [hfirst, if_neg h3, if_neg h4]
  have hS : ∀ n, survives opts.Modifications entry n = decide (n < 3) := by
    intro n
    by_cases hn : n < 3
    · have : survives opts.Modifications entry n = true :=
        (survives_iff _ _ _).2 ⟨by rw [hD]; simp; omega,
          fun k _ hk => hC k (by omega) (by omega)⟩
      rw [this]; simp [hn]
    · have : survives opts.Modifications entry n = false := by
        cases hs : survives opts.Modifications entry n with
        | false => rfl
        | true =>
          obtain ⟨hs1, hs2⟩ := (survives_iff _ _ _).1 hs
          by_cases h3 : n = 3
          · rw [hD, h3] at hs1; simp at hs1
          · have := hs2 4 (by decide) (by omega)
            rw [hC4] at this; cases this
      rw [this]; simp [hn]
  have hres : List.filter (fun g => survives opts.Modifications entry g.Index)
      [a1, a2, a3, a4, a5] = [a1, a2] := by
    simp [List.filter, hS, i1, i2, i3, i4, i5]
  rw [hres] at hfilter
  refine ⟨(Generator_single_item opts entry hd _).2 ⟨hv, hfilter⟩, ?_⟩
  simp [i1, i2]

/-- C4, at the weekly entry of `TestModifications` with its two modifications. -/
theorem two_deletions_leave_two_witness :
    Generator { Data := [weeklyEntry 5 0],
                Modifications := [deleteAt 3 false, deleteAt 4 true] } =
      some (.ok [⟨weeklyEntry 5 0, 1, Date 2023 1 1, Date 2023 1 1⟩,
                 ⟨weeklyEntry 5 0, 2, Date 2023 1 8, Date 2023 1 8⟩]) :=
  (two_deletions_leave_two
    { Data := [weeklyEntry 5 0], Modifications := [deleteAt 3 false, deleteAt 4 true] }
    (weeklyEntry 5 0)
    { Start := Date 2023 1 1, Interval := 5, Period := PeriodWeek,
      Options := { Every := 1, GracePeriod := 0 } }
    rfl rfl (by decide) (deleteAt 3 false) (deleteAt 4 true) (Or.inl rfl) rfl rfl rfl rfl rfl
    rfl { deleted := some (.bool true) } rfl rfl
    ⟨weeklyEntry 5 0, 1, Date 2023 1 1, Date 2023 1 1⟩
    ⟨weeklyEntry 5 0, 2, Date 2023 1 8, Date 2023 1 8⟩
    ⟨weeklyEntry 5 0, 3, Date 2023 1 15, Date 2023 1 15⟩
    ⟨weeklyEntry 5 0, 4, Date 2023 1 22, Date 2023 1 22⟩
    ⟨weeklyEntry 5 0, 5, Date 2023 1 29, Date 2023 1 29⟩ (by rfl)).1

/-! ## Range filtering -/

/-- The closure `isInRange` is the range test of the specification. -/
theorem isInRange_some (r : DateRange) (d : Int) :
    isInRange (some r) d = withinRange r d := by
  unfold isInRange withinRange IsZero
  rw [Bool.eq_iff_iff]
  simp only [Bool.and_eq_true, Bool.or_eq_true, beq_iff_eq, Bool.not_eq_true',
    decide_eq_false_iff_not, decide_eq_true_eq, not_lt, gt_iff_lt]

/-- One occurrence, in the run without range `s1` and in the run with the range `s2`, when
there are no modifications. -/
theorem range_step (opts : GeneratorOptions) (hmods : opts.Modifications = [])
    (r : DateRange) (hr : opts.Range = some r) (entry : BaseEntry)
    (config : RecurrenceConfig) (d : Int) (s1 s2 t1 : GenState)
    (hrel : s1.deleteRest = false ∧ s2.deleteRest = false ∧ s1.applyToRestPayload = none ∧
      s2.applyToRestPayload = none ∧
      s2.result.map GeneratedEntry.triple =
        (s1.result.filter (fun g => withinRange r g.ActualDate)).map GeneratedEntry.triple)
    (he : emitInRange { opts with Range := none } entry config d s1 = some t1) :
    ∃ t2, emitInRange opts entry config d s2 = some t2 ∧
      (t1.deleteRest = false ∧ t2.deleteRest = false ∧ t1.applyToRestPayload = none ∧
        t2.applyToRestPayload = none ∧
        t2.result.map GeneratedEntry.triple =
          (t1.result.filter (fun g => withinRange r g.ActualDate)).map
            GeneratedEntry.triple) := by
  obtain ⟨hl1, hl2, hr1, hr2, hres⟩ := hrel
  unfold emitInRange at he ⊢
  have hnone : isInRange ({ opts with Range := none } : GeneratorOptions).Range d = true := rfl
  simp only [hnone, Bool.not_true, Bool.false_eq_true, if_false] at he
  obtain ⟨p, m, hpay, hm, _, hcase⟩ := emitOccurrence_some _ entry config d s1 t1 he
  have hmods1 : ({ opts with Range := none } : GeneratorOptions).Modifications = [] := hmods
  rw [hmods1] at hm
  have hnoop : m =
      { shouldDelete := false, deleteFuture := false, applyToRestPayload := none,
        dateAdjustment := none,
        lastEntry := { Entry := entry, Index := s1.index + 1, ActualDate := d,
                       PaymentDate := p } } := hm
  rw [hnoop] at hcase
  simp only [Bool.false_eq_true, false_and, false_or, true_and] at hcase
  obtain ⟨ht1res, ht1del, ht1rest, _⟩ := hcase
  rw [hr1] at ht1rest
  have hpay2 : PaymentDate d config.Options.GracePeriod opts.Holidays opts.WeekendDays
      config.Options.WorkdaysOnly = some p := hpay
  rw [hr, isInRange_some]
  have hfilter : (t1.result.filter (fun g => withinRange r g.ActualDate)).map
      GeneratedEntry.triple =
      s2.result.map GeneratedEntry.triple ++
        (if withinRange r d then [(entry, d, p)] else []) := by
    rw [ht1res, List.filter_append, List.map_append, ← hres]
    congr 1
    cases hw : withinRange r d <;> simp [hw, GeneratedEntry.triple]
  cases hw : withinRange r d with
  | false =>
    simp only [Bool.not_false, if_true]
    refine ⟨s2, rfl, by rw [ht1del, hl1], hl2, ht1rest, hr2, ?_⟩
    rw [hfilter, hw]
    simp
  | true =>
    simp only [Bool.not_true, Bool.false_eq_true, if_false]
    have hnoop2 : applyModifications entry (s2.index + 1) opts.Modifications
        { Entry := entry, Index := s2.index + 1, ActualDate := d, PaymentDate := p } =
        { shouldDelete := false, deleteFuture := false, applyToRestPayload := none,
          dateAdjustment := none,
          lastEntry := { Entry := entry, Index := s2.index + 1, ActualDate := d,
                         PaymentDate := p } } := by
      rw [hmods]; rfl
    rw [emitOccurrence_of_payment opts entry config d p s2 hpay2 _ hnoop2]
    simp only [Bool.false_eq_true, if_false]
    refine ⟨_, rfl, by rw [ht1del, hl1], hl2, ht1rest, hr2, ?_⟩
    rw [hfilter, hw]
    simp [GeneratedEntry.triple]

/-- The entries of one item with a range are, up to the index, the entries without range
that lie within the range, when there are no modifications. -/
theorem processEntry_range (opts : GeneratorOptions) (hmods : opts.Modifications = [])
    (r : DateRange) (hr : opts.Range = some r) (entry : BaseEntry)
    (seg0 : List GeneratedEntry)
    (h0 : processEntry { opts with Range := none } [] entry = some seg0) :
    ∃ seg, processEntry opts [] entry = some seg ∧
      seg.map GeneratedEntry.triple =
        (seg0.filter (fun g => withinRange r g.ActualDate)).map GeneratedEntry.triple := by
  rcases entry_single_or_recurring entry with hs | ⟨c, hc, hp⟩
  · rw [processEntry_single _ [] entry hs] at h0
    rw [processEntry_single opts [] entry hs, hr, isInRange_some]
    have hnone : isInRange ({ opts with Range := none } : GeneratorOptions).Range entry.Date
        = true := rfl
    rw [if_pos hnone] at h0
    cases h0
    cases hw : withinRange r entry.Date with
    | false => exact ⟨[], by simp, by simp [hw]⟩
    | true =>
      exact ⟨[{ Entry := entry, Index := 1, ActualDate := entry.Date,
                PaymentDate := entry.Date }], by simp, by simp [hw]⟩
  · rw [processEntry_recurring _ [] entry c hc hp] at h0
    rw [processEntry_recurring opts [] entry c hc hp]
    have hmax : maxIntervalOf { opts with Range := none } c = maxIntervalOf opts c := rfl
    rw [hmax] at h0
    cases hrun : runCycles { opts with Range := none } entry c (maxIntervalOf opts c).toNat 0
        { result := [], index := 0, applyToRestPayload := none, dateAdjustment := none,
          deleteRest := false } with
    | none => rw [hrun] at h0; cases h0
    | some t1 =>
      rw [hrun] at h0
      simp only [Option.map_some', Option.some.injEq] at h0
      obtain ⟨t2, hrun2, hrel⟩ := runCycles_live { opts with Range := none } opts entry c
        (fun s1 s2 => s1.deleteRest = false ∧ s2.deleteRest = false ∧
          s1.applyToRestPayload = none ∧ s2.applyToRestPayload = none ∧
          s2.result.map GeneratedEntry.triple =
            (s1.result.filter (fun g => withinRange r g.ActualDate)).map
              GeneratedEntry.triple)
        rfl
        (fun s1 s2 hrel => ⟨hrel.1, fun _ => by
          unfold GenState.activeAdjustment
          rw [hrel.2.2.1, hrel.2.2.2.1]
          rfl⟩)
        (fun d s1 s2 u1 hrel he =>
          ⟨fun _ => range_step opts hmods r hr entry c d s1 s2 u1 hrel he,
            fun hf => by rw [hrel.2.1] at hf; cases hf⟩)
        (maxIntervalOf opts c).toNat 0
        { result := [], index := 0, applyToRestPayload := none, dateAdjustment := none,
          deleteRest := false }
        { result := [], index := 0, applyToRestPayload := none, dateAdjustment := none,
          deleteRest := false } t1
        ⟨rfl, rfl, rfl, rfl, rfl⟩ rfl hrun
      rw [hrun2]
      refine ⟨t2.result, rfl, ?_⟩
      rw [hrel.2.2.2.2, h0]

theorem processEntries_range (opts : GeneratorOptions) (hmods : opts.Modifications = [])
    (r : DateRange) (hr : opts.Range = some r) :
    ∀ (entries : List BaseEntry) (res0 : List GeneratedEntry),
      processEntries { opts with Range := none } entries [] = some res0 →
      ∃ res, processEntries opts entries [] = some res ∧
        res.map GeneratedEntry.triple =
          (res0.filter (fun g => withinRange r g.ActualDate)).map GeneratedEntry.triple := by
  intro entries
  induction entries with
  | nil =>
    intro res0 h0
    simp only [processEntries] at h0
    cases h0
    exact ⟨[], rfl, rfl⟩
  | cons e es ih =>
    intro res0 h0
    simp only [processEntries] at h0 ⊢
    cases hpe : processEntry { opts with Range := none } [] e with
    | none => rw [hpe] at h0; cases h0
    | some seg0 =>
      rw [hpe] at h0
      simp only at h0
      rw [processEntries_prepend] at h0
      cases hrest : processEntries { opts with Range := none } es [] with
      | none => rw [hrest] at h0; cases h0
      | some rest0 =>
        rw [hrest] at h0
        simp only [Option.map_some', Option.some.injEq] at h0
        obtain ⟨seg, hseg, hsegeq⟩ := processEntry_range opts hmods r hr e seg0 hpe
        obtain ⟨rest, hrest1, hresteq⟩ := ih rest0 hrest
        rw [hseg]
        simp only
        rw [processEntries_prepend, hrest1]
        refine ⟨seg ++ rest, rfl, ?_⟩
        rw [← h0, List.filter_append, List.map_append, List.map_append, hsegeq, hresteq]

/-- C5. For every list of items with an empty modification list and every range
`[start, end]` (a zero bound is open): when `Generator` returns entries without the range, it
returns entries with the range as well, and the sequence of their (item, actual date, payment
date) triples is that of the entries returned without range whose actual date `d` satisfies
`start <= d <= end`, bounds inclusive. -/
theorem range_filter (opts : GeneratorOptions) (hmods : opts.Modifications = [])
    (r : DateRange) (hr : opts.Range = some r) (res0 : List GeneratedEntry)
    (h0 : Generator { opts with Range := none } = some (.ok res0)) :
    ∃ res, Generator opts = some (.ok res) ∧
      res.map GeneratedEntry.triple =
        (res0.filter (fun g => withinRange r g.ActualDate)).map GeneratedEntry.triple := by
  obtain ⟨hv, hp⟩ := Generator_ok _ _ h0
  obtain ⟨res, hres, heq⟩ := processEntries_range opts hmods r hr opts.Data res0 hp
  refine ⟨res, ?_, heq⟩
  unfold Generator
  have hv1 : validateEntries opts.WeekendDays opts.Data = none := hv
  rw [hv1]
  simp only [hres]

/-- C5, at the monthly entry of the tests with four occurrences: the range from 2023-02-01
to 2023-03-15 keeps the second and the third. -/
theorem range_filter_witness :
    ∃ res, Generator { Data := [monthlyEntry 4 0],
                       Range := some ⟨Date 2023 2 1, Date 2023 3 15⟩ } = some (.ok res) ∧
      res.map GeneratedEntry.triple =
        [(monthlyEntry 4 0, Date 2023 2 15, Date 2023 2 15),
         (monthlyEntry 4 0, Date 2023 3 15, Date 2023 3 15)] := by
  obtain ⟨res, h1, h2⟩ := range_filter
    { Data := [monthlyEntry 4 0], Range := some ⟨Date 2023 2 1, Date 2023 3 15⟩ }
    rfl ⟨Date 2023 2 1, Date 2023 3 15⟩ rfl
    [⟨monthlyEntry 4 0, 1, Date 2023 1 15, Date 2023 1 15⟩,
     ⟨monthlyEntry 4 0, 2, Date 2023 2 15, Date 2023 2 15⟩,
     ⟨monthlyEntry 4 0, 3, Date 2023 3 15, Date 2023 3 15⟩,
     ⟨monthlyEntry 4 0, 4, Date 2023 4 15, Date 2023 4 15⟩] (by rfl)
  exact ⟨res, h1, h2.trans (by decide)⟩

/-! ## Runs without modifications and without a range -/

/-- The payment date walk stops under the condition of `walkStops`. -/
theorem PaymentDate_returns (c g : Int) (H W : List Int) (wd : Bool)
    (h : wd = false ∨ (H = [] ∧ W = []) ∨ ∃ w : Int, 0 ≤ w ∧ w < 7 ∧ w ∉ W) :
    ∃ p, PaymentDate c g H W wd = some p := by
  by_cases hc : c = 0
  · subst hc
    rw [PaymentDate_zero]
    exact ⟨0, rfl⟩
  rw [PaymentDate_unfold c g H W wd hc]
  by_cases hcond : wd = true ∧ (W ≠ [] ∨ H ≠ [])
  · rw [if_pos hcond]
    rcases h with h | h | ⟨w, h0, h7, hw⟩
    · rw [hcond.1] at h; cases h
    · rcases hcond.2 with h2 | h2
      · exact absurd h.2 h2
      · exact absurd h.1 h2
    · obtain ⟨j, hj, hwork⟩ := exists_workday_within W w h0 h7 hw H.length H rfl
        (if g > 0 then c + g else c)
      exact workdayWalk_of_workday H W (walkFuel H) _ j hj hwork
  · rw [if_neg hcond]
    exact ⟨_, rfl⟩

theorem adjust_of_rest_none (st : GenState) (h : st.applyToRestPayload = none) (d : Int) :
    st.adjust d = d := by
  simp [GenState.adjust, GenState.activeAdjustment, h, applyDateAdjustment]

theorem cycleDates_of_rest_none (opts : GeneratorOptions) (config : RecurrenceConfig) (i : Int)
    (st : GenState) (h : st.applyToRestPayload = none) :
    cycleDates opts config i st = plainCycleDates opts config i := by
  unfold plainCycleDates
  apply cycleDates_congr opts opts rfl
  simp [GenState.activeAdjustment, h, initState]

/-- Without modifications and without a range, an occurrence date appends one entry. -/
theorem emitInRange_plain (opts : GeneratorOptions) (entry : BaseEntry)
    (config : RecurrenceConfig) (hmods : opts.Modifications = []) (hr : opts.Range = none)
    (hstop : walkStops opts config) (d : Int) (st : GenState)
    (hst : st.applyToRestPayload = none) :
    ∃ p, PaymentDate d config.Options.GracePeriod opts.Holidays opts.WeekendDays
        config.Options.WorkdaysOnly = some p ∧
      emitInRange opts entry config d st =
        some { st with
          result := st.result ++
            [{ Entry := entry, Index := st.index + 1, ActualDate := d, PaymentDate := p }],
          index := st.index + 1 } := by
  obtain ⟨p, hp⟩ := PaymentDate_returns d config.Options.GracePeriod opts.Holidays
    opts.WeekendDays config.Options.WorkdaysOnly hstop
  refine ⟨p, hp, ?_⟩
  unfold emitInRange emitOccurrence
  rw [hr, hp, hmods]
  cases st with
  | mk result index rest adj del =>
    simp only at hst
    subst hst
    simp [isInRange, applyModifications, applyModificationsLoop]

/-- Without modifications and without a range, a list of occurrence dates appends one entry
for each date, in the order of the list. -/
theorem emitAll_plain (opts : GeneratorOptions) (entry : BaseEntry)
    (config : RecurrenceConfig) (hmods : opts.Modifications = []) (hr : opts.Range = none)
    (hstop : walkStops opts config) :
    ∀ (dates : List Int) (st : GenState), st.applyToRestPayload = none →
      st.deleteRest = false →
      ∃ st1 new, emitAll opts entry config dates st = some st1 ∧
        st1.applyToRestPayload = none ∧ st1.deleteRest = false ∧
        st1.result = st.result ++ new ∧ new.map (fun g => g.ActualDate) = dates := by
  intro dates
  induction dates with
  | nil => intro st h1 h2; exact ⟨st, [], rfl, h1, h2, by simp, rfl⟩
  | cons d dates ih =>
    intro st h1 h2
    obtain ⟨p, _, he⟩ := emitInRange_plain opts entry config hmods hr hstop d st h1
    simp only [emitAll, he]
    rw [if_neg (by simp [h2])]
    obtain ⟨st1, new, hrun, h3, h4, h5, h6⟩ := ih
      { st with
        result := st.result ++
          [{ Entry := entry, Index := st.index + 1, ActualDate := d, PaymentDate := p }],
        index := st.index + 1 } h1 h2
    refine ⟨st1,
      { Entry := entry, Index := st.index + 1, ActualDate := d, PaymentDate := p } :: new,
      hrun, h3, h4, ?_, ?_⟩
    · rw [h5]; simp
    · simp [h6]

/-- Without modifications and without a range, the loop over the cycles appends the dates of
its cycles, cycle after cycle. -/
theorem runCycles_plain (opts : GeneratorOptions) (entry : BaseEntry)
    (config : RecurrenceConfig) (hmods : opts.Modifications = []) (hr : opts.Range = none)
    (hstop : walkStops opts config) :
    ∀ (n : Nat) (i : Int) (st : GenState), st.applyToRestPayload = none →
      st.deleteRest = false →
      ∃ st1 new, runCycles opts entry config n i st = some st1 ∧
        st1.applyToRestPayload = none ∧ st1.deleteRest = false ∧
        st1.result = st.result ++ new ∧
        new.map (fun g => g.ActualDate) =
          ((List.range n).map (fun j : Nat => plainCycleDates opts config (i + j))).flatten := by
  intro n
  induction n with
  | zero => intro i st h1 h2; exact ⟨st, [], rfl, h1, h2, by simp, rfl⟩
  | succ n ih =>
    intro i st h1 h2
    obtain ⟨st1, new1, he, h3, h4, h5, h6⟩ := emitAll_plain opts entry config hmods hr hstop
      (cycleDates opts config i st) st h1 h2
    rw [cycleDates_of_rest_none opts config i st h1] at h6
    obtain ⟨st2, new2, hrun, h7, h8, h9, h10⟩ := ih (i + 1) st1 h3 h4
    refine ⟨st2, new1 ++ new2, ?_, h7, h8, ?_, ?_⟩
    · simp only [runCycles, cycleStep_eq_emitAll, he]
      rw [if_neg (by simp [h4])]
      exact hrun
    · rw [h9, h5, List.append_assoc]
    · rw [List.map_append, h6, h10, List.range_succ_eq_map, List.map_cons, List.flatten_cons,
        List.map_map]
      have h0 : plainCycleDates opts config (i + ((0 : Nat) : Int)) =
          plainCycleDates opts config i := by simp
      have hs : (List.range n).map
          ((fun j : Nat => plainCycleDates opts config (i + j)) ∘ Nat.succ) =
          (List.range n).map (fun j : Nat => plainCycleDates opts config (i + 1 + j)) := by
        apply List.map_congr_left
        intro j _
        have e : i + ((Nat.succ j : Nat) : Int) = i + 1 + (j : Int) := by
          rw [Nat.cast_succ]; ring
        simp only [Function.comp, e]
      rw [h0, hs]

/-- Without modifications and without a range, a recurring item appends the dates of its
cycles, as many cycles as `maxIntervalOf` tells. -/
theorem processEntry_plain (opts : GeneratorOptions) (entry : BaseEntry)
    (config : RecurrenceConfig) (hc : entry.Config = some config)
    (hp : config.Period ≠ PeriodNone) (hmods : opts.Modifications = [])
    (hr : opts.Range = none) (hstop : walkStops opts config) (result : List GeneratedEntry) :
    ∃ new, processEntry opts result entry = some (result ++ new) ∧
      new.map (fun g => g.ActualDate) =
        ((List.range (maxIntervalOf opts config).toNat).map
          (fun j : Nat => plainCycleDates opts config j)).flatten := by
  obtain ⟨st1, new, hrun, _, _, h3, h4⟩ := runCycles_plain opts entry config hmods hr hstop
    (maxIntervalOf opts config).toNat 0 (initState result) rfl rfl
  refine ⟨new, ?_, ?_⟩
  · rw [processEntry_recurring opts result entry config hc hp]
    have : runCycles opts entry config (maxIntervalOf opts config).toNat 0
        { result := result, index := 0, applyToRestPayload := none, dateAdjustment := none,
          deleteRest := false } = some st1 := hrun
    rw [this, Option.map_some', h3]
    rfl
  · rw [h4]
    simp

/-- A single recurring item, without modifications and without a range: `Generator` returns,
and the actual dates of the result are the dates of the cycles, cycle after cycle. -/
theorem Generator_plain (opts : GeneratorOptions) (entry : BaseEntry)
    (config : RecurrenceConfig) (hd : opts.Data = [entry]) (hc : entry.Config = some config)
    (hp : config.Period ≠ PeriodNone)
    (hvalid : validateEntries opts.WeekendDays [entry] = none)
    (hmods : opts.Modifications = []) (hr : opts.Range = none) (hstop : walkStops opts config) :
    ∃ res, Generator opts = some (.ok res) ∧
      res.map (fun g => g.ActualDate) =
        ((List.range (maxIntervalOf opts config).toNat).map
          (fun j : Nat => plainCycleDates opts config j)).flatten := by
  obtain ⟨new, h1, h2⟩ := processEntry_plain opts entry config hc hp hmods hr hstop []
  refine ⟨new, ?_, h2⟩
  rw [Generator_single_item opts entry hd]
  exact ⟨hvalid, by simpa using h1⟩

/-- The number of cycles is the interval, capped by the cap of the period in the cap map in
force when the map has one. -/
theorem maxIntervalOf_eq (opts : GeneratorOptions) (config : RecurrenceConfig) :
    maxIntervalOf opts config =
      match capOf opts config.Period with
      | some cap => min config.Interval cap
      | none => config.Interval := by
  unfold maxIntervalOf capOf
  cases opts.MaxIntervals with
  | none =>
    simp only
    cases List.lookup config.Period MaxIntervals with
    | none => rfl
    | some cap =>
      simp only
      split
      · rw [min_eq_right (by omega)]
      · rw [min_eq_left (by omega)]
  | some m =>
    simp only
    cases List.lookup config.Period m with
    | none => rfl
    | some cap =>
      simp only
      split
      · rw [min_eq_right (by omega)]
      · rw [min_eq_left (by omega)]

/-! ## Runs without modifications and without a range: what a run returns, if it returns -/

/-- Without modifications and without a range, an occurrence date whose payment date walk
never stops ends the run, and any other date appends one entry. -/
theorem emitInRange_plain_cases (opts : GeneratorOptions) (entry : BaseEntry)
    (config : RecurrenceConfig) (hmods : opts.Modifications = []) (hr : opts.Range = none)
    (d : Int) (st : GenState) (hst : st.applyToRestPayload = none) :
    emitInRange opts entry config d st = none ∨
      ∃ p, emitInRange opts entry config d st =
        some { st with
          result := st.result ++
            [{ Entry := entry, Index := st.index + 1, ActualDate := d, PaymentDate := p }],
          index := st.index + 1 } := by
  cases hp : PaymentDate d config.Options.GracePeriod opts.Holidays opts.WeekendDays
      config.Options.WorkdaysOnly with
  | none =>
    left
    unfold emitInRange emitOccurrence
    rw [hr, hp]
    simp [isInRange]
  | some p =>
    right
    refine ⟨p, ?_⟩
    unfold emitInRange emitOccurrence
    rw [hr, hp, hmods]
    cases st with
    | mk result index rest adj del =>
      simp only at hst
      subst hst
      simp [isInRange, applyModifications, applyModificationsLoop]

theorem emitAll_plain_cases (opts : GeneratorOptions) (entry : BaseEntry)
    (config : RecurrenceConfig) (hmods : opts.Modifications = []) (hr : opts.Range = none) :
    ∀ (dates : List Int) (st : GenState), st.applyToRestPayload = none →
      st.deleteRest = false →
      emitAll opts entry config dates st = none ∨
      ∃ st1 new, emitAll opts entry config dates st = some st1 ∧
        st1.applyToRestPayload = none ∧ st1.deleteRest = false ∧
        st1.result = st.result ++ new ∧ new.map (fun g => g.ActualDate) = dates := by
  intro dates
  induction dates with
  | nil => intro st h1 h2; exact Or.inr ⟨st, [], rfl, h1, h2, by simp, rfl⟩
  | cons d dates ih =>
    intro st h1 h2
    rcases emitInRange_plain_cases opts entry config hmods hr d st h1 with he | ⟨p, he⟩
    · left
      simp only [emitAll, he]
    · simp only [emitAll, he]
      rw [if_neg (by simp [h2])]
      rcases ih
        { st with
          result := st.result ++
            [{ Entry := entry, Index := st.index + 1, ActualDate := d, PaymentDate := p }],
          index := st.index + 1 } h1 h2 with hn | ⟨st1, new, hrun, h3, h4, h5, h6⟩
      · exact Or.inl hn
      · right
        refine ⟨st1,
          { Entry := entry, Index := st.index + 1, ActualDate := d, PaymentDate := p } :: new,
          hrun, h3, h4, ?_, ?_⟩
        · rw [h5]; simp
        · simp [h6]

theorem runCycles_plain_cases (opts : GeneratorOptions) (entry : BaseEntry)
    (config : RecurrenceConfig) (hmods : opts.Modifications = []) (hr : opts.Range = none) :
    ∀ (n : Nat) (i : Int) (st : GenState), st.applyToRestPayload = none →
      st.deleteRest = false →
      runCycles opts entry config n i st = none ∨
      ∃ st1 new, runCycles opts entry config n i st = some st1 ∧
        st1.applyToRestPayload = none ∧ st1.deleteRest = false ∧
        st1.result = st.result ++ new ∧
        new.map (fun g => g.ActualDate) =
          ((List.range n).map (fun j : Nat => plainCycleDates opts config (i + j))).flatten := by
  intro n
  induction n with
  | zero => intro i st h1 h2; exact Or.inr ⟨st, [], rfl, h1, h2, by simp, rfl⟩
  | succ n ih =>
    intro i st h1 h2
    rcases emitAll_plain_cases opts entry config hmods hr (cycleDates opts config i st) st h1 h2
      with he | ⟨st1, new1, he, h3, h4, h5, h6⟩
    · left
      simp only [runCycles, cycleStep_eq_emitAll, he]
    rw [cycleDates_of_rest_none opts config i st h1] at h6
    rcases ih (i + 1) st1 h3 h4 with hn | ⟨st2, new2, hrun, h7, h8, h9, h10⟩
    · left
      simp only [runCycles, cycleStep_eq_emitAll, he]
      rw [if_neg (by simp [h4])]
      exact hn
    right
    refine ⟨st2, new1 ++ new2, ?_, h7, h8, ?_, ?_⟩
    · simp only [runCycles, cycleStep_eq_emitAll, he]
      rw [if_neg (by simp [h4])]
      exact hrun
    · rw [h9, h5, List.append_assoc]
    · rw [List.map_append, h6, h10, List.range_succ_eq_map, List.map_cons, List.flatten_cons,
        List.map_map]
      have h0 : plainCycleDates opts config (i + ((0 : Nat) : Int)) =
          plainCycleDates opts config i := by simp
      have hs : (List.range n).map
          ((fun j : Nat => plainCycleDates opts config (i + j)) ∘ Nat.succ) =
          (List.range n).map (fun j : Nat => plainCycleDates opts config (i + 1 + j)) := by
        apply List.map_congr_left
        intro j _
        have e : i + ((Nat.succ j : Nat) : Int) = i + 1 + (j : Int) := by
          rw [Nat.cast_succ]; ring
        simp only [Function.comp, e]
      rw [h0, hs]

/-- A single recurring item, without modifications and without a range: whatever `Generator`
returns, its actual dates are the dates of the cycles, cycle after cycle. -/
theorem Generator_plain_of_ok (opts : GeneratorOptions) (entry : BaseEntry)
    (config : RecurrenceConfig) (hd : opts.Data = [entry]) (hc : entry.Config = some config)
    (hp : config.Period ≠ PeriodNone) (hmods : opts.Modifications = [])
    (hr : opts.Range = none) (res : List GeneratedEntry)
    (h : Generator opts = some (.ok res)) :
    res.map (fun g => g.ActualDate) =
      ((List.range (maxIntervalOf opts config).toNat).map
        (fun j : Nat => plainCycleDates opts config j)).flatten := by
  rw [Generator_single_item opts entry hd] at h
  have hpe := h.2
  rw [processEntry_recurring opts [] entry config hc hp] at hpe
  rcases runCycles_plain_cases opts entry config hmods hr (maxIntervalOf opts config).toNat 0
    (initState []) rfl rfl with hn | ⟨st1, new, hrun, _, _, h3, h4⟩
  · have hn1 : runCycles opts entry config (maxIntervalOf opts config).toNat 0
        { result := [], index := 0, applyToRestPayload := none, dateAdjustment := none,
          deleteRest := false } = none := hn
    rw [hn1] at hpe
    cases hpe
  · have hrun1 : runCycles opts entry config (maxIntervalOf opts config).toNat 0
        { result := [], index := 0, applyToRestPayload := none, dateAdjustment := none,
          deleteRest := false } = some st1 := hrun
    rw [hrun1, Option.map_some'] at hpe
    have hres : st1.result = res := Option.some.inj hpe
    have h5 : st1.result = new := by rw [h3]; rfl
    rw [← hres, h5, h4]
    simp

/-! ## Weekly items without `each` values -/

theorem AddByPeriod_none (d n : Int) : AddByPeriod d n PeriodNone = d + n := by
  unfold AddByPeriod
  rw [if_neg (by decide), if_neg (by decide), if_neg (by decide), AddDate_days]

/-- The one date of a cycle of a weekly item without `each` values: the start plus the days of
`i * every * 7` as Go computes the product. -/
theorem plainCycleDates_weekly (opts : GeneratorOptions) (config : RecurrenceConfig)
    (hp : config.Period = PeriodWeek) (heach : config.Options.Each = []) (i : Int) :
    plainCycleDates opts config i =
      [config.Start + wrapInt (wrapInt (i * everyOf config) * 7)] := by
  unfold plainCycleDates cycleDates
  simp only [hp, heach, List.length_nil, and_self, if_true, AddByPeriod_none]
  rw [adjust_of_rest_none _ rfl]

/-- The dates of the cycles of a weekly item without `each` values, cycle after cycle. -/
theorem weekly_flatten (opts : GeneratorOptions) (config : RecurrenceConfig)
    (hp : config.Period = PeriodWeek) (heach : config.Options.Each = []) (n : Nat) :
    ((List.range n).map (fun j : Nat => plainCycleDates opts config j)).flatten =
      (List.range n).map
        (fun i : Nat => config.Start + wrapInt (wrapInt (i * everyOf config) * 7)) := by
  simp only [plainCycleDates_weekly opts config hp heach]
  induction (List.range n) with
  | nil => rfl
  | cons a l ih => simp [ih]

/-- The dates of the cycles when the product of the last cycle fits in `int`: Go computes
every product exactly. -/
theorem weekly_exact (start every : Int) (n : Int) (he : 1 ≤ every)
    (hfit : (n - 1) * every * 7 ≤ 9223372036854775807) :
    (List.range n.toNat).map (fun i : Nat => start + wrapInt (wrapInt (i * every) * 7)) =
      (List.range n.toNat).map (fun i : Nat => start + i * every * 7) := by
  apply List.map_congr_left
  intro i hi
  rw [List.mem_range] at hi
  have hin : (i : Int) ≤ n - 1 := by omega
  have hle := cycle_product_le i n every hin he
  rw [(wrapInt_cycle i every (Int.ofNat_nonneg i) he (by omega)).2]

/-- A single weekly item without `each` values, without modifications and without a range:
`Generator` returns when the payment date walk can stop, with one occurrence for each
cycle. -/
theorem Generator_weekly (opts : GeneratorOptions) (entry : BaseEntry)
    (config : RecurrenceConfig) (hd : opts.Data = [entry]) (hc : entry.Config = some config)
    (hp : config.Period = PeriodWeek) (heach : config.Options.Each = [])
    (hvalid : validateEntries opts.WeekendDays [entry] = none)
    (hmods : opts.Modifications = []) (hr : opts.Range = none) (hstop : walkStops opts config) :
    ∃ res, Generator opts = some (.ok res) ∧
      res.map (fun g => g.ActualDate) =
        (List.range (maxIntervalOf opts config).toNat).map
          (fun i : Nat => config.Start + wrapInt (wrapInt (i * everyOf config) * 7)) := by
  have hpn : config.Period ≠ PeriodNone := by rw [hp]; decide
  obtain ⟨res, h1, h2⟩ := Generator_plain opts entry config hd hc hpn hvalid hmods hr hstop
  exact ⟨res, h1, h2.trans (weekly_flatten opts config hp heach _)⟩

/-- C13, the code on a weekly item whose multiplier makes the product overflow: every
7905747460161236407 weeks, 2 occurrences, from Sunday 2023-01-01. Seven times the multiplier is
3 * 2^64 + 1, which Go's `int` holds as 1, so the second occurrence is dated Monday
2023-01-02: not the start plus `every * 7` days, and not on the start date's day of the
week. -/
theorem weekly_product_wraps :
    Generator { Data := [sameDayEntry 7905747460161236407 2] } =
      some (.ok [⟨sameDayEntry 7905747460161236407 2, 1, Date 2023 1 1, Date 2023 1 1⟩,
                 ⟨sameDayEntry 7905747460161236407 2, 2, Date 2023 1 2, Date 2023 1 2⟩]) ∧
    Date 2023 1 1 + 1 * 7905747460161236407 * 7 ≠ Date 2023 1 2 ∧
    Weekday (Date 2023 1 2) ≠ Weekday (Date 2023 1 1) :=
  ⟨by rfl, by decide, by decide⟩

/-- C13 (amended): a single week-period item without `each` values, without modifications and
without a range, with `every >= 1` and the cap `cap` for weeks. What `Generator` returns has
exactly `min(interval, cap)` occurrences; and when the product `i*every*7` of the last cycle
does not exceed 2^63 - 1, so that no product overflows Go's `int`, their actual dates are
`start + i*every*7` for `i = 0 .. min(interval, cap) - 1` in that order, and all fall on the
start date's day of the week. `Generator` does return for an item that passes its validation
and whose payment date walk can stop. -/
theorem weekly_cycle_dates (opts : GeneratorOptions) (entry : BaseEntry)
    (config : RecurrenceConfig) (hd : opts.Data = [entry]) (hc : entry.Config = some config)
    (hp : config.Period = PeriodWeek) (heach : config.Options.Each = [])
    (hevery : 1 ≤ config.Options.Every)
    (hmods : opts.Modifications = []) (hr : opts.Range = none)
    (cap : Int) (hcap : capOf opts PeriodWeek = some cap) :
    (∀ res, Generator opts = some (.ok res) →
      res.length = (min config.Interval cap).toNat ∧
      ((min config.Interval cap - 1) * config.Options.Every * 7 ≤ 9223372036854775807 →
        res.map (fun g => g.ActualDate) =
          (List.range (min config.Interval cap).toNat).map
            (fun i : Nat => config.Start + i * config.Options.Every * 7) ∧
        ∀ g ∈ res, Weekday g.ActualDate = Weekday config.Start)) ∧
    (validateEntries opts.WeekendDays [entry] = none → walkStops opts config →
      ∃ res, Generator opts = some (.ok res)) := by
  have hpn : config.Period ≠ PeriodNone := by rw [hp]; decide
  constructor
  · intro res h1
    have h2 := (Generator_plain_of_ok opts entry config hd hc hpn hmods hr res h1).trans
      (weekly_flatten opts config hp heach _)
    have hmax : maxIntervalOf opts config = min config.Interval cap := by
      rw [maxIntervalOf_eq, hp, hcap]
    have hev : everyOf config = config.Options.Every := by
      unfold everyOf; rw [if_pos (by omega)]
    rw [hmax, hev] at h2
    refine ⟨?_, ?_⟩
    · have := congrArg List.length h2
      simpa using this
    · intro hfit
      have h3 := h2.trans (weekly_exact config.Start config.Options.Every _ hevery hfit)
      refine ⟨h3, ?_⟩
      intro g hg
      have hmem : g.ActualDate ∈ res.map (fun g => g.ActualDate) := List.mem_map_of_mem _ hg
      rw [h3, List.mem_map] at hmem
      obtain ⟨i, _, hi⟩ := hmem
      rw [← hi]
      unfold Weekday
      omega
  · intro hvalid hstop
    obtain ⟨res, h1, _⟩ := Generator_plain opts entry config hd hc hpn hvalid hmods hr hstop
    exact ⟨res, h1⟩

/-- C13 (amended) at the example: every 2 weeks, 3 occurrences, from 2023-01-01, under the built-in cap
of 1248 weeks: the dates are 2023-01-01, 2023-01-15 and 2023-01-29, all Sundays. -/
theorem weekly_cycle_dates_witness :
    ∃ res, Generator { Data := [sameDayEntry 2 3] } = some (.ok res) ∧ res.length = 3 ∧
      res.map (fun g => g.ActualDate) = [Date 2023 1 1, Date 2023 1 15, Date 2023 1 29] ∧
      ∀ g ∈ res, Weekday g.ActualDate = 0 := by
  obtain ⟨hall, hret⟩ :=
    weekly_cycle_dates { Data := [sameDayEntry 2 3] } (sameDayEntry 2 3) (sameDayConfig 2 3)
      rfl rfl rfl rfl (by decide) rfl rfl 1248 (by rfl)
  obtain ⟨res, h1⟩ := hret (by rfl) (Or.inl rfl)
  obtain ⟨h2, h3⟩ := hall res h1
  obtain ⟨h4, h5⟩ := h3 (by decide)
  exact ⟨res, h1, h2.trans (by rfl), h4.trans (by rfl), fun g hg => (h5 g hg).trans (by rfl)⟩

/-! ## Caps of the number of cycles -/

/-- C19, refuted at its example: with the override map `{month: 5}`, a weekly item with
interval 2000 and no `each` values yields 2000 occurrences, more than the built-in cap of 1248
weeks. -/
theorem override_map_lifts_week_cap :
    ∃ res, Generator { Data := [sameDayEntry 1 2000],
                       MaxIntervals := some [(PeriodMonth, 5)] } = some (.ok res) ∧
      res.length = 2000 ∧ ¬ res.length ≤ 1248 := by
  obtain ⟨res, h1, h2⟩ := Generator_weekly
    { Data := [sameDayEntry 1 2000], MaxIntervals := some [(PeriodMonth, 5)] }
    (sameDayEntry 1 2000) (sameDayConfig 1 2000) rfl rfl rfl rfl (by rfl) rfl rfl (Or.inl rfl)
  have h3 : res.length = 2000 := by
    have := congrArg List.length h2
    rw [List.length_map, List.length_map, List.length_range] at this
    exact this.trans (by rfl)
  exact ⟨res, h1, h3, by omega⟩

/-- C19 (amended): a supplied override map replaces the built-in caps as a whole. For a single
item whose period has no entry in the supplied map, without modifications and without a range,
`Generator` runs all `interval` cycles: the actual dates of what it returns are the dates of
the cycles `0 .. interval - 1`, and a weekly item without `each` values yields exactly
`interval` occurrences. `Generator` does return for an item that passes its validation and
whose payment date walk can stop. -/
theorem no_cap_without_entry (opts : GeneratorOptions) (entry : BaseEntry)
    (config : RecurrenceConfig) (caps : List (Period × Int))
    (hcaps : opts.MaxIntervals = some caps) (hnone : caps.lookup config.Period = none)
    (hd : opts.Data = [entry]) (hc : entry.Config = some config)
    (hp : config.Period ≠ PeriodNone)
    (hmods : opts.Modifications = []) (hr : opts.Range = none) :
    (∀ res, Generator opts = some (.ok res) →
      res.map (fun g => g.ActualDate) =
        ((List.range config.Interval.toNat).map
          (fun i : Nat => plainCycleDates opts config i)).flatten ∧
      (config.Period = PeriodWeek → config.Options.Each = [] →
        res.length = config.Interval.toNat)) ∧
    (validateEntries opts.WeekendDays [entry] = none → walkStops opts config →
      ∃ res, Generator opts = some (.ok res)) := by
  have hmax : maxIntervalOf opts config = config.Interval := by
    rw [maxIntervalOf_eq]
    unfold capOf
    rw [hcaps]
    simp only [hnone]
  constructor
  · intro res h1
    have h2 := Generator_plain_of_ok opts entry config hd hc hp hmods hr res h1
    rw [hmax] at h2
    refine ⟨h2, ?_⟩
    intro hw heach
    have h3 := h2.trans (weekly_flatten opts config hw heach _)
    have := congrArg List.length h3
    simpa using this
  · intro hvalid hstop
    obtain ⟨res, h1, _⟩ := Generator_plain opts entry config hd hc hp hvalid hmods hr hstop
    exact ⟨res, h1⟩

/-- C19 (amended) at the example of the claim: override map `{month: 5}`, weekly item with
interval 2000: `Generator` returns 2000 occurrences. -/
theorem no_cap_without_entry_witness :
    ∃ res, Generator { Data := [sameDayEntry 1 2000],
                       MaxIntervals := some [(PeriodMonth, 5)] } = some (.ok res) ∧
      res.length = 2000 := by
  obtain ⟨hall, hret⟩ := no_cap_without_entry
    { Data := [sameDayEntry 1 2000], MaxIntervals := some [(PeriodMonth, 5)] }
    (sameDayEntry 1 2000) (sameDayConfig 1 2000) [(PeriodMonth, 5)] rfl (by rfl) rfl rfl
    (by decide) rfl rfl
  obtain ⟨res, h1⟩ := hret (by rfl) (Or.inl rfl)
  exact ⟨res, h1, ((hall res h1).2 rfl rfl).trans (by rfl)⟩

/-! ## One-time items -/

theorem isInRange_eq_rangeAdmits (range : Option DateRange) (d : Int) :
    isInRange range d = rangeAdmits range d := by
  cases range with
  | none => rfl
  | some r => exact isInRange_some r d

/-- What the loop over the items does with an item without recurrence description. -/
theorem processEntry_one_time (opts : GeneratorOptions) (result : List GeneratedEntry)
    (entry : BaseEntry) (hc : entry.Config = none) :
    processEntry opts result entry = some (result ++ oneTimeOccurrences opts.Range entry) := by
  rw [processEntry_single opts result entry (Or.inl hc), isInRange_eq_rangeAdmits]
  unfold oneTimeOccurrences
  by_cases h : rangeAdmits opts.Range entry.Date = true
  · rw [if_pos h, if_pos h]
  · rw [if_neg h, if_neg h, List.append_nil]

/-- C20: an item without recurrence description yields exactly one occurrence, with index 1
and the item's date as actual date and as payment date, when no range is given or the date
lies within the range, and no occurrence otherwise, whatever the modification list. What
`Generator` returns is the concatenation, in input order, of one segment for each item, and the
segment of such an item is this; and for such an item alone, when it is valid, `Generator`
returns this. -/
theorem one_time_item (opts : GeneratorOptions) :
    (∀ res, Generator opts = some (.ok res) →
      ∃ segs : List (List GeneratedEntry), res = segs.flatten ∧
        List.Forall₂ (fun entry seg => entry.Config = none →
          seg = oneTimeOccurrences opts.Range entry) opts.Data segs) ∧
    (∀ entry, opts.Data = [entry] → entry.Config = none → IsValidBaseEntry entry = true →
      Generator opts = some (.ok (oneTimeOccurrences opts.Range entry))) := by
  constructor
  · intro res h
    obtain ⟨segs, h1, h2⟩ := processEntries_segments opts opts.Data res (Generator_ok opts res h).2
    refine ⟨segs, h1, List.Forall₂.imp ?_ h2⟩
    intro entry seg hseg hc
    rw [processEntry_one_time opts [] entry hc] at hseg
    exact (Option.some.inj hseg).symm
  · intro entry hd hc hvalid
    have hv : validateEntries opts.WeekendDays [entry] = none := by
      simp [validateEntries, validateEntry, hvalid, hc]
    rw [Generator_single_item opts entry hd]
    exact ⟨hv, processEntry_one_time opts [] entry hc⟩

/-- C20 at a one-time item of 2023-01-15: one occurrence within the range 2023-01-01 to
2023-01-31, none within the range 2023-02-01 to 2023-02-28. -/
theorem one_time_item_witness :
    Generator { Data := [oneTimeEntry (Date 2023 1 15)],
                Range := some { Start := Date 2023 1 1, End := Date 2023 1 31 } } =
      some (.ok [{ Entry := oneTimeEntry (Date 2023 1 15), Index := 1,
                   ActualDate := Date 2023 1 15, PaymentDate := Date 2023 1 15 }]) ∧
    Generator { Data := [oneTimeEntry (Date 2023 1 15)],
                Range := some { Start := Date 2023 2 1, End := Date 2023 2 28 } } =
      some (.ok []) :=
  ⟨((one_time_item
      { Data := [oneTimeEntry (Date 2023 1 15)],
        Range := some { Start := Date 2023 1 1, End := Date 2023 1 31 } }).2
      (oneTimeEntry (Date 2023 1 15)) rfl rfl (by rfl)).trans (by rfl),
   ((one_time_item
      { Data := [oneTimeEntry (Date 2023 1 15)],
        Range := some { Start := Date 2023 2 1, End := Date 2023 2 28 } }).2
      (oneTimeEntry (Date 2023 1 15)) rfl rfl (by rfl)).trans (by rfl)⟩

/-! ## The number of occurrences of an item -/

theorem length_filter_filterMap {α β : Type} (f : α → Option β) (q : β → Bool) :
    ∀ l : List α, (∀ s ∈ l, ∃ d, f s = some d ∧ q d = true) →
      ((l.filterMap f).filter q).length = l.length := by
  intro l
  induction l with
  | nil => intro _; rfl
  | cons a l ih =>
    intro h
    obtain ⟨d, hd, hq⟩ := h a (List.mem_cons_self a l)
    have ih1 := ih (fun s hs => h s (List.mem_cons_of_mem a hs))
    rw [List.filterMap_cons_some hd, List.filter_cons_of_pos hq, List.length_cons,
      List.length_cons, ih1]

theorem length_flatten_range {α : Type} (f : Nat → List α) (k : Nat) :
    ∀ n : Nat, (∀ j, j < n → (f j).length = k) →
      ((List.range n).map f).flatten.length = k * n := by
  intro n
  induction n with
  | zero => intro _; simp
  | succ n ih =>
    intro h
    rw [List.range_succ, List.map_append, List.flatten_append, List.length_append,
      ih (fun j hj => h j (Nat.lt_succ_of_lt hj))]
    simp only [List.map_cons, List.map_nil, List.flatten_cons, List.flatten_nil,
      List.append_nil]
    rw [h n (Nat.lt_succ_self n)]
    ring

/-- What the validation of a recurring configuration tells about its period and its `each`
values. -/
theorem IsValidRecurrenceConfig_each (config : RecurrenceConfig)
    (hv : IsValidRecurrenceConfig config = true) (hp : config.Period ≠ PeriodNone) :
    (config.Period = PeriodWeek ∧ ∀ s ∈ config.Options.Each, 1 ≤ s ∧ s ≤ 7) ∨
    (config.Period = PeriodMonth ∧ ∀ s ∈ config.Options.Each, 1 ≤ s ∧ s ≤ 31) ∨
    (config.Period = PeriodYear ∧ ∀ s ∈ config.Options.Each, 1 ≤ s ∧ s ≤ 12) := by
  unfold IsValidRecurrenceConfig at hv
  split_ifs at hv with h1 h2 h3 h4 h5 h6 h7 h8 h9 h10 h11 h12
  · left
    refine ⟨h4, fun s hs => ?_⟩
    by_contra hc
    apply h5
    rw [List.any_eq_true]
    refine ⟨s, hs, ?_⟩
    simp only [Bool.or_eq_true, decide_eq_true_eq]
    omega
  · right; left
    refine ⟨h7, fun s hs => ?_⟩
    by_contra hc
    apply h8
    rw [List.any_eq_true]
    refine ⟨s, hs, ?_⟩
    simp only [Bool.or_eq_true, decide_eq_true_eq]
    omega
  · right; right
    refine ⟨h10, fun s hs => ?_⟩
    by_contra hc
    apply h11
    rw [List.any_eq_true]
    refine ⟨s, hs, ?_⟩
    simp only [Bool.or_eq_true, decide_eq_true_eq]
    omega

/-- A valid `each` value of a valid item without ordinal has a candidate date. -/
theorem plainCandidate_some (opts : GeneratorOptions) (config : RecurrenceConfig)
    (hv : IsValidRecurrenceConfig config = true) (hp : config.Period ≠ PeriodNone)
    (hon : config.Options.On = "") (i s : Int) (hs : s ∈ config.Options.Each) :
    ∃ d, plainCandidate opts config i s = some d := by
  rcases IsValidRecurrenceConfig_each config hv hp with ⟨hw, hr⟩ | ⟨hm, _⟩ | ⟨hy, _⟩
  · have h17 := hr s hs
    have hno : ¬ (s < 1 ∨ s > 7) := by omega
    simp only [plainCandidate, eachTargetDate, hw, if_true, if_neg hno]
    exact ⟨_, rfl⟩
  · have h1 : ¬ (PeriodMonth = PeriodWeek) := by decide
    simp only [plainCandidate, eachTargetDate, hm, if_neg h1, if_true]
    exact ⟨_, rfl⟩
  · have h1 : ¬ (PeriodYear = PeriodWeek) := by decide
    have h2 : ¬ (PeriodYear = PeriodMonth) := by decide
    have h3 : ¬ (config.Options.On ≠ "") := by simp [hon]
    simp only [plainCandidate, eachTargetDate, hy, if_neg h1, if_neg h2, if_true, if_neg h3]
    exact ⟨_, rfl⟩

/-- The number of dates of a cycle of a valid item without ordinal, when no modification has
left a date adjustment and no candidate date is the zero date. -/
theorem plainCycleDates_length (opts : GeneratorOptions) (config : RecurrenceConfig)
    (hv : IsValidRecurrenceConfig config = true) (hp : config.Period ≠ PeriodNone)
    (hon : config.Options.On = "") (i : Int)
    (hnz : ∀ s ∈ config.Options.Each, plainCandidate opts config i s ≠ some 0) :
    (plainCycleDates opts config i).length =
      if config.Options.Each = [] then 1 else config.Options.Each.length := by
  have h3 : ¬ (config.Options.On ≠ "") := by simp [hon]
  unfold plainCycleDates cycleDates
  by_cases he : config.Options.Each = []
  · have h0 : ¬ (config.Options.Each.length > 0) := by simp [he]
    simp only [if_neg h0, if_neg h3, if_pos he]
    split <;> rfl
  · have hlen : config.Options.Each.length > 0 := List.length_pos.mpr he
    have hnw : ¬ (config.Period = PeriodWeek ∧ config.Options.Each.length = 0) := by omega
    simp only [if_neg hnw, if_pos hlen, if_neg he]
    unfold occurrenceDates
    apply length_filter_filterMap
    intro s hs
    obtain ⟨d, hd⟩ := plainCandidate_some opts config hv hp hon i s hs
    refine ⟨d, hd, ?_⟩
    have hne : d ≠ 0 := by
      intro h0
      apply hnz s hs
      rw [hd, h0]
    simp [IsZero, hne]

theorem valid_of_validateEntries (W : List Int) (entry : BaseEntry)
    (h : validateEntries W [entry] = none) : IsValidBaseEntry entry = true := by
  simp only [validateEntries] at h
  cases hv : validateEntry W entry with
  | some e => rw [hv] at h; cases h
  | none =>
    unfold validateEntry at hv
    by_contra hne
    rw [if_pos (by simpa using hne)] at hv
    cases hv

theorem validateEntries_of_valid (W : List Int) (entry : BaseEntry) (config : RecurrenceConfig)
    (hc : entry.Config = some config) (hon : config.Options.On = "")
    (h : IsValidBaseEntry entry = true) : validateEntries W [entry] = none := by
  simp [validateEntries, validateEntry, h, hc, hon]

/-- C18, refuted: a valid weekly item with one `each` value (Monday), interval 2 and the
built-in caps, starting on Wednesday 0001-01-03. The Monday of the first cycle is the zero
date 0001-01-01, which is dropped, so `Generator` returns one occurrence and not
`1 * min(2, 1248) = 2`. -/
theorem zero_candidate_dropped :
    IsValidBaseEntry firstWeekEntry = true ∧
      Generator { Data := [firstWeekEntry] } =
        some (.ok [{ Entry := firstWeekEntry, Index := 1, ActualDate := Date 1 1 8,
                     PaymentDate := Date 1 1 8 }]) ∧
      plainCandidate { Data := [firstWeekEntry] }
        { Start := Date 1 1 3, Interval := 2, Period := PeriodWeek,
          Options := { Every := 1, Each := [1] } } 0 1 = some 0 :=
  ⟨by rfl, by rfl, by rfl⟩

/-- C18 (amended): the loop over the cycles of a recurring item is bounded by
`min(interval, cap)`, where `cap` is the cap of the item's period in the cap map in force. For
a single item with `k` `each` values (`k = 1` when there is none), without ordinal, without
range and without modifications, none of whose candidate dates is the zero date 0001-01-01,
what `Generator` returns has exactly `k * min(interval, cap)` occurrences; and `Generator`
does return for an item that passes its validation and whose payment date walk can stop. -/
theorem occurrence_count (opts : GeneratorOptions) (entry : BaseEntry)
    (config : RecurrenceConfig) (hd : opts.Data = [entry]) (hc : entry.Config = some config)
    (hp : config.Period ≠ PeriodNone) (hon : config.Options.On = "")
    (hmods : opts.Modifications = []) (hr : opts.Range = none)
    (cap : Int) (hcap : capOf opts config.Period = some cap)
    (hnz : ∀ i : Nat, (i : Int) < min config.Interval cap → ∀ s ∈ config.Options.Each,
      plainCandidate opts config i s ≠ some 0) :
    maxIntervalOf opts config = min config.Interval cap ∧
    (∀ res, Generator opts = some (.ok res) →
      res.length = (if config.Options.Each = [] then 1 else config.Options.Each.length) *
        (min config.Interval cap).toNat) ∧
    (validateEntries opts.WeekendDays [entry] = none → walkStops opts config →
      ∃ res, Generator opts = some (.ok res)) := by
  have hmax : maxIntervalOf opts config = min config.Interval cap := by
    rw [maxIntervalOf_eq, hcap]
  refine ⟨hmax, ?_, ?_⟩
  · intro res h1
    have hvalid := ((Generator_single_item opts entry hd res).mp h1).1
    have hv : IsValidRecurrenceConfig config = true := by
      have := valid_of_validateEntries _ _ hvalid
      unfold IsValidBaseEntry at this
      rw [hc] at this
      split_ifs at this
      exact this
    have h2 := Generator_plain_of_ok opts entry config hd hc hp hmods hr res h1
    rw [hmax] at h2
    have h3 := congrArg List.length h2
    rw [List.length_map] at h3
    rw [h3]
    apply length_flatten_range
    intro j hj
    apply plainCycleDates_length opts config hv hp hon
    apply hnz j
    omega
  · intro hvalid hstop
    obtain ⟨res, h1, _⟩ := Generator_plain opts entry config hd hc hp hvalid hmods hr hstop
    exact ⟨res, h1⟩

/-- C18 (amended) at the test `Custom MaxIntervals`: interval 100, a month cap of 5 and one
`each` value give 5 occurrences. -/
theorem occurrence_count_witness :
    ∃ res, Generator { Data := [monthlyEntry 100 0],
                       MaxIntervals := some [(PeriodMonth, 5)] } = some (.ok res) ∧
      res.length = 5 := by
  obtain ⟨_, hall, hret⟩ := occurrence_count
    { Data := [monthlyEntry 100 0], MaxIntervals := some [(PeriodMonth, 5)] }
    (monthlyEntry 100 0) (monthlyConfig 100 0) rfl rfl (by decide) rfl rfl rfl 5 (by rfl)
    (by
      intro i hi s hs
      have hs15 : s = 15 := List.mem_singleton.mp hs
      have hi5 : i < 5 := by
        have h : (i : Int) < 5 := hi
        omega
      subst hs15
      interval_cases i <;> decide)
  obtain ⟨res, h1⟩ := hret (by rfl) (Or.inl rfl)
  exact ⟨res, h1, (hall res h1).trans (by rfl)⟩

/-! ## Candidate dates of the `each` values -/

/-- The week of a date starts on a Monday and contains the date. -/
theorem weekStart_spec (x : Int) : isoWeekday (weekStart x) = 1 ∧ inWeekOf x x := by
  unfold inWeekOf weekStart isoWeekday Weekday
  split_ifs <;> omega

/-- C14, the code on a weekly item whose multiplier makes the product overflow: every
7905747460161236407 weeks on Monday, from Sunday 2023-01-01. In cycle 1 Go's `int` holds
`1 * every * 7` as 1, so the candidate is the Monday of the week of 2023-01-02, which is
2023-01-02 itself; it does not lie in the week that contains the start plus `every * 7`
days. -/
theorem week_candidate_wraps :
    plainCandidate { Data := [] }
        { Start := Date 2023 1 1, Interval := 2, Period := PeriodWeek,
          Options := { Every := 7905747460161236407, Each := [1] } }
        1 1 = some (Date 2023 1 2) ∧
    ¬ inWeekOf (Date 2023 1 1 + 1 * 7905747460161236407 * 7) (Date 2023 1 2) :=
  ⟨by rfl, by decide⟩

/-- C14 (amended): a week-period item, a state without rest payload (as in every run without
modifications), a cycle `i` whose product `i*every*7` fits in Go's `int`, and an `each` value
`s` from 1 to 7: the candidate date is the one date whose day of the week (Monday = 1, ...,
Sunday = 7) is `s` and that lies in the Monday-to-Sunday week that contains
`start + i*every*7` days, `every` being the effective multiplier. -/
theorem week_candidate (opts : GeneratorOptions) (config : RecurrenceConfig)
    (hp : config.Period = PeriodWeek) (i baseDate : Int) (st : GenState)
    (hfit : fitsInt (i * everyOf config * 7))
    (hst : st.applyToRestPayload = none) (s : Int) (h1 : 1 ≤ s) (h7 : s ≤ 7) :
    ∃ d, eachTargetDate opts config i baseDate st s = some d ∧
      isoWeekday d = s ∧ inWeekOf (config.Start + i * everyOf config * 7) d ∧
      ∀ e, isoWeekday e = s → inWeekOf (config.Start + i * everyOf config * 7) e → e = d := by
  have hno : ¬ (s < 1 ∨ s > 7) := by omega
  simp only [eachTargetDate, hp, if_true, if_neg hno, AddDate_days,
    adjust_of_rest_none st hst]
  have key : isoWeekday (config.Start + wrapInt (wrapInt (i * everyOf config) * 7) +
        -(if Weekday (config.Start + wrapInt (wrapInt (i * everyOf config) * 7)) = 0 then 6
          else Weekday (config.Start + wrapInt (wrapInt (i * everyOf config) * 7)) - 1) +
        (s - 1)) = s ∧
      inWeekOf (config.Start + wrapInt (wrapInt (i * everyOf config) * 7))
        (config.Start + wrapInt (wrapInt (i * everyOf config) * 7) +
        -(if Weekday (config.Start + wrapInt (wrapInt (i * everyOf config) * 7)) = 0 then 6
          else Weekday (config.Start + wrapInt (wrapInt (i * everyOf config) * 7)) - 1) +
        (s - 1)) ∧
      ∀ e, isoWeekday e = s →
        inWeekOf (config.Start + wrapInt (wrapInt (i * everyOf config) * 7)) e →
        e = config.Start + wrapInt (wrapInt (i * everyOf config) * 7) +
        -(if Weekday (config.Start + wrapInt (wrapInt (i * everyOf config) * 7)) = 0 then 6
          else Weekday (config.Start + wrapInt (wrapInt (i * everyOf config) * 7)) - 1) +
        (s - 1) := by
    generalize config.Start + wrapInt (wrapInt (i * everyOf config) * 7) = x
    refine ⟨?_, ?_, ?_⟩
    · unfold isoWeekday Weekday
      split_ifs <;> omega
    · unfold inWeekOf weekStart isoWeekday Weekday
      split_ifs <;> omega
    · intro e he hin
      unfold inWeekOf weekStart at hin
      unfold isoWeekday Weekday at he hin
      unfold Weekday
      split_ifs at he hin ⊢ <;> omega
  have hw : wrapInt (wrapInt (i * everyOf config) * 7) = i * everyOf config * 7 := by
    rw [wrapInt_mul_left, wrapInt_of_fits _ hfit]
  rw [← hw]
  exact ⟨_, rfl, key.1, key.2.1, key.2.2⟩

/-- C14 (amended) at the test `Weekly payment with specific days`: from Sunday 2023-01-01, the Friday of
the first cycle is 2022-12-30. -/
theorem week_candidate_witness :
    ∃ d, eachTargetDate { Data := [eachEntry PeriodWeek (Date 2023 1 1) 4 [1, 5]] }
        (eachConfig PeriodWeek (Date 2023 1 1) 4 [1, 5]) 0 (Date 2023 1 1) (initState []) 5 =
          some d ∧
      d = Date 2022 12 30 ∧ isoWeekday d = 5 ∧ inWeekOf (Date 2023 1 1) d ∧
      ∀ e, isoWeekday e = 5 → inWeekOf (Date 2023 1 1) e → e = d := by
  obtain ⟨d, h1, h2, h3, h4⟩ := week_candidate
    { Data := [eachEntry PeriodWeek (Date 2023 1 1) 4 [1, 5]] }
    (eachConfig PeriodWeek (Date 2023 1 1) 4 [1, 5]) rfl 0 (Date 2023 1 1) (initState [])
    (by decide) rfl 5 (by decide) (by decide)
  have he : eachTargetDate { Data := [eachEntry PeriodWeek (Date 2023 1 1) 4 [1, 5]] }
      (eachConfig PeriodWeek (Date 2023 1 1) 4 [1, 5]) 0 (Date 2023 1 1) (initState []) 5 =
        some (Date 2022 12 30) := by rfl
  have hd : d = Date 2022 12 30 := Option.some.inj (h1.symm.trans he)
  exact ⟨d, h1, hd, h2, h3, h4⟩

/-! ## Weekend numbering, order and overflow of the `each` values: the code at work -/

/-- C11, the code at the input of the claim: the rent of `examples/cmd/combined`, weekend days
6 and 7, no holidays. The occurrence of Sunday 2023-01-01 keeps its date as payment date, and
the occurrence of Saturday 2023-04-01 is paid on Sunday 2023-04-02. -/
theorem rent_weekend_days_six_seven :
    Weekday (Date 2023 1 1) = 0 ∧ Weekday (Date 2023 4 1) = 6 ∧
    Generator { Data := [rentEntry], WeekendDays := [6, 7] } =
      some (.ok [⟨rentEntry, 1, Date 2023 1 1, Date 2023 1 1⟩,
                 ⟨rentEntry, 2, Date 2023 2 1, Date 2023 2 1⟩,
                 ⟨rentEntry, 3, Date 2023 3 1, Date 2023 3 1⟩,
                 ⟨rentEntry, 4, Date 2023 4 1, Date 2023 4 2⟩,
                 ⟨rentEntry, 5, Date 2023 5 1, Date 2023 5 1⟩,
                 ⟨rentEntry, 6, Date 2023 6 1, Date 2023 6 1⟩,
                 ⟨rentEntry, 7, Date 2023 7 1, Date 2023 7 2⟩,
                 ⟨rentEntry, 8, Date 2023 8 1, Date 2023 8 1⟩,
                 ⟨rentEntry, 9, Date 2023 9 1, Date 2023 9 1⟩,
                 ⟨rentEntry, 10, Date 2023 10 1, Date 2023 10 1⟩,
                 ⟨rentEntry, 11, Date 2023 11 1, Date 2023 11 1⟩,
                 ⟨rentEntry, 12, Date 2023 12 1, Date 2023 12 1⟩]) :=
  ⟨by rfl, by rfl, by rfl⟩

/-- C12, the code on Sunday 2023-01-01 with the weekend set `{7}`: the day has the number 7 in
the numbering Monday = 1, ..., Sunday = 7, yet `PaymentDate` takes it for a workday, and
`GetOrdinalDate` finds no weekend day in January 2023 and takes the Sunday for the first
weekday of the month. Both compare the set with Go's numbering, where Sunday is 0. -/
theorem sunday_not_weekend_under_seven :
    isoWeekday (Date 2023 1 1) = 7 ∧ Weekday (Date 2023 1 1) = 0 ∧
    PaymentDate (Date 2023 1 1) 0 [] [7] true = some (Date 2023 1 1) ∧
    GetOrdinalDate (Date 2023 1 1) "first-weekend" [7] = .error .noMatchingDays ∧
    GetOrdinalDate (Date 2023 1 1) "first-weekday" [7] = .ok (Date 2023 1 1) ∧
    PaymentDate (Date 2023 1 1) 0 [] [0] true = some (Date 2023 1 2) :=
  ⟨by rfl, by rfl, by rfl, by rfl, by rfl, by rfl⟩

/-- C15, the code on a weekly item with the `each` values listed as Friday, Monday: in each
cycle the Friday comes out before the Monday of the same week. -/
theorem each_order_is_kept :
    Generator { Data := [eachEntry PeriodWeek (Date 2023 1 1) 2 [5, 1]] } =
      some (.ok [⟨eachEntry PeriodWeek (Date 2023 1 1) 2 [5, 1], 1, Date 2022 12 30,
                    Date 2022 12 30⟩,
                 ⟨eachEntry PeriodWeek (Date 2023 1 1) 2 [5, 1], 2, Date 2022 12 26,
                    Date 2022 12 26⟩,
                 ⟨eachEntry PeriodWeek (Date 2023 1 1) 2 [5, 1], 3, Date 2023 1 6,
                    Date 2023 1 6⟩,
                 ⟨eachEntry PeriodWeek (Date 2023 1 1) 2 [5, 1], 4, Date 2023 1 2,
                    Date 2023 1 2⟩]) ∧
      Date 2022 12 26 < Date 2022 12 30 :=
  ⟨by rfl, by decide⟩

/-- C16, the code on a monthly item with the `each` value 31, from 2023-01-01, four cycles:
the cycles of February and April, which have no 31st, yield 2023-03-03 and 2023-05-01. -/
theorem day_31_rolls_over :
    Generator { Data := [eachEntry PeriodMonth (Date 2023 1 1) 4 [31]] } =
      some (.ok [⟨eachEntry PeriodMonth (Date 2023 1 1) 4 [31], 1, Date 2023 1 31,
                    Date 2023 1 31⟩,
                 ⟨eachEntry PeriodMonth (Date 2023 1 1) 4 [31], 2, Date 2023 3 3,
                    Date 2023 3 3⟩,
                 ⟨eachEntry PeriodMonth (Date 2023 1 1) 4 [31], 3, Date 2023 3 31,
                    Date 2023 3 31⟩,
                 ⟨eachEntry PeriodMonth (Date 2023 1 1) 4 [31], 4, Date 2023 5 1,
                    Date 2023 5 1⟩]) ∧
      Date 2023 2 31 = Date 2023 3 3 ∧ Date 2023 4 31 = Date 2023 5 1 :=
  ⟨by rfl, by rfl, by rfl⟩

/-- C17, the code on a yearly item that starts on 2023-01-31 with the `each` value 4 (April),
two cycles: the occurrences are 2023-05-01 and 2024-05-01, in month 5. -/
theorem year_each_leaves_month :
    Generator { Data := [eachEntry PeriodYear (Date 2023 1 31) 2 [4]] } =
      some (.ok [⟨eachEntry PeriodYear (Date 2023 1 31) 2 [4], 1, Date 2023 5 1,
                    Date 2023 5 1⟩,
                 ⟨eachEntry PeriodYear (Date 2023 1 31) 2 [4], 2, Date 2024 5 1,
                    Date 2024 5 1⟩]) ∧
      Month (Date 2023 5 1) = 5 ∧ Day (Date 2023 5 1) = 1 ∧ Day (Date 2023 1 31) = 31 :=
  ⟨by rfl, by rfl, by rfl, by rfl⟩

/-! ## Candidate dates and the zero date -/

theorem daysSinceEpoch_lower (y : Int) (h : 2 ≤ y) : 365 ≤ daysSinceEpoch y := by
  simp only [daysSinceEpoch]
  omega

theorem daysBefore_nonneg (m : Int) (h1 : 1 ≤ m) (h12 : m ≤ 12) : 0 ≤ daysBefore m := by
  obtain ⟨v1, v2, v3, v4, v5, v6, v7, v8, v9, v10, v11, v12⟩ := daysBefore_values
  have hm : m = 1 ∨ m = 2 ∨ m = 3 ∨ m = 4 ∨ m = 5 ∨ m = 6 ∨ m = 7 ∨ m = 8 ∨ m = 9 ∨
      m = 10 ∨ m = 11 ∨ m = 12 := by omega
  rcases hm with h | h | h | h | h | h | h | h | h | h | h | h <;> subst h <;> omega

/-- A date from day 365 on lies in year 2 or later. -/
theorem Year_lower (t : Int) (h : 365 ≤ t) : 2 ≤ Year t := by
  obtain ⟨h1, h2, h3⟩ := yearDay_spec t
  by_contra hlt
  have hy : Year t ≤ 1 := by omega
  simp only [daysSinceEpoch] at h1
  rcases leapDay_cases (Year t) with hl | hl
  · omega
  · have hne : Year t ≠ 1 := by
      intro h1y
      rw [h1y] at hl
      revert hl
      decide
    omega

/-- A date of year 2 or later is day 365 or later. -/
theorem lower_of_Year (t : Int) (h : 2 ≤ Year t) : 365 ≤ t := by
  obtain ⟨h1, h2, _⟩ := yearDay_spec t
  have := daysSinceEpoch_lower (Year t) h
  omega

/-- A date built in a year from 2 on, from a day of the month from 1 on, is day 365 or
later. -/
theorem Date_lower (y m d : Int) (hy : 2 ≤ y + (m - 1) / 12) (hd : 1 ≤ d) :
    365 ≤ Date y m d := by
  simp only [Date]
  have h1 := daysSinceEpoch_lower _ hy
  have h2 := daysBefore_nonneg ((m - 1) % 12 + 1) (by omega) (by omega)
  have h3 : 0 ≤ (if 3 ≤ (m - 1) % 12 + 1 then leapDay (y + (m - 1) / 12) else 0) := by
    split
    · rcases leapDay_cases (y + (m - 1) / 12) with h | h <;> omega
    · omega
  omega

theorem everyOf_pos (config : RecurrenceConfig) : 1 ≤ everyOf config := by
  unfold everyOf
  split <;> omega

theorem activeAdjustment_initState (result : List GeneratedEntry) :
    (initState result).activeAdjustment = none := rfl

/-- No candidate date of a valid item without ordinal that starts in year 2 or later is the
zero date, in a cycle whose product `i * every * 7` fits in `int`. -/
theorem plainCandidate_nonzero (opts : GeneratorOptions) (config : RecurrenceConfig)
    (hv : IsValidRecurrenceConfig config = true) (hp : config.Period ≠ PeriodNone)
    (hon : config.Options.On = "") (hyear : 2 ≤ Year config.Start) (i : Nat) (s : Int)
    (hfit : (i : Int) * everyOf config * 7 ≤ 9223372036854775807)
    (hs : s ∈ config.Options.Each) : plainCandidate opts config i s ≠ some 0 := by
  have hstart := lower_of_Year _ hyear
  have hn : 0 ≤ (i : Int) * everyOf config :=
    mul_nonneg (Int.ofNat_nonneg i) (by have := everyOf_pos config; omega)
  obtain ⟨hw1, hw2⟩ :=
    wrapInt_cycle i (everyOf config) (Int.ofNat_nonneg i) (everyOf_pos config) hfit
  have hM := Month_range config.Start
  have hD := Day_range config.Start
  rcases IsValidRecurrenceConfig_each config hv hp with ⟨hw, hr⟩ | ⟨hm, hr⟩ | ⟨hy, hr⟩
  · have h17 := hr s hs
    have hno : ¬ (s < 1 ∨ s > 7) := by omega
    simp only [plainCandidate, eachTargetDate, hw, if_true, if_neg hno, AddDate_days,
      adjust_of_rest_none (initState []) rfl, hw2]
    intro h
    have h0 := Option.some.inj h
    unfold Weekday at h0
    split_ifs at h0 <;> omega
  · have h131 := hr s hs
    have h1 : ¬ (PeriodMonth = PeriodWeek) := by decide
    have h2 : ¬ (PeriodMonth = PeriodYear) := by decide
    simp only [plainCandidate, eachTargetDate, hm, if_neg h1, if_true,
      adjust_of_rest_none (initState []) rfl, AddByPeriod, if_neg h2, hw1]
    intro h
    have h0 := Option.some.inj h
    have hbase : 365 ≤ AddDate config.Start 0 (↑i * everyOf config) 0 := by
      unfold AddDate
      apply Date_lower
      · omega
      · omega
    have hyb := Year_lower _ hbase
    have hMb := Month_range (AddDate config.Start 0 (↑i * everyOf config) 0)
    have := Date_lower (Year (AddDate config.Start 0 (↑i * everyOf config) 0))
      (Month (AddDate config.Start 0 (↑i * everyOf config) 0)) s (by omega) (by omega)
    omega
  · have h112 := hr s hs
    have h1 : ¬ (PeriodYear = PeriodWeek) := by decide
    have h2 : ¬ (PeriodYear = PeriodMonth) := by decide
    have h3 : ¬ (config.Options.On ≠ "") := by simp [hon]
    simp only [plainCandidate, eachTargetDate, hy, if_neg h1, if_neg h2, if_true, if_neg h3,
      activeAdjustment_initState, AddByPeriod, hw1]
    intro h
    have h0 := Option.some.inj h
    have hbase : 365 ≤ AddDate config.Start (↑i * everyOf config) 0 0 := by
      unfold AddDate
      apply Date_lower
      · omega
      · omega
    have hyb := Year_lower _ hbase
    have hDb := Day_range (AddDate config.Start (↑i * everyOf config) 0 0)
    have := Date_lower (Year (AddDate config.Start (↑i * everyOf config) 0 0)) s
      (Day (AddDate config.Start (↑i * everyOf config) 0 0)) (by omega) (by omega)
    omega

/-! ## Validation -/

/-- What `strings.Split` with a one-character separator returns is never empty. -/
theorem splitChars_ne_nil (sep : Char) : ∀ l : List Char, splitChars sep l ≠ [] := by
  intro l
  induction l with
  | nil => simp [splitChars]
  | cons c cs ih =>
    simp only [splitChars]
    split
    · simp
    · cases h : splitChars sep cs with
      | nil => exact absurd h ih
      | cons p ps => simp

/-- One token: the string has no separator. -/
theorem splitChars_one (sep : Char) : ∀ (l a : List Char),
    splitChars sep l = [a] ↔ l = a ∧ sep ∉ a := by
  intro l
  induction l with
  | nil =>
    intro a
    simp only [splitChars]
    constructor
    · intro h
      have : a = [] := by simpa using h.symm
      subst this
      simp
    · rintro ⟨h, _⟩
      rw [← h]
  | cons c cs ih =>
    intro a
    simp only [splitChars]
    by_cases hc : c = sep
    · rw [if_pos hc]
      constructor
      · intro h
        have h2 : splitChars sep cs = [] := by
          have := List.cons.inj h
          exact this.2
        exact absurd h2 (splitChars_ne_nil sep cs)
      · rintro ⟨h, hn⟩
        rw [← h] at hn
        exact absurd (by rw [hc]; exact List.mem_cons_self _ _) hn
    · rw [if_neg hc]
      cases h : splitChars sep cs with
      | nil => exact absurd h (splitChars_ne_nil sep cs)
      | cons p ps =>
        simp only
        constructor
        · intro h2
          have h3 := List.cons.inj h2
          have hps : ps = [] := h3.2
          subst hps
          have := (ih p).1 h
          rw [← h3.1, this.1]
          refine ⟨rfl, ?_⟩
          intro hm
          rcases List.mem_cons.1 hm with e | hm
          · exact hc e.symm
          · exact this.2 hm
        · rintro ⟨h2, hn⟩
          cases a with
          | nil => cases h2
          | cons a0 a1 =>
            have h3 := List.cons.inj h2
            have hn1 : sep ∉ a1 := fun hm => hn (List.mem_cons_of_mem _ hm)
            have := (ih a1).2 ⟨h3.2, hn1⟩
            rw [this] at h
            have h4 := List.cons.inj h
            rw [h3.1, ← h4.1, ← h4.2]

/-- Two tokens: the string is the first token, the separator, the second token, and no token
contains the separator. -/
theorem splitChars_two (sep : Char) : ∀ (l a b : List Char),
    splitChars sep l = [a, b] ↔ l = a ++ sep :: b ∧ sep ∉ a ∧ sep ∉ b := by
  intro l
  induction l with
  | nil =>
    intro a b
    simp only [splitChars]
    constructor
    · intro h; cases h
    · rintro ⟨h, _⟩
      cases a <;> cases h
  | cons c cs ih =>
    intro a b
    simp only [splitChars]
    by_cases hc : c = sep
    · rw [if_pos hc]
      constructor
      · intro h
        have h3 := List.cons.inj h
        have h4 := (splitChars_one sep cs b).1 h3.2
        rw [← h3.1, h4.1, hc]
        exact ⟨rfl, by simp, h4.2⟩
      · rintro ⟨h, hna, hnb⟩
        cases a with
        | nil =>
          have h3 := List.cons.inj h
          rw [(splitChars_one sep cs b).2 ⟨h3.2, hnb⟩]
        | cons a0 a1 =>
          have h3 := List.cons.inj h
          exact absurd (by rw [← h3.1, hc]; exact List.mem_cons_self _ _) hna
    · rw [if_neg hc]
      cases h : splitChars sep cs with
      | nil => exact absurd h (splitChars_ne_nil sep cs)
      | cons p ps =>
        simp only
        constructor
        · intro h2
          have h3 := List.cons.inj h2
          rw [h3.2] at h
          have := (ih p b).1 h
          rw [← h3.1, this.1]
          refine ⟨rfl, ?_, this.2.2⟩
          intro hm
          rcases List.mem_cons.1 hm with e | hm
          · exact hc e.symm
          · exact this.2.1 hm
        · rintro ⟨h2, hna, hnb⟩
          cases a with
          | nil =>
            have h3 := List.cons.inj h2
            exact absurd h3.1 hc
          | cons a0 a1 =>
            have h3 := List.cons.inj h2
            have hn1 : sep ∉ a1 := fun hm => hna (List.mem_cons_of_mem _ hm)
            have := (ih a1 b).2 ⟨h3.2, hn1, hnb⟩
            rw [this] at h
            have h4 := List.cons.inj h
            rw [h3.1, ← h4.1, ← h4.2]

/-- The code splits the string into two parts exactly when the string consists of two
hyphen-separated tokens. -/
theorem splitHyphen_two (s a b : String) : splitHyphen s = [a, b] ↔ twoTokens s a b := by
  unfold splitHyphen twoTokens
  constructor
  · intro h
    cases hs : splitChars '-' s.data with
    | nil => rw [hs] at h; cases h
    | cons x xs =>
      rw [hs] at h
      cases xs with
      | nil => cases h
      | cons y ys =>
        cases ys with
        | cons z zs => cases h
        | nil =>
          simp only [List.map_cons, List.map_nil] at h
          have h3 := List.cons.inj h
          have h4 := List.cons.inj h3.2
          have hx : x = a.data := by rw [← h3.1]
          have hy : y = b.data := by rw [← h4.1]
          rw [hx, hy] at hs
          exact (splitChars_two '-' s.data a.data b.data).1 hs
  · intro h
    rw [(splitChars_two '-' s.data a.data b.data).2 h]
    rfl

theorem IsOrdinalPosition_iff (p : String) :
    IsOrdinalPosition p = true ↔ p ∈ positionTokens := by
  simp only [IsOrdinalPosition, positionTokens, Bool.or_eq_true, decide_eq_true_eq,
    List.mem_cons, List.mem_singleton, List.not_mem_nil, or_false]
  tauto

theorem IsDayCategory_iff (c : String) : IsDayCategory c = true ↔ c ∈ categoryTokens := by
  simp only [IsDayCategory, categoryTokens, Bool.or_eq_true, decide_eq_true_eq,
    List.mem_cons, List.mem_singleton, List.not_mem_nil, or_false]
  tauto

theorem IsDayOfWeek_iff (d : String) : IsDayOfWeek d = true ↔ toLower d ∈ dayNameTokens := by
  simp only [IsDayOfWeek, dayNameTokens, Bool.or_eq_true, decide_eq_true_eq,
    List.mem_cons, List.mem_singleton, List.not_mem_nil, or_false]
  tauto

/-- C23, refuted: `IsOrdinal` accepts `first-Monday`, whose second token is none of the
listed spellings. -/
theorem IsOrdinal_accepts_capitals :
    IsOrdinal "first-Monday" = true ∧ twoTokens "first-Monday" "first" "Monday" ∧
      "Monday" ∉ dayNameTokens ∧ "Monday" ∉ categoryTokens := by
  refine ⟨by rfl, ?_, by decide, by decide⟩
  exact (splitHyphen_two _ _ _).1 (by rfl)

/-- C23 (amended): `IsOrdinal s` is true exactly when `s` consists of two hyphen-separated
tokens, the first being one of first, second, third, fourth, fifth, nextToLast, last (exactly
these spellings) and the second being one of day, weekday, weekend (exactly these spellings)
or a string whose lower-case form is one of monday, ..., sunday. -/
theorem IsOrdinal_iff (s : String) :
    IsOrdinal s = true ↔
      ∃ a b, twoTokens s a b ∧ a ∈ positionTokens ∧
        (toLower b ∈ dayNameTokens ∨ b ∈ categoryTokens) := by
  unfold IsOrdinal
  constructor
  · intro h
    split at h
    · rename_i position dayType heq
      rw [Bool.and_eq_true, Bool.or_eq_true] at h
      exact ⟨position, dayType, (splitHyphen_two _ _ _).1 heq, (IsOrdinalPosition_iff _).1 h.1,
        h.2.imp (IsDayOfWeek_iff _).1 (IsDayCategory_iff _).1⟩
    · cases h
  · rintro ⟨a, b, h2, ha, hb⟩
    rw [(splitHyphen_two _ _ _).2 h2]
    simp only
    rw [Bool.and_eq_true, Bool.or_eq_true]
    exact ⟨(IsOrdinalPosition_iff _).2 ha,
      hb.imp (IsDayOfWeek_iff _).2 (IsDayCategory_iff _).2⟩

/-- C22: `IsValidRecurrenceConfig` is true exactly for the descriptions that are valid in the
words of the specification. -/
theorem IsValidRecurrenceConfig_iff (c : RecurrenceConfig) :
    IsValidRecurrenceConfig c = true ↔ validConfig c := by
  have hnw : PeriodNone ≠ PeriodWeek := by decide
  have hnm : PeriodNone ≠ PeriodMonth := by decide
  have hny : PeriodNone ≠ PeriodYear := by decide
  have hwm : PeriodWeek ≠ PeriodMonth := by decide
  have hwy : PeriodWeek ≠ PeriodYear := by decide
  have hmy : PeriodMonth ≠ PeriodYear := by decide
  have hany : ∀ (k : Int) (l : List Int),
      (l.any (fun day => day < 1 || day > k) = true) ↔ ¬ ∀ s ∈ l, 1 ≤ s ∧ s ≤ k := by
    intro k l
    rw [List.any_eq_true]
    constructor
    · rintro ⟨s, hs, h⟩ hall
      have := hall s hs
      simp only [Bool.or_eq_true, decide_eq_true_eq] at h
      omega
    · intro h
      by_contra hne
      apply h
      intro s hs
      by_contra hr
      apply hne
      refine ⟨s, hs, ?_⟩
      simp only [Bool.or_eq_true, decide_eq_true_eq]
      omega
  unfold IsValidRecurrenceConfig validConfig
  by_cases hP : IsPeriod c.Period = true
  swap
  · rw [if_pos (by simpa using hP)]
    constructor
    · intro h; cases h
    · rintro ⟨hmem, _⟩
      exfalso
      apply hP
      simp only [List.mem_cons, List.mem_singleton, List.not_mem_nil, or_false] at hmem
      simp only [IsPeriod, Bool.or_eq_true, decide_eq_true_eq]
      tauto
  rw [if_neg (by simpa using hP)]
  have hmem : c.Period ∈ [PeriodNone, PeriodWeek, PeriodMonth, PeriodYear] := by
    simp only [IsPeriod, Bool.or_eq_true, decide_eq_true_eq] at hP
    simp only [List.mem_cons, List.mem_singleton, List.not_mem_nil, or_false]
    tauto
  by_cases hS : c.Start = 0
  · rw [if_pos (by simp [IsZero, hS])]
    constructor
    · intro h; cases h
    · rintro ⟨_, h, _⟩; exact absurd hS h
  rw [if_neg (by simp [IsZero, hS])]
  by_cases hI : c.Interval ≤ 0
  · rw [if_pos hI]
    constructor
    · intro h; cases h
    · rintro ⟨_, _, h, _⟩; omega
  rw [if_neg hI]
  have hI2 : 0 < c.Interval := by omega
  by_cases h1 : c.Period = PeriodNone
  · rw [if_pos h1, decide_eq_true_eq]
    constructor
    · intro h
      refine ⟨hmem, hS, hI2, fun _ => h, ?_, ?_, ?_⟩ <;> intro hp <;> rw [h1] at hp
      · exact absurd hp hnw
      · exact absurd hp hnm
      · exact absurd hp hny
    · rintro ⟨_, _, _, h, _⟩; exact h h1
  rw [if_neg h1]
  by_cases h2 : c.Period = PeriodWeek
  · rw [if_pos h2]
    by_cases ha : ∀ s ∈ c.Options.Each, 1 ≤ s ∧ s ≤ 7
    · rw [if_neg (by rw [hany]; exact not_not.2 ha)]
      by_cases ho : c.Options.On = ""
      · rw [if_neg (by simp [ho])]
        refine ⟨fun _ => ⟨hmem, hS, hI2, fun h => absurd h h1, fun _ => ⟨ha, ho⟩, ?_, ?_⟩,
          fun _ => rfl⟩ <;> intro hp <;> rw [h2] at hp
        · exact absurd hp hwm
        · exact absurd hp hwy
      · rw [if_pos ho]
        constructor
        · intro h; cases h
        · rintro ⟨_, _, _, _, h, _⟩; exact absurd (h h2).2 ho
    · rw [if_pos ((hany 7 _).2 ha)]
      constructor
      · intro h; cases h
      · rintro ⟨_, _, _, _, h, _⟩; exact absurd (h h2).1 ha
  rw [if_neg h2]
  by_cases h3 : c.Period = PeriodMonth
  · rw [if_pos h3]
    by_cases ha : ∀ s ∈ c.Options.Each, 1 ≤ s ∧ s ≤ 31
    · rw [if_neg (by rw [hany]; exact not_not.2 ha)]
      by_cases ho : c.Options.On = "" ∨ IsOrdinal c.Options.On = true
      · have hno : ¬ (c.Options.On ≠ "" ∧ (!IsOrdinal c.Options.On) = true) := by
          rintro ⟨hx, hy⟩
          rcases ho with ho | ho
          · exact hx ho
          · rw [ho] at hy; cases hy
        rw [if_neg hno]
        refine ⟨fun _ => ⟨hmem, hS, hI2, fun h => absurd h h1, fun h => absurd h h2,
          fun _ => ⟨ha, ho⟩, ?_⟩, fun _ => rfl⟩
        intro hp
        rw [h3] at hp
        exact absurd hp hmy
      · have hyes : c.Options.On ≠ "" ∧ (!IsOrdinal c.Options.On) = true := by
          constructor
          · exact fun hx => ho (Or.inl hx)
          · cases hio : IsOrdinal c.Options.On with
            | true => exact absurd (Or.inr hio) ho
            | false => rfl
        rw [if_pos hyes]
        constructor
        · intro h; cases h
        · rintro ⟨_, _, _, _, _, h, _⟩; exact absurd (h h3).2 ho
    · rw [if_pos ((hany 31 _).2 ha)]
      constructor
      · intro h; cases h
      · rintro ⟨_, _, _, _, _, h, _⟩; exact absurd (h h3).1 ha
  rw [if_neg h3]
  have h4 : c.Period = PeriodYear := by
    simp only [List.mem_cons, List.mem_singleton, List.not_mem_nil, or_false] at hmem
    tauto
  rw [if_pos h4]
  by_cases ha : ∀ s ∈ c.Options.Each, 1 ≤ s ∧ s ≤ 12
  · rw [if_neg (by rw [hany]; exact not_not.2 ha)]
    by_cases ho : c.Options.On = "" ∨ IsOrdinal c.Options.On = true
    · have hno : ¬ (c.Options.On ≠ "" ∧ (!IsOrdinal c.Options.On) = true) := by
        rintro ⟨hx, hy⟩
        rcases ho with ho | ho
        · exact hx ho
        · rw [ho] at hy; cases hy
      rw [if_neg hno]
      exact ⟨fun _ => ⟨hmem, hS, hI2, fun h => absurd h h1, fun h => absurd h h2,
        fun h => absurd h h3, fun _ => ⟨ha, ho⟩⟩, fun _ => rfl⟩
    · have hyes : c.Options.On ≠ "" ∧ (!IsOrdinal c.Options.On) = true := by
        constructor
        · exact fun hx => ho (Or.inl hx)
        · cases hio : IsOrdinal c.Options.On with
          | true => exact absurd (Or.inr hio) ho
          | false => rfl
      rw [if_pos hyes]
      constructor
      · intro h; cases h
      · rintro ⟨_, _, _, _, _, _, h⟩; exact absurd (h h4).2 ho
  · rw [if_pos ((hany 12 _).2 ha)]
    constructor
    · intro h; cases h
    · rintro ⟨_, _, _, _, _, _, h⟩; exact absurd (h h4).1 ha

theorem splitHyphen_empty : splitHyphen "" = [""] := by rfl

/-- The validation of one item fails exactly when the item offends. -/
theorem validateEntry_isSome_iff (W : List Int) (entry : BaseEntry) :
    (∃ e, validateEntry W entry = some e) ↔ offends W entry := by
  unfold validateEntry offends
  by_cases hv : IsValidBaseEntry entry = true
  swap
  · rw [if_pos (by simpa using hv)]
    exact ⟨fun _ => Or.inl (by simpa using hv), fun _ => ⟨_, rfl⟩⟩
  rw [if_neg (by simpa using hv)]
  have hvf : ¬ IsValidBaseEntry entry = false := by rw [hv]; decide
  cases hc : entry.Config with
  | none =>
    simp only
    constructor
    · rintro ⟨e, he⟩; cases he
    · rintro (h | ⟨c, h, _⟩ | ⟨c, _, _, h, _⟩)
      · exact absurd h hvf
      · cases h
      · cases h
  | some config =>
    simp only
    by_cases ho : config.Options.On = ""
    · rw [if_neg (by simp [ho])]
      constructor
      · rintro ⟨e, he⟩; cases he
      · rintro (h | ⟨c, h, hne, _⟩ | ⟨c, p, d, h, hs, _⟩)
        · exact absurd h hvf
        · cases h; exact absurd ho hne
        · cases h
          rw [ho, splitHyphen_empty] at hs
          cases hs
    · rw [if_pos ho]
      by_cases hio : IsOrdinal config.Options.On = true
      swap
      · rw [if_pos (by simpa using hio)]
        exact ⟨fun _ => Or.inr (Or.inl ⟨config, rfl, ho, by simpa using hio⟩),
          fun _ => ⟨_, rfl⟩⟩
      rw [if_neg (by simpa using hio)]
      have hiof : ¬ IsOrdinal config.Options.On = false := by rw [hio]; decide
      obtain ⟨a, b, h2, _, _⟩ := (IsOrdinal_iff _).1 hio
      have hs := (splitHyphen_two _ _ _).2 h2
      rw [hs]
      simp only
      by_cases hw : (b = "weekday" ∨ b = "weekend") ∧ W.length = 0
      · rw [if_pos hw]
        refine ⟨fun _ => Or.inr (Or.inr ⟨config, a, b, rfl, hs, hw.1, ?_⟩), fun _ => ⟨_, rfl⟩⟩
        exact List.length_eq_zero.1 hw.2
      · rw [if_neg hw]
        constructor
        · rintro ⟨e, he⟩; cases he
        · rintro (h | ⟨c, h, _, hf⟩ | ⟨c, p, d, h, hs2, hd, hW⟩)
          · exact absurd h hvf
          · cases h; exact absurd hf hiof
          · cases h
            rw [hs] at hs2
            have h3 := List.cons.inj hs2
            have h4 := List.cons.inj h3.2
            exfalso
            apply hw
            rw [h4.1, hW]
            exact ⟨hd, rfl⟩

/-- The validation loop fails exactly when some item offends. -/
theorem validateEntries_isSome_iff (W : List Int) :
    ∀ entries : List BaseEntry,
      (∃ e, validateEntries W entries = some e) ↔ ∃ entry ∈ entries, offends W entry := by
  intro entries
  induction entries with
  | nil =>
    simp only [validateEntries]
    constructor
    · rintro ⟨e, he⟩; cases he
    · rintro ⟨_, h, _⟩; cases h
  | cons x xs ih =>
    simp only [validateEntries]
    cases hx : validateEntry W x with
    | some e =>
      simp only
      exact ⟨fun _ => ⟨x, List.mem_cons_self _ _, (validateEntry_isSome_iff W x).1 ⟨e, hx⟩⟩,
        fun _ => ⟨e, rfl⟩⟩
    | none =>
      simp only
      rw [ih]
      constructor
      · rintro ⟨entry, hm, ho⟩
        exact ⟨entry, List.mem_cons_of_mem _ hm, ho⟩
      · rintro ⟨entry, hm, ho⟩
        rcases List.mem_cons.1 hm with e | hm
        · subst e
          obtain ⟨e, he⟩ := (validateEntry_isSome_iff W entry).2 ho
          rw [hx] at he
          cases he
        · exact ⟨entry, hm, ho⟩

/-- `Generator` returns an error exactly when the validation loop fails. -/
theorem Generator_error_iff_validate (opts : GeneratorOptions) :
    (∃ e, Generator opts = some (.error e)) ↔
      ∃ e, validateEntries opts.WeekendDays opts.Data = some e := by
  unfold Generator
  cases hv : validateEntries opts.WeekendDays opts.Data with
  | some e => exact ⟨fun _ => ⟨e, rfl⟩, fun _ => ⟨e, rfl⟩⟩
  | none =>
    simp only
    constructor
    · rintro ⟨e, he⟩
      cases hp : processEntries opts opts.Data [] with
      | none => rw [hp] at he; cases he
      | some r => rw [hp] at he; cases he
    · rintro ⟨e, he⟩; cases he

/-- C21: `Generator` returns an error exactly when some item of the input fails
`IsValidBaseEntry`, or has a non-empty ordinal selector that is not `IsOrdinal`, or has an
ordinal selector whose day type is `weekday` or `weekend` while there are no weekend days; an
offending item makes the call fail wherever it sits in the list, and a call that returns an
error returns no entries. -/
theorem validation_error_iff (opts : GeneratorOptions) :
    ((∃ e, Generator opts = some (.error e)) ↔
      ∃ entry ∈ opts.Data, offends opts.WeekendDays entry) ∧
    (∀ pre entry post, opts.Data = pre ++ entry :: post → offends opts.WeekendDays entry →
      ∃ e, Generator opts = some (.error e)) ∧
    (∀ e, Generator opts = some (.error e) → ∀ res, Generator opts ≠ some (.ok res)) := by
  have hiff : (∃ e, Generator opts = some (.error e)) ↔
      ∃ entry ∈ opts.Data, offends opts.WeekendDays entry :=
    (Generator_error_iff_validate opts).trans (validateEntries_isSome_iff _ _)
  refine ⟨hiff, ?_, ?_⟩
  · intro pre entry post hd ho
    apply hiff.2
    refine ⟨entry, ?_, ho⟩
    rw [hd]
    exact List.mem_append_right _ (List.mem_cons_self _ _)
  · intro e he res hres
    rw [he] at hres
    cases hres

/-! ## The date adjustment carried forward -/

/-- C29: the date adjustment computed from an original date `o` and an overridden date `m` has
`Years = 0`; for the year period its months are `month(m) - month(o)` and its days
`day(m) - day(o)`; for the month period its months are 0 and its days `day(m) - day(o)`; for
the week period its months are 0 and its days the difference of the days of the week (the code
numbers them from Sunday = 1 to Saturday = 7, which gives the difference of Go's numbers); for
any other period all fields are 0. -/
theorem adjustment_spec (o m : Int) (period : Period) :
    (calculateDateAdjustment o m period).Years = 0 ∧
    (period = PeriodYear →
      (calculateDateAdjustment o m period).Months = Month m - Month o ∧
      (calculateDateAdjustment o m period).Days = Day m - Day o) ∧
    (period = PeriodMonth →
      (calculateDateAdjustment o m period).Months = 0 ∧
      (calculateDateAdjustment o m period).Days = Day m - Day o) ∧
    (period = PeriodWeek →
      (calculateDateAdjustment o m period).Months = 0 ∧
      (calculateDateAdjustment o m period).Days = Weekday m - Weekday o) ∧
    (period ≠ PeriodYear → period ≠ PeriodMonth → period ≠ PeriodWeek →
      calculateDateAdjustment o m period = { Days := 0, Months := 0, Years := 0 }) := by
  have hmy : PeriodMonth ≠ PeriodYear := by decide
  have hwy : PeriodWeek ≠ PeriodYear := by decide
  have hwm : PeriodWeek ≠ PeriodMonth := by decide
  refine ⟨?_, ?_, ?_, ?_, ?_⟩
  · unfold calculateDateAdjustment
    split_ifs <;> rfl
  · intro h
    subst h
    exact ⟨rfl, rfl⟩
  · intro h
    subst h
    unfold calculateDateAdjustment
    rw [if_neg hmy, if_pos rfl]
    exact ⟨rfl, rfl⟩
  · intro h
    subst h
    unfold calculateDateAdjustment
    rw [if_neg hwy, if_neg hwm, if_pos rfl]
    refine ⟨rfl, ?_⟩
    show Weekday m + 1 - (Weekday o + 1) = Weekday m - Weekday o
    omega
  · intro h1 h2 h3
    unfold calculateDateAdjustment
    rw [if_neg h1, if_neg h2, if_neg h3]

/-- C29 at the inputs of `TestDateAdjustment`: monthly 2023-01-15 to 2023-01-20 gives 5 days;
yearly 2023-01-15 to 2023-03-20 gives 2 months and 5 days; weekly Monday 2023-01-02 to Friday
2023-01-06 gives 4 days. -/
theorem adjustment_spec_witness :
    (calculateDateAdjustment (Date 2023 1 15) (Date 2023 1 20) PeriodMonth).Days = 5 ∧
    (calculateDateAdjustment (Date 2023 1 15) (Date 2023 3 20) PeriodYear).Months = 2 ∧
    (calculateDateAdjustment (Date 2023 1 15) (Date 2023 3 20) PeriodYear).Days = 5 ∧
    (calculateDateAdjustment (Date 2023 1 2) (Date 2023 1 6) PeriodWeek).Days = 4 :=
  ⟨((adjustment_spec (Date 2023 1 15) (Date 2023 1 20) PeriodMonth).2.2.1 rfl).2.trans
      (by rfl),
   ((adjustment_spec (Date 2023 1 15) (Date 2023 3 20) PeriodYear).2.1 rfl).1.trans (by rfl),
   ((adjustment_spec (Date 2023 1 15) (Date 2023 3 20) PeriodYear).2.1 rfl).2.trans (by rfl),
   ((adjustment_spec (Date 2023 1 2) (Date 2023 1 6) PeriodWeek).2.2.2.1 rfl).2.trans
      (by rfl)⟩

/-! ## From year, month and day to the date and back -/

theorem daysSinceEpoch_succ (y : Int) :
    daysSinceEpoch (y + 1) = daysSinceEpoch y + 365 + leapDay y := by
  simp only [daysSinceEpoch, leapDay, isLeap]
  split <;> rename_i h <;> simp at h <;> omega

theorem daysSinceEpoch_mono (a b : Int) (h : a ≤ b) : daysSinceEpoch a ≤ daysSinceEpoch b := by
  simp only [daysSinceEpoch]
  omega

/-- The year and the day of the year of a date are determined by the date. -/
theorem Year_unique (t y yd : Int) (h : daysSinceEpoch y + yd = t) (h0 : 0 ≤ yd)
    (h1 : yd < 365 + leapDay y) : Year t = y ∧ YearDay t = yd := by
  obtain ⟨e, e0, e1⟩ := yearDay_spec t
  have hy : Year t = y := by
    rcases lt_trichotomy (Year t) y with hlt | heq | hgt
    · have := daysSinceEpoch_mono (Year t + 1) y (by omega)
      rw [daysSinceEpoch_succ] at this
      omega
    · exact heq
    · have := daysSinceEpoch_mono (y + 1) (Year t) (by omega)
      rw [daysSinceEpoch_succ] at this
      omega
  refine ⟨hy, ?_⟩
  rw [hy] at e
  omega

/-- The month and the day of the month of a day of the year that lies in month `m`. -/
theorem monthDay_inv (l : Int) (hl : l = 0 ∨ l = 1) (m d : Int) (hm1 : 1 ≤ m) (hm12 : m ≤ 12)
    (hd1 : 1 ≤ d)
    (hd : d ≤ if m = 2 then 28 + l else if m = 4 ∨ m = 6 ∨ m = 9 ∨ m = 11 then 30 else 31) :
    monthDay l (daysBefore m + (if 3 ≤ m then l else 0) + (d - 1)) = (m, d) := by
  obtain ⟨v1, v2, v3, v4, v5, v6, v7, v8, v9, v10, v11, v12⟩ := daysBefore_values
  have hm : m = 1 ∨ m = 2 ∨ m = 3 ∨ m = 4 ∨ m = 5 ∨ m = 6 ∨ m = 7 ∨ m = 8 ∨ m = 9 ∨
      m = 10 ∨ m = 11 ∨ m = 12 := by omega
  rcases hm with h | h | h | h | h | h | h | h | h | h | h | h <;> subst h <;>
    norm_num at hd <;>
    simp only [v1, v2, v3, v4, v5, v6, v7, v8, v9, v10, v11, v12] <;>
    norm_num <;>
    (rcases monthDay_cases l _ with
      ⟨c1, e⟩ | ⟨c0, c1, e⟩ | ⟨c0, c1, e⟩ | ⟨c0, c1, e⟩ | ⟨c0, c1, e⟩ | ⟨c0, c1, e⟩ | ⟨c0, c1, e⟩ | ⟨c0, c1, e⟩ | ⟨c0, c1, e⟩ | ⟨c0, c1, e⟩ | ⟨c0, c1, e⟩ | ⟨c0, e⟩) <;>
    first
    | (exfalso; omega)
    | (rw [e]; refine Prod.ext ?_ ?_ <;> simp <;> omega)

/-- Round trip: the year, the month and the day of the month of the date built from a valid
year, month and day. -/
theorem civil_of_Date (y m d : Int) (hm1 : 1 ≤ m) (hm12 : m ≤ 12) (hd1 : 1 ≤ d)
    (hd : d ≤ daysIn m y) :
    Year (Date y m d) = y ∧ Month (Date y m d) = m ∧ Day (Date y m d) = d := by
  have hl := leapDay_cases y
  have hb := daysBefore_nonneg m hm1 hm12
  obtain ⟨v1, v2, v3, v4, v5, v6, v7, v8, v9, v10, v11, v12⟩ := daysBefore_values
  have hyd : daysBefore m + (if 3 ≤ m then leapDay y else 0) + (d - 1) < 365 + leapDay y := by
    have hm : m = 1 ∨ m = 2 ∨ m = 3 ∨ m = 4 ∨ m = 5 ∨ m = 6 ∨ m = 7 ∨ m = 8 ∨ m = 9 ∨
        m = 10 ∨ m = 11 ∨ m = 12 := by omega
    unfold daysIn at hd
    rcases hm with h | h | h | h | h | h | h | h | h | h | h | h <;> subst h <;>
      norm_num at hd <;>
      simp only [v1, v2, v3, v4, v5, v6, v7, v8, v9, v10, v11, v12] <;>
      norm_num <;> omega
  have h0 : 0 ≤ daysBefore m + (if 3 ≤ m then leapDay y else 0) + (d - 1) := by
    have : 0 ≤ (if 3 ≤ m then leapDay y else 0) := by split <;> omega
    omega
  have hdate : Date y m d =
      daysSinceEpoch y + (daysBefore m + (if 3 ≤ m then leapDay y else 0) + (d - 1)) := by
    rw [Date_of_month_range y m d hm1 hm12]
    ring
  obtain ⟨hY, hYD⟩ := Year_unique (Date y m d) y _ hdate.symm h0 hyd
  have hmd := monthDay_inv (leapDay y) hl m d hm1 hm12 hd1 hd
  refine ⟨hY, ?_, ?_⟩
  · unfold Month
    rw [hY, hYD, hmd]
  · unfold Day
    rw [hY, hYD, hmd]

/-- The day of the month of a date is a day of its month. -/
theorem Day_le_daysIn (t : Int) : Day t ≤ daysIn (Month t) (Year t) := by
  obtain ⟨_, h0, h1⟩ := yearDay_spec t
  have hl := leapDay_cases (Year t)
  unfold Day Month daysIn
  rcases monthDay_cases (leapDay (Year t)) (YearDay t) with
    ⟨c1, e⟩ | ⟨c0, c1, e⟩ | ⟨c0, c1, e⟩ | ⟨c0, c1, e⟩ | ⟨c0, c1, e⟩ | ⟨c0, c1, e⟩ | ⟨c0, c1, e⟩ | ⟨c0, c1, e⟩ | ⟨c0, c1, e⟩ | ⟨c0, c1, e⟩ | ⟨c0, c1, e⟩ | ⟨c0, e⟩ <;>
    rw [e] <;> norm_num <;> omega

/-- The day after the last day of a month is the first day of the following month. -/
theorem Date_next_month (y m : Int) (hm1 : 1 ≤ m) (hm12 : m ≤ 12) :
    Date y m (daysIn m y + 1) = Date y (m + 1) 1 := by
  have hl := leapDay_cases y
  obtain ⟨v1, v2, v3, v4, v5, v6, v7, v8, v9, v10, v11, v12⟩ := daysBefore_values
  have hm : m = 1 ∨ m = 2 ∨ m = 3 ∨ m = 4 ∨ m = 5 ∨ m = 6 ∨ m = 7 ∨ m = 8 ∨ m = 9 ∨
      m = 10 ∨ m = 11 ∨ m = 12 := by omega
  rcases hm with h | h | h | h | h | h | h | h | h | h | h | h <;> subst h
  all_goals first
    | (rw [Date_of_month_range _ _ _ (by norm_num) (by norm_num),
        Date_of_month_range _ _ _ (by norm_num) (by norm_num)]
       unfold daysIn
       norm_num
       simp only [v1, v2, v3, v4, v5, v6, v7, v8, v9, v10, v11, v12]
       omega)
    | (rw [Date_of_month_range _ _ _ (by norm_num) (by norm_num)]
       have e13 : Date y (12 + 1) 1 = daysSinceEpoch (y + 1) := by
         simp only [Date]
         norm_num
         rw [v1]
       rw [e13, daysSinceEpoch_succ]
       unfold daysIn
       norm_num
       simp only [v12]
       omega)

/-! ## The dates of a calendar month -/

theorem daysIn_bounds (m y : Int) : 28 ≤ daysIn m y ∧ daysIn m y ≤ 31 := by
  have hl := leapDay_cases y
  unfold daysIn
  split_ifs <;> omega

/-- The date `k` days after the first of a month, for `k` less than the length of the
month. -/
theorem civil_of_first_add (y m : Int) (hm1 : 1 ≤ m) (hm12 : m ≤ 12) (k : Int) (hk0 : 0 ≤ k)
    (hk : k < daysIn m y) :
    Year (Date y m 1 + k) = y ∧ Month (Date y m 1 + k) = m ∧ Day (Date y m 1 + k) = k + 1 := by
  have h := civil_of_Date y m (1 + k) hm1 hm12 (by omega) (by omega)
  rw [Date_add_days] at h
  obtain ⟨h1, h2, h3⟩ := h
  exact ⟨h1, h2, by omega⟩

/-- The day after the last day of a month is not in the month. -/
theorem Month_after_last (y m : Int) (hm1 : 1 ≤ m) (hm12 : m ≤ 12) :
    Month (Date y m 1 + daysIn m y) ≠ m := by
  have e : Date y m 1 + daysIn m y = Date y (m + 1) 1 := by
    rw [← Date_next_month y m hm1 hm12, ← Date_add_days]
    congr 1
    omega
  rw [e]
  by_cases h12 : m = 12
  · subst h12
    have e2 : Date y (12 + 1) 1 = Date (y + 1) 1 1 := by
      simp only [Date]
      norm_num
    rw [e2, (civil_of_Date (y + 1) 1 1 (by norm_num) (by norm_num) (by norm_num)
      (by have := daysIn_bounds 1 (y + 1); omega)).2.1]
    norm_num
  · rw [(civil_of_Date y (m + 1) 1 (by omega) (by omega) (by norm_num)
      (by have := daysIn_bounds (m + 1) y; omega)).2.1]
    omega

/-- The dates of the month of a date are the dates with its year and its month. -/
theorem mem_monthDates (date e : Int) :
    e ∈ monthDates date ↔ Year e = Year date ∧ Month e = Month date := by
  obtain ⟨hm1, hm12⟩ := Month_range date
  have hb := daysIn_bounds (Month date) (Year date)
  unfold monthDates
  rw [List.mem_map]
  constructor
  · rintro ⟨k, hk, rfl⟩
    rw [List.mem_range] at hk
    have := civil_of_first_add (Year date) (Month date) hm1 hm12 k (by omega) (by omega)
    exact ⟨this.1, this.2.1⟩
  · rintro ⟨hy, hm⟩
    have hd := Day_range e
    have hle := Day_le_daysIn e
    rw [hy, hm] at hle
    refine ⟨(Day e - 1).toNat, ?_, ?_⟩
    · rw [List.mem_range]
      omega
    · have hc : ((Day e - 1).toNat : Int) = Day e - 1 := by omega
      rw [hc, ← Date_add_days, ← hy, ← hm]
      have : 1 + (Day e - 1) = Day e := by omega
      rw [this, Date_Year_Month_Day]

/-- The dates of a month are listed in ascending order. -/
theorem monthDates_sorted (date : Int) : (monthDates date).Pairwise (fun a b => a < b) := by
  unfold monthDates
  rw [List.pairwise_map]
  refine List.Pairwise.imp ?_ (List.pairwise_lt_range _)
  intro a b hab
  omega

theorem IsWeekdayByWeekendDays_eq (w : Int) (W : List Int) :
    IsWeekdayByWeekendDays w W = decide (w ∉ W) := by
  unfold IsWeekdayByWeekendDays
  rw [Bool.eq_iff_iff, List.all_eq_true, decide_eq_true_eq]
  constructor
  · intro h hm
    have := h w hm
    simp at this
  · intro h x hx
    simp only [bne_iff_ne, ne_eq]
    intro e
    exact h (e ▸ hx)

/-- The day loop of `GetOrdinalDate`, started `j` days into the month with enough fuel for the
rest of the month, collects the matching dates of the rest of the month. -/
theorem matchingDaysLoop_from (dayType : String) (W : List Int) (y m : Int) (hm1 : 1 ≤ m)
    (hm12 : m ≤ 12) :
    ∀ (r fuel j : Nat), j + r = (daysIn m y).toNat → r < fuel →
      matchingDaysLoop dayType W m fuel (Date y m 1 + (j : Int)) =
        ((List.range' j r).map (fun k : Nat => Date y m 1 + (k : Int))).filter
          (matchesDayType dayType W) := by
  have hb := daysIn_bounds m y
  intro r
  induction r with
  | zero =>
    intro fuel j hj hf
    obtain ⟨f, rfl⟩ : ∃ f, fuel = f + 1 := ⟨fuel - 1, by omega⟩
    have hjn : (j : Int) = daysIn m y := by omega
    simp only [matchingDaysLoop]
    rw [if_neg (by rw [hjn]; exact Month_after_last y m hm1 hm12)]
    rfl
  | succ r ih =>
    intro fuel j hj hf
    obtain ⟨f, rfl⟩ : ∃ f, fuel = f + 1 := ⟨fuel - 1, by omega⟩
    have hc := civil_of_first_add y m hm1 hm12 j (by omega) (by omega)
    have hnext : AddDate (Date y m 1 + (j : Int)) 0 0 1 = Date y m 1 + ((j + 1 : Nat) : Int) := by
      rw [AddDate_days]
      push_cast
      ring
    have hmatch : (decide (dayType = "day") ||
        (decide (dayType = "weekday") &&
          IsWeekdayByWeekendDays (Weekday (Date y m 1 + (j : Int))) W) ||
        (decide (dayType = "weekend") &&
          !IsWeekdayByWeekendDays (Weekday (Date y m 1 + (j : Int))) W) ||
        decide (dayType = GetActualDayName (Date y m 1 + (j : Int)))) =
        matchesDayType dayType W (Date y m 1 + (j : Int)) := by
      unfold matchesDayType
      rw [IsWeekdayByWeekendDays_eq]
      simp
    simp only [matchingDaysLoop]
    rw [if_pos hc.2.1, hnext, ih f (j + 1) (by omega) (by omega), hmatch]
    rw [List.range'_succ, List.map_cons, List.filter_cons]

/-- The day loop of `GetOrdinalDate`, as the function runs it, collects the matching dates of
the month of the date, in ascending order. -/
theorem matchingDaysLoop_eq (dayType : String) (W : List Int) (date : Int) :
    matchingDaysLoop dayType W (Month (Date (Year date) (Month date) 1)) 32
        (Date (Year date) (Month date) 1) =
      matchingDates dayType W date := by
  obtain ⟨hm1, hm12⟩ := Month_range date
  have hb := daysIn_bounds (Month date) (Year date)
  have hfirst := civil_of_Date (Year date) (Month date) 1 hm1 hm12 (by norm_num) (by omega)
  rw [hfirst.2.1]
  have h := matchingDaysLoop_from dayType W (Year date) (Month date) hm1 hm12
    (daysIn (Month date) (Year date)).toNat 32 0 (by omega) (by omega)
  simp only [Nat.cast_zero, add_zero] at h
  rw [h]
  unfold matchingDates monthDates
  rw [List.range_eq_range']

/-! ## The resolution of ordinals -/

/-- The index that `GetOrdinalDate` takes for a position is the index of the
specification. -/
theorem ordinal_index_eq (position : String) (len : Int) :
    (if position = "first" then some 0
      else if position = "second" then some 1
      else if position = "third" then some 2
      else if position = "fourth" then some 3
      else if position = "fifth" then some 4
      else if position = "nextToLast" then some (if len - 2 < 0 then 0 else len - 2)
      else if position = "last" then some (len - 1)
      else none : Option Int) = positionIndex position len := by
  unfold positionIndex
  by_cases h1 : position = "first"
  · rw [if_pos h1, if_pos h1]
  rw [if_neg h1, if_neg h1]
  by_cases h2 : position = "second"
  · rw [if_pos h2, if_pos h2]
  rw [if_neg h2, if_neg h2]
  by_cases h3 : position = "third"
  · rw [if_pos h3, if_pos h3]
  rw [if_neg h3, if_neg h3]
  by_cases h4 : position = "fourth"
  · rw [if_pos h4, if_pos h4]
  rw [if_neg h4, if_neg h4]
  by_cases h5 : position = "fifth"
  · rw [if_pos h5, if_pos h5]
  rw [if_neg h5, if_neg h5]
  by_cases h6 : position = "nextToLast"
  · have h7 : ¬ position = "last" := by rw [h6]; decide
    rw [if_pos h6, if_neg h7, if_pos h6]
    congr 1
    split <;> omega
  rw [if_neg h6, if_neg h6]

/-- What `GetOrdinalDate` computes, with the day loop replaced by the list of the matching
dates of the month. -/
theorem GetOrdinalDate_eq (date : Int) (ord : String) (W : List Int) :
    GetOrdinalDate date ord W =
      match splitHyphen ord with
      | [position, dayType] =>
        if (dayType = "weekday" ∨ dayType = "weekend") ∧ W.length = 0 then
          .error .weekendDaysRequired
        else if (matchingDates dayType W date).length = 0 then .error .noMatchingDays
        else
          match positionIndex position (matchingDates dayType W date).length with
          | none => .error .invalidPosition
          | some idx =>
            if idx ≥ ((matchingDates dayType W date).length : Int) then .error .notEnoughDays
            else
              match (matchingDates dayType W date).get? idx.toNat with
              | some d => .ok d
              | none => .error .notEnoughDays
      | _ => .error .invalidFormat := by
  unfold GetOrdinalDate
  simp only [matchingDaysLoop_eq, ordinal_index_eq]

/-- The index of a recognized position is not negative when there are matching dates. -/
theorem positionIndex_nonneg (position : String) (count idx : Int) (hc : 0 < count)
    (h : positionIndex position count = some idx) : 0 ≤ idx := by
  unfold positionIndex at h
  split_ifs at h <;> cases h <;> omega

theorem positionIndex_isSome_iff (position : String) (count : Int) :
    (∃ idx, positionIndex position count = some idx) ↔ position ∈ positionTokens := by
  unfold positionIndex positionTokens
  simp only [List.mem_cons, List.mem_singleton, List.not_mem_nil, or_false]
  constructor
  · rintro ⟨idx, h⟩
    split_ifs at h <;> tauto
  · intro h
    split_ifs <;> first | exact ⟨_, rfl⟩ | (exfalso; tauto)

theorem GetActualDayName_mem (d : Int) : GetActualDayName d ∈ dayNameTokens := by
  unfold GetActualDayName dayNameTokens
  simp only
  split_ifs <;> simp

/-- The matching dates are the dates of the month of the date that match the day type. -/
theorem mem_matchingDates (dayType : String) (W : List Int) (date e : Int) :
    e ∈ matchingDates dayType W date ↔
      Year e = Year date ∧ Month e = Month date ∧ matchesDayType dayType W e = true := by
  unfold matchingDates
  rw [List.mem_filter, mem_monthDates]
  tauto

theorem matchingDates_sorted (dayType : String) (W : List Int) (date : Int) :
    (matchingDates dayType W date).Pairwise (fun a b => a < b) :=
  (monthDates_sorted date).sublist (List.filter_sublist _)

/-- A day type that is not recognized matches no date. -/
theorem matchingDates_unrecognized (dayType : String) (W : List Int) (date : Int)
    (h1 : dayType ∉ categoryTokens) (h2 : dayType ∉ dayNameTokens) :
    matchingDates dayType W date = [] := by
  unfold matchingDates
  rw [List.filter_eq_nil_iff]
  intro d _
  have hn : dayType ≠ GetActualDayName d := fun e => h2 (e ▸ GetActualDayName_mem d)
  simp only [categoryTokens, List.mem_cons, List.mem_singleton, List.not_mem_nil, or_false,
    not_or] at h1
  simp [matchesDayType, h1.1, h1.2.1, h1.2.2, hn]

/-- The tokens of a string of two tokens are determined by the string. -/
theorem twoTokens_unique (s a b a1 b1 : String) (h : twoTokens s a b)
    (h1 : twoTokens s a1 b1) : a1 = a ∧ b1 = b := by
  have e := (splitHyphen_two s a b).2 h
  rw [(splitHyphen_two s a1 b1).2 h1] at e
  have e1 := List.cons.inj e
  exact ⟨e1.1, (List.cons.inj e1.2).1⟩

/-- The value of `GetOrdinalDate` for a string of two tokens. -/
theorem GetOrdinalDate_two (date : Int) (ord a b : String) (W : List Int)
    (h : twoTokens ord a b) :
    GetOrdinalDate date ord W =
      if (b = "weekday" ∨ b = "weekend") ∧ W.length = 0 then .error .weekendDaysRequired
      else if (matchingDates b W date).length = 0 then .error .noMatchingDays
      else
        match positionIndex a (matchingDates b W date).length with
        | none => .error .invalidPosition
        | some idx =>
          if idx ≥ ((matchingDates b W date).length : Int) then .error .notEnoughDays
          else
            match (matchingDates b W date).get? idx.toNat with
            | some d => .ok d
            | none => .error .notEnoughDays := by
  rw [GetOrdinalDate_eq, (splitHyphen_two ord a b).2 h]

/-- The value of `GetOrdinalDate` for a string that does not consist of two tokens. -/
theorem GetOrdinalDate_not_two (date : Int) (ord : String) (W : List Int)
    (h : ¬ ∃ a b, twoTokens ord a b) :
    GetOrdinalDate date ord W = .error .invalidFormat := by
  rw [GetOrdinalDate_eq]
  split
  · rename_i a b heq
    exact absurd ⟨a, b, (splitHyphen_two ord a b).1 heq⟩ h
  · rfl

/-- C24: whenever `GetOrdinalDate` succeeds, the string consists of a position token and a day
type token, and the result is the element, at the index of the position (first = 0,
second = 1, third = 2, fourth = 3, fifth = 4, last = count - 1, nextToLast = max(count - 2, 0)),
of the ascending list of the dates of the calendar month of `date` that match the day type
(the days of the week in Go's numbering); so the result lies in the month and the year of
`date` and matches the day type. -/
theorem ordinal_result (date : Int) (ord : String) (W : List Int) (d : Int)
    (h : GetOrdinalDate date ord W = .ok d) :
    ∃ position dayType idx, twoTokens ord position dayType ∧
      positionIndex position (matchingDates dayType W date).length = some idx ∧ 0 ≤ idx ∧
      (matchingDates dayType W date).get? idx.toNat = some d ∧
      (matchingDates dayType W date).Pairwise (fun a b => a < b) ∧
      (∀ e, e ∈ matchingDates dayType W date ↔
        Year e = Year date ∧ Month e = Month date ∧ matchesDayType dayType W e = true) ∧
      Year d = Year date ∧ Month d = Month date ∧ matchesDayType dayType W d = true := by
  by_cases h2 : ∃ a b, twoTokens ord a b
  swap
  · rw [GetOrdinalDate_not_two date ord W h2] at h
    cases h
  obtain ⟨a, b, hab⟩ := h2
  rw [GetOrdinalDate_two date ord a b W hab] at h
  split_ifs at h with c1 c2
  cases hp : positionIndex a (matchingDates b W date).length with
  | none => rw [hp] at h; cases h
  | some idx =>
    rw [hp] at h
    simp only at h
    split_ifs at h with c3
    cases hg : (matchingDates b W date).get? idx.toNat with
    | none => rw [hg] at h; cases h
    | some e =>
      rw [hg] at h
      simp only at h
      have hed : e = d := by injection h
      subst hed
      have hpos : 0 < ((matchingDates b W date).length : Int) := by
        have : (matchingDates b W date).length ≠ 0 := c2
        omega
      have hmem : e ∈ matchingDates b W date := List.get?_mem hg
      have hm := (mem_matchingDates b W date e).1 hmem
      exact ⟨a, b, idx, hab, hp, positionIndex_nonneg a _ idx hpos hp, hg,
        matchingDates_sorted b W date, mem_matchingDates b W date, hm.1, hm.2.1, hm.2.2⟩

/-- C24 at the examples of January 2023: first-monday is 2023-01-02, last-friday 2023-01-27,
third-wednesday 2023-01-18 and nextToLast-day 2023-01-30. -/
theorem ordinal_result_witness :
    GetOrdinalDate (Date 2023 1 15) "first-monday" [0, 6] = .ok (Date 2023 1 2) ∧
    GetOrdinalDate (Date 2023 1 15) "last-friday" [0, 6] = .ok (Date 2023 1 27) ∧
    GetOrdinalDate (Date 2023 1 15) "third-wednesday" [0, 6] = .ok (Date 2023 1 18) ∧
    GetOrdinalDate (Date 2023 1 15) "nextToLast-day" [0, 6] = .ok (Date 2023 1 30) ∧
    ∃ position dayType idx, twoTokens "first-monday" position dayType ∧
      positionIndex position (matchingDates dayType [0, 6] (Date 2023 1 15)).length =
        some idx ∧ 0 ≤ idx ∧
      (matchingDates dayType [0, 6] (Date 2023 1 15)).get? idx.toNat = some (Date 2023 1 2) ∧
      (matchingDates dayType [0, 6] (Date 2023 1 15)).Pairwise (fun a b => a < b) ∧
      (∀ e, e ∈ matchingDates dayType [0, 6] (Date 2023 1 15) ↔
        Year e = Year (Date 2023 1 15) ∧ Month e = Month (Date 2023 1 15) ∧
          matchesDayType dayType [0, 6] e = true) ∧
      Year (Date 2023 1 2) = Year (Date 2023 1 15) ∧
      Month (Date 2023 1 2) = Month (Date 2023 1 15) ∧
      matchesDayType dayType [0, 6] (Date 2023 1 2) = true :=
  ⟨by rfl, by rfl, by rfl, by rfl,
    ordinal_result (Date 2023 1 15) "first-monday" [0, 6] (Date 2023 1 2) (by rfl)⟩

/-- C25: `GetOrdinalDate` returns an error exactly when the resolution fails in the words of
the specification, and a date in every other case. -/
theorem ordinal_error_iff (date : Int) (ord : String) (W : List Int) :
    ((∃ e, GetOrdinalDate date ord W = .error e) ↔ ordinalFails date ord W) ∧
    (¬ ordinalFails date ord W → ∃ d, GetOrdinalDate date ord W = .ok d) := by
  have hiff : (∃ e, GetOrdinalDate date ord W = .error e) ↔ ordinalFails date ord W := by
    unfold ordinalFails
    by_cases h2 : ∃ a b, twoTokens ord a b
    swap
    · rw [GetOrdinalDate_not_two date ord W h2]
      exact ⟨fun _ => Or.inl h2, fun _ => ⟨_, rfl⟩⟩
    obtain ⟨a, b, hab⟩ := h2
    rw [GetOrdinalDate_two date ord a b W hab]
    have hlen : (matchingDates b W date).length = 0 ↔ matchingDates b W date = [] :=
      List.length_eq_zero
    constructor
    · intro herr
      refine Or.inr ⟨a, b, hab, ?_⟩
      by_cases c1 : (b = "weekday" ∨ b = "weekend") ∧ W.length = 0
      · exact Or.inr (Or.inr (Or.inl ⟨c1.1, List.length_eq_zero.1 c1.2⟩))
      by_cases c2 : (matchingDates b W date).length = 0
      · exact Or.inr (Or.inr (Or.inr (Or.inl (hlen.1 c2))))
      rw [if_neg c1, if_neg c2] at herr
      cases hp : positionIndex a (matchingDates b W date).length with
      | none =>
        left
        intro hm
        obtain ⟨idx, hi⟩ := (positionIndex_isSome_iff a _).2 hm
        rw [hp] at hi
        cases hi
      | some idx =>
        rw [hp] at herr
        simp only at herr
        by_cases c3 : idx ≥ ((matchingDates b W date).length : Int)
        · exact Or.inr (Or.inr (Or.inr (Or.inr ⟨idx, rfl, c3⟩)))
        rw [if_neg c3] at herr
        have h0 := positionIndex_nonneg a _ idx (by omega) hp
        have hlt : idx.toNat < (matchingDates b W date).length := by omega
        rw [List.get?_eq_get hlt] at herr
        simp only at herr
        obtain ⟨e, he⟩ := herr
        cases he
    · rintro (h | ⟨a1, b1, hab1, hdis⟩)
      · exact absurd ⟨a, b, hab⟩ h
      obtain ⟨ea, eb⟩ := twoTokens_unique ord a b a1 b1 hab hab1
      subst ea eb
      by_cases c1 : (a1 = a1 ∧ (b1 = "weekday" ∨ b1 = "weekend") ∧ W.length = 0)
      · rw [if_pos c1.2]
        exact ⟨_, rfl⟩
      have c1n : ¬ ((b1 = "weekday" ∨ b1 = "weekend") ∧ W.length = 0) := fun h => c1 ⟨rfl, h⟩
      rw [if_neg c1n]
      by_cases c2 : (matchingDates b1 W date).length = 0
      · rw [if_pos c2]
        exact ⟨_, rfl⟩
      rw [if_neg c2]
      rcases hdis with h | h | h | h | ⟨idx, hp, hge⟩
      · cases hp : positionIndex a1 (matchingDates b1 W date).length with
        | none => exact ⟨_, rfl⟩
        | some idx =>
          exact absurd ((positionIndex_isSome_iff a1 _).1 ⟨idx, hp⟩) h
      · exact absurd (hlen.2 (matchingDates_unrecognized b1 W date h.1 h.2)) c2
      · exact absurd ⟨h.1, List.length_eq_zero.2 h.2⟩ c1n
      · exact absurd (hlen.2 h) c2
      · rw [hp]
        simp only
        rw [if_pos hge]
        exact ⟨_, rfl⟩
  refine ⟨hiff, ?_⟩
  intro hnf
  cases hres : GetOrdinalDate date ord W with
  | ok d => exact ⟨d, rfl⟩
  | error e => exact absurd (hiff.1 ⟨e, hres⟩) hnf

/-- C25 at an example: January 2023 has four Fridays, so `fifth-friday` fails there, and the
failure is one of the specification. -/
theorem ordinal_error_iff_witness :
    GetOrdinalDate (Date 2023 1 15) "fifth-friday" [0, 6] = .error .notEnoughDays ∧
      ordinalFails (Date 2023 1 15) "fifth-friday" [0, 6] :=
  ⟨by rfl, (ordinal_error_iff (Date 2023 1 15) "fifth-friday" [0, 6]).1.1 ⟨_, by rfl⟩⟩

/-- C26, refuted: for the anchor date 2023-01-15 of the test, `fifth-monday` succeeds with
2023-01-30, as the test `Fifth Monday` of `TestGetOrdinalDate` expects: January 2023 has the
five Mondays 2, 9, 16, 23 and 30. -/
theorem fifth_monday_of_january_2023 :
    GetOrdinalDate (Date 2023 1 15) "fifth-monday" [0, 6] = .ok (Date 2023 1 30) ∧
      matchingDates "monday" [0, 6] (Date 2023 1 15) =
        [Date 2023 1 2, Date 2023 1 9, Date 2023 1 16, Date 2023 1 23, Date 2023 1 30] :=
  ⟨by rfl, by rfl⟩

/-- C26 (amended): for every anchor date in January 2023 and every set of weekend days,
`fifth-monday` resolves to 2023-01-30, the fifth of the five Mondays of the month; for every
anchor date in February 2023, which has four Mondays, it fails for want of matching days. -/
theorem fifth_monday_2023 (date : Int) (W : List Int) (hy : Year date = 2023) :
    (Month date = 1 → GetOrdinalDate date "fifth-monday" W = .ok (Date 2023 1 30)) ∧
    (Month date = 2 → GetOrdinalDate date "fifth-monday" W = .error .notEnoughDays) := by
  constructor
  · intro hm
    unfold GetOrdinalDate
    rw [hy, hm]
    rfl
  · intro hm
    unfold GetOrdinalDate
    rw [hy, hm]
    rfl

/-- C26 (amended) at the anchor date 2023-01-15 of the test and at 2023-02-10. -/
theorem fifth_monday_2023_witness :
    GetOrdinalDate (Date 2023 1 15) "fifth-monday" [0, 6] = .ok (Date 2023 1 30) ∧
      GetOrdinalDate (Date 2023 2 10) "fifth-monday" [0, 6] = .error .notEnoughDays :=
  ⟨(fifth_monday_2023 (Date 2023 1 15) [0, 6] (by rfl)).1 (by rfl),
   (fifth_monday_2023 (Date 2023 2 10) [0, 6] (by rfl)).2 (by rfl)⟩

/-! ## Cycles of an item with an ordinal -/

/-- A cycle of an item with an ordinal and without `each` values whose resolution fails
leaves the state as it is: nothing is appended, the counter keeps its value. -/
theorem cycleStep_ordinal_error (opts : GeneratorOptions) (entry : BaseEntry)
    (config : RecurrenceConfig) (hp : config.Period = PeriodMonth)
    (heach : config.Options.Each = []) (hon : config.Options.On ≠ "") (i : Int)
    (st : GenState) (e : OrdinalError)
    (h : GetOrdinalDate (st.adjust (AddByPeriod config.Start (wrapInt (i * everyOf config))
      config.Period)) config.Options.On opts.WeekendDays = .error e) :
    cycleStep opts entry config i st = some st := by
  have hnw : ¬ (config.Period = PeriodWeek ∧ config.Options.Each.length = 0) := by
    rw [hp]
    intro hh
    exact absurd hh.1 (by decide)
  have hne : ¬ (config.Options.Each.length > 0) := by simp [heach]
  unfold cycleStep
  simp only [if_neg hnw, if_neg hne, if_pos hon, h]

/-- The dates of a cycle of an item with an ordinal and without `each` values, when no
modification has left a date adjustment. -/
theorem plainCycleDates_ordinal (opts : GeneratorOptions) (config : RecurrenceConfig)
    (hp : config.Period = PeriodMonth) (heach : config.Options.Each = [])
    (hon : config.Options.On ≠ "") (i : Int) :
    plainCycleDates opts config i = (resolvedDate opts config i).toList := by
  have hnw : ¬ (config.Period = PeriodWeek ∧ config.Options.Each.length = 0) := by
    rw [hp]
    intro hh
    exact absurd hh.1 (by decide)
  have hne : ¬ (config.Options.Each.length > 0) := by simp [heach]
  unfold plainCycleDates cycleDates resolvedDate
  simp only [if_neg hnw, if_neg hne, if_pos hon, adjust_of_rest_none (initState []) rfl]
  cases GetOrdinalDate (AddByPeriod config.Start (wrapInt (i * everyOf config)) config.Period)
      config.Options.On opts.WeekendDays with
  | error e => rfl
  | ok d =>
    simp only [IsZero, beq_iff_eq]
    split <;> rfl

theorem flatten_map_toList {α β : Type} (f : α → Option β) :
    ∀ l : List α, (l.map (fun a => (f a).toList)).flatten = l.filterMap f := by
  intro l
  induction l with
  | nil => rfl
  | cons a l ih =>
    rw [List.map_cons, List.flatten_cons, ih, List.filterMap_cons]
    cases f a <;> rfl

theorem options_without_modifications (opts : GeneratorOptions)
    (h : opts.Modifications = []) : ({ opts with Modifications := [] } : GeneratorOptions) = opts := by
  cases opts
  simp only at h
  subst h
  rfl

/-- C27, refuted: a valid monthly item with the ordinal `first-monday`, two cycles, starting
on 0001-01-15. The month of the first cycle contains its first Monday, 0001-01-01, which is the
zero date: the cycle is dropped, and `Generator` returns the first Monday of February alone. -/
theorem zero_ordinal_dropped :
    IsValidBaseEntry (ordinalEntry (Date 1 1 15) 2 "first-monday") = true ∧
      GetOrdinalDate (Date 1 1 15) "first-monday" [] = .ok (Date 1 1 1) ∧
      Date 1 1 1 = 0 ∧
      Generator { Data := [ordinalEntry (Date 1 1 15) 2 "first-monday"] } =
        some (.ok [⟨ordinalEntry (Date 1 1 15) 2 "first-monday", 1, Date 1 2 5,
                    Date 1 2 5⟩]) :=
  ⟨by rfl, by rfl, by rfl, by rfl⟩

/-- C27 (amended): for a month-period item with an ordinal and without `each` values, a cycle
whose ordinal resolution fails is dropped silently: the cycle leaves the state as it is (no
occurrence, the counter not advanced) and the loop goes on. So, for such an item alone, without
modifications and without a range, what `Generator` returns consists exactly of the cycles
whose resolution succeeds with a date other than the zero date 0001-01-01, in the order of
the cycles, numbered 1, 2, ... without gaps; and `Generator` does return for an item that
passes its validation and whose payment date walk can stop. -/
theorem ordinal_cycle_dropped (opts : GeneratorOptions) (entry : BaseEntry)
    (config : RecurrenceConfig) (hp : config.Period = PeriodMonth)
    (heach : config.Options.Each = []) (hon : config.Options.On ≠ "") :
    (∀ (i : Int) (st : GenState) (e : OrdinalError),
      GetOrdinalDate (st.adjust (AddByPeriod config.Start (wrapInt (i * everyOf config))
        config.Period)) config.Options.On opts.WeekendDays = .error e →
      cycleStep opts entry config i st = some st ∧
      ∀ n : Nat, st.deleteRest = false →
        runCycles opts entry config (n + 1) i st = runCycles opts entry config n (i + 1) st) ∧
    (opts.Data = [entry] → entry.Config = some config → opts.Modifications = [] →
      opts.Range = none →
      (∀ res, Generator opts = some (.ok res) →
        res.map (fun g => g.ActualDate) =
          resolvedDates opts config (maxIntervalOf opts config).toNat ∧
        res.map (fun g => g.Index) = (List.range res.length).map (fun j : Nat => (j : Int) + 1)) ∧
      (validateEntries opts.WeekendDays [entry] = none → walkStops opts config →
        ∃ res, Generator opts = some (.ok res))) := by
  have hpn : config.Period ≠ PeriodNone := by rw [hp]; decide
  constructor
  · intro i st e h
    have hc := cycleStep_ordinal_error opts entry config hp heach hon i st e h
    refine ⟨hc, ?_⟩
    intro n hdel
    simp only [runCycles, hc, hdel, Bool.false_eq_true, if_false]
  · intro hd hc hmods hr
    constructor
    · intro res h
      have h2 := Generator_plain_of_ok opts entry config hd hc hpn hmods hr res h
      constructor
      · rw [h2]
        simp only [plainCycleDates_ordinal opts config hp heach hon]
        exact flatten_map_toList (fun j : Nat => resolvedDate opts config j) _
      · have hpe := ((Generator_single_item opts entry hd res).1 h).2
        rw [← options_without_modifications opts hmods] at hpe
        exact processEntry_unmodified_indices opts entry config hc hpn res hpe
    · intro hvalid hstop
      obtain ⟨res, h1, _⟩ := Generator_plain opts entry config hd hc hpn hvalid hmods hr hstop
      exact ⟨res, h1⟩

/-- C27 (amended) at a monthly item with the ordinal `fifth-monday`, five cycles from
2023-01-01: February, March and April 2023 have four Mondays each and are dropped; the
occurrences are 2023-01-30 and 2023-05-29, numbered 1 and 2. -/
theorem ordinal_cycle_dropped_witness :
    cycleStep { Data := [ordinalEntry (Date 2023 1 1) 5 "fifth-monday"] }
        (ordinalEntry (Date 2023 1 1) 5 "fifth-monday")
        (ordinalConfig (Date 2023 1 1) 5 "fifth-monday") 1 (initState []) =
      some (initState []) ∧
    ∃ res, Generator { Data := [ordinalEntry (Date 2023 1 1) 5 "fifth-monday"] } =
        some (.ok res) ∧
      res.map (fun g => g.ActualDate) = [Date 2023 1 30, Date 2023 5 29] ∧
      res.map (fun g => g.Index) = [1, 2] := by
  obtain ⟨hloc, hglob⟩ := ordinal_cycle_dropped
    { Data := [ordinalEntry (Date 2023 1 1) 5 "fifth-monday"] }
    (ordinalEntry (Date 2023 1 1) 5 "fifth-monday")
    (ordinalConfig (Date 2023 1 1) 5 "fifth-monday") rfl rfl (by decide)
  obtain ⟨hall, hret⟩ := hglob rfl rfl rfl rfl
  obtain ⟨res, h1⟩ := hret (by rfl) (Or.inl rfl)
  obtain ⟨h2, h3⟩ := hall res h1
  have hlen : res.length = 2 := by
    have := congrArg List.length h2
    rw [List.length_map] at this
    exact this.trans (by rfl)
  refine ⟨(hloc 1 (initState []) .notEnoughDays (by rfl)).1, res, h1, h2.trans (by rfl), ?_⟩
  rw [h3, hlen]
  rfl

/-! ## Modifications that target another identifier -/

/-- A modification that does not target the occurrence is passed over by the loop over the
modifications. -/
theorem applyModificationsLoop_skip (entry : BaseEntry) (index : Int) (m : Modification)
    (hm : ¬ targets m entry index) (post : List Modification) :
    ∀ (pre : List Modification) (rest : Option PayloadMap) (adj : Option DateAdjustment)
      (last : GeneratedEntry),
      applyModificationsLoop entry index (pre ++ m :: post) rest adj last =
        applyModificationsLoop entry index (pre ++ post) rest adj last := by
  intro pre
  induction pre with
  | nil =>
    intro rest adj last
    simp only [List.nil_append]
    rw [applyModificationsLoop,
      if_neg (show ¬ (m.ItemID.format = entry.ID.format ∧ m.Index = index) from hm)]
  | cons x pre ih =>
    intro rest adj last
    rw [List.cons_append, List.cons_append, applyModificationsLoop]
    conv_rhs => rw [applyModificationsLoop]
    simp only [ih]

/-- The loops of `Generator` read the modifications only through `applyModifications` for the
item at hand. -/
theorem emitOccurrence_congr_mods (o1 o2 : GeneratorOptions) (hH : o1.Holidays = o2.Holidays)
    (hW : o1.WeekendDays = o2.WeekendDays) (entry : BaseEntry)
    (hM : ∀ index last, applyModifications entry index o1.Modifications last =
      applyModifications entry index o2.Modifications last)
    (config : RecurrenceConfig) (d : Int) (st : GenState) :
    emitOccurrence o1 entry config d st = emitOccurrence o2 entry config d st := by
  unfold emitOccurrence
  simp only [hH, hW, hM]

theorem emitInRange_congr_mods (o1 o2 : GeneratorOptions) (hH : o1.Holidays = o2.Holidays)
    (hW : o1.WeekendDays = o2.WeekendDays) (hR : o1.Range = o2.Range) (entry : BaseEntry)
    (hM : ∀ index last, applyModifications entry index o1.Modifications last =
      applyModifications entry index o2.Modifications last)
    (config : RecurrenceConfig) (d : Int) (st : GenState) :
    emitInRange o1 entry config d st = emitInRange o2 entry config d st := by
  unfold emitInRange
  rw [hR, emitOccurrence_congr_mods o1 o2 hH hW entry hM]

theorem emitAll_congr_mods (o1 o2 : GeneratorOptions) (hH : o1.Holidays = o2.Holidays)
    (hW : o1.WeekendDays = o2.WeekendDays) (hR : o1.Range = o2.Range) (entry : BaseEntry)
    (hM : ∀ index last, applyModifications entry index o1.Modifications last =
      applyModifications entry index o2.Modifications last)
    (config : RecurrenceConfig) :
    ∀ (dates : List Int) (st : GenState),
      emitAll o1 entry config dates st = emitAll o2 entry config dates st := by
  intro dates
  induction dates with
  | nil => intro st; rfl
  | cons d dates ih =>
    intro st
    simp only [emitAll, emitInRange_congr_mods o1 o2 hH hW hR entry hM, ih]

theorem runCycles_congr_mods (o1 o2 : GeneratorOptions) (hH : o1.Holidays = o2.Holidays)
    (hW : o1.WeekendDays = o2.WeekendDays) (hR : o1.Range = o2.Range) (entry : BaseEntry)
    (hM : ∀ index last, applyModifications entry index o1.Modifications last =
      applyModifications entry index o2.Modifications last)
    (config : RecurrenceConfig) :
    ∀ (n : Nat) (i : Int) (st : GenState),
      runCycles o1 entry config n i st = runCycles o2 entry config n i st := by
  intro n
  induction n with
  | zero => intro i st; rfl
  | succ n ih =>
    intro i st
    simp only [runCycles, cycleStep_eq_emitAll, cycleDates_congr o1 o2 hW config i st st rfl,
      emitAll_congr_mods o1 o2 hH hW hR entry hM, ih]

theorem processEntry_congr_mods (o1 o2 : GeneratorOptions) (hH : o1.Holidays = o2.Holidays)
    (hW : o1.WeekendDays = o2.WeekendDays) (hR : o1.Range = o2.Range)
    (hX : o1.MaxIntervals = o2.MaxIntervals) (entry : BaseEntry)
    (hM : ∀ index last, applyModifications entry index o1.Modifications last =
      applyModifications entry index o2.Modifications last)
    (result : List GeneratedEntry) :
    processEntry o1 result entry = processEntry o2 result entry := by
  unfold processEntry maxIntervalOf
  simp only [runCycles_congr_mods o1 o2 hH hW hR entry hM, hR, hX]

theorem processEntries_congr_mods (o1 o2 : GeneratorOptions) (hH : o1.Holidays = o2.Holidays)
    (hW : o1.WeekendDays = o2.WeekendDays) (hR : o1.Range = o2.Range)
    (hX : o1.MaxIntervals = o2.MaxIntervals) :
    ∀ (entries : List BaseEntry),
      (∀ entry ∈ entries, ∀ index last,
        applyModifications entry index o1.Modifications last =
          applyModifications entry index o2.Modifications last) →
      ∀ result : List GeneratedEntry,
        processEntries o1 entries result = processEntries o2 entries result := by
  intro entries
  induction entries with
  | nil => intro _ result; rfl
  | cons e es ih =>
    intro hM result
    simp only [processEntries,
      processEntry_congr_mods o1 o2 hH hW hR hX e (hM e (List.mem_cons_self _ _)),
      ih (fun entry he => hM entry (List.mem_cons_of_mem _ he))]

/-- C30, refuted: the weekly entry with the integer identifier 1 and five occurrences, and a
modification with the string identifier "1" that deletes occurrence 3: the occurrence is
deleted, whereas without the modification all five occurrences are returned. -/
theorem string_identifier_matches_integer :
    Generator { Data := [weeklyEntry 5 0], Modifications := [deleteOf (.str "1") 3] } =
      some (.ok [⟨weeklyEntry 5 0, 1, Date 2023 1 1, Date 2023 1 1⟩,
                 ⟨weeklyEntry 5 0, 2, Date 2023 1 8, Date 2023 1 8⟩,
                 ⟨weeklyEntry 5 0, 4, Date 2023 1 22, Date 2023 1 22⟩,
                 ⟨weeklyEntry 5 0, 5, Date 2023 1 29, Date 2023 1 29⟩]) ∧
    Generator { Data := [weeklyEntry 5 0] } =
      some (.ok [⟨weeklyEntry 5 0, 1, Date 2023 1 1, Date 2023 1 1⟩,
                 ⟨weeklyEntry 5 0, 2, Date 2023 1 8, Date 2023 1 8⟩,
                 ⟨weeklyEntry 5 0, 3, Date 2023 1 15, Date 2023 1 15⟩,
                 ⟨weeklyEntry 5 0, 4, Date 2023 1 22, Date 2023 1 22⟩,
                 ⟨weeklyEntry 5 0, 5, Date 2023 1 29, Date 2023 1 29⟩]) ∧
    (weeklyEntry 5 0).ID = .int 1 ∧ Ident.str "1" ≠ Ident.int 1 :=
  ⟨by rfl, by rfl, by rfl, by decide⟩

/-- C30 (amended): identifiers are compared through their textual form (`%v`). A modification
whose identifier has another textual form than the identifier of an item has no effect on the
item: what the loop over the items does with the item is the same as without the
modification; and when this holds for every item of the input, `Generator` returns the same
as without the modification. -/
theorem foreign_modification_no_effect (opts : GeneratorOptions) (m : Modification)
    (pre post : List Modification) (hmods : opts.Modifications = pre ++ m :: post) :
    (∀ (entry : BaseEntry) (result : List GeneratedEntry),
      m.ItemID.format ≠ entry.ID.format →
      processEntry opts result entry =
        processEntry (opts.withModifications (pre ++ post)) result entry) ∧
    ((∀ entry ∈ opts.Data, m.ItemID.format ≠ entry.ID.format) →
      Generator opts = Generator (opts.withModifications (pre ++ post))) := by
  have hM : ∀ entry : BaseEntry, m.ItemID.format ≠ entry.ID.format → ∀ index last,
      applyModifications entry index opts.Modifications last =
        applyModifications entry index (opts.withModifications (pre ++ post)).Modifications
          last := by
    intro entry hne index last
    rw [hmods]
    exact applyModificationsLoop_skip entry index m (fun h => hne h.1) post pre none none last
  constructor
  · intro entry result hne
    exact processEntry_congr_mods opts (opts.withModifications (pre ++ post)) rfl rfl rfl rfl
      entry (hM entry hne) result
  · intro hall
    unfold Generator
    have hp := processEntries_congr_mods opts (opts.withModifications (pre ++ post)) rfl rfl
      rfl rfl opts.Data (fun entry he => hM entry (hall entry he)) []
    have hd : (opts.withModifications (pre ++ post)).Data = opts.Data := rfl
    have hw : (opts.withModifications (pre ++ post)).WeekendDays = opts.WeekendDays := rfl
    rw [hd, hw, hp]

/-- C30 (amended) at the weekly entry with the integer identifier 1 and a modification with
the string identifier "2" that deletes occurrence 3: all five occurrences are returned. -/
theorem foreign_modification_no_effect_witness :
    Generator { Data := [weeklyEntry 5 0], Modifications := [deleteOf (.str "2") 3] } =
      some (.ok [⟨weeklyEntry 5 0, 1, Date 2023 1 1, Date 2023 1 1⟩,
                 ⟨weeklyEntry 5 0, 2, Date 2023 1 8, Date 2023 1 8⟩,
                 ⟨weeklyEntry 5 0, 3, Date 2023 1 15, Date 2023 1 15⟩,
                 ⟨weeklyEntry 5 0, 4, Date 2023 1 22, Date 2023 1 22⟩,
                 ⟨weeklyEntry 5 0, 5, Date 2023 1 29, Date 2023 1 29⟩]) :=
  ((foreign_modification_no_effect
      { Data := [weeklyEntry 5 0], Modifications := [deleteOf (.str "2") 3] }
      (deleteOf (.str "2") 3) [] [] rfl).2
    (by
      intro entry he
      have : entry = weeklyEntry 5 0 := List.mem_singleton.1 he
      subst this
      decide)).trans (by rfl)

/-! ## Two runs of the loops in step -/

section Lockstep

variable (o1 o2 : GeneratorOptions) (entry : BaseEntry) (config : RecurrenceConfig)
variable (R : GenState → GenState → Prop)

theorem emitInRange_step (hR : o1.Range = o2.Range)
    (hstep : ∀ d s1 s2, R s1 s2 →
      Option.Rel R (emitOccurrence o1 entry config d s1) (emitOccurrence o2 entry config d s2))
    (d : Int) (s1 s2 : GenState) (h : R s1 s2) :
    Option.Rel R (emitInRange o1 entry config d s1) (emitInRange o2 entry config d s2) := by
  unfold emitInRange
  rw [hR]
  split
  · exact Option.Rel.some h
  · exact hstep d s1 s2 h

theorem emitAll_step (hR : o1.Range = o2.Range)
    (hdel : ∀ s1 s2, R s1 s2 → s1.deleteRest = s2.deleteRest)
    (hstep : ∀ d s1 s2, R s1 s2 →
      Option.Rel R (emitOccurrence o1 entry config d s1) (emitOccurrence o2 entry config d s2)) :
    ∀ (dates : List Int) (s1 s2 : GenState), R s1 s2 →
      Option.Rel R (emitAll o1 entry config dates s1) (emitAll o2 entry config dates s2) := by
  intro dates
  induction dates with
  | nil => intro s1 s2 h; exact Option.Rel.some h
  | cons d dates ih =>
    intro s1 s2 h
    simp only [emitAll]
    have hs := emitInRange_step o1 o2 entry config R hR hstep d s1 s2 h
    generalize emitInRange o1 entry config d s1 = r1 at hs
    generalize emitInRange o2 entry config d s2 = r2 at hs
    cases hs with
    | none => exact Option.Rel.none
    | some hu =>
      rename_i u1 u2
      simp only
      rw [hdel u1 u2 hu]
      split
      · exact Option.Rel.some hu
      · exact ih u1 u2 hu

theorem runCycles_step (hW : o1.WeekendDays = o2.WeekendDays) (hR : o1.Range = o2.Range)
    (hdel : ∀ s1 s2, R s1 s2 → s1.deleteRest = s2.deleteRest)
    (hadj : ∀ s1 s2, R s1 s2 → s1.activeAdjustment = s2.activeAdjustment)
    (hstep : ∀ d s1 s2, R s1 s2 →
      Option.Rel R (emitOccurrence o1 entry config d s1) (emitOccurrence o2 entry config d s2)) :
    ∀ (n : Nat) (i : Int) (s1 s2 : GenState), R s1 s2 →
      Option.Rel R (runCycles o1 entry config n i s1) (runCycles o2 entry config n i s2) := by
  intro n
  induction n with
  | zero => intro i s1 s2 h; exact Option.Rel.some h
  | succ n ih =>
    intro i s1 s2 h
    simp only [runCycles, cycleStep_eq_emitAll]
    rw [cycleDates_congr o1 o2 hW config i s1 s2 (hadj s1 s2 h)]
    have hs := emitAll_step o1 o2 entry config R hR hdel hstep (cycleDates o2 config i s2)
      s1 s2 h
    generalize emitAll o1 entry config (cycleDates o2 config i s2) s1 = r1 at hs
    generalize emitAll o2 entry config (cycleDates o2 config i s2) s2 = r2 at hs
    cases hs with
    | none => exact Option.Rel.none
    | some hu =>
      rename_i u1 u2
      simp only
      rw [hdel u1 u2 hu]
      split
      · exact Option.Rel.some hu
      · exact ih (i + 1) u1 u2 hu

end Lockstep

/-! ## Date overrides -/

/-- A payload whose `date` value parses is not empty. -/
theorem modifiedDate_len (m : Modification) (D : Int) (h : m.modifiedDate = some D) :
    m.Payload.len > 0 := by
  unfold Modification.modifiedDate at h
  unfold PayloadMap.len
  cases hd : m.Payload.date with
  | none => rw [hd] at h; cases h
  | some v => simp only [Option.isSome_some, if_true]; omega

/-- A modification that does not target the occurrence, or carries no date, is passed over
by `lastOverride`. -/
theorem lastOverride_cons_none (m : Modification) (ms : List Modification) (entry : BaseEntry)
    (n : Int) (h : ¬ targets m entry n ∨ m.modifiedDate = none) :
    lastOverride (m :: ms) entry n = lastOverride ms entry n := by
  simp only [lastOverride]
  cases hl : lastOverride ms entry n with
  | some d => rfl
  | none =>
    simp only
    rcases h with h | h
    · rw [if_neg h]
    · rw [h]; split <;> rfl

/-- A matching modification with a date gives the date of the last override, unless a later
one does. -/
theorem lastOverride_cons_some (m : Modification) (ms : List Modification) (entry : BaseEntry)
    (n : Int) (ht : targets m entry n) (d0 : Int) (hd : m.modifiedDate = some d0) :
    lastOverride (m :: ms) entry n = some ((lastOverride ms entry n).getD d0) := by
  simp only [lastOverride]
  cases hl : lastOverride ms entry n with
  | some d => rfl
  | none => simp only [if_pos ht, hd, Option.getD_none]

/-- The entry behind the pointer after the loop over the modifications, when the occurrence
is kept: both dates are the date of the last matching modification that carries one, and the
entry is untouched when there is none. -/
theorem applyModificationsLoop_override (entry : BaseEntry) (index : Int) :
    ∀ (mods : List Modification) (rest : Option PayloadMap) (adj : Option DateAdjustment)
      (last : GeneratedEntry),
      (applyModificationsLoop entry index mods rest adj last).shouldDelete = false →
      (∀ D, lastOverride mods entry index = some D →
        (applyModificationsLoop entry index mods rest adj last).lastEntry.ActualDate = D ∧
        (applyModificationsLoop entry index mods rest adj last).lastEntry.PaymentDate = D) ∧
      (lastOverride mods entry index = none →
        (applyModificationsLoop entry index mods rest adj last).lastEntry = last) := by
  intro mods
  induction mods with
  | nil =>
    intro rest adj last _
    exact ⟨fun D h => (by simp only [lastOverride] at h; cases h), fun _ => rfl⟩
  | cons m ms ih =>
    intro rest adj last hdel
    rw [applyModificationsLoop] at hdel ⊢
    by_cases hm : m.ItemID.format = entry.ID.format ∧ m.Index = index
    · have ht : targets m entry index := hm
      rw [if_pos hm] at hdel ⊢
      by_cases hd : m.Payload.deleted = some (Value.bool true)
      · rw [if_pos hd] at hdel; cases hdel
      · rw [if_neg hd] at hdel ⊢
        cases hdate : m.modifiedDate with
        | none =>
          rw [hdate] at hdel
          rw [lastOverride_cons_none m ms entry index (Or.inr hdate)]
          by_cases hl0 : m.Payload.len > 0 ∨ m.restLen > 0
          · rw [if_pos hl0] at hdel ⊢
            exact ih _ adj last hdel
          · rw [if_neg hl0] at hdel ⊢
            exact ih rest adj last hdel
        | some d0 =>
          have hlen : m.Payload.len > 0 ∨ m.restLen > 0 :=
            Or.inl (modifiedDate_len m d0 hdate)
          rw [hdate] at hdel
          rw [if_pos hlen] at hdel ⊢
          rw [lastOverride_cons_some m ms entry index ht d0 hdate]
          have h1 := ih _ _ _ hdel
          refine ⟨fun D hD => ?_, fun hn => by cases hn⟩
          cases hl : lastOverride ms entry index with
          | none =>
            rw [hl] at hD
            simp only [Option.getD_none, Option.some.injEq] at hD
            subst hD
            have h2 := h1.2 hl
            simp only at h2 ⊢
            rw [h2]
            exact ⟨rfl, rfl⟩
          | some d =>
            rw [hl] at hD
            simp only [Option.getD_some, Option.some.injEq] at hD
            subst hD
            exact h1.1 d hl
    · have ht : ¬ targets m entry index := hm
      rw [if_neg hm] at hdel ⊢
      rw [lastOverride_cons_none m ms entry index (Or.inl ht)]
      exact ih rest adj last hdel

/-- The date of the last override, read off the list: a matching modification with a date,
after which no matching modification carries a date. -/
theorem lastOverride_append (entry : BaseEntry) (n : Int) (m : Modification) (D : Int)
    (ht : targets m entry n) (hD : m.modifiedDate = some D) (post : List Modification)
    (hpost : ∀ x ∈ post, targets x entry n → x.modifiedDate = none) :
    ∀ pre : List Modification, lastOverride (pre ++ m :: post) entry n = some D := by
  have hp : lastOverride post entry n = none := by
    induction post with
    | nil => rfl
    | cons x xs ih =>
      simp only [lastOverride]
      rw [ih (fun y hy => hpost y (List.mem_cons_of_mem _ hy))]
      simp only
      by_cases hx : targets x entry n
      · rw [if_pos hx]; exact hpost x (List.mem_cons_self _ _) hx
      · rw [if_neg hx]
  intro pre
  induction pre with
  | nil => simp only [List.nil_append, lastOverride, hp, if_pos ht, hD]
  | cons x xs ih =>
    rw [List.cons_append, lastOverride, ih]

/-- Every returned occurrence of a recurring item carries, in both dates, the date of the last
override that targets it. -/
theorem processEntries_override (opts : GeneratorOptions) (res : List GeneratedEntry)
    (h : processEntries opts opts.Data [] = some res) (g : GeneratedEntry) (hg : g ∈ res)
    (hrec : ∃ c, g.Entry.Config = some c ∧ c.Period ≠ PeriodNone) (D : Int)
    (hD : lastOverride opts.Modifications g.Entry g.Index = some D) :
    g.ActualDate = D ∧ g.PaymentDate = D := by
  refine processEntries_forall opts
    (fun g => (∃ c, g.Entry.Config = some c ∧ c.Period ≠ PeriodNone) →
      ∀ D, lastOverride opts.Modifications g.Entry g.Index = some D →
        g.ActualDate = D ∧ g.PaymentDate = D) ?_ ?_ opts.Data [] res
    (fun _ hx => absurd hx (List.not_mem_nil _)) h g hg hrec D hD
  · rintro entry hs ⟨c, hc, hp⟩
    simp only at hc
    rcases hs with hn | ⟨c1, hc1, hp1⟩
    · rw [hn] at hc; cases hc
    · rw [hc1] at hc; cases hc; exact absurd hp1 hp
  · intro entry config _ _ d st st1 hQ _ he x hx
    obtain ⟨p, r, _, hr, _, hcase⟩ := emitOccurrence_some opts entry config d st st1 he
    rcases hcase with ⟨_, hres, _⟩ | ⟨hkeep, hres, _⟩
    · rw [hres] at hx; exact hQ x hx
    · rw [hres] at hx
      rcases List.mem_append.1 hx with hx | hx
      · exact hQ x hx
      · rw [List.mem_singleton] at hx
        subst hx
        intro _ D1 hD1
        have hl := applyModificationsLoop_lastEntry entry (st.index + 1) opts.Modifications
          none none { Entry := entry, Index := st.index + 1, ActualDate := d, PaymentDate := p }
        have ho := applyModificationsLoop_override entry (st.index + 1) opts.Modifications
          none none { Entry := entry, Index := st.index + 1, ActualDate := d, PaymentDate := p }
        rw [hr] at hkeep hD1 ⊢
        unfold applyModifications at hkeep hD1 ⊢
        rw [hl.1, hl.2.1] at hD1
        exact (ho hkeep).1 D1 hD1

/-! ## Removing a date override without rest payload -/

/-- The flags and carried values that the loop over the modifications returns do not depend
on the entry behind the pointer. -/
theorem applyModificationsLoop_flags (entry : BaseEntry) (index : Int) :
    ∀ (mods : List Modification) (rest : Option PayloadMap) (adj : Option DateAdjustment)
      (last1 last2 : GeneratedEntry),
      (applyModificationsLoop entry index mods rest adj last1).shouldDelete =
        (applyModificationsLoop entry index mods rest adj last2).shouldDelete ∧
      (applyModificationsLoop entry index mods rest adj last1).deleteFuture =
        (applyModificationsLoop entry index mods rest adj last2).deleteFuture ∧
      (applyModificationsLoop entry index mods rest adj last1).applyToRestPayload =
        (applyModificationsLoop entry index mods rest adj last2).applyToRestPayload ∧
      (applyModificationsLoop entry index mods rest adj last1).dateAdjustment =
        (applyModificationsLoop entry index mods rest adj last2).dateAdjustment := by
  intro mods
  induction mods with
  | nil => intro rest adj last1 last2; exact ⟨rfl, rfl, rfl, rfl⟩
  | cons m ms ih =>
    intro rest adj last1 last2
    rw [applyModificationsLoop]
    conv => enter [1, 2]; rw [applyModificationsLoop]
    conv => enter [2, 1, 2]; rw [applyModificationsLoop]
    conv => enter [2, 2, 1, 2]; rw [applyModificationsLoop]
    conv => enter [2, 2, 2, 2]; rw [applyModificationsLoop]
    split
    · split
      · exact ⟨rfl, rfl, rfl, rfl⟩
      · split
        · simp only
          split
          · exact ih _ _ _ _
          · exact ih _ _ _ _
        · exact ih _ _ _ _
    · exact ih _ _ _ _

theorem sameExcept_refl (m : Modification) (g : GeneratedEntry) : sameExcept m g g :=
  ⟨rfl, rfl, fun _ => rfl⟩

/-- A non-deleting modification without rest payload, taken out of the list: the loop over
the modifications returns the same flags and carried values, and the entries behind the
pointer agree but for the dates of the occurrence that the modification targets. -/
theorem applyModificationsLoop_remove (entry : BaseEntry) (index : Int) (m : Modification)
    (hnd : m.Payload.deleted ≠ some (Value.bool true)) (hrest : m.restLen = 0)
    (post : List Modification) :
    ∀ (pre : List Modification) (rest : Option PayloadMap) (adj : Option DateAdjustment)
      (last : GeneratedEntry), last.Entry = entry → last.Index = index →
      (applyModificationsLoop entry index (pre ++ m :: post) rest adj last).shouldDelete =
        (applyModificationsLoop entry index (pre ++ post) rest adj last).shouldDelete ∧
      (applyModificationsLoop entry index (pre ++ m :: post) rest adj last).deleteFuture =
        (applyModificationsLoop entry index (pre ++ post) rest adj last).deleteFuture ∧
      (applyModificationsLoop entry index (pre ++ m :: post) rest adj last).applyToRestPayload =
        (applyModificationsLoop entry index (pre ++ post) rest adj last).applyToRestPayload ∧
      (applyModificationsLoop entry index (pre ++ m :: post) rest adj last).dateAdjustment =
        (applyModificationsLoop entry index (pre ++ post) rest adj last).dateAdjustment ∧
      sameExcept m (applyModificationsLoop entry index (pre ++ m :: post) rest adj last).lastEntry
        (applyModificationsLoop entry index (pre ++ post) rest adj last).lastEntry := by
  intro pre
  induction pre with
  | nil =>
    intro rest adj last hE hI
    simp only [List.nil_append]
    by_cases ht : targets m entry index
    · have hgen : ∀ last1 : GeneratedEntry, last1.Entry = entry → last1.Index = index →
          (applyModificationsLoop entry index post rest adj last1).shouldDelete =
            (applyModificationsLoop entry index post rest adj last).shouldDelete ∧
          (applyModificationsLoop entry index post rest adj last1).deleteFuture =
            (applyModificationsLoop entry index post rest adj last).deleteFuture ∧
          (applyModificationsLoop entry index post rest adj last1).applyToRestPayload =
            (applyModificationsLoop entry index post rest adj last).applyToRestPayload ∧
          (applyModificationsLoop entry index post rest adj last1).dateAdjustment =
            (applyModificationsLoop entry index post rest adj last).dateAdjustment ∧
          sameExcept m (applyModificationsLoop entry index post rest adj last1).lastEntry
            (applyModificationsLoop entry index post rest adj last).lastEntry := by
        intro last1 hE1 hI1
        obtain ⟨f1, f2, f3, f4⟩ :=
          applyModificationsLoop_flags entry index post rest adj last1 last
        have l1 := applyModificationsLoop_lastEntry entry index post rest adj last1
        have l2 := applyModificationsLoop_lastEntry entry index post rest adj last
        refine ⟨f1, f2, f3, f4, ?_, ?_, ?_⟩
        · rw [l1.1, l2.1, hE1, hE]
        · rw [l1.2.1, l2.2.1, hI1, hI]
        · intro hn
          rw [l1.1, l1.2.1, hE1, hI1] at hn
          exact absurd ht hn
      rw [applyModificationsLoop,
        if_pos (show m.ItemID.format = entry.ID.format ∧ m.Index = index from ht),
        if_neg hnd]
      have hr : ¬ (m.restLen > 0) := by omega
      by_cases hl : m.Payload.len > 0 ∨ m.restLen > 0
      · rw [if_pos hl]
        simp only [if_neg hr]
        cases hdate : m.modifiedDate with
        | none => exact hgen last hE hI
        | some d => exact hgen _ hE hI
      · rw [if_neg hl]
        exact hgen last hE hI
    · rw [applyModificationsLoop,
        if_neg (show ¬ (m.ItemID.format = entry.ID.format ∧ m.Index = index) from ht)]
      exact ⟨rfl, rfl, rfl, rfl, sameExcept_refl m _⟩
  | cons x pre ih =>
    intro rest adj last hE hI
    simp only [List.cons_append]
    rw [applyModificationsLoop]
    conv => enter [1, 2]; rw [applyModificationsLoop]
    conv => enter [2, 1, 2]; rw [applyModificationsLoop]
    conv => enter [2, 2, 1, 2]; rw [applyModificationsLoop]
    conv => enter [2, 2, 2, 1, 2]; rw [applyModificationsLoop]
    conv => enter [2, 2, 2, 2, 3]; rw [applyModificationsLoop]
    split
    · split
      · exact ⟨rfl, rfl, rfl, rfl, sameExcept_refl m _⟩
      · split
        · simp only
          split
          · exact ih _ _ _ hE hI
          · exact ih _ _ _ hE hI
        · exact ih _ _ _ hE hI
    · exact ih _ _ _ hE hI

/-- The same, for the closure `applyModifications` of every item. -/
theorem modsAgree_remove (m : Modification)
    (hnd : m.Payload.deleted ≠ some (Value.bool true)) (hrest : m.restLen = 0)
    (pre post : List Modification) (entry : BaseEntry) :
    modsAgree (sameExcept m) entry (pre ++ m :: post) (pre ++ post) := by
  intro index last hE hI
  exact applyModificationsLoop_remove entry index m hnd hrest post pre none none last hE hI

/-- Two runs whose modifications agree for the item keep their loop states related over an
emitted occurrence. -/
theorem emitOccurrence_stateRel (o1 o2 : GeneratorOptions) (hH : o1.Holidays = o2.Holidays)
    (hW : o1.WeekendDays = o2.WeekendDays) (E : GeneratedEntry → GeneratedEntry → Prop)
    (entry : BaseEntry) (hM : modsAgree E entry o1.Modifications o2.Modifications)
    (config : RecurrenceConfig) (d : Int) (s1 s2 : GenState) (h : stateRel E s1 s2) :
    Option.Rel (stateRel E) (emitOccurrence o1 entry config d s1)
      (emitOccurrence o2 entry config d s2) := by
  obtain ⟨hi, hr, ha, hd, hres⟩ := h
  cases hp : PaymentDate d config.Options.GracePeriod o2.Holidays o2.WeekendDays
      config.Options.WorkdaysOnly with
  | none =>
    have e1 : emitOccurrence o1 entry config d s1 = none := by
      unfold emitOccurrence; rw [hH, hW, hp]
    have e2 : emitOccurrence o2 entry config d s2 = none := by
      unfold emitOccurrence; rw [hp]
    rw [e1, e2]
    exact Option.Rel.none
  | some p =>
    have hp1 : PaymentDate d config.Options.GracePeriod o1.Holidays o1.WeekendDays
        config.Options.WorkdaysOnly = some p := by rw [hH, hW]; exact hp
    rw [emitOccurrence_of_payment o1 entry config d p s1 hp1 _ rfl,
      emitOccurrence_of_payment o2 entry config d p s2 hp _ rfl]
    obtain ⟨m1, m2, m3, m4, m5⟩ := hM (s1.index + 1)
      { Entry := entry, Index := s1.index + 1, ActualDate := d, PaymentDate := p } rfl rfl
    rw [← hi, ← m1]
    split
    · rw [m2]
      exact Option.Rel.some ⟨by simp only [hi], hr, ha, rfl, hres⟩
    · refine Option.Rel.some ⟨rfl, ?_, ?_, hd, ?_⟩
      · simp only [m3, hr]
      · simp only [m4, ha]
      · exact List.rel_append hres (List.Forall₂.cons m5 List.Forall₂.nil)

theorem stateRel_activeAdjustment (E : GeneratedEntry → GeneratedEntry → Prop)
    (s1 s2 : GenState) (h : stateRel E s1 s2) :
    s1.activeAdjustment = s2.activeAdjustment := by
  unfold GenState.activeAdjustment
  rw [h.2.1, h.2.2.1]

/-- Two runs whose modifications agree for the item: the results after the item are related,
and one run returns exactly when the other does. -/
theorem processEntry_rel (o1 o2 : GeneratorOptions) (hH : o1.Holidays = o2.Holidays)
    (hW : o1.WeekendDays = o2.WeekendDays) (hR : o1.Range = o2.Range)
    (hX : o1.MaxIntervals = o2.MaxIntervals) (E : GeneratedEntry → GeneratedEntry → Prop)
    (hE : ∀ g, E g g) (entry : BaseEntry)
    (hM : modsAgree E entry o1.Modifications o2.Modifications)
    (r1 r2 : List GeneratedEntry) (h : List.Forall₂ E r1 r2) :
    Option.Rel (List.Forall₂ E) (processEntry o1 r1 entry) (processEntry o2 r2 entry) := by
  rcases entry_single_or_recurring entry with hs | ⟨c, hc, hp⟩
  · rw [processEntry_single o1 r1 entry hs, processEntry_single o2 r2 entry hs, hR]
    split
    · exact Option.Rel.some (List.rel_append h (List.Forall₂.cons (hE _) List.Forall₂.nil))
    · exact Option.Rel.some h
  · rw [processEntry_recurring o1 r1 entry c hc hp, processEntry_recurring o2 r2 entry c hc hp]
    have hmax : maxIntervalOf o1 c = maxIntervalOf o2 c := by
      unfold maxIntervalOf; rw [hX]
    rw [hmax]
    have hs := runCycles_step o1 o2 entry c (stateRel E) hW hR
      (fun s1 s2 hs => hs.2.2.2.1) (stateRel_activeAdjustment E)
      (fun d s1 s2 hs => emitOccurrence_stateRel o1 o2 hH hW E entry hM c d s1 s2 hs)
      (maxIntervalOf o2 c).toNat 0
      { result := r1, index := 0, applyToRestPayload := none, dateAdjustment := none,
        deleteRest := false }
      { result := r2, index := 0, applyToRestPayload := none, dateAdjustment := none,
        deleteRest := false } ⟨rfl, rfl, rfl, rfl, h⟩
    generalize runCycles o1 entry c (maxIntervalOf o2 c).toNat 0
      { result := r1, index := 0, applyToRestPayload := none, dateAdjustment := none,
        deleteRest := false } = x1 at hs
    generalize runCycles o2 entry c (maxIntervalOf o2 c).toNat 0
      { result := r2, index := 0, applyToRestPayload := none, dateAdjustment := none,
        deleteRest := false } = x2 at hs
    cases hs with
    | none => exact Option.Rel.none
    | some hu => exact Option.Rel.some hu.2.2.2.2

theorem processEntries_rel (o1 o2 : GeneratorOptions) (hH : o1.Holidays = o2.Holidays)
    (hW : o1.WeekendDays = o2.WeekendDays) (hR : o1.Range = o2.Range)
    (hX : o1.MaxIntervals = o2.MaxIntervals) (E : GeneratedEntry → GeneratedEntry → Prop)
    (hE : ∀ g, E g g)
    (hM : ∀ entry, modsAgree E entry o1.Modifications o2.Modifications) :
    ∀ (entries : List BaseEntry) (r1 r2 : List GeneratedEntry), List.Forall₂ E r1 r2 →
      Option.Rel (List.Forall₂ E) (processEntries o1 entries r1)
        (processEntries o2 entries r2) := by
  intro entries
  induction entries with
  | nil => intro r1 r2 h; exact Option.Rel.some h
  | cons e es ih =>
    intro r1 r2 h
    simp only [processEntries]
    have hs := processEntry_rel o1 o2 hH hW hR hX E hE e (hM e) r1 r2 h
    generalize processEntry o1 r1 e = x1 at hs
    generalize processEntry o2 r2 e = x2 at hs
    cases hs with
    | none => exact Option.Rel.none
    | some hu => exact ih _ _ hu

/-- Two runs over the same items whose modifications agree: one returns entries exactly when
the other does, and the entries are related one by one. -/
theorem Generator_rel (o1 o2 : GeneratorOptions) (hD : o1.Data = o2.Data)
    (hH : o1.Holidays = o2.Holidays) (hW : o1.WeekendDays = o2.WeekendDays)
    (hR : o1.Range = o2.Range) (hX : o1.MaxIntervals = o2.MaxIntervals)
    (E : GeneratedEntry → GeneratedEntry → Prop) (hE : ∀ g, E g g)
    (hM : ∀ entry, modsAgree E entry o1.Modifications o2.Modifications) :
    (∀ res1, Generator o1 = some (.ok res1) →
      ∃ res2, Generator o2 = some (.ok res2) ∧ List.Forall₂ E res1 res2) ∧
    (∀ res2, Generator o2 = some (.ok res2) →
      ∃ res1, Generator o1 = some (.ok res1) ∧ List.Forall₂ E res1 res2) := by
  have hs := processEntries_rel o1 o2 hH hW hR hX E hE hM o2.Data [] [] List.Forall₂.nil
  constructor
  · intro res1 h1
    obtain ⟨hv, hp⟩ := Generator_ok o1 res1 h1
    rw [hD] at hp
    rw [hp] at hs
    generalize hx : processEntries o2 o2.Data [] = x2 at hs
    cases hs with
    | some hu =>
      rename_i res2
      refine ⟨res2, ?_, hu⟩
      unfold Generator
      rw [← hW, ← hD, hv, hD, hx]
  · intro res2 h2
    obtain ⟨hv, hp⟩ := Generator_ok o2 res2 h2
    rw [hp] at hs
    generalize hx : processEntries o1 o2.Data [] = x1 at hs
    cases hs with
    | some hu =>
      rename_i res1
      refine ⟨res1, ?_, hu⟩
      unfold Generator
      rw [hW, hD, hv, hx]

/-! ## C28: date overrides -/

/-- C28, refuted: the monthly entry with three occurrences and two date overrides of
occurrence 2, to 2023-02-20 and then to 2023-02-25. The first modification is not deleting,
matches the item and the index 2 and carries the valid date 2023-02-20, yet the returned
occurrence 2 has both dates on 2023-02-25: the later override replaced the earlier. -/
theorem later_override_wins :
    Generator { Data := [monthlyEntry 3 0],
                Modifications := [overrideDateAt 2 "2023-02-20",
                                  overrideDateAt 2 "2023-02-25"] } =
      some (.ok [⟨monthlyEntry 3 0, 1, Date 2023 1 15, Date 2023 1 15⟩,
                 ⟨monthlyEntry 3 0, 2, Date 2023 2 25, Date 2023 2 25⟩,
                 ⟨monthlyEntry 3 0, 3, Date 2023 3 15, Date 2023 3 15⟩]) ∧
    targets (overrideDateAt 2 "2023-02-20") (monthlyEntry 3 0) 2 ∧
    (overrideDateAt 2 "2023-02-20").Payload.deleted ≠ some (Value.bool true) ∧
    (overrideDateAt 2 "2023-02-20").modifiedDate = some (Date 2023 2 20) ∧
    Date 2023 2 20 ≠ Date 2023 2 25 :=
  ⟨by rfl, by decide, by decide, by rfl, by decide⟩

/-- C28 (amended): of several date overrides of one occurrence the last in the list wins. For
a modification `m` in the list whose payload carries the valid date `D`: every returned
occurrence of a recurring item that `m` targets, and that no later modification with a valid
date targets, has both dates equal to `D`. And when `m` is not deleting and has no rest
payload, the override is one-time: `Generator` returns with `m` exactly when it returns
without it, and the two results hold the same items and indices in the same order, with the
same dates for every occurrence that `m` does not target. -/
theorem date_override (opts : GeneratorOptions) (m : Modification)
    (pre post : List Modification) (hmods : opts.Modifications = pre ++ m :: post) (D : Int)
    (hD : m.modifiedDate = some D) :
    (∀ res, Generator opts = some (.ok res) → ∀ g ∈ res,
      (∃ c, g.Entry.Config = some c ∧ c.Period ≠ PeriodNone) → targets m g.Entry g.Index →
      (∀ x ∈ post, targets x g.Entry g.Index → x.modifiedDate = none) →
      g.ActualDate = D ∧ g.PaymentDate = D) ∧
    (m.Payload.deleted ≠ some (Value.bool true) → m.restLen = 0 →
      (∀ res1, Generator opts = some (.ok res1) →
        ∃ res2, Generator (opts.withModifications (pre ++ post)) = some (.ok res2) ∧
          List.Forall₂ (sameExcept m) res1 res2) ∧
      (∀ res2, Generator (opts.withModifications (pre ++ post)) = some (.ok res2) →
        ∃ res1, Generator opts = some (.ok res1) ∧
          List.Forall₂ (sameExcept m) res1 res2)) := by
  constructor
  · intro res h g hg hrec ht hpost
    refine processEntries_override opts res (Generator_ok opts res h).2 g hg hrec D ?_
    rw [hmods]
    exact lastOverride_append g.Entry g.Index m D ht hD post hpost pre
  · intro hnd hrest
    refine Generator_rel opts (opts.withModifications (pre ++ post)) rfl rfl rfl rfl rfl
      (sameExcept m) (sameExcept_refl m) ?_
    intro entry
    rw [hmods]
    exact modsAgree_remove m hnd hrest pre post entry

/-- C28 (amended) at the monthly entry with three occurrences and one date override of
occurrence 2 to 2023-02-20: the targeted occurrence has both dates on 2023-02-20, and the
run without the override returns three occurrences that differ from these in the dates of
occurrence 2 only. -/
theorem date_override_witness :
    Generator { Data := [monthlyEntry 3 0],
                Modifications := [overrideDateAt 2 "2023-02-20"] } =
      some (.ok [⟨monthlyEntry 3 0, 1, Date 2023 1 15, Date 2023 1 15⟩,
                 ⟨monthlyEntry 3 0, 2, Date 2023 2 20, Date 2023 2 20⟩,
                 ⟨monthlyEntry 3 0, 3, Date 2023 3 15, Date 2023 3 15⟩]) ∧
    (∀ g ∈ [(⟨monthlyEntry 3 0, 1, Date 2023 1 15, Date 2023 1 15⟩ : GeneratedEntry),
            ⟨monthlyEntry 3 0, 2, Date 2023 2 20, Date 2023 2 20⟩,
            ⟨monthlyEntry 3 0, 3, Date 2023 3 15, Date 2023 3 15⟩],
      targets (overrideDateAt 2 "2023-02-20") g.Entry g.Index →
      g.ActualDate = Date 2023 2 20 ∧ g.PaymentDate = Date 2023 2 20) ∧
    ∃ res2, Generator { Data := [monthlyEntry 3 0] } = some (.ok res2) ∧
      List.Forall₂ (sameExcept (overrideDateAt 2 "2023-02-20"))
        [⟨monthlyEntry 3 0, 1, Date 2023 1 15, Date 2023 1 15⟩,
         ⟨monthlyEntry 3 0, 2, Date 2023 2 20, Date 2023 2 20⟩,
         ⟨monthlyEntry 3 0, 3, Date 2023 3 15, Date 2023 3 15⟩] res2 := by
  have hgen : Generator { Data := [monthlyEntry 3 0],
                          Modifications := [overrideDateAt 2 "2023-02-20"] } =
      some (.ok [⟨monthlyEntry 3 0, 1, Date 2023 1 15, Date 2023 1 15⟩,
                 ⟨monthlyEntry 3 0, 2, Date 2023 2 20, Date 2023 2 20⟩,
                 ⟨monthlyEntry 3 0, 3, Date 2023 3 15, Date 2023 3 15⟩]) := by rfl
  have T := date_override
    { Data := [monthlyEntry 3 0], Modifications := [overrideDateAt 2 "2023-02-20"] }
    (overrideDateAt 2 "2023-02-20") [] [] rfl (Date 2023 2 20) (by rfl)
  refine ⟨hgen, ?_, (T.2 (by decide) (by rfl)).1 _ hgen⟩
  intro g hg ht
  refine T.1 _ hgen g hg ?_ ht (fun x hx => absurd hx (List.not_mem_nil _))
  simp only [List.mem_cons, List.mem_singleton, List.not_mem_nil, or_false] at hg
  rcases hg with rfl | rfl | rfl <;> exact ⟨_, rfl, by decide⟩

/-! ## Adding periods to a date -/

/-- The month argument of `Date` brought into 1..12 by moving whole years. -/
theorem Date_normalize (y m d : Int) :
    Date y m d = Date (y + (m - 1) / 12) ((m - 1) % 12 + 1) d := by
  have h1 : (m - 1) % 12 + 1 - 1 = (m - 1) % 12 := by omega
  have h2 : (m - 1) % 12 / 12 = 0 := by omega
  have h3 : (m - 1) % 12 % 12 = (m - 1) % 12 := by omega
  simp only [Date, h1, h2, h3, add_zero]

theorem AddDate_months (t a : Int) :
    AddDate t 0 a 0 = Date (monthAfter t a).1 (monthAfter t a).2 (Day t) := by
  unfold AddDate monthAfter
  simp only [add_zero]
  rw [Date_normalize]
  have h : Month t + a - 1 = Month t - 1 + a := by ring
  rw [h]

theorem monthAfter_range (t a : Int) : 1 ≤ (monthAfter t a).2 ∧ (monthAfter t a).2 ≤ 12 := by
  unfold monthAfter
  simp only
  omega

theorem monthAfter_succ (t a : Int) :
    Date (monthAfter t a).1 ((monthAfter t a).2 + 1) 1 =
      Date (monthAfter t (a + 1)).1 (monthAfter t (a + 1)).2 1 := by
  rw [Date_normalize]
  unfold monthAfter
  simp only
  have h1 : Year t + (Month t - 1 + a) / 12 + ((Month t - 1 + a) % 12 + 1 + 1 - 1) / 12 =
      Year t + (Month t - 1 + (a + 1)) / 12 := by omega
  have h2 : ((Month t - 1 + a) % 12 + 1 + 1 - 1) % 12 + 1 = (Month t - 1 + (a + 1)) % 12 + 1 := by
    omega
  rw [h1, h2]

/-- Adding months to a date whose day exists in the target month gives that day of the target
month. -/
theorem AddDate_months_fits (t a : Int)
    (h : Day t ≤ daysIn (monthAfter t a).2 (monthAfter t a).1) :
    Year (AddDate t 0 a 0) = (monthAfter t a).1 ∧ Month (AddDate t 0 a 0) = (monthAfter t a).2 ∧
      Day (AddDate t 0 a 0) = Day t := by
  rw [AddDate_months]
  exact civil_of_Date _ _ _ (monthAfter_range t a).1 (monthAfter_range t a).2 (Day_range t).1 h

/-- Adding months to a date whose day does not exist in the target month runs over into the
month after the target month. -/
theorem AddDate_months_overflow (t a : Int)
    (h : daysIn (monthAfter t a).2 (monthAfter t a).1 < Day t) :
    Year (AddDate t 0 a 0) = (monthAfter t (a + 1)).1 ∧
      Month (AddDate t 0 a 0) = (monthAfter t (a + 1)).2 ∧
      Day (AddDate t 0 a 0) = Day t - daysIn (monthAfter t a).2 (monthAfter t a).1 := by
  rw [AddDate_months]
  have hb := daysIn_bounds (monthAfter t a).2 (monthAfter t a).1
  have hb1 := daysIn_bounds (monthAfter t (a + 1)).2 (monthAfter t (a + 1)).1
  have h31 := (Day_range t).2
  have e : Date (monthAfter t a).1 (monthAfter t a).2 (Day t) =
      Date (monthAfter t (a + 1)).1 (monthAfter t (a + 1)).2 1 +
        (Day t - daysIn (monthAfter t a).2 (monthAfter t a).1 - 1) := by
    calc Date (monthAfter t a).1 (monthAfter t a).2 (Day t)
        = Date (monthAfter t a).1 (monthAfter t a).2
            ((daysIn (monthAfter t a).2 (monthAfter t a).1 + 1) +
              (Day t - daysIn (monthAfter t a).2 (monthAfter t a).1 - 1)) := by
          congr 1; ring
      _ = Date (monthAfter t a).1 (monthAfter t a).2
            (daysIn (monthAfter t a).2 (monthAfter t a).1 + 1) +
              (Day t - daysIn (monthAfter t a).2 (monthAfter t a).1 - 1) := Date_add_days _ _ _ _
      _ = _ := by
          rw [Date_next_month _ _ (monthAfter_range t a).1 (monthAfter_range t a).2,
            monthAfter_succ]
  rw [e]
  have hc := civil_of_first_add (monthAfter t (a + 1)).1 (monthAfter t (a + 1)).2
    (monthAfter_range t (a + 1)).1 (monthAfter_range t (a + 1)).2
    (Day t - daysIn (monthAfter t a).2 (monthAfter t a).1 - 1) (by omega) (by omega)
  refine ⟨hc.1, hc.2.1, ?_⟩
  rw [hc.2.2]
  ring

theorem AddDate_years (t a : Int) : AddDate t a 0 0 = Date (Year t + a) (Month t) (Day t) := by
  unfold AddDate
  simp only [add_zero]

/-- Adding years to a date whose day exists in the month of the target year gives that day
and month of the target year. -/
theorem AddDate_years_fits (t a : Int) (h : Day t ≤ daysIn (Month t) (Year t + a)) :
    Year (AddDate t a 0 0) = Year t + a ∧ Month (AddDate t a 0 0) = Month t ∧
      Day (AddDate t a 0 0) = Day t := by
  rw [AddDate_years]
  exact civil_of_Date _ _ _ (Month_range t).1 (Month_range t).2 (Day_range t).1 h

/-- Adding years to a date whose day does not exist in the month of the target year: the date
is February 29 and the result is March 1 of the target year. -/
theorem AddDate_years_overflow (t a : Int) (h : daysIn (Month t) (Year t + a) < Day t) :
    Month t = 2 ∧ Day t = 29 ∧ Year (AddDate t a 0 0) = Year t + a ∧
      Month (AddDate t a 0 0) = 3 ∧ Day (AddDate t a 0 0) = 1 := by
  have hle := Day_le_daysIn t
  have hm : Month t = 2 := by
    by_contra hne
    unfold daysIn at h hle
    rw [if_neg hne] at h hle
    omega
  have hl1 := leapDay_cases (Year t)
  have hl2 := leapDay_cases (Year t + a)
  rw [hm] at h hle
  simp only [daysIn, if_true] at h hle
  have hd : Day t = 29 := by omega
  have h28 : daysIn 2 (Year t + a) = 28 := by simp only [daysIn, if_true]; omega
  rw [AddDate_years, hm, hd]
  have e : Date (Year t + a) 2 29 = Date (Year t + a) 3 1 := by
    have := Date_next_month (Year t + a) 2 (by omega) (by omega)
    rw [h28] at this
    exact this
  rw [e]
  have hc := civil_of_Date (Year t + a) 3 1 (by omega) (by omega) (by omega)
    (by have := daysIn_bounds 3 (Year t + a); omega)
  exact ⟨rfl, rfl, hc⟩

/-- C32, the code on a week amount whose product overflows: seven times 7905747460161236407
is 3 * 2^64 + 1, which Go's `int` holds as 1, so the amount added to 2023-01-01 for the week
period gives 2023-01-02, not the date `7 * a` days later. -/
theorem week_amount_wraps :
    AddByPeriod (Date 2023 1 1) 7905747460161236407 PeriodWeek = Date 2023 1 2 ∧
    Date 2023 1 1 + 7 * 7905747460161236407 ≠ Date 2023 1 2 ∧
    fitsInt 7905747460161236407 ∧ ¬ fitsInt (7 * 7905747460161236407) :=
  ⟨by rfl, by decide, by decide, by decide⟩

/-- C32 (amended): `AddByPeriod` adds calendar years for the year period, calendar months for
the month period and `a` days for the period none (and for any other period string). For the
week period it adds `7 * a` days whenever `7 * a` fits in Go's `int`; so for such an amount a
week amount is seven times a day amount. The amount 0 leaves the date as it is for every
period. Calendar years and months are those of `AddDate` (Go's `time.Time.AddDate`): the same
month and day in the year `a` years later, the same day in the month `a` months later,
whenever that day exists. -/
theorem AddByPeriod_spec (d a : Int) :
    AddByPeriod d a PeriodYear = AddDate d a 0 0 ∧
    AddByPeriod d a PeriodMonth = AddDate d 0 a 0 ∧
    (Day d ≤ daysIn (Month d) (Year d + a) →
      Year (AddByPeriod d a PeriodYear) = Year d + a ∧
      Month (AddByPeriod d a PeriodYear) = Month d ∧
      Day (AddByPeriod d a PeriodYear) = Day d) ∧
    (Day d ≤ daysIn (monthAfter d a).2 (monthAfter d a).1 →
      (Year (AddByPeriod d a PeriodMonth), Month (AddByPeriod d a PeriodMonth)) =
        monthAfter d a ∧
      Day (AddByPeriod d a PeriodMonth) = Day d) ∧
    (fitsInt (7 * a) →
      AddByPeriod d a PeriodWeek = d + 7 * a ∧
      AddByPeriod d a PeriodWeek = AddByPeriod d (7 * a) PeriodNone) ∧
    AddByPeriod d a PeriodNone = d + a ∧
    ∀ p : Period, AddByPeriod d 0 p = d := by
  have hy : AddByPeriod d a PeriodYear = AddDate d a 0 0 := by
    unfold AddByPeriod; rw [if_pos rfl]
  have hm : AddByPeriod d a PeriodMonth = AddDate d 0 a 0 := by
    unfold AddByPeriod; rw [if_neg (by decide), if_pos rfl]
  have hw : AddByPeriod d a PeriodWeek = d + wrapInt (a * 7) := by
    unfold AddByPeriod
    rw [if_neg (by decide), if_neg (by decide), if_pos rfl, AddDate_days]
  have hn : ∀ n, AddByPeriod d n PeriodNone = d + n := AddByPeriod_none d
  refine ⟨hy, hm, ?_, ?_, ?_, hn a, ?_⟩
  · intro h
    rw [hy]
    exact AddDate_years_fits d a h
  · intro h
    rw [hm]
    obtain ⟨c1, c2, c3⟩ := AddDate_months_fits d a h
    exact ⟨by rw [c1, c2], c3⟩
  · intro hfit
    have h7 : wrapInt (a * 7) = 7 * a := by
      rw [mul_comm a 7]
      exact wrapInt_of_fits _ hfit
    rw [hw, hn, h7]
    exact ⟨rfl, rfl⟩
  · intro p
    have h0 : AddDate d 0 0 0 = d := by rw [AddDate_days]; ring
    unfold AddByPeriod
    split
    · exact h0
    · split
      · exact h0
      · split
        · simpa [wrapInt_zero] using h0
        · exact h0

/-- C33, refuted: one month added to 2023-01-31 gives 2023-03-03, a date in March, whereas the
month one month after January 2023 is February 2023; and one year added to 2024-02-29 gives
2025-03-01, a date in March. -/
theorem month_overflow_leaves_target :
    AddByPeriod (Date 2023 1 31) 1 PeriodMonth = Date 2023 3 3 ∧
    Month (AddByPeriod (Date 2023 1 31) 1 PeriodMonth) = 3 ∧
    monthAfter (Date 2023 1 31) 1 = (2023, 2) ∧
    AddByPeriod (Date 2024 2 29) 1 PeriodYear = Date 2025 3 1 ∧
    Month (AddByPeriod (Date 2024 2 29) 1 PeriodYear) = 3 ∧ Month (Date 2024 2 29) = 2 :=
  ⟨by rfl, by rfl, by rfl, by rfl, by rfl, by rfl⟩

/-- C33 (amended): `AddByPeriod` does not clamp. For the month period the result is the day of
`d` in the month `a` months after the month of `d` when that month has such a day; otherwise
the day runs over into the following month: the result lies `a + 1` months after the month of
`d`, on the day that is left after the days of the target month. For the year period the
result is the day and month of `d` in the year `a` years later when that day exists; otherwise
`d` is February 29 and the result is March 1 of that year. -/
theorem AddByPeriod_overflow (d a : Int) :
    (Day d ≤ daysIn (monthAfter d a).2 (monthAfter d a).1 →
      (Year (AddByPeriod d a PeriodMonth), Month (AddByPeriod d a PeriodMonth)) =
        monthAfter d a ∧
      Day (AddByPeriod d a PeriodMonth) = Day d) ∧
    (daysIn (monthAfter d a).2 (monthAfter d a).1 < Day d →
      (Year (AddByPeriod d a PeriodMonth), Month (AddByPeriod d a PeriodMonth)) =
        monthAfter d (a + 1) ∧
      Day (AddByPeriod d a PeriodMonth) =
        Day d - daysIn (monthAfter d a).2 (monthAfter d a).1) ∧
    (Day d ≤ daysIn (Month d) (Year d + a) →
      Year (AddByPeriod d a PeriodYear) = Year d + a ∧
      Month (AddByPeriod d a PeriodYear) = Month d ∧
      Day (AddByPeriod d a PeriodYear) = Day d) ∧
    (daysIn (Month d) (Year d + a) < Day d →
      Month d = 2 ∧ Day d = 29 ∧ Year (AddByPeriod d a PeriodYear) = Year d + a ∧
      Month (AddByPeriod d a PeriodYear) = 3 ∧ Day (AddByPeriod d a PeriodYear) = 1) := by
  have hy : AddByPeriod d a PeriodYear = AddDate d a 0 0 := by
    unfold AddByPeriod; rw [if_pos rfl]
  have hm : AddByPeriod d a PeriodMonth = AddDate d 0 a 0 := by
    unfold AddByPeriod; rw [if_neg (by decide), if_pos rfl]
  rw [hy, hm]
  refine ⟨?_, ?_, AddDate_years_fits d a, AddDate_years_overflow d a⟩
  · intro h
    obtain ⟨c1, c2, c3⟩ := AddDate_months_fits d a h
    exact ⟨by rw [c1, c2], c3⟩
  · intro h
    obtain ⟨c1, c2, c3⟩ := AddDate_months_overflow d a h
    exact ⟨by rw [c1, c2], c3⟩

/-! ## Items without recurrence and the modifications -/

/-- The body of the loop for an item without recurrence (no description, or the period none):
the one occurrence that the range admits, whatever the modifications. -/
theorem processEntry_single_occurrences (opts : GeneratorOptions)
    (result : List GeneratedEntry) (entry : BaseEntry)
    (hs : entry.Config = none ∨ ∃ c, entry.Config = some c ∧ c.Period = PeriodNone) :
    processEntry opts result entry = some (result ++ oneTimeOccurrences opts.Range entry) := by
  rw [processEntry_single opts result entry hs]
  unfold oneTimeOccurrences
  rw [← isInRange_eq_rangeAdmits]
  by_cases h : isInRange opts.Range entry.Date = true
  · rw [if_pos h, if_pos h]
  · rw [if_neg h, if_neg h, List.append_nil]

/-- The loop over items that are all without recurrence does not read the modifications. -/
theorem processEntries_single (o1 o2 : GeneratorOptions) (hR : o1.Range = o2.Range) :
    ∀ (entries : List BaseEntry),
      (∀ entry ∈ entries,
        entry.Config = none ∨ ∃ c, entry.Config = some c ∧ c.Period = PeriodNone) →
      ∀ result, processEntries o1 entries result = processEntries o2 entries result := by
  intro entries
  induction entries with
  | nil => intro _ result; rfl
  | cons e es ih =>
    intro hall result
    simp only [processEntries]
    rw [processEntry_single_occurrences o1 result e (hall e (List.mem_cons_self _ _)),
      processEntry_single_occurrences o2 result e (hall e (List.mem_cons_self _ _)), hR]
    exact ih (fun entry he => hall entry (List.mem_cons_of_mem _ he)) _

/-- C40: modifications never affect an item without recurrence description or with the period
none. Whatever the modification list, the body of the loop appends for such an item the one
occurrence with index 1 and the item's date as actual and payment date (none when a range
excludes the date), as it does without modifications; in what `Generator` returns, the segment
of such an item is this occurrence; and for an input of such items only, `Generator` returns
the same as with no modifications. -/
theorem modifications_spare_single (opts : GeneratorOptions) :
    (∀ (entry : BaseEntry) (result : List GeneratedEntry),
      (entry.Config = none ∨ ∃ c, entry.Config = some c ∧ c.Period = PeriodNone) →
      processEntry opts result entry =
        some (result ++ oneTimeOccurrences opts.Range entry) ∧
      processEntry opts result entry =
        processEntry (opts.withModifications []) result entry) ∧
    (∀ res, Generator opts = some (.ok res) →
      ∃ segs : List (List GeneratedEntry), res = segs.flatten ∧
        List.Forall₂ (fun entry seg =>
          (entry.Config = none ∨ ∃ c, entry.Config = some c ∧ c.Period = PeriodNone) →
          seg = oneTimeOccurrences opts.Range entry) opts.Data segs) ∧
    ((∀ entry ∈ opts.Data,
        entry.Config = none ∨ ∃ c, entry.Config = some c ∧ c.Period = PeriodNone) →
      Generator opts = Generator (opts.withModifications [])) := by
  refine ⟨?_, ?_, ?_⟩
  · intro entry result hs
    refine ⟨processEntry_single_occurrences opts result entry hs, ?_⟩
    rw [processEntry_single_occurrences opts result entry hs,
      processEntry_single_occurrences (opts.withModifications []) result entry hs]
    rfl
  · intro res h
    obtain ⟨segs, h1, h2⟩ :=
      processEntries_segments opts opts.Data res (Generator_ok opts res h).2
    refine ⟨segs, h1, List.Forall₂.imp ?_ h2⟩
    intro entry seg hseg hs
    rw [processEntry_single_occurrences opts [] entry hs] at hseg
    exact (Option.some.inj hseg).symm
  · intro hall
    unfold Generator
    have hd : (opts.withModifications []).Data = opts.Data := rfl
    have hw : (opts.withModifications []).WeekendDays = opts.WeekendDays := rfl
    rw [hd, hw, processEntries_single opts (opts.withModifications []) rfl opts.Data hall []]

/-- C40 at a one-time item of 2023-01-15 and at an item with the period none, with a
modification that deletes occurrence 1 of the item, cascading, and a modification that
overrides the date of occurrence 1: the one occurrence at the item's date is returned. -/
theorem modifications_spare_single_witness :
    Generator { Data := [oneTimeEntry (Date 2023 1 15)],
                Modifications := [deleteAt 1 true, overrideDateAt 1 "2023-02-20"] } =
      some (.ok [⟨oneTimeEntry (Date 2023 1 15), 1, Date 2023 1 15, Date 2023 1 15⟩]) ∧
    Generator { Data := [eachEntry PeriodNone (Date 2023 1 15) 1 []],
                Modifications := [deleteAt 1 true, overrideDateAt 1 "2023-02-20"] } =
      some (.ok [⟨eachEntry PeriodNone (Date 2023 1 15) 1 [], 1, Date 2023 1 15,
                  Date 2023 1 15⟩]) :=
  ⟨((modifications_spare_single
      { Data := [oneTimeEntry (Date 2023 1 15)],
        Modifications := [deleteAt 1 true, overrideDateAt 1 "2023-02-20"] }).2.2
      (by
        intro entry he
        have : entry = oneTimeEntry (Date 2023 1 15) := List.mem_singleton.1 he
        subst this
        exact Or.inl rfl)).trans (by rfl),
   ((modifications_spare_single
      { Data := [eachEntry PeriodNone (Date 2023 1 15) 1 []],
        Modifications := [deleteAt 1 true, overrideDateAt 1 "2023-02-20"] }).2.2
      (by
        intro entry he
        have : entry = eachEntry PeriodNone (Date 2023 1 15) 1 [] := List.mem_singleton.1 he
        subst this
        exact Or.inr ⟨_, rfl, rfl⟩)).trans (by rfl)⟩

/-! ## Modifications with caller-defined fields only -/

/-- A rest payload with entries is a map. -/
theorem restLen_isSome (m : Modification) (h : m.restLen > 0) :
    m.RestPayload.isSome = true := by
  unfold Modification.restLen at h
  cases hr : m.RestPayload with
  | none => rw [hr] at h; simp at h
  | some r => rfl

/-- The rest payload handed to the loop over the modifications has no influence on the other
values that the loop returns. -/
theorem applyModificationsLoop_rest (entry : BaseEntry) (index : Int) :
    ∀ (mods : List Modification) (rest1 rest2 : Option PayloadMap)
      (adj : Option DateAdjustment) (last : GeneratedEntry),
      (applyModificationsLoop entry index mods rest1 adj last).shouldDelete =
        (applyModificationsLoop entry index mods rest2 adj last).shouldDelete ∧
      (applyModificationsLoop entry index mods rest1 adj last).deleteFuture =
        (applyModificationsLoop entry index mods rest2 adj last).deleteFuture ∧
      (applyModificationsLoop entry index mods rest1 adj last).dateAdjustment =
        (applyModificationsLoop entry index mods rest2 adj last).dateAdjustment ∧
      (applyModificationsLoop entry index mods rest1 adj last).lastEntry =
        (applyModificationsLoop entry index mods rest2 adj last).lastEntry := by
  intro mods
  induction mods with
  | nil => intro rest1 rest2 adj last; exact ⟨rfl, rfl, rfl, rfl⟩
  | cons m ms ih =>
    intro rest1 rest2 adj last
    rw [applyModificationsLoop]
    conv => enter [1, 2]; rw [applyModificationsLoop]
    conv => enter [2, 1, 2]; rw [applyModificationsLoop]
    conv => enter [2, 2, 1, 2]; rw [applyModificationsLoop]
    conv => enter [2, 2, 2, 2]; rw [applyModificationsLoop]
    split
    · split
      · exact ⟨rfl, rfl, rfl, rfl⟩
      · split
        · simp only
          split
          · exact ih _ _ _ _
          · exact ih _ _ _ _
        · exact ih _ _ _ _
    · exact ih _ _ _ _

/-- The loop over the modifications returns a date adjustment only together with a rest
payload. -/
theorem applyModificationsLoop_carries (entry : BaseEntry) (index : Int) :
    ∀ (mods : List Modification) (rest : Option PayloadMap) (adj : Option DateAdjustment)
      (last : GeneratedEntry), (adj.isSome = true → rest.isSome = true) →
      (applyModificationsLoop entry index mods rest adj last).dateAdjustment.isSome = true →
      (applyModificationsLoop entry index mods rest adj last).applyToRestPayload.isSome = true
    := by
  intro mods
  induction mods with
  | nil => intro rest adj last h; exact h
  | cons m ms ih =>
    intro rest adj last h
    rw [applyModificationsLoop]
    split
    · split
      · intro hh; cases hh
      · split
        · simp only
          by_cases hr : m.restLen > 0
          · simp only [if_pos hr]
            split
            · exact ih _ _ _ (fun _ => restLen_isSome m hr)
            · exact ih _ _ _ (fun _ => restLen_isSome m hr)
          · simp only [if_neg hr]
            split
            · exact ih _ _ _ h
            · exact ih _ _ _ h
        · exact ih _ _ _ h
    · exact ih _ _ _ h

/-- A modification that neither deletes nor carries a date that parses, taken out of the
list: the loop over the modifications returns the same deletion flags, the same date
adjustment and the same entry behind the pointer. -/
theorem applyModificationsLoop_drop (entry : BaseEntry) (index : Int) (m : Modification)
    (hnd : m.Payload.deleted ≠ some (Value.bool true)) (hdate : m.modifiedDate = none)
    (post : List Modification) :
    ∀ (pre : List Modification) (rest1 rest2 : Option PayloadMap)
      (adj : Option DateAdjustment) (last : GeneratedEntry),
      (applyModificationsLoop entry index (pre ++ m :: post) rest1 adj last).shouldDelete =
        (applyModificationsLoop entry index (pre ++ post) rest2 adj last).shouldDelete ∧
      (applyModificationsLoop entry index (pre ++ m :: post) rest1 adj last).deleteFuture =
        (applyModificationsLoop entry index (pre ++ post) rest2 adj last).deleteFuture ∧
      (applyModificationsLoop entry index (pre ++ m :: post) rest1 adj last).dateAdjustment =
        (applyModificationsLoop entry index (pre ++ post) rest2 adj last).dateAdjustment ∧
      (applyModificationsLoop entry index (pre ++ m :: post) rest1 adj last).lastEntry =
        (applyModificationsLoop entry index (pre ++ post) rest2 adj last).lastEntry := by
  intro pre
  induction pre with
  | nil =>
    intro rest1 rest2 adj last
    simp only [List.nil_append]
    have hstep : ∃ rest, applyModificationsLoop entry index (m :: post) rest1 adj last =
        applyModificationsLoop entry index post rest adj last := by
      rw [applyModificationsLoop]
      by_cases ht : m.ItemID.format = entry.ID.format ∧ m.Index = index
      · rw [if_pos ht, if_neg hnd]
        by_cases hl : m.Payload.len > 0 ∨ m.restLen > 0
        · rw [if_pos hl]
          simp only [hdate]
          exact ⟨_, rfl⟩
        · rw [if_neg hl]
          exact ⟨_, rfl⟩
      · rw [if_neg ht]
        exact ⟨_, rfl⟩
    obtain ⟨rest, e⟩ := hstep
    rw [e]
    exact applyModificationsLoop_rest entry index post rest rest2 adj last
  | cons x pre ih =>
    intro rest1 rest2 adj last
    simp only [List.cons_append]
    rw [applyModificationsLoop]
    conv => enter [1, 2]; rw [applyModificationsLoop]
    conv => enter [2, 1, 2]; rw [applyModificationsLoop]
    conv => enter [2, 2, 1, 2]; rw [applyModificationsLoop]
    conv => enter [2, 2, 2, 2]; rw [applyModificationsLoop]
    split
    · split
      · exact ⟨rfl, rfl, rfl, rfl⟩
      · split
        · simp only
          split
          · exact ih _ _ _ _
          · exact ih _ _ _ _
        · exact ih _ _ _ _
    · exact ih _ _ _ _

/-- Two runs whose lists of modifications differ by a modification that neither deletes nor
carries a date that parses keep their loop states in step over an emitted occurrence. -/
theorem emitOccurrence_payloadRel (o1 o2 : GeneratorOptions) (hH : o1.Holidays = o2.Holidays)
    (hW : o1.WeekendDays = o2.WeekendDays) (m : Modification)
    (hnd : m.Payload.deleted ≠ some (Value.bool true)) (hdate : m.modifiedDate = none)
    (pre post : List Modification) (h1 : o1.Modifications = pre ++ m :: post)
    (h2 : o2.Modifications = pre ++ post) (entry : BaseEntry)
    (config : RecurrenceConfig) (d : Int) (s1 s2 : GenState) (h : payloadRel s1 s2) :
    Option.Rel payloadRel (emitOccurrence o1 entry config d s1)
      (emitOccurrence o2 entry config d s2) := by
  obtain ⟨hi, ha, hd, hres, hc1, hc2⟩ := h
  cases hp : PaymentDate d config.Options.GracePeriod o2.Holidays o2.WeekendDays
      config.Options.WorkdaysOnly with
  | none =>
    have e1 : emitOccurrence o1 entry config d s1 = none := by
      unfold emitOccurrence; rw [hH, hW, hp]
    have e2 : emitOccurrence o2 entry config d s2 = none := by
      unfold emitOccurrence; rw [hp]
    rw [e1, e2]
    exact Option.Rel.none
  | some p =>
    have hp1 : PaymentDate d config.Options.GracePeriod o1.Holidays o1.WeekendDays
        config.Options.WorkdaysOnly = some p := by rw [hH, hW]; exact hp
    rw [emitOccurrence_of_payment o1 entry config d p s1 hp1 _ rfl,
      emitOccurrence_of_payment o2 entry config d p s2 hp _ rfl]
    obtain ⟨m1, m2, m3, m4⟩ := applyModificationsLoop_drop entry (s1.index + 1) m hnd hdate
      post pre none none none
      { Entry := entry, Index := s1.index + 1, ActualDate := d, PaymentDate := p }
    have c1 := applyModificationsLoop_carries entry (s1.index + 1) (pre ++ m :: post) none none
      { Entry := entry, Index := s1.index + 1, ActualDate := d, PaymentDate := p }
      (fun hh => by cases hh)
    have c2 := applyModificationsLoop_carries entry (s1.index + 1) (pre ++ post) none none
      { Entry := entry, Index := s1.index + 1, ActualDate := d, PaymentDate := p }
      (fun hh => by cases hh)
    rw [← hi, h1, h2]
    unfold applyModifications
    rw [← m1]
    split
    · rw [m2]
      exact Option.Rel.some ⟨rfl, ha, rfl, hres, hc1, hc2⟩
    · refine Option.Rel.some ⟨rfl, ?_, hd, ?_, ?_, ?_⟩
      · simp only [m3, ha]
      · simp only [m4, hres]
      · simp only
        intro hh
        cases hr : (applyModificationsLoop entry (s1.index + 1) (pre ++ m :: post) none none
            { Entry := entry, Index := s1.index + 1, ActualDate := d,
              PaymentDate := p }).dateAdjustment with
        | some a =>
          have := c1 (by rw [hr]; rfl)
          cases hq : (applyModificationsLoop entry (s1.index + 1) (pre ++ m :: post) none none
              { Entry := entry, Index := s1.index + 1, ActualDate := d,
                PaymentDate := p }).applyToRestPayload with
          | some q => rfl
          | none => rw [hq] at this; cases this
        | none =>
          rw [hr] at hh
          cases hq : (applyModificationsLoop entry (s1.index + 1) (pre ++ m :: post) none none
              { Entry := entry, Index := s1.index + 1, ActualDate := d,
                PaymentDate := p }).applyToRestPayload with
          | some q => rfl
          | none => exact hc1 hh
      · simp only
        intro hh
        cases hr : (applyModificationsLoop entry (s1.index + 1) (pre ++ post) none none
            { Entry := entry, Index := s1.index + 1, ActualDate := d,
              PaymentDate := p }).dateAdjustment with
        | some a =>
          have := c2 (by rw [hr]; rfl)
          cases hq : (applyModificationsLoop entry (s1.index + 1) (pre ++ post) none none
              { Entry := entry, Index := s1.index + 1, ActualDate := d,
                PaymentDate := p }).applyToRestPayload with
          | some q => rfl
          | none => rw [hq] at this; cases this
        | none =>
          rw [hr] at hh
          cases hq : (applyModificationsLoop entry (s1.index + 1) (pre ++ post) none none
              { Entry := entry, Index := s1.index + 1, ActualDate := d,
                PaymentDate := p }).applyToRestPayload with
          | some q => rfl
          | none => exact hc2 hh

theorem payloadRel_activeAdjustment (s1 s2 : GenState) (h : payloadRel s1 s2) :
    s1.activeAdjustment = s2.activeAdjustment := by
  obtain ⟨_, ha, _, _, hc1, hc2⟩ := h
  unfold GenState.activeAdjustment
  cases h1 : s1.dateAdjustment with
  | none =>
    rw [← ha, h1]
    simp
  | some a =>
    have e1 := hc1 (by rw [h1]; rfl)
    have e2 := hc2 (by rw [← ha, h1]; rfl)
    rw [e1, e2, ← ha, h1]

/-- The body of the loop over the items gives the same result under the two lists of
modifications. -/
theorem processEntry_drop (o1 o2 : GeneratorOptions) (hH : o1.Holidays = o2.Holidays)
    (hW : o1.WeekendDays = o2.WeekendDays) (hR : o1.Range = o2.Range)
    (hX : o1.MaxIntervals = o2.MaxIntervals) (m : Modification)
    (hnd : m.Payload.deleted ≠ some (Value.bool true)) (hdate : m.modifiedDate = none)
    (pre post : List Modification) (h1 : o1.Modifications = pre ++ m :: post)
    (h2 : o2.Modifications = pre ++ post) (result : List GeneratedEntry) (entry : BaseEntry) :
    processEntry o1 result entry = processEntry o2 result entry := by
  rcases entry_single_or_recurring entry with hs | ⟨c, hc, hp⟩
  · rw [processEntry_single o1 result entry hs, processEntry_single o2 result entry hs, hR]
  · rw [processEntry_recurring o1 result entry c hc hp,
      processEntry_recurring o2 result entry c hc hp]
    have hmax : maxIntervalOf o1 c = maxIntervalOf o2 c := by
      unfold maxIntervalOf; rw [hX]
    rw [hmax]
    have hs := runCycles_step o1 o2 entry c payloadRel hW hR
      (fun s1 s2 hs => hs.2.2.1) payloadRel_activeAdjustment
      (fun d s1 s2 hs =>
        emitOccurrence_payloadRel o1 o2 hH hW m hnd hdate pre post h1 h2 entry c d s1 s2 hs)
      (maxIntervalOf o2 c).toNat 0
      { result := result, index := 0, applyToRestPayload := none, dateAdjustment := none,
        deleteRest := false }
      { result := result, index := 0, applyToRestPayload := none, dateAdjustment := none,
        deleteRest := false }
      ⟨rfl, rfl, rfl, rfl, fun hh => (by cases hh), fun hh => (by cases hh)⟩
    generalize runCycles o1 entry c (maxIntervalOf o2 c).toNat 0
      { result := result, index := 0, applyToRestPayload := none, dateAdjustment := none,
        deleteRest := false } = x1 at hs
    generalize runCycles o2 entry c (maxIntervalOf o2 c).toNat 0
      { result := result, index := 0, applyToRestPayload := none, dateAdjustment := none,
        deleteRest := false } = x2 at hs
    cases hs with
    | none => rfl
    | some hu => simp only [Option.map_some', hu.2.2.2.1]

theorem processEntries_drop (o1 o2 : GeneratorOptions) (hH : o1.Holidays = o2.Holidays)
    (hW : o1.WeekendDays = o2.WeekendDays) (hR : o1.Range = o2.Range)
    (hX : o1.MaxIntervals = o2.MaxIntervals) (m : Modification)
    (hnd : m.Payload.deleted ≠ some (Value.bool true)) (hdate : m.modifiedDate = none)
    (pre post : List Modification) (h1 : o1.Modifications = pre ++ m :: post)
    (h2 : o2.Modifications = pre ++ post) :
    ∀ (entries : List BaseEntry) (result : List GeneratedEntry),
      processEntries o1 entries result = processEntries o2 entries result := by
  intro entries
  induction entries with
  | nil => intro result; rfl
  | cons e es ih =>
    intro result
    simp only [processEntries,
      processEntry_drop o1 o2 hH hW hR hX m hnd hdate pre post h1 h2 result e, ih]

/-- C31: a modification that neither deletes (its payload has no `deleted = true`) nor carries
a date that parses, such as one whose payload and rest payload hold caller-defined fields
only, leaves what `Generator` returns unchanged: the call returns with the modification
exactly what it returns without it, whatever the other modifications, items and options. -/
theorem plain_payload_no_effect (opts : GeneratorOptions) (m : Modification)
    (pre post : List Modification) (hmods : opts.Modifications = pre ++ m :: post)
    (hnd : m.Payload.deleted ≠ some (Value.bool true)) (hdate : m.modifiedDate = none) :
    Generator opts = Generator (opts.withModifications (pre ++ post)) := by
  unfold Generator
  have hd : (opts.withModifications (pre ++ post)).Data = opts.Data := rfl
  have hw : (opts.withModifications (pre ++ post)).WeekendDays = opts.WeekendDays := rfl
  rw [hd, hw, processEntries_drop opts (opts.withModifications (pre ++ post)) rfl rfl rfl rfl
    m hnd hdate pre post hmods rfl opts.Data []]

/-- C31 at the input of the test `With rest payload modifications`: the monthly entry with
five occurrences and a modification of occurrence 2 whose rest payload holds an amount. The
five occurrences are returned, as without the modification. -/
theorem plain_payload_no_effect_witness :
    Generator { Data := [monthlyEntry 5 0], Modifications := [amountFrom 2] } =
      some (.ok [⟨monthlyEntry 5 0, 1, Date 2023 1 15, Date 2023 1 15⟩,
                 ⟨monthlyEntry 5 0, 2, Date 2023 2 15, Date 2023 2 15⟩,
                 ⟨monthlyEntry 5 0, 3, Date 2023 3 15, Date 2023 3 15⟩,
                 ⟨monthlyEntry 5 0, 4, Date 2023 4 15, Date 2023 4 15⟩,
                 ⟨monthlyEntry 5 0, 5, Date 2023 5 15, Date 2023 5 15⟩]) :=
  (plain_payload_no_effect { Data := [monthlyEntry 5 0], Modifications := [amountFrom 2] }
    (amountFrom 2) [] [] rfl (by decide) (by rfl)).trans (by rfl)

/-! ## The number of matching dates in a month -/

/-- Whether a date matches a day type depends on its day of the week only. -/
theorem matchesDayType_congr (dayType : String) (W : List Int) (a b : Int)
    (h : Weekday a = Weekday b) : matchesDayType dayType W a = matchesDayType dayType W b := by
  unfold matchesDayType GetActualDayName
  simp only [h]

/-- A date of the month, counted on from the first of the month. -/
theorem eq_first_add (date e : Int) (hy : Year e = Year date) (hm : Month e = Month date) :
    e = Date (Year date) (Month date) 1 + (Day e - 1) ∧ 0 ≤ Day e - 1 ∧
      Day e - 1 < daysIn (Month date) (Year date) := by
  have h1 := Date_Year_Month_Day e
  have h2 := Date_add_days (Year date) (Month date) 1 (Day e - 1)
  have h3 : (1 : Int) + (Day e - 1) = Day e := by ring
  rw [h3] at h2
  rw [hy, hm] at h1
  have h4 := Day_le_daysIn e
  rw [hy, hm] at h4
  have h5 := (Day_range e).1
  refine ⟨?_, by omega, by omega⟩
  rw [← h2, h1]

/-- A month has at least four dates on the day of the week of any of its dates: with a date
that matches a day type, at least four dates of the month match. -/
theorem matchingDates_four (dayType : String) (W : List Int) (date e : Int)
    (he : e ∈ matchingDates dayType W date) : 4 ≤ (matchingDates dayType W date).length := by
  obtain ⟨hy, hm, hmatch⟩ := (mem_matchingDates dayType W date e).1 he
  obtain ⟨heq, h0, h1⟩ := eq_first_add date e hy hm
  have hb := daysIn_bounds (Month date) (Year date)
  have hmem : ∀ j : Int, 0 ≤ j → j < 4 →
      Date (Year date) (Month date) 1 + ((Day e - 1) % 7 + 7 * j) ∈
        matchingDates dayType W date := by
    intro j hj0 hj4
    have hc := civil_of_first_add (Year date) (Month date) (Month_range date).1
      (Month_range date).2 ((Day e - 1) % 7 + 7 * j) (by omega) (by omega)
    refine (mem_matchingDates dayType W date _).2 ⟨hc.1, hc.2.1, ?_⟩
    rw [← hmatch]
    apply matchesDayType_congr
    unfold Weekday
    omega
  have hsub : [Date (Year date) (Month date) 1 + ((Day e - 1) % 7 + 7 * 0),
      Date (Year date) (Month date) 1 + ((Day e - 1) % 7 + 7 * 1),
      Date (Year date) (Month date) 1 + ((Day e - 1) % 7 + 7 * 2),
      Date (Year date) (Month date) 1 + ((Day e - 1) % 7 + 7 * 3)] ⊆
      matchingDates dayType W date := by
    intro x hx
    simp only [List.mem_cons, List.mem_singleton, List.not_mem_nil, or_false] at hx
    rcases hx with rfl | rfl | rfl | rfl
    · exact hmem 0 (by omega) (by omega)
    · exact hmem 1 (by omega) (by omega)
    · exact hmem 2 (by omega) (by omega)
    · exact hmem 3 (by omega) (by omega)
  have hnd : [Date (Year date) (Month date) 1 + ((Day e - 1) % 7 + 7 * 0),
      Date (Year date) (Month date) 1 + ((Day e - 1) % 7 + 7 * 1),
      Date (Year date) (Month date) 1 + ((Day e - 1) % 7 + 7 * 2),
      Date (Year date) (Month date) 1 + ((Day e - 1) % 7 + 7 * 3)].Nodup := by
    simp
  exact (List.subperm_of_subset hnd hsub).length_le

/-- The number of matching dates of a month is 0 or at least 4. -/
theorem matchingDates_count (dayType : String) (W : List Int) (date : Int) :
    (matchingDates dayType W date).length = 0 ∨ 4 ≤ (matchingDates dayType W date).length := by
  cases hl : matchingDates dayType W date with
  | nil => exact Or.inl rfl
  | cons e es =>
    right
    rw [← hl]
    exact matchingDates_four dayType W date e (by rw [hl]; exact List.mem_cons_self _ _)

/-- With at least four matching dates every position but `fifth` has its index among them. -/
theorem positionIndex_lt (position : String) (count : Int) (hpos : position ∈ positionTokens)
    (h5 : position ≠ "fifth") (hc : 4 ≤ count) :
    ∃ idx, positionIndex position count = some idx ∧ 0 ≤ idx ∧ idx < count := by
  simp only [positionTokens, List.mem_cons, List.mem_singleton, List.not_mem_nil,
    or_false] at hpos
  rcases hpos with h | h | h | h | h | h | h
  · subst h; exact ⟨0, by rfl, by omega, by omega⟩
  · subst h; exact ⟨1, by rfl, by omega, by omega⟩
  · subst h; exact ⟨2, by rfl, by omega, by omega⟩
  · subst h; exact ⟨3, by rfl, by omega, by omega⟩
  · exact absurd h h5
  · subst h
    refine ⟨max (count - 2) 0, by rfl, le_max_right _ _, ?_⟩
    rw [max_eq_left (by omega)]
    omega
  · subst h; exact ⟨count - 1, by rfl, by omega, by omega⟩

/-- The resolution of an ordinal succeeds when its position is a position token other than
`fifth`, some date of the month matches its day type, and weekend days are given where the day
type asks for them. -/
theorem GetOrdinalDate_succeeds (date : Int) (ord position dayType : String) (W : List Int)
    (h2 : twoTokens ord position dayType) (hpos : position ∈ positionTokens)
    (h5 : position ≠ "fifth")
    (hw : ¬ ((dayType = "weekday" ∨ dayType = "weekend") ∧ W.length = 0))
    (hne : matchingDates dayType W date ≠ []) :
    ∃ d, GetOrdinalDate date ord W = .ok d := by
  rw [GetOrdinalDate_two date ord position dayType W h2, if_neg hw]
  have hlen : ¬ ((matchingDates dayType W date).length = 0) := by
    intro h
    exact hne (List.length_eq_zero.1 h)
  rw [if_neg hlen]
  have h4 : 4 ≤ (matchingDates dayType W date).length := by
    rcases matchingDates_count dayType W date with h | h
    · exact absurd h hlen
    · exact h
  obtain ⟨idx, hi, h0, hlt⟩ := positionIndex_lt position
    ((matchingDates dayType W date).length : Int) hpos h5 (by exact_mod_cast h4)
  rw [hi]
  simp only
  rw [if_neg (by omega)]
  have hget : idx.toNat < (matchingDates dayType W date).length := by omega
  rw [List.get?_eq_get hget]
  exact ⟨_, rfl⟩

/-- C39: in `GetOrdinalDate` the number of matching dates of the month is 0 or at least 4, for
every month, day type and set of weekend days; so with matching dates the index `count - 2` of
`nextToLast` is not negative (the clamp to 0 is not taken), and the error for want of
matching dates is returned for the position `fifth` only. -/
theorem ordinal_count (date : Int) (dayType : String) (W : List Int) :
    ((matchingDaysLoop dayType W (Month (Date (Year date) (Month date) 1)) 32
        (Date (Year date) (Month date) 1)).length = 0 ∨
      4 ≤ (matchingDaysLoop dayType W (Month (Date (Year date) (Month date) 1)) 32
        (Date (Year date) (Month date) 1)).length) ∧
    ((matchingDaysLoop dayType W (Month (Date (Year date) (Month date) 1)) 32
        (Date (Year date) (Month date) 1)).length ≠ 0 →
      ¬ (((matchingDaysLoop dayType W (Month (Date (Year date) (Month date) 1)) 32
        (Date (Year date) (Month date) 1)).length : Int) - 2 < 0)) ∧
    (∀ ord position, twoTokens ord position dayType →
      GetOrdinalDate date ord W = .error .notEnoughDays → position = "fifth") := by
  rw [matchingDaysLoop_eq]
  have hcount := matchingDates_count dayType W date
  refine ⟨hcount, ?_, ?_⟩
  · intro hne
    rcases hcount with h | h
    · exact absurd h hne
    · omega
  · intro ord position h2 herr
    by_contra h5
    by_cases hw : (dayType = "weekday" ∨ dayType = "weekend") ∧ W.length = 0
    · rw [GetOrdinalDate_two date ord position dayType W h2, if_pos hw] at herr
      cases herr
    · by_cases hne : matchingDates dayType W date = []
      · rw [GetOrdinalDate_two date ord position dayType W h2, if_neg hw, hne] at herr
        simp only [List.length_nil, if_true] at herr
        cases herr
      · by_cases hpos : position ∈ positionTokens
        · obtain ⟨d, hd⟩ :=
            GetOrdinalDate_succeeds date ord position dayType W h2 hpos h5 hw hne
          rw [hd] at herr
          cases herr
        · have hnone : positionIndex position (matchingDates dayType W date).length = none := by
            cases hi : positionIndex position (matchingDates dayType W date).length with
            | none => rfl
            | some idx =>
              exact absurd ((positionIndex_isSome_iff position _).1 ⟨idx, hi⟩) hpos
          have hlen : ¬ ((matchingDates dayType W date).length = 0) := by
            intro h
            exact hne (List.length_eq_zero.1 h)
          rw [GetOrdinalDate_two date ord position dayType W h2, if_neg hw, if_neg hlen,
            hnone] at herr
          cases herr

/-- C39 at January 2023 with the weekend days 0 and 6: the loop of `GetOrdinalDate` finds 5
Mondays; there are 31 days, 22 weekdays and 9 weekend days; `fourth-friday` resolves,
`fifth-friday` fails for want of matching dates. -/
theorem ordinal_count_witness :
    ((matchingDaysLoop "monday" [0, 6]
        (Month (Date (Year (Date 2023 1 15)) (Month (Date 2023 1 15)) 1)) 32
        (Date (Year (Date 2023 1 15)) (Month (Date 2023 1 15)) 1)).length = 0 ∨
      4 ≤ (matchingDaysLoop "monday" [0, 6]
        (Month (Date (Year (Date 2023 1 15)) (Month (Date 2023 1 15)) 1)) 32
        (Date (Year (Date 2023 1 15)) (Month (Date 2023 1 15)) 1)).length) ∧
    (matchingDaysLoop "monday" [0, 6]
        (Month (Date (Year (Date 2023 1 15)) (Month (Date 2023 1 15)) 1)) 32
        (Date (Year (Date 2023 1 15)) (Month (Date 2023 1 15)) 1)).length = 5 ∧
    (matchingDates "day" [0, 6] (Date 2023 1 15)).length = 31 ∧
    (matchingDates "weekday" [0, 6] (Date 2023 1 15)).length = 22 ∧
    (matchingDates "weekend" [0, 6] (Date 2023 1 15)).length = 9 ∧
    GetOrdinalDate (Date 2023 1 15) "fourth-friday" [0, 6] = .ok (Date 2023 1 27) ∧
    GetOrdinalDate (Date 2023 1 15) "fifth-friday" [0, 6] = .error .notEnoughDays :=
  ⟨(ordinal_count (Date 2023 1 15) "monday" [0, 6]).1, by rfl, by rfl, by rfl, by rfl, by rfl,
    by rfl⟩

/-! ## Validation and resolution of ordinals -/

/-- Every day name token is the name of the dates of one day of the week. -/
theorem dayName_weekday (name : String) (h : name ∈ dayNameTokens) :
    ∃ w : Int, 0 ≤ w ∧ w < 7 ∧ ∀ d, Weekday d = w → GetActualDayName d = name := by
  simp only [dayNameTokens, List.mem_cons, List.mem_singleton, List.not_mem_nil,
    or_false] at h
  rcases h with h | h | h | h | h | h | h <;> subst h
  · exact ⟨1, by omega, by omega, fun d hd => by simp [GetActualDayName, hd]⟩
  · exact ⟨2, by omega, by omega, fun d hd => by simp [GetActualDayName, hd]⟩
  · exact ⟨3, by omega, by omega, fun d hd => by simp [GetActualDayName, hd]⟩
  · exact ⟨4, by omega, by omega, fun d hd => by simp [GetActualDayName, hd]⟩
  · exact ⟨5, by omega, by omega, fun d hd => by simp [GetActualDayName, hd]⟩
  · exact ⟨6, by omega, by omega, fun d hd => by simp [GetActualDayName, hd]⟩
  · exact ⟨0, by omega, by omega, fun d hd => by simp [GetActualDayName, hd]⟩

/-- Every month has a date on every day of the week. -/
theorem matchingDates_day_name (name : String) (h : name ∈ dayNameTokens) (W : List Int)
    (date : Int) : matchingDates name W date ≠ [] := by
  obtain ⟨w, h0, h7, hw⟩ := dayName_weekday name h
  have hb := daysIn_bounds (Month date) (Year date)
  have hc := civil_of_first_add (Year date) (Month date) (Month_range date).1
    (Month_range date).2 ((w - Weekday (Date (Year date) (Month date) 1)) % 7) (by omega)
    (by omega)
  have hwd : Weekday (Date (Year date) (Month date) 1 +
      (w - Weekday (Date (Year date) (Month date) 1)) % 7) = w := by
    unfold Weekday
    omega
  have hmem : Date (Year date) (Month date) 1 +
      (w - Weekday (Date (Year date) (Month date) 1)) % 7 ∈ matchingDates name W date := by
    refine (mem_matchingDates name W date _).2 ⟨hc.1, hc.2.1, ?_⟩
    unfold matchesDayType
    rw [hw _ hwd]
    simp
  intro hnil
  rw [hnil] at hmem
  exact absurd hmem (List.not_mem_nil _)

/-- An ordinal whose position is a position token other than `fifth` and whose day type is a
lower-case day name resolves for every date and every set of weekend days, to a date of the
month of the date. -/
theorem GetOrdinalDate_day_name (date : Int) (ord position dayType : String) (W : List Int)
    (h2 : twoTokens ord position dayType) (hpos : position ∈ positionTokens)
    (h5 : position ≠ "fifth") (hday : dayType ∈ dayNameTokens) :
    ∃ d, GetOrdinalDate date ord W = .ok d ∧ Year d = Year date ∧ Month d = Month date := by
  have hw : ¬ ((dayType = "weekday" ∨ dayType = "weekend") ∧ W.length = 0) := by
    rintro ⟨h | h, _⟩ <;> subst h <;> exact absurd hday (by decide)
  obtain ⟨d, hd⟩ := GetOrdinalDate_succeeds date ord position dayType W h2 hpos h5 hw
    (matchingDates_day_name dayType hday W date)
  refine ⟨d, hd, ?_⟩
  rw [GetOrdinalDate_two date ord position dayType W h2, if_neg hw] at hd
  split at hd
  · cases hd
  · split at hd
    · cases hd
    · split at hd
      · cases hd
      · split at hd
        · rename_i d1 hget
          cases hd
          have hmem := List.get?_mem hget
          have := (mem_matchingDates dayType W date d).1 hmem
          exact ⟨this.1, this.2.1⟩
        · cases hd

/-- C38, the code on an ordinal with a capitalized day name: `first-Monday` is accepted by
`IsOrdinal` and the item with this ordinal is valid, `GetOrdinalDate` fails for every date and
every set of weekend days because no day name matches, and `Generator` returns no occurrence
at all for the item, where it returns three for `first-monday`. -/
theorem capital_day_never_resolves :
    IsOrdinal "first-Monday" = true ∧
    IsValidBaseEntry (ordinalEntry (Date 2023 1 1) 3 "first-Monday") = true ∧
    (∀ date W, GetOrdinalDate date "first-Monday" W = .error .noMatchingDays) ∧
    Generator { Data := [ordinalEntry (Date 2023 1 1) 3 "first-Monday"] } = some (.ok []) ∧
    Generator { Data := [ordinalEntry (Date 2023 1 1) 3 "first-monday"] } =
      some (.ok [⟨ordinalEntry (Date 2023 1 1) 3 "first-monday", 1, Date 2023 1 2,
                  Date 2023 1 2⟩,
                 ⟨ordinalEntry (Date 2023 1 1) 3 "first-monday", 2, Date 2023 2 6,
                  Date 2023 2 6⟩,
                 ⟨ordinalEntry (Date 2023 1 1) 3 "first-monday", 3, Date 2023 3 6,
                  Date 2023 3 6⟩]) := by
  refine ⟨by rfl, by rfl, ?_, by rfl, by rfl⟩
  intro date W
  have h2 : twoTokens "first-Monday" "first" "Monday" := ⟨by rfl, by decide, by decide⟩
  rw [GetOrdinalDate_two date "first-Monday" "first" "Monday" W h2,
    if_neg (by rintro ⟨h | h, _⟩ <;> exact absurd h (by decide)),
    matchingDates_unrecognized "Monday" W date (by decide) (by decide)]
  rfl

/-! ## Months in a row -/

/-- The date given by year, month and day depends on year and month through the count of
months `12 * year + month` only. -/
theorem Date_month_count (y m d : Int) : Date y m d = Date 0 (12 * y + m) d := by
  rw [Date_normalize y m d, Date_normalize 0 (12 * y + m) d]
  have h1 : 0 + (12 * y + m - 1) / 12 = y + (m - 1) / 12 := by omega
  have h2 : (12 * y + m - 1) % 12 + 1 = (m - 1) % 12 + 1 := by omega
  rw [h1, h2]

/-- The first of the next month comes after the days of the month. -/
theorem Date_first_succ (N : Int) :
    Date 0 (N + 1) 1 = Date 0 N 1 + daysIn ((N - 1) % 12 + 1) ((N - 1) / 12) := by
  have h := Date_next_month ((N - 1) / 12) ((N - 1) % 12 + 1) (by omega) (by omega)
  rw [add_comm (daysIn ((N - 1) % 12 + 1) ((N - 1) / 12)) 1, Date_add_days] at h
  rw [Date_month_count ((N - 1) / 12) ((N - 1) % 12 + 1) 1,
    Date_month_count ((N - 1) / 12) ((N - 1) % 12 + 1 + 1) 1] at h
  have e1 : 12 * ((N - 1) / 12) + ((N - 1) % 12 + 1) = N := by omega
  have e2 : 12 * ((N - 1) / 12) + ((N - 1) % 12 + 1 + 1) = N + 1 := by omega
  rw [e1, e2] at h
  exact h.symm

/-- Later months begin later, by at least 28 days for every month in between. -/
theorem Date_first_mono (N : Int) :
    ∀ k : Nat, Date 0 N 1 + 28 * (k : Int) ≤ Date 0 (N + (k : Int)) 1 := by
  intro k
  induction k with
  | zero => simp
  | succ k ih =>
    have h := Date_first_succ (N + (k : Int))
    have hb := daysIn_bounds ((N + (k : Int) - 1) % 12 + 1) ((N + (k : Int) - 1) / 12)
    have e : N + ((k + 1 : Nat) : Int) = N + (k : Int) + 1 := by push_cast; ring
    rw [e, h]
    push_cast
    omega

/-- Moving a date to a later month, with the same day number, does not make it earlier. -/
theorem Date_mono_month (y m d k : Int) (hk : 0 ≤ k) : Date y m d ≤ Date y (m + k) d := by
  have h := Date_first_mono (12 * y + m) k.toNat
  have e : ((k.toNat : Nat) : Int) = k := Int.toNat_of_nonneg hk
  rw [e] at h
  have h1 := Date_add_days 0 (12 * y + m) 1 (d - 1)
  have h2 := Date_add_days 0 (12 * y + m + k) 1 (d - 1)
  have e3 : (1 : Int) + (d - 1) = d := by ring
  rw [e3] at h1 h2
  rw [Date_month_count y m d, Date_month_count y (m + k) d]
  have e4 : 12 * y + (m + k) = 12 * y + m + k := by ring
  rw [e4, h1, h2]
  omega

/-- A date in an earlier month is an earlier date. -/
theorem lt_of_month_lt (a b : Int) (h : 12 * Year a + Month a < 12 * Year b + Month b) :
    a < b := by
  have ha := Date_Year_Month_Day a
  have hb := Date_Year_Month_Day b
  rw [Date_month_count] at ha hb
  have ha1 := Date_add_days 0 (12 * Year a + Month a) 1 (Day a - 1)
  have hb1 := Date_add_days 0 (12 * Year b + Month b) 1 (Day b - 1)
  have e3 : ∀ x : Int, (1 : Int) + (x - 1) = x := fun x => by ring
  rw [e3] at ha1 hb1
  have hs := Date_first_succ (12 * Year a + Month a)
  have hmono := Date_first_mono (12 * Year a + Month a + 1)
    (12 * Year b + Month b - (12 * Year a + Month a + 1)).toNat
  have e : (((12 * Year b + Month b - (12 * Year a + Month a + 1)).toNat : Nat) : Int) =
      12 * Year b + Month b - (12 * Year a + Month a + 1) := Int.toNat_of_nonneg (by omega)
  rw [e] at hmono
  have e5 : 12 * Year a + Month a + 1 + (12 * Year b + Month b - (12 * Year a + Month a + 1)) =
      12 * Year b + Month b := by ring
  rw [e5] at hmono
  have hle := Day_le_daysIn a
  have hma := Month_range a
  have e6 : (12 * Year a + Month a - 1) % 12 + 1 = Month a := by omega
  have e7 : (12 * Year a + Month a - 1) / 12 = Year a := by omega
  rw [e6, e7] at hs
  have hdb := (Day_range b).1
  omega

/-- The month count of the month `a` months after the month of a date. -/
theorem monthAfter_count (t a : Int) :
    12 * (monthAfter t a).1 + (monthAfter t a).2 = 12 * Year t + Month t + a := by
  unfold monthAfter
  simp only
  omega

/-- A date of year 2 or later is not the zero date. -/
theorem ne_zero_of_Year (t : Int) (h : 2 ≤ Year t) : t ≠ 0 := by
  have := lower_of_Year t h
  omega

/-! ## Monthly items: one occurrence per month -/

/-- The dates of a cycle of a monthly item with one `each` value, when no modification has
left a date adjustment: the day `d` of the month of the base date, unless it is the zero
date. -/
theorem plainCycleDates_month_each (opts : GeneratorOptions) (config : RecurrenceConfig)
    (hp : config.Period = PeriodMonth) (d : Int) (heach : config.Options.Each = [d])
    (i : Int) :
    plainCycleDates opts config i =
      [Date (Year (AddByPeriod config.Start (wrapInt (i * everyOf config)) PeriodMonth))
        (Month (AddByPeriod config.Start (wrapInt (i * everyOf config)) PeriodMonth))
        d].filter (fun t => !IsZero t) := by
  unfold plainCycleDates cycleDates occurrenceDates
  have hnw : ¬ (config.Period = PeriodWeek ∧ config.Options.Each.length = 0) := by
    rw [hp]; intro hh; exact absurd hh.1 (by decide)
  have hl : config.Options.Each.length > 0 := by rw [heach]; simp
  simp only
  rw [if_neg hnw, if_pos hl]
  simp only [heach, List.filterMap_cons, List.filterMap_nil]
  have he : eachTargetDate opts config i
      (AddByPeriod config.Start (wrapInt (i * everyOf config)) config.Period) (initState []) d =
      some (Date (Year (AddByPeriod config.Start (wrapInt (i * everyOf config)) PeriodMonth))
        (Month (AddByPeriod config.Start (wrapInt (i * everyOf config)) PeriodMonth)) d) := by
    unfold eachTargetDate
    simp only [hp, if_neg (show ¬ (PeriodMonth = PeriodWeek) by decide), if_true]
    rw [adjust_of_rest_none (initState []) rfl]
  rw [he]

/-- The base date of cycle `i` of a monthly item that starts on a day up to the 28th lies `i`
times `every` months after the start. -/
theorem base_month (start : Int) (hday : Day start ≤ 28) (a : Int) :
    Year (AddByPeriod start a PeriodMonth) = (monthAfter start a).1 ∧
      Month (AddByPeriod start a PeriodMonth) = (monthAfter start a).2 ∧
      Day (AddByPeriod start a PeriodMonth) = Day start := by
  have hm : AddByPeriod start a PeriodMonth = AddDate start 0 a 0 := by
    unfold AddByPeriod; rw [if_neg (by decide), if_pos rfl]
  rw [hm]
  have hb := daysIn_bounds (monthAfter start a).2 (monthAfter start a).1
  exact AddDate_months_fits start a (by omega)

theorem monthAfter_year (start : Int) (a : Int) (ha : 0 ≤ a) :
    Year start ≤ (monthAfter start a).1 := by
  have := Month_range start
  unfold monthAfter
  simp only
  omega

theorem everyOf_one (config : RecurrenceConfig) (h : config.Options.Every = 1) :
    everyOf config = 1 := by
  unfold everyOf
  rw [h]
  rfl

/-- An ordinal of two tokens is not the empty string. -/
theorem twoTokens_ne_empty (s a b : String) (h : twoTokens s a b) : s ≠ "" := by
  intro he
  have h1 := h.1
  rw [he] at h1
  have : ([] : List Char) = a.data ++ '-' :: b.data := h1
  have hl := congrArg List.length this
  simp at hl
  omega

/-- Cycle `j` of a monthly item with every = 1 that starts on a day up to the 28th, in year 2
or later, and picks one date in every month: one date, in the month `j` months after the
month of the start. The cycle index is a value of Go's `int`. -/
theorem cycle_in_month (opts : GeneratorOptions) (config : RecurrenceConfig)
    (hp : config.Period = PeriodMonth) (hevery : config.Options.Every = 1)
    (hsel : picksEveryMonth config) (hday : Day config.Start ≤ 28)
    (hyear : 2 ≤ Year config.Start) (j : Nat) (hj : (j : Int) ≤ 9223372036854775807) :
    ∃ x, plainCycleDates opts config j = [x] ∧ Year x = (monthAfter config.Start j).1 ∧
      Month x = (monthAfter config.Start j).2 := by
  have hwj : wrapInt (j : Int) = j := wrapInt_of_fits _ ⟨by omega, hj⟩
  have hb := base_month config.Start hday (j : Int)
  have hy := monthAfter_year config.Start (j : Int) (by omega)
  have hr := monthAfter_range config.Start (j : Int)
  have hdi := daysIn_bounds (monthAfter config.Start j).2 (monthAfter config.Start j).1
  rcases hsel with ⟨d, heach, hd1, hd28⟩ | ⟨heach, position, dayType, h2, hpos, h5, hname⟩
  · rw [plainCycleDates_month_each opts config hp d heach, everyOf_one config hevery, mul_one,
      hwj, hb.1, hb.2.1]
    have hc := civil_of_Date (monthAfter config.Start j).1 (monthAfter config.Start j).2 d
      hr.1 hr.2 hd1 (by omega)
    have hnz : IsZero (Date (monthAfter config.Start j).1 (monthAfter config.Start j).2 d) =
        false := by
      have := ne_zero_of_Year _ (show 2 ≤ Year (Date (monthAfter config.Start j).1
        (monthAfter config.Start j).2 d) by rw [hc.1]; omega)
      simp [IsZero, this]
    refine ⟨_, ?_, hc.1, hc.2.1⟩
    simp [List.filter, hnz]
  · rw [plainCycleDates_ordinal opts config hp heach
      (twoTokens_ne_empty _ _ _ h2)]
    unfold resolvedDate
    rw [everyOf_one config hevery, mul_one, hwj, hp]
    obtain ⟨x, hx, hxy, hxm⟩ := GetOrdinalDate_day_name
      (AddByPeriod config.Start (j : Int) PeriodMonth) config.Options.On position dayType
      opts.WeekendDays h2 hpos h5 hname
    rw [hx]
    have hnz : x ≠ 0 := ne_zero_of_Year x (by rw [hxy, hb.1]; omega)
    simp only [if_neg hnz, Option.toList]
    exact ⟨x, rfl, by rw [hxy, hb.1], by rw [hxm, hb.2.1]⟩

/-- The dates of the first `n` cycles of such an item: one in each of the `n` months from the
month of the start on, in ascending order. -/
theorem cycles_in_months (opts : GeneratorOptions) (config : RecurrenceConfig)
    (hp : config.Period = PeriodMonth) (hevery : config.Options.Every = 1)
    (hsel : picksEveryMonth config) (hday : Day config.Start ≤ 28)
    (hyear : 2 ≤ Year config.Start) :
    ∀ n : Nat, (n : Int) ≤ 9223372036854775807 →
      (((List.range n).map (fun j : Nat => plainCycleDates opts config j)).flatten.map
          (fun x => (Year x, Month x)) =
        (List.range n).map (fun k : Nat => monthAfter config.Start k)) ∧
      ((List.range n).map (fun j : Nat => plainCycleDates opts config j)).flatten.Pairwise
        (fun a b => a < b) ∧
      ∀ y ∈ ((List.range n).map (fun j : Nat => plainCycleDates opts config j)).flatten,
        12 * Year y + Month y < 12 * Year config.Start + Month config.Start + (n : Int) := by
  intro n
  induction n with
  | zero =>
    intro _
    refine ⟨rfl, List.Pairwise.nil, ?_⟩
    intro y hy
    simp at hy
  | succ n ih =>
    intro hn
    have hn1 : (n : Int) ≤ 9223372036854775807 := by push_cast at hn; omega
    obtain ⟨x, hx, hxy, hxm⟩ := cycle_in_month opts config hp hevery hsel hday hyear n hn1
    obtain ⟨ih1, ih2, ih3⟩ := ih hn1
    have hcount := monthAfter_count config.Start (n : Int)
    rw [List.range_succ, List.map_append, List.flatten_append]
    simp only [List.map_cons, List.map_nil, List.flatten_cons, List.flatten_nil,
      List.append_nil, hx, List.map_append]
    refine ⟨?_, ?_, ?_⟩
    · rw [ih1, hxy, hxm]
    · rw [List.pairwise_append]
      refine ⟨ih2, List.pairwise_singleton _ _, ?_⟩
      intro a ha b hb
      rw [List.mem_singleton] at hb
      subst hb
      apply lt_of_month_lt
      have := ih3 a ha
      rw [hxy, hxm]
      omega
    · intro y hy
      rcases List.mem_append.1 hy with hy | hy
      · have := ih3 y hy
        push_cast
        omega
      · rw [List.mem_singleton] at hy
        subst hy
        rw [hxy, hxm]
        push_cast
        omega

/-! ## C36: monthly items and the day of the start -/

/-- C36, refuted: a valid monthly item that starts on 2023-01-31, with every = 1, the `each`
value 15 and four cycles. The base date of the second cycle, one month after the start, is
2023-03-03, so February is skipped and March comes twice; the same holds with the ordinal
`first-monday` in place of the `each` value. -/
theorem start_on_31st_skips_february :
    IsValidBaseEntry (eachEntry PeriodMonth (Date 2023 1 31) 4 [15]) = true ∧
    Generator { Data := [eachEntry PeriodMonth (Date 2023 1 31) 4 [15]] } =
      some (.ok [⟨eachEntry PeriodMonth (Date 2023 1 31) 4 [15], 1, Date 2023 1 15,
                  Date 2023 1 15⟩,
                 ⟨eachEntry PeriodMonth (Date 2023 1 31) 4 [15], 2, Date 2023 3 15,
                  Date 2023 3 15⟩,
                 ⟨eachEntry PeriodMonth (Date 2023 1 31) 4 [15], 3, Date 2023 3 15,
                  Date 2023 3 15⟩,
                 ⟨eachEntry PeriodMonth (Date 2023 1 31) 4 [15], 4, Date 2023 5 15,
                  Date 2023 5 15⟩]) ∧
    Generator { Data := [ordinalEntry (Date 2023 1 31) 4 "first-monday"] } =
      some (.ok [⟨ordinalEntry (Date 2023 1 31) 4 "first-monday", 1, Date 2023 1 2,
                  Date 2023 1 2⟩,
                 ⟨ordinalEntry (Date 2023 1 31) 4 "first-monday", 2, Date 2023 3 6,
                  Date 2023 3 6⟩,
                 ⟨ordinalEntry (Date 2023 1 31) 4 "first-monday", 3, Date 2023 3 6,
                  Date 2023 3 6⟩,
                 ⟨ordinalEntry (Date 2023 1 31) 4 "first-monday", 4, Date 2023 5 1,
                  Date 2023 5 1⟩]) :=
  ⟨by rfl, by rfl, by rfl⟩

/-- The loop runs at most `interval` cycles. -/
theorem maxIntervalOf_le (opts : GeneratorOptions) (config : RecurrenceConfig) :
    maxIntervalOf opts config ≤ config.Interval := by
  rw [maxIntervalOf_eq]
  cases capOf opts config.Period with
  | none => exact le_rfl
  | some cap => exact min_le_left _ _

/-- C36 (amended): for a month-period item alone, with every = 1, one `each` value up to 28 or
an ordinal with a position other than `fifth` and a lower-case day name, no modifications and
no range, whose start falls on the 1st to 28th of a month of year 2 or later: the returned
occurrences lie, in this order, in the month of the start and the months that follow it, one
in each month, none skipped or repeated, and their actual dates are strictly increasing; and
`Generator` returns for such an item when it passes validation and its payment date walk can
stop. The interval is a value of Go's `int`, as every interval that the program receives. -/
theorem monthly_consecutive (opts : GeneratorOptions) (entry : BaseEntry)
    (config : RecurrenceConfig) (hd : opts.Data = [entry]) (hc : entry.Config = some config)
    (hp : config.Period = PeriodMonth) (hevery : config.Options.Every = 1)
    (hsel : picksEveryMonth config) (hmods : opts.Modifications = [])
    (hr : opts.Range = none) (hday : Day config.Start ≤ 28) (hyear : 2 ≤ Year config.Start)
    (hint : fitsInt config.Interval) :
    (∀ res, Generator opts = some (.ok res) →
      res.map (fun g => (Year g.ActualDate, Month g.ActualDate)) =
        (List.range (maxIntervalOf opts config).toNat).map
          (fun k : Nat => monthAfter config.Start k) ∧
      (res.map (fun g => g.ActualDate)).Pairwise (fun a b => a < b)) ∧
    (validateEntries opts.WeekendDays [entry] = none → walkStops opts config →
      ∃ res, Generator opts = some (.ok res)) := by
  have hpn : config.Period ≠ PeriodNone := by rw [hp]; decide
  constructor
  · intro res h
    have hdates := Generator_plain_of_ok opts entry config hd hc hpn hmods hr res h
    have hle := maxIntervalOf_le opts config
    have hmax := hint.2
    obtain ⟨c1, c2, _⟩ := cycles_in_months opts config hp hevery hsel hday hyear
      (maxIntervalOf opts config).toNat (by omega)
    rw [← hdates] at c1 c2
    rw [List.map_map] at c1
    exact ⟨c1, c2⟩
  · intro hvalid hstop
    obtain ⟨res, h, _⟩ := Generator_plain opts entry config hd hc hpn hvalid hmods hr hstop
    exact ⟨res, h⟩

/-- C36 (amended) at the monthly item that starts on 2023-01-28, with the `each` value 15 and
four cycles: one occurrence in each of the months January to April 2023. -/
theorem monthly_consecutive_witness :
    ∃ res, Generator { Data := [eachEntry PeriodMonth (Date 2023 1 28) 4 [15]] } =
        some (.ok res) ∧
      res.map (fun g => (Year g.ActualDate, Month g.ActualDate)) =
        [(2023, 1), (2023, 2), (2023, 3), (2023, 4)] ∧
      (res.map (fun g => g.ActualDate)).Pairwise (fun a b => a < b) := by
  obtain ⟨hall, hret⟩ := monthly_consecutive
    { Data := [eachEntry PeriodMonth (Date 2023 1 28) 4 [15]] }
    (eachEntry PeriodMonth (Date 2023 1 28) 4 [15])
    (eachConfig PeriodMonth (Date 2023 1 28) 4 [15]) rfl rfl rfl rfl
    (Or.inl ⟨15, rfl, by decide, by decide⟩) rfl rfl (by decide) (by decide) (by decide)
  obtain ⟨res, h⟩ := hret (by rfl) (Or.inl rfl)
  obtain ⟨h1, h2⟩ := hall res h
  exact ⟨res, h, h1.trans (by rfl), h2⟩

/-! ## Runs without modifications: where the dates come from -/

/-- Without modifications an occurrence that passes the range check is appended with the
occurrence date as its actual date, and nothing is carried over. -/
theorem emitInRange_unmodified (opts : GeneratorOptions) (entry : BaseEntry)
    (config : RecurrenceConfig) (hmods : opts.Modifications = []) (d : Int)
    (st st1 : GenState) (hst : st.applyToRestPayload = none) (hdel : st.deleteRest = false)
    (h : emitInRange opts entry config d st = some st1) :
    st1.applyToRestPayload = none ∧ st1.deleteRest = false ∧
      (st1.result = st.result ∨
        ∃ g, st1.result = st.result ++ [g] ∧ g.Entry = entry ∧ g.ActualDate = d) := by
  unfold emitInRange at h
  split at h
  · cases h
    exact ⟨hst, hdel, Or.inl rfl⟩
  · obtain ⟨p, r, _, hr, _, hcase⟩ := emitOccurrence_some opts entry config d st st1 h
    rw [hmods] at hr
    subst hr
    simp only [applyModifications, applyModificationsLoop] at hcase
    rcases hcase with ⟨hsd, _⟩ | ⟨_, hres, hd1, hrest, _⟩
    · cases hsd
    · refine ⟨?_, by rw [hd1, hdel], Or.inr ⟨_, hres, rfl, rfl⟩⟩
      rw [hrest]
      exact hst

theorem emitAll_unmodified (opts : GeneratorOptions) (entry : BaseEntry)
    (config : RecurrenceConfig) (hmods : opts.Modifications = []) :
    ∀ (dates : List Int) (st st1 : GenState), st.applyToRestPayload = none →
      st.deleteRest = false → emitAll opts entry config dates st = some st1 →
      st1.applyToRestPayload = none ∧ st1.deleteRest = false ∧
        ∃ new, st1.result = st.result ++ new ∧
          ∀ g ∈ new, g.Entry = entry ∧ g.ActualDate ∈ dates := by
  intro dates
  induction dates with
  | nil =>
    intro st st1 hst hdel h
    simp only [emitAll] at h
    cases h
    exact ⟨hst, hdel, [], by simp, fun g hg => absurd hg (List.not_mem_nil _)⟩
  | cons d dates ih =>
    intro st st1 hst hdel h
    simp only [emitAll] at h
    cases he : emitInRange opts entry config d st with
    | none => rw [he] at h; cases h
    | some st2 =>
      rw [he] at h
      simp only at h
      obtain ⟨h1, h2, h3⟩ := emitInRange_unmodified opts entry config hmods d st st2 hst hdel he
      rw [h2] at h
      simp only [Bool.false_eq_true, if_false] at h
      obtain ⟨i1, i2, new, i3, i4⟩ := ih st2 st1 h1 h2 h
      refine ⟨i1, i2, ?_⟩
      rcases h3 with h3 | ⟨g, h3, hg1, hg2⟩
      · refine ⟨new, by rw [i3, h3], ?_⟩
        intro x hx
        exact ⟨(i4 x hx).1, List.mem_cons_of_mem _ (i4 x hx).2⟩
      · refine ⟨g :: new, by rw [i3, h3, List.append_assoc]; rfl, ?_⟩
        intro x hx
        rcases List.mem_cons.1 hx with hx | hx
        · subst hx
          exact ⟨hg1, by rw [hg2]; exact List.mem_cons_self _ _⟩
        · exact ⟨(i4 x hx).1, List.mem_cons_of_mem _ (i4 x hx).2⟩

theorem runCycles_unmodified (opts : GeneratorOptions) (entry : BaseEntry)
    (config : RecurrenceConfig) (hmods : opts.Modifications = []) :
    ∀ (n : Nat) (i : Int) (st st1 : GenState), st.applyToRestPayload = none →
      st.deleteRest = false → runCycles opts entry config n i st = some st1 →
      ∃ new, st1.result = st.result ++ new ∧
        ∀ g ∈ new, g.Entry = entry ∧
          ∃ j : Nat, j < n ∧ g.ActualDate ∈ plainCycleDates opts config (i + (j : Int)) := by
  intro n
  induction n with
  | zero =>
    intro i st st1 _ _ h
    simp only [runCycles] at h
    cases h
    exact ⟨[], by simp, fun g hg => absurd hg (List.not_mem_nil _)⟩
  | succ n ih =>
    intro i st st1 hst hdel h
    simp only [runCycles, cycleStep_eq_emitAll, cycleDates_of_rest_none opts config i st hst]
      at h
    cases he : emitAll opts entry config (plainCycleDates opts config i) st with
    | none => rw [he] at h; cases h
    | some st2 =>
      rw [he] at h
      simp only at h
      obtain ⟨h1, h2, new1, h3, h4⟩ :=
        emitAll_unmodified opts entry config hmods _ st st2 hst hdel he
      rw [h2] at h
      simp only [Bool.false_eq_true, if_false] at h
      obtain ⟨new2, i3, i4⟩ := ih (i + 1) st2 st1 h1 h2 h
      refine ⟨new1 ++ new2, by rw [i3, h3, List.append_assoc], ?_⟩
      intro x hx
      rcases List.mem_append.1 hx with hx | hx
      · exact ⟨(h4 x hx).1, 0, Nat.succ_pos n, by simpa using (h4 x hx).2⟩
      · obtain ⟨hx1, j, hjn, hj⟩ := i4 x hx
        refine ⟨hx1, j + 1, Nat.succ_lt_succ hjn, ?_⟩
        have e : i + ((j + 1 : Nat) : Int) = i + 1 + (j : Int) := by push_cast; ring
        rw [e]
        exact hj

/-- Without modifications every occurrence of a recurring item has, as its actual date, one
of the dates of a cycle of the item that the loop runs. -/
theorem Generator_unmodified (opts : GeneratorOptions) (hmods : opts.Modifications = [])
    (res : List GeneratedEntry) (h : Generator opts = some (.ok res)) (g : GeneratedEntry)
    (hg : g ∈ res) (config : RecurrenceConfig) (hc : g.Entry.Config = some config)
    (hp : config.Period ≠ PeriodNone) :
    g.Entry ∈ opts.Data ∧ ∃ j : Nat, j < (maxIntervalOf opts config).toNat ∧
      g.ActualDate ∈ plainCycleDates opts config j := by
  obtain ⟨segs, h1, h2⟩ :=
    processEntries_segments opts opts.Data res (Generator_ok opts res h).2
  rw [h1] at hg
  obtain ⟨seg, hseg, hgs⟩ := List.mem_flatten.1 hg
  have key : ∀ (entries : List BaseEntry) (segs : List (List GeneratedEntry)),
      List.Forall₂ (fun entry seg => processEntry opts [] entry = some seg) entries segs →
      seg ∈ segs → ∃ entry ∈ entries, processEntry opts [] entry = some seg := by
    intro entries segs hf
    induction hf with
    | nil => intro hh; exact absurd hh (List.not_mem_nil _)
    | cons hab _ ih =>
      intro hh
      rcases List.mem_cons.1 hh with hh | hh
      · subst hh
        exact ⟨_, List.mem_cons_self _ _, hab⟩
      · obtain ⟨e, he, hpe⟩ := ih hh
        exact ⟨e, List.mem_cons_of_mem _ he, hpe⟩
  obtain ⟨entry, hmem, hpe⟩ := key opts.Data segs h2 hseg
  rcases entry_single_or_recurring entry with hs | ⟨c, hc1, hp1⟩
  · have hent := (processEntry_single_indices opts entry hs seg hpe).1 g hgs
    rw [hent] at hc
    rcases hs with hn | ⟨c1, hc2, hp2⟩
    · rw [hn] at hc; cases hc
    · rw [hc2] at hc; cases hc; exact absurd hp2 hp
  · rw [processEntry_recurring opts [] entry c hc1 hp1] at hpe
    cases hrun : runCycles opts entry c (maxIntervalOf opts c).toNat 0
        { result := [], index := 0, applyToRestPayload := none, dateAdjustment := none,
          deleteRest := false } with
    | none => rw [hrun] at hpe; cases hpe
    | some st =>
      rw [hrun] at hpe
      simp only [Option.map_some', Option.some.injEq] at hpe
      obtain ⟨new, hn1, hn2⟩ := runCycles_unmodified opts entry c hmods _ 0 _ st rfl rfl hrun
      simp only [List.nil_append] at hn1
      rw [← hpe, hn1] at hgs
      obtain ⟨hge, j, hjn, hj⟩ := hn2 g hgs
      rw [hge, hc1] at hc
      cases hc
      rw [hge]
      exact ⟨hmem, j, hjn, by simpa using hj⟩

/-! ## Dates and the start of the recurrence -/

/-- Adding a non-negative amount of any period does not make a date earlier, when the days of
a week amount fit in `int`. -/
theorem AddByPeriod_ge (d a : Int) (p : Period) (ha : 0 ≤ a)
    (hfit : p = PeriodWeek → a * 7 ≤ 9223372036854775807) : d ≤ AddByPeriod d a p := by
  have hd := Date_Year_Month_Day d
  unfold AddByPeriod
  split
  · rw [AddDate_years]
    have h := Date_mono_month (Year d) (Month d) (Day d) (12 * a) (by omega)
    rw [Date_month_count (Year d + a) (Month d) (Day d)]
    rw [Date_month_count (Year d) (Month d + 12 * a) (Day d)] at h
    have e : 12 * (Year d + a) + Month d = 12 * Year d + (Month d + 12 * a) := by ring
    rw [e]
    rw [hd] at h
    exact h
  · split
    · have h := Date_mono_month (Year d) (Month d) (Day d) a ha
      rw [hd] at h
      unfold AddDate
      simp only [add_zero]
      exact h
    · split
      · rename_i hw
        rw [AddDate_days, wrapInt_of_fits _ (fitsInt_of_le _ _ (by omega) le_rfl (hfit hw))]
        omega
      · rw [AddDate_days]; omega

/-- The items that pass the validation loop are valid. -/
theorem valid_of_validated (W : List Int) (entries : List BaseEntry)
    (h : validateEntries W entries = none) (entry : BaseEntry) (he : entry ∈ entries) :
    IsValidBaseEntry entry = true := by
  by_contra hv
  have hf : IsValidBaseEntry entry = false := by simpa using hv
  obtain ⟨e, herr⟩ := (validateEntries_isSome_iff W entries).2 ⟨entry, he, Or.inl hf⟩
  rw [h] at herr
  cases herr

/-- The products of a cycle that the loop runs, when the products of the item fit in `int`:
Go computes `j * every` exactly, and for a week-period item `j * every * 7` as well. -/
theorem cycle_fits (opts : GeneratorOptions) (config : RecurrenceConfig)
    (hfit : productsFit opts config) (j : Nat) (hj : j < (maxIntervalOf opts config).toNat) :
    wrapInt ((j : Int) * everyOf config) = (j : Int) * everyOf config ∧
    (config.Period = PeriodWeek →
      (j : Int) * everyOf config * 7 ≤ 9223372036854775807 ∧
      wrapInt (wrapInt ((j : Int) * everyOf config) * 7) = (j : Int) * everyOf config * 7) := by
  have he := everyOf_pos config
  have hjn : (j : Int) ≤ maxIntervalOf opts config - 1 := by omega
  have hle := cycle_product_le j (maxIntervalOf opts config) (everyOf config) hjn he
  have h0 : 0 ≤ (j : Int) * everyOf config := mul_nonneg (Int.ofNat_nonneg j) (by omega)
  unfold productsFit at hfit
  by_cases hw : config.Period = PeriodWeek
  · rw [if_pos hw] at hfit
    have hc := wrapInt_cycle j (everyOf config) (Int.ofNat_nonneg j) he (by omega)
    exact ⟨hc.1, fun _ => ⟨by omega, hc.2⟩⟩
  · rw [if_neg hw] at hfit
    refine ⟨?_, fun h => absurd h hw⟩
    exact wrapInt_of_fits _ (fitsInt_of_le _ _ h0 (by omega) hfit)

/-- The dates of a cycle of an item without `each` values and without ordinal are not earlier
than the start, when the products of the item fit in `int`. -/
theorem plainCycleDates_ge_start (opts : GeneratorOptions) (config : RecurrenceConfig)
    (heach : config.Options.Each = []) (hon : config.Options.On = "")
    (hfit : productsFit opts config) (j : Nat) (hj : j < (maxIntervalOf opts config).toNat)
    (x : Int) (hx : x ∈ plainCycleDates opts config j) : config.Start ≤ x := by
  have hk : 0 ≤ (j : Int) * everyOf config :=
    Int.mul_nonneg (by omega) (by have := everyOf_pos config; omega)
  obtain ⟨hw1, hw2⟩ := cycle_fits opts config hfit j hj
  unfold plainCycleDates cycleDates at hx
  simp only [heach, List.length_nil, gt_iff_lt, lt_self_iff_false, if_false, hon, ne_eq,
    not_true_eq_false, adjust_of_rest_none (initState []) rfl, and_true] at hx
  split at hx
  · rename_i hw
    rw [List.mem_singleton] at hx
    rw [hx, AddByPeriod_none, (hw2 hw).2]
    omega
  · rw [List.mem_singleton] at hx
    rw [hx, hw1]
    exact AddByPeriod_ge _ _ _ hk (fun hw => (hw2 hw).1)

/-- The dates of a cycle of a weekly item with `each` values are not earlier than the Monday
of the week of the start, when the products of the item fit in `int`. -/
theorem plainCycleDates_ge_week (opts : GeneratorOptions) (config : RecurrenceConfig)
    (hp : config.Period = PeriodWeek) (heach : config.Options.Each ≠ [])
    (hfit : productsFit opts config) (j : Nat) (hj : j < (maxIntervalOf opts config).toNat)
    (x : Int) (hx : x ∈ plainCycleDates opts config j) : weekStart config.Start ≤ x := by
  have hk : 0 ≤ (j : Int) * everyOf config :=
    Int.mul_nonneg (by omega) (by have := everyOf_pos config; omega)
  have hw2 := ((cycle_fits opts config hfit j hj).2 hp).2
  have hl : config.Options.Each.length > 0 := List.length_pos.2 heach
  have hnw : ¬ (config.Period = PeriodWeek ∧ config.Options.Each.length = 0) := by
    intro hh; omega
  unfold plainCycleDates cycleDates occurrenceDates at hx
  simp only at hx
  rw [if_neg hnw, if_pos hl] at hx
  obtain ⟨target, _, ht⟩ := List.mem_filterMap.1 (List.mem_filter.1 hx).1
  unfold eachTargetDate at ht
  simp only [hp, if_true, AddDate_days, adjust_of_rest_none (initState []) rfl, hw2] at ht
  split at ht
  · cases ht
  · rename_i hrange
    simp only [Option.some.injEq] at ht
    rw [← ht]
    unfold weekStart isoWeekday Weekday
    generalize (j : Int) * everyOf config = k at hk
    split_ifs <;> omega

/-- The dates of a cycle of a monthly item with `each` values from 1 on are not earlier than
the first day of the month of the start, when the products of the item fit in `int`. -/
theorem plainCycleDates_ge_month (opts : GeneratorOptions) (config : RecurrenceConfig)
    (hp : config.Period = PeriodMonth) (heach : config.Options.Each ≠ [])
    (hpos : ∀ s ∈ config.Options.Each, 1 ≤ s)
    (hfit : productsFit opts config) (j : Nat) (hj : j < (maxIntervalOf opts config).toNat)
    (x : Int) (hx : x ∈ plainCycleDates opts config j) :
    Date (Year config.Start) (Month config.Start) 1 ≤ x := by
  have hk : 0 ≤ (j : Int) * everyOf config :=
    Int.mul_nonneg (by omega) (by have := everyOf_pos config; omega)
  have hw1 := (cycle_fits opts config hfit j hj).1
  have hl : config.Options.Each.length > 0 := List.length_pos.2 heach
  have hnw : ¬ (config.Period = PeriodWeek ∧ config.Options.Each.length = 0) := by
    intro hh; omega
  unfold plainCycleDates cycleDates occurrenceDates at hx
  simp only at hx
  rw [if_neg hnw, if_pos hl] at hx
  obtain ⟨target, htm, ht⟩ := List.mem_filterMap.1 (List.mem_filter.1 hx).1
  unfold eachTargetDate at ht
  simp only [hp, if_neg (show ¬ (PeriodMonth = PeriodWeek) by decide), if_true,
    adjust_of_rest_none (initState []) rfl, Option.some.injEq, hw1] at ht
  rw [← ht]
  have hbase := AddByPeriod_ge config.Start ((j : Int) * everyOf config) PeriodMonth hk
    (fun hw => absurd hw (by decide))
  generalize AddByPeriod config.Start ((j : Int) * everyOf config) PeriodMonth = base at hbase
  have hcount : 12 * Year config.Start + Month config.Start ≤ 12 * Year base + Month base := by
    by_contra hlt
    have := lt_of_month_lt base config.Start (by omega)
    omega
  have hmono := Date_first_mono (12 * Year config.Start + Month config.Start)
    (12 * Year base + Month base - (12 * Year config.Start + Month config.Start)).toNat
  have e : (((12 * Year base + Month base -
      (12 * Year config.Start + Month config.Start)).toNat : Nat) : Int) =
      12 * Year base + Month base - (12 * Year config.Start + Month config.Start) :=
    Int.toNat_of_nonneg (by omega)
  rw [e] at hmono
  have e5 : 12 * Year config.Start + Month config.Start +
      (12 * Year base + Month base - (12 * Year config.Start + Month config.Start)) =
      12 * Year base + Month base := by ring
  rw [e5] at hmono
  have h1 := Date_add_days 0 (12 * Year base + Month base) 1 (target - 1)
  have e3 : (1 : Int) + (target - 1) = target := by ring
  rw [e3] at h1
  rw [Date_month_count (Year config.Start) (Month config.Start) 1,
    Date_month_count (Year base) (Month base) target, h1]
  have := hpos target htm
  omega

/-- C37, refuted: a valid weekly item that starts on Friday 2023-01-06 with the `each` value 1
(Monday) has its first occurrence on Monday 2023-01-02, before the start; and a valid monthly
item that starts on 2023-01-20 with the `each` value 5 has its first occurrence on
2023-01-05. An item without `each` values precedes its start when a product overflows: for the
valid weekly item from 2023-01-01 with every = 2635249153387078802, seven times the multiplier
is 2^64 - 2, which Go's `int` holds as -2, so the second occurrence is dated 2022-12-30. -/
theorem each_precedes_start :
    IsValidBaseEntry (eachEntry PeriodWeek (Date 2023 1 6) 2 [1]) = true ∧
    Generator { Data := [eachEntry PeriodWeek (Date 2023 1 6) 2 [1]] } =
      some (.ok [⟨eachEntry PeriodWeek (Date 2023 1 6) 2 [1], 1, Date 2023 1 2,
                  Date 2023 1 2⟩,
                 ⟨eachEntry PeriodWeek (Date 2023 1 6) 2 [1], 2, Date 2023 1 9,
                  Date 2023 1 9⟩]) ∧
    Date 2023 1 2 < Date 2023 1 6 ∧
    IsValidBaseEntry (eachEntry PeriodMonth (Date 2023 1 20) 2 [5]) = true ∧
    Generator { Data := [eachEntry PeriodMonth (Date 2023 1 20) 2 [5]] } =
      some (.ok [⟨eachEntry PeriodMonth (Date 2023 1 20) 2 [5], 1, Date 2023 1 5,
                  Date 2023 1 5⟩,
                 ⟨eachEntry PeriodMonth (Date 2023 1 20) 2 [5], 2, Date 2023 2 5,
                  Date 2023 2 5⟩]) ∧
    Date 2023 1 5 < Date 2023 1 20 ∧
    IsValidBaseEntry (sameDayEntry 2635249153387078802 2) = true ∧
    Generator { Data := [sameDayEntry 2635249153387078802 2] } =
      some (.ok [⟨sameDayEntry 2635249153387078802 2, 1, Date 2023 1 1, Date 2023 1 1⟩,
                 ⟨sameDayEntry 2635249153387078802 2, 2, Date 2022 12 30,
                  Date 2022 12 30⟩]) ∧
    Date 2022 12 30 < Date 2023 1 1 :=
  ⟨by rfl, by rfl, by decide, by rfl, by rfl, by decide, by rfl, by rfl, by decide⟩

/-- C37 (amended): with an empty modification list, and for an item whose products `i * every`
(for a week-period item `i * every * 7`) fit in Go's `int` in every cycle that the loop runs:
an occurrence of the item is not earlier than the start of the recurrence when the item has
neither `each` values nor an ordinal; with `each` values it can be earlier: an occurrence of a
week-period item is not earlier than the Monday of the week of the start, and an occurrence of
a month-period item is not earlier than the first day of the month of the start. -/
theorem dates_from_start (opts : GeneratorOptions) (hmods : opts.Modifications = [])
    (res : List GeneratedEntry) (h : Generator opts = some (.ok res)) :
    ∀ g ∈ res, ∀ config, g.Entry.Config = some config → config.Period ≠ PeriodNone →
      productsFit opts config →
      (config.Options.Each = [] → config.Options.On = "" → config.Start ≤ g.ActualDate) ∧
      (config.Period = PeriodWeek → config.Options.Each ≠ [] →
        weekStart config.Start ≤ g.ActualDate) ∧
      (config.Period = PeriodMonth → config.Options.Each ≠ [] →
        Date (Year config.Start) (Month config.Start) 1 ≤ g.ActualDate) := by
  intro g hg config hc hp hfit
  obtain ⟨hmem, j, hjn, hj⟩ := Generator_unmodified opts hmods res h g hg config hc hp
  refine ⟨?_, ?_, ?_⟩
  · intro heach hon
    exact plainCycleDates_ge_start opts config heach hon hfit j hjn _ hj
  · intro hw heach
    exact plainCycleDates_ge_week opts config hw heach hfit j hjn _ hj
  · intro hm heach
    have hv := valid_of_validated opts.WeekendDays opts.Data (Generator_ok opts res h).1
      g.Entry hmem
    have hvc : IsValidRecurrenceConfig config = true := by
      unfold IsValidBaseEntry at hv
      rw [hc] at hv
      split at hv
      · cases hv
      · split at hv
        · cases hv
        · exact hv
    have hpos : ∀ s ∈ config.Options.Each, 1 ≤ s := by
      intro s hs
      rcases IsValidRecurrenceConfig_each config hvc hp with ⟨_, hh⟩ | ⟨_, hh⟩ | ⟨_, hh⟩
      · exact (hh s hs).1
      · exact (hh s hs).1
      · exact (hh s hs).1
    exact plainCycleDates_ge_month opts config hm heach hpos hfit j hjn _ hj

/-- C37 (amended) at the weekly item that starts on Friday 2023-01-06 with the `each` value 1:
its occurrences, 2023-01-02 and 2023-01-09, are not earlier than Monday 2023-01-02, the Monday
of the week of the start. -/
theorem dates_from_start_witness :
    Generator { Data := [eachEntry PeriodWeek (Date 2023 1 6) 2 [1]] } =
      some (.ok [⟨eachEntry PeriodWeek (Date 2023 1 6) 2 [1], 1, Date 2023 1 2,
                  Date 2023 1 2⟩,
                 ⟨eachEntry PeriodWeek (Date 2023 1 6) 2 [1], 2, Date 2023 1 9,
                  Date 2023 1 9⟩]) ∧
    weekStart (Date 2023 1 6) = Date 2023 1 2 ∧
    weekStart (eachConfig PeriodWeek (Date 2023 1 6) 2 [1]).Start ≤
      (⟨eachEntry PeriodWeek (Date 2023 1 6) 2 [1], 2, Date 2023 1 9,
        Date 2023 1 9⟩ : GeneratedEntry).ActualDate :=
  ⟨by rfl, by rfl,
    (dates_from_start { Data := [eachEntry PeriodWeek (Date 2023 1 6) 2 [1]] } rfl
      [⟨eachEntry PeriodWeek (Date 2023 1 6) 2 [1], 1, Date 2023 1 2, Date 2023 1 2⟩,
       ⟨eachEntry PeriodWeek (Date 2023 1 6) 2 [1], 2, Date 2023 1 9, Date 2023 1 9⟩]
      (by rfl)
      ⟨eachEntry PeriodWeek (Date 2023 1 6) 2 [1], 2, Date 2023 1 9, Date 2023 1 9⟩
      (by simp) (eachConfig PeriodWeek (Date 2023 1 6) 2 [1]) rfl (by decide)
      (by decide)).2.1 rfl (by decide)⟩

/-! ## A cascading date override -/

/-- The loop over modifications none of which carries a date for the occurrence: the entry
behind the pointer is untouched, and the date adjustment is the one handed in unless the
occurrence is deleted, in which case nothing is carried. -/
theorem applyModificationsLoop_dateless (entry : BaseEntry) (index : Int) :
    ∀ (mods : List Modification),
      (∀ x ∈ mods, targets x entry index → x.modifiedDate = none) →
      ∀ (rest : Option PayloadMap) (adj : Option DateAdjustment) (last : GeneratedEntry),
        (applyModificationsLoop entry index mods rest adj last).lastEntry = last ∧
        ((applyModificationsLoop entry index mods rest adj last).shouldDelete = false →
          (applyModificationsLoop entry index mods rest adj last).dateAdjustment = adj ∧
          (rest.isSome = true →
            (applyModificationsLoop entry index mods rest adj last).applyToRestPayload.isSome
              = true)) ∧
        ((applyModificationsLoop entry index mods rest adj last).shouldDelete = true →
          (applyModificationsLoop entry index mods rest adj last).dateAdjustment = none) := by
  intro mods
  induction mods with
  | nil =>
    intro _ rest adj last
    exact ⟨rfl, fun _ => ⟨rfl, fun h => h⟩, fun h => (by cases h)⟩
  | cons m ms ih =>
    intro hall rest adj last
    have ih1 := ih (fun x hx => hall x (List.mem_cons_of_mem _ hx))
    rw [applyModificationsLoop]
    by_cases ht : m.ItemID.format = entry.ID.format ∧ m.Index = index
    · rw [if_pos ht]
      by_cases hd : m.Payload.deleted = some (Value.bool true)
      · rw [if_pos hd]
        exact ⟨rfl, fun h => (by cases h), fun _ => rfl⟩
      · rw [if_neg hd]
        have hdate := hall m (List.mem_cons_self _ _) ht
        by_cases hl : m.Payload.len > 0 ∨ m.restLen > 0
        · rw [if_pos hl]
          simp only [hdate]
          obtain ⟨i1, i2, i3⟩ := ih1 (if m.restLen > 0 then m.RestPayload else rest) adj last
          refine ⟨i1, fun h => ⟨(i2 h).1, fun hr => (i2 h).2 ?_⟩, i3⟩
          by_cases hrl : m.restLen > 0
          · rw [if_pos hrl]; exact restLen_isSome m hrl
          · rw [if_neg hrl]; exact hr
        · rw [if_neg hl]
          exact ih1 rest adj last
    · rw [if_neg ht]
      exact ih1 rest adj last

/-- The loop over modifications none of which carries a date for the occurrence or deletes
it: the occurrence is kept. -/
theorem applyModificationsLoop_quiet (entry : BaseEntry) (index : Int) :
    ∀ (mods : List Modification),
      (∀ x ∈ mods, targets x entry index →
        x.modifiedDate = none ∧ x.Payload.deleted ≠ some (Value.bool true)) →
      ∀ (rest : Option PayloadMap) (adj : Option DateAdjustment) (last : GeneratedEntry),
        (applyModificationsLoop entry index mods rest adj last).shouldDelete = false := by
  intro mods
  induction mods with
  | nil => intro _ rest adj last; rfl
  | cons m ms ih =>
    intro hall rest adj last
    have ih1 := ih (fun x hx => hall x (List.mem_cons_of_mem _ hx))
    rw [applyModificationsLoop]
    by_cases ht : m.ItemID.format = entry.ID.format ∧ m.Index = index
    · rw [if_pos ht, if_neg (hall m (List.mem_cons_self _ _) ht).2]
      by_cases hl : m.Payload.len > 0 ∨ m.restLen > 0
      · rw [if_pos hl]
        simp only [(hall m (List.mem_cons_self _ _) ht).1]
        exact ih1 _ _ _
      · rw [if_neg hl]
        exact ih1 _ _ _
    · rw [if_neg ht]
      exact ih1 _ _ _

/-- Modifications at the head of the list that neither carry a date for the occurrence nor
delete it change at most the rest payload handed on. -/
theorem applyModificationsLoop_skip_quiet (entry : BaseEntry) (index : Int)
    (tail : List Modification) :
    ∀ (pre : List Modification),
      (∀ x ∈ pre, targets x entry index →
        x.modifiedDate = none ∧ x.Payload.deleted ≠ some (Value.bool true)) →
      ∀ (rest : Option PayloadMap) (adj : Option DateAdjustment) (last : GeneratedEntry),
        ∃ rest1, applyModificationsLoop entry index (pre ++ tail) rest adj last =
          applyModificationsLoop entry index tail rest1 adj last := by
  intro pre
  induction pre with
  | nil => intro _ rest adj last; exact ⟨rest, rfl⟩
  | cons m ms ih =>
    intro hall rest adj last
    have ih1 := ih (fun x hx => hall x (List.mem_cons_of_mem _ hx))
    rw [List.cons_append, applyModificationsLoop]
    by_cases ht : m.ItemID.format = entry.ID.format ∧ m.Index = index
    · rw [if_pos ht, if_neg (hall m (List.mem_cons_self _ _) ht).2]
      by_cases hl : m.Payload.len > 0 ∨ m.restLen > 0
      · rw [if_pos hl]
        simp only [(hall m (List.mem_cons_self _ _) ht).1]
        exact ih1 _ _ _
      · rw [if_neg hl]
        exact ih1 _ _ _
    · rw [if_neg ht]
      exact ih1 _ _ _

/-- A modification that overrides the date of the occurrence to `D` and carries a rest
payload, among modifications that neither carry a date for the occurrence nor delete it: the
occurrence is kept with both dates equal to `D`, and the adjustment carried forward is the
delta between the item's own date and `D`, together with a rest payload. -/
theorem applyModifications_cascade (entry : BaseEntry) (n : Int) (m : Modification)
    (pre post : List Modification) (D : Int) (hm : targets m entry n)
    (hnd : m.Payload.deleted ≠ some (Value.bool true)) (hD : m.modifiedDate = some D)
    (hrest : m.restLen > 0)
    (hquiet : ∀ x ∈ pre ++ post, targets x entry n →
      x.modifiedDate = none ∧ x.Payload.deleted ≠ some (Value.bool true))
    (last : GeneratedEntry) :
    (applyModifications entry n (pre ++ m :: post) last).shouldDelete = false ∧
    (applyModifications entry n (pre ++ m :: post) last).dateAdjustment =
      some (calculateDateAdjustment entry.Date D (configPeriod entry)) ∧
    (applyModifications entry n (pre ++ m :: post) last).applyToRestPayload.isSome = true ∧
    (applyModifications entry n (pre ++ m :: post) last).lastEntry =
      { last with ActualDate := D, PaymentDate := D } := by
  unfold applyModifications
  obtain ⟨rest1, e⟩ := applyModificationsLoop_skip_quiet entry n (m :: post) pre
    (fun x hx => hquiet x (List.mem_append_left _ hx)) none none last
  rw [e, applyModificationsLoop,
    if_pos (show m.ItemID.format = entry.ID.format ∧ m.Index = n from hm), if_neg hnd,
    if_pos (Or.inr hrest)]
  simp only [hD, if_pos hrest]
  have hq : ∀ x ∈ post, targets x entry n →
      x.modifiedDate = none ∧ x.Payload.deleted ≠ some (Value.bool true) :=
    fun x hx => hquiet x (List.mem_append_right _ hx)
  have hkeep := applyModificationsLoop_quiet entry n post hq m.RestPayload
    (some (calculateDateAdjustment entry.Date D (configPeriod entry)))
    { last with ActualDate := D, PaymentDate := D }
  obtain ⟨d1, d2, _⟩ := applyModificationsLoop_dateless entry n post
    (fun x hx ht => (hq x hx ht).1) m.RestPayload
    (some (calculateDateAdjustment entry.Date D (configPeriod entry)))
    { last with ActualDate := D, PaymentDate := D }
  exact ⟨hkeep, (d2 hkeep).1, (d2 hkeep).2 (restLen_isSome m hrest), d1⟩

/-- Every returned entry lies in the segment of its item. -/
theorem mem_segment (opts : GeneratorOptions) (res : List GeneratedEntry)
    (h : Generator opts = some (.ok res)) (g : GeneratedEntry) (hg : g ∈ res) :
    g.Entry ∈ opts.Data ∧ ∃ seg, processEntry opts [] g.Entry = some seg ∧ g ∈ seg := by
  obtain ⟨segs, h1, h2⟩ :=
    processEntries_segments opts opts.Data res (Generator_ok opts res h).2
  rw [h1] at hg
  obtain ⟨seg, hseg, hgs⟩ := List.mem_flatten.1 hg
  have key : ∀ (entries : List BaseEntry) (segs : List (List GeneratedEntry)),
      List.Forall₂ (fun entry seg => processEntry opts [] entry = some seg) entries segs →
      seg ∈ segs → ∃ entry ∈ entries, processEntry opts [] entry = some seg := by
    intro entries segs hf
    induction hf with
    | nil => intro hh; exact absurd hh (List.not_mem_nil _)
    | cons hab _ ih =>
      intro hh
      rcases List.mem_cons.1 hh with hh | hh
      · subst hh
        exact ⟨_, List.mem_cons_self _ _, hab⟩
      · obtain ⟨e, he, hpe⟩ := ih hh
        exact ⟨e, List.mem_cons_of_mem _ he, hpe⟩
  obtain ⟨entry, hmem, hpe⟩ := key opts.Data segs h2 hseg
  have hent : g.Entry = entry := by
    rcases entry_single_or_recurring entry with hs | ⟨c, hc1, hp1⟩
    · exact (processEntry_single_indices opts entry hs seg hpe).1 g hgs
    · exact (processEntry_recurring_indices opts entry c hc1 hp1 seg hpe).1 g hgs
  rw [hent]
  exact ⟨hmem, seg, hpe, hgs⟩

section Cascade

variable (opts : GeneratorOptions) (entry : BaseEntry) (config : RecurrenceConfig)
variable (m : Modification) (pre post : List Modification) (n D : Int)

/-- One emitted occurrence under a cascading date override of occurrence `n`, the other
modifications of the item carrying no date and not deleting occurrence `n`: from occurrence
`n` on the state carries the adjustment computed from the item's date; the entry appended for
another occurrence than `n` has the occurrence date as its actual date. -/
theorem cascade_emit (hmods : opts.Modifications = pre ++ m :: post) (hm : targets m entry n)
    (hnd : m.Payload.deleted ≠ some (Value.bool true)) (hD : m.modifiedDate = some D)
    (hrest : m.restLen > 0)
    (hquiet : ∀ x ∈ pre ++ post, x.ItemID.format = entry.ID.format →
      x.modifiedDate = none ∧ (x.Index = n → x.Payload.deleted ≠ some (Value.bool true)))
    (d : Int) (st st1 : GenState)
    (hinv : n ≤ st.index →
      st.dateAdjustment = some (calculateDateAdjustment entry.Date D (configPeriod entry)) ∧
        st.applyToRestPayload.isSome = true)
    (h : emitOccurrence opts entry config d st = some st1) :
    st1.index = st.index + 1 ∧
    (n ≤ st1.index →
      st1.dateAdjustment = some (calculateDateAdjustment entry.Date D (configPeriod entry)) ∧
        st1.applyToRestPayload.isSome = true) ∧
    (st1.result = st.result ∨
      ∃ g, st1.result = st.result ++ [g] ∧ g.Index = st.index + 1 ∧
        (st.index + 1 ≠ n → g.ActualDate = d)) := by
  obtain ⟨p, r, _, hr, hidx, hcase⟩ := emitOccurrence_some opts entry config d st st1 h
  rw [hmods] at hr
  refine ⟨hidx, ?_⟩
  by_cases hn : st.index + 1 = n
  · have hq : ∀ x ∈ pre ++ post, targets x entry n →
        x.modifiedDate = none ∧ x.Payload.deleted ≠ some (Value.bool true) :=
      fun x hx ht => ⟨(hquiet x hx ht.1).1, (hquiet x hx ht.1).2 ht.2⟩
    have hc := applyModifications_cascade entry n m pre post D hm hnd hD hrest hq
      { Entry := entry, Index := st.index + 1, ActualDate := d, PaymentDate := p }
    rw [hn] at hr
    rw [← hn] at hc
    rw [hn, ← hr] at hc
    obtain ⟨c1, c2, c3, c4⟩ := hc
    rcases hcase with ⟨hsd, _⟩ | ⟨_, hres, _, hrp, hadj⟩
    · rw [c1] at hsd; cases hsd
    · refine ⟨fun _ => ?_, Or.inr ⟨_, hres, ?_, fun hne => absurd hn hne⟩⟩
      · rw [hadj, c2, hrp]
        refine ⟨rfl, ?_⟩
        cases hq : r.applyToRestPayload with
        | none => rw [hq] at c3; cases c3
        | some q => rfl
      · rw [c4]
        exact hn.symm
  · have hdl : ∀ x ∈ pre ++ m :: post, targets x entry (st.index + 1) →
        x.modifiedDate = none := by
      intro x hx ht
      rcases List.mem_append.1 hx with hx | hx
      · exact (hquiet x (List.mem_append_left _ hx) ht.1).1
      · rcases List.mem_cons.1 hx with hx | hx
        · subst hx
          exact absurd (ht.2.symm.trans hm.2) hn
        · exact (hquiet x (List.mem_append_right _ hx) ht.1).1
    obtain ⟨d1, d2, d3⟩ := applyModificationsLoop_dateless entry (st.index + 1)
      (pre ++ m :: post) hdl none none
      { Entry := entry, Index := st.index + 1, ActualDate := d, PaymentDate := p }
    unfold applyModifications at hr
    rw [← hr] at d1 d2 d3
    have hle : n ≤ st1.index → n ≤ st.index := by intro hh; omega
    rcases hcase with ⟨hsd, hres, _, hrp, hadj⟩ | ⟨hsd, hres, _, hrp, hadj⟩
    · refine ⟨fun hh => ?_, Or.inl hres⟩
      rw [hadj, hrp]
      exact hinv (hle hh)
    · refine ⟨fun hh => ?_, Or.inr ⟨_, hres, by rw [d1], fun _ => by rw [d1]⟩⟩
      rw [hadj, (d2 hsd).1, hrp]
      refine ⟨(hinv (hle hh)).1, ?_⟩
      cases hq : r.applyToRestPayload with
      | none => exact (hinv (hle hh)).2
      | some q => rfl

end Cascade

/-! ## A cascading date override of a weekly item -/

section WeeklyCascade

variable (opts : GeneratorOptions) (entry : BaseEntry) (config : RecurrenceConfig)
variable (m : Modification) (pre post : List Modification) (n D : Int)

/-- The adjustment of a weekly item dated at its start, applied to the date of a cycle whose
product fits in `int`: the date falls on the day of the week of `D`, at most 6 days from the
date of the cycle. -/
theorem weekly_adjusted (hc : entry.Config = some config) (hp : config.Period = PeriodWeek)
    (hdate : entry.Date = config.Start) (i : Int) (hi : 0 ≤ i)
    (hfi : i * everyOf config * 7 ≤ 9223372036854775807) :
    onWeekdayOf config D
      (applyDateAdjustment
        (AddByPeriod config.Start (wrapInt (wrapInt (i * everyOf config) * 7)) PeriodNone)
        (some (calculateDateAdjustment entry.Date D (configPeriod entry)))) := by
  have hcp : configPeriod entry = PeriodWeek := by
    unfold configPeriod; rw [hc]; exact hp
  rw [hcp, hdate, AddByPeriod_none,
    (wrapInt_cycle i (everyOf config) hi (everyOf_pos config) hfi).2]
  unfold applyDateAdjustment calculateDateAdjustment
  simp only [if_neg (show ¬ (PeriodWeek = PeriodYear) by decide),
    if_neg (show ¬ (PeriodWeek = PeriodMonth) by decide), if_true, AddDate_days]
  unfold onWeekdayOf
  refine ⟨?_, i.toNat, ?_⟩
  · unfold Weekday
    generalize i * everyOf config = k
    omega
  · rw [Int.toNat_of_nonneg hi]
    unfold Weekday
    generalize i * everyOf config = k
    omega

/-- One cycle of a weekly item without `each` values under a cascading date override of
occurrence `n`, when the product of the cycle fits in `int`. -/
theorem cascade_cycle (hc : entry.Config = some config) (hp : config.Period = PeriodWeek)
    (heach : config.Options.Each = []) (hdate : entry.Date = config.Start)
    (hmods : opts.Modifications = pre ++ m :: post) (hm : targets m entry n)
    (hnd : m.Payload.deleted ≠ some (Value.bool true)) (hD : m.modifiedDate = some D)
    (hrest : m.restLen > 0)
    (hquiet : ∀ x ∈ pre ++ post, x.ItemID.format = entry.ID.format →
      x.modifiedDate = none ∧ (x.Index = n → x.Payload.deleted ≠ some (Value.bool true)))
    (i : Int) (hi : 0 ≤ i) (hfi : i * everyOf config * 7 ≤ 9223372036854775807)
    (st st1 : GenState)
    (hinv : n ≤ st.index →
      st.dateAdjustment = some (calculateDateAdjustment entry.Date D (configPeriod entry)) ∧
        st.applyToRestPayload.isSome = true)
    (hgood : ∀ g ∈ st.result, n < g.Index → onWeekdayOf config D g.ActualDate)
    (h : cycleStep opts entry config i st = some st1) :
    (n ≤ st1.index →
      st1.dateAdjustment = some (calculateDateAdjustment entry.Date D (configPeriod entry)) ∧
        st1.applyToRestPayload.isSome = true) ∧
    ∀ g ∈ st1.result, n < g.Index → onWeekdayOf config D g.ActualDate := by
  unfold cycleStep at h
  simp only at h
  rw [if_pos ⟨hp, by rw [heach]; rfl⟩] at h
  unfold emitInRange at h
  split at h
  · cases h
    exact ⟨hinv, hgood⟩
  · obtain ⟨e1, e2, e3⟩ := cascade_emit opts entry config m pre post n D hmods hm hnd hD hrest
      hquiet _ st st1 hinv h
    refine ⟨e2, ?_⟩
    rcases e3 with e3 | ⟨g, e3, hgi, hgd⟩
    · rw [e3]; exact hgood
    · rw [e3]
      intro x hx hxn
      rcases List.mem_append.1 hx with hx | hx
      · exact hgood x hx hxn
      · rw [List.mem_singleton] at hx
        subst hx
        rw [hgi] at hxn
        rw [hgd (by omega)]
        obtain ⟨a1, a2⟩ := hinv (by omega)
        have hact : st.activeAdjustment =
            some (calculateDateAdjustment entry.Date D (configPeriod entry)) := by
          unfold GenState.activeAdjustment
          rw [a2, a1]
          rfl
        unfold GenState.adjust
        rw [hact]
        exact weekly_adjusted entry config D hc hp hdate i hi hfi

/-- The cycles `i .. i + k - 1` of such an item, all below `last`, when the product of the
cycle `last - 1` fits in `int`. -/
theorem cascade_run (hc : entry.Config = some config) (hp : config.Period = PeriodWeek)
    (heach : config.Options.Each = []) (hdate : entry.Date = config.Start)
    (hmods : opts.Modifications = pre ++ m :: post) (hm : targets m entry n)
    (hnd : m.Payload.deleted ≠ some (Value.bool true)) (hD : m.modifiedDate = some D)
    (hrest : m.restLen > 0)
    (hquiet : ∀ x ∈ pre ++ post, x.ItemID.format = entry.ID.format →
      x.modifiedDate = none ∧ (x.Index = n → x.Payload.deleted ≠ some (Value.bool true)))
    (last : Int) (hfit : (last - 1) * everyOf config * 7 ≤ 9223372036854775807) :
    ∀ (k : Nat) (i : Int), 0 ≤ i → i + (k : Int) ≤ last → ∀ (st st1 : GenState),
      (n ≤ st.index →
        st.dateAdjustment = some (calculateDateAdjustment entry.Date D (configPeriod entry)) ∧
          st.applyToRestPayload.isSome = true) →
      (∀ g ∈ st.result, n < g.Index → onWeekdayOf config D g.ActualDate) →
      runCycles opts entry config k i st = some st1 →
      ∀ g ∈ st1.result, n < g.Index → onWeekdayOf config D g.ActualDate := by
  intro k
  induction k with
  | zero =>
    intro i _ _ st st1 _ hgood h
    simp only [runCycles] at h
    cases h
    exact hgood
  | succ k ih =>
    intro i hi hik st st1 hinv hgood h
    have hfi : i * everyOf config * 7 ≤ 9223372036854775807 := by
      have := cycle_product_le i last (everyOf config) (by push_cast at hik; omega)
        (everyOf_pos config)
      omega
    simp only [runCycles] at h
    cases hs : cycleStep opts entry config i st with
    | none => rw [hs] at h; cases h
    | some st2 =>
      rw [hs] at h
      simp only at h
      obtain ⟨c1, c2⟩ := cascade_cycle opts entry config m pre post n D hc hp heach hdate hmods
        hm hnd hD hrest hquiet i hi hfi st st2 hinv hgood hs
      split at h
      · cases h
        exact c2
      · exact ih (i + 1) (by omega) (by push_cast at hik; omega) st2 st1 c1 c2 h

end WeeklyCascade

/-- C35, refuted: the weekly item of the example, dated at its start Sunday 2023-01-01, five
occurrences, with a modification that overrides occurrence 2 to Friday 2023-01-13 and one that
overrides occurrence 3 to Tuesday 2023-01-17, both with a rest payload. The first modification
is not deleting and carries a non-empty rest payload, yet the later occurrences 3, 4 and 5
fall on Tuesdays, not on the Friday of its date. And with one override alone the claim fails
when a product overflows: with every = 7905747460161236407 Go's `int` holds `i * every * 7` as
`i`, so after the override of occurrence 1 to Wednesday 2023-01-04 the occurrences 2 and 3
fall on Thursday 2023-01-05 and Friday 2023-01-06. -/
theorem second_override_changes_weekday :
    Generator { Data := [sameDayEntry 1 5],
                Modifications := [overrideFrom (.int 2) 2 "2023-01-13",
                                  overrideFrom (.int 2) 3 "2023-01-17"] } =
      some (.ok [⟨sameDayEntry 1 5, 1, Date 2023 1 1, Date 2023 1 1⟩,
                 ⟨sameDayEntry 1 5, 2, Date 2023 1 13, Date 2023 1 13⟩,
                 ⟨sameDayEntry 1 5, 3, Date 2023 1 17, Date 2023 1 17⟩,
                 ⟨sameDayEntry 1 5, 4, Date 2023 1 24, Date 2023 1 24⟩,
                 ⟨sameDayEntry 1 5, 5, Date 2023 1 31, Date 2023 1 31⟩]) ∧
    (overrideFrom (.int 2) 2 "2023-01-13").modifiedDate = some (Date 2023 1 13) ∧
    (overrideFrom (.int 2) 2 "2023-01-13").restLen = 1 ∧
    Weekday (Date 2023 1 13) = 5 ∧ Weekday (Date 2023 1 24) = 2 ∧
    (sameDayEntry 1 5).Date = (sameDayConfig 1 5).Start ∧
    Generator { Data := [sameDayEntry 7905747460161236407 3],
                Modifications := [overrideFrom (.int 2) 1 "2023-01-04"] } =
      some (.ok [⟨sameDayEntry 7905747460161236407 3, 1, Date 2023 1 4, Date 2023 1 4⟩,
                 ⟨sameDayEntry 7905747460161236407 3, 2, Date 2023 1 5, Date 2023 1 5⟩,
                 ⟨sameDayEntry 7905747460161236407 3, 3, Date 2023 1 6, Date 2023 1 6⟩]) ∧
    (overrideFrom (.int 2) 1 "2023-01-04").modifiedDate = some (Date 2023 1 4) ∧
    Weekday (Date 2023 1 4) = 3 ∧ Weekday (Date 2023 1 5) = 4 :=
  ⟨by rfl, by rfl, by rfl, by rfl, by rfl, by rfl, by rfl, by rfl, by rfl, by rfl⟩

/-- C35 (amended): for a week-period item without `each` values whose date equals its
recurrence start and whose products `i * every * 7` fit in Go's `int` in every cycle that the
loop runs, a non-deleting modification `m` of occurrence `n` (from 1 on) that overrides the
date to `D` and carries a non-empty rest payload, and other modifications that, where they
target the item, neither carry a date that parses nor delete occurrence `n`: every returned
occurrence of the item with an index above `n` falls on the day of the week of `D` and lies
at most 6 days from the unadjusted date `start + i * every * 7` of a cycle. -/
theorem weekly_override_cascades (opts : GeneratorOptions) (entry : BaseEntry)
    (config : RecurrenceConfig) (m : Modification) (pre post : List Modification) (n D : Int)
    (hc : entry.Config = some config) (hp : config.Period = PeriodWeek)
    (heach : config.Options.Each = []) (hdate : entry.Date = config.Start)
    (hfit : (maxIntervalOf opts config - 1) * everyOf config * 7 ≤ 9223372036854775807)
    (hmods : opts.Modifications = pre ++ m :: post) (hm : targets m entry n) (hn : 1 ≤ n)
    (hnd : m.Payload.deleted ≠ some (Value.bool true)) (hD : m.modifiedDate = some D)
    (hrest : m.restLen > 0)
    (hquiet : ∀ x ∈ pre ++ post, x.ItemID.format = entry.ID.format →
      x.modifiedDate = none ∧ (x.Index = n → x.Payload.deleted ≠ some (Value.bool true)))
    (res : List GeneratedEntry) (h : Generator opts = some (.ok res)) :
    ∀ g ∈ res, g.Entry = entry → n < g.Index → onWeekdayOf config D g.ActualDate := by
  intro g hg hge hgn
  obtain ⟨_, seg, hseg, hgs⟩ := mem_segment opts res h g hg
  rw [hge, processEntry_recurring opts [] entry config hc (by rw [hp]; decide)] at hseg
  cases hrun : runCycles opts entry config (maxIntervalOf opts config).toNat 0
      { result := [], index := 0, applyToRestPayload := none, dateAdjustment := none,
        deleteRest := false } with
  | none => rw [hrun] at hseg; cases hseg
  | some st =>
    rw [hrun] at hseg
    simp only [Option.map_some', Option.some.injEq] at hseg
    rw [← hseg] at hgs
    have hlast : (((maxIntervalOf opts config).toNat : Int) - 1) * everyOf config * 7 ≤
        9223372036854775807 := by
      have he := everyOf_pos config
      by_cases h0 : 0 ≤ maxIntervalOf opts config
      · rw [Int.toNat_of_nonneg h0]
        exact hfit
      · have hz : ((maxIntervalOf opts config).toNat : Int) = 0 := by omega
        rw [hz]
        omega
    exact cascade_run opts entry config m pre post n D hc hp heach hdate hmods hm hnd hD hrest
      hquiet _ hlast _ 0 (le_refl 0) (by omega) _ st
      (fun hh => absurd hh (by simp only; omega))
      (fun x hx => absurd hx (List.not_mem_nil _)) hrun g hgs hgn

/-- C35 (amended) at the weekly item of the example, dated at its start Sunday 2023-01-01,
with the override of occurrence 2 to Friday 2023-01-13 and its rest payload: the occurrences
3, 4 and 5 fall on the Fridays 2023-01-20, 2023-01-27 and 2023-02-03. -/
theorem weekly_override_cascades_witness :
    Generator { Data := [sameDayEntry 1 5],
                Modifications := [overrideFrom (.int 2) 2 "2023-01-13"] } =
      some (.ok [⟨sameDayEntry 1 5, 1, Date 2023 1 1, Date 2023 1 1⟩,
                 ⟨sameDayEntry 1 5, 2, Date 2023 1 13, Date 2023 1 13⟩,
                 ⟨sameDayEntry 1 5, 3, Date 2023 1 20, Date 2023 1 20⟩,
                 ⟨sameDayEntry 1 5, 4, Date 2023 1 27, Date 2023 1 27⟩,
                 ⟨sameDayEntry 1 5, 5, Date 2023 2 3, Date 2023 2 3⟩]) ∧
    onWeekdayOf (sameDayConfig 1 5) (Date 2023 1 13) (Date 2023 1 27) :=
  ⟨by rfl,
    weekly_override_cascades
      { Data := [sameDayEntry 1 5], Modifications := [overrideFrom (.int 2) 2 "2023-01-13"] }
      (sameDayEntry 1 5) (sameDayConfig 1 5) (overrideFrom (.int 2) 2 "2023-01-13") [] []
      2 (Date 2023 1 13) rfl rfl rfl rfl (by decide) rfl (by decide) (by decide) (by decide)
      (by rfl)
      (by decide) (fun x hx => absurd hx (List.not_mem_nil _))
      [⟨sameDayEntry 1 5, 1, Date 2023 1 1, Date 2023 1 1⟩,
       ⟨sameDayEntry 1 5, 2, Date 2023 1 13, Date 2023 1 13⟩,
       ⟨sameDayEntry 1 5, 3, Date 2023 1 20, Date 2023 1 20⟩,
       ⟨sameDayEntry 1 5, 4, Date 2023 1 27, Date 2023 1 27⟩,
       ⟨sameDayEntry 1 5, 5, Date 2023 2 3, Date 2023 2 3⟩]
      (by rfl) ⟨sameDayEntry 1 5, 4, Date 2023 1 27, Date 2023 1 27⟩ (by simp) rfl
      (by decide)⟩

/-! ## C34: the date from which the adjustment is computed -/

/-- C34, the code at the input of the claim: the adjustment carried forward by a date override
with a rest payload is computed from the item's own date, not from the date generated for the
occurrence. For the monthly item dated 2023-01-01 with the `each` value 15, the override of
the occurrence of 2023-01-15 to 2023-01-20 carries 19 days (20 - 1), and the later
occurrences are 2023-03-06, 2023-04-03 and 2023-05-04, none of them on the 20th; for the same
item dated 2023-01-15 it carries 5 days and the later occurrences fall on the 20th. -/
theorem adjustment_uses_item_date :
    (∀ (entry : BaseEntry) (n : Int) (m : Modification) (pre post : List Modification)
        (D : Int) (last : GeneratedEntry),
      targets m entry n → m.Payload.deleted ≠ some (Value.bool true) →
      m.modifiedDate = some D → m.restLen > 0 →
      (∀ x ∈ pre ++ post, targets x entry n →
        x.modifiedDate = none ∧ x.Payload.deleted ≠ some (Value.bool true)) →
      (applyModifications entry n (pre ++ m :: post) last).dateAdjustment =
        some (calculateDateAdjustment entry.Date D (configPeriod entry))) ∧
    (monthlyEntry 4 0).Date = Date 2023 1 1 ∧
    calculateDateAdjustment (monthlyEntry 4 0).Date (Date 2023 1 20) PeriodMonth =
      { Days := 19 } ∧
    Generator { Data := [monthlyEntry 4 0],
                Modifications := [overrideFrom (.int 1) 1 "2023-01-20"] } =
      some (.ok [⟨monthlyEntry 4 0, 1, Date 2023 1 20, Date 2023 1 20⟩,
                 ⟨monthlyEntry 4 0, 2, Date 2023 3 6, Date 2023 3 6⟩,
                 ⟨monthlyEntry 4 0, 3, Date 2023 4 3, Date 2023 4 3⟩,
                 ⟨monthlyEntry 4 0, 4, Date 2023 5 4, Date 2023 5 4⟩]) ∧
    Generator { Data := [monthlyEntry 4 0] } =
      some (.ok [⟨monthlyEntry 4 0, 1, Date 2023 1 15, Date 2023 1 15⟩,
                 ⟨monthlyEntry 4 0, 2, Date 2023 2 15, Date 2023 2 15⟩,
                 ⟨monthlyEntry 4 0, 3, Date 2023 3 15, Date 2023 3 15⟩,
                 ⟨monthlyEntry 4 0, 4, Date 2023 4 15, Date 2023 4 15⟩]) ∧
    Generator { Data := [eachEntry PeriodMonth (Date 2023 1 15) 4 [15]],
                Modifications := [overrideFrom (.int 1) 1 "2023-01-20"] } =
      some (.ok [⟨eachEntry PeriodMonth (Date 2023 1 15) 4 [15], 1, Date 2023 1 20,
                  Date 2023 1 20⟩,
                 ⟨eachEntry PeriodMonth (Date 2023 1 15) 4 [15], 2, Date 2023 2 20,
                  Date 2023 2 20⟩,
                 ⟨eachEntry PeriodMonth (Date 2023 1 15) 4 [15], 3, Date 2023 3 20,
                  Date 2023 3 20⟩,
                 ⟨eachEntry PeriodMonth (Date 2023 1 15) 4 [15], 4, Date 2023 4 20,
                  Date 2023 4 20⟩]) := by
  refine ⟨?_, by rfl, by rfl, by rfl, by rfl, by rfl⟩
  intro entry n m pre post D last hm hnd hD hrest hquiet
  exact (applyModifications_cascade entry n m pre post D hm hnd hD hrest hquiet last).2.1

end Recurrentry
